import Mathlib

/-! CFG construction (`lib/CFG/CFG.cpp`).

A shallow embedding of the `CFGBuilder` visitor that lowers a statement tree into a
control-flow graph of basic blocks, followed by theorems about the graphs it builds.

Conventions of the embedding.

* Pointers to basic blocks are indices into the block list of the graph, in creation
  order; a null pointer is `none`.
* A pointer to an instruction (`CFGValue`) is the pair of its block and its position in
  that block; the null value is `none`.
* A failed `assert`, `cast<>` or `llvm_unreachable` is the error result of `Except Abort`.
* The three stacks of the builder are lists whose head is `back()`; a `BlocksVector` is a
  list in `push_back` order.
-/

namespace SwiftCFG

deriving instance DecidableEq for Except

/-! ## The syntax tree consumed by the visitor -/

/-- Expression nodes.  The eight kinds the builder overrides, and `OtherExpr` for every
other kind, which the visitor dispatches to the default `visitExpr`. -/
inductive Expr where
  | CallExpr (Fn Arg : Expr)
  | DeclRefExpr (decl : Nat)
  | IntegerLiteralExpr (value : Int)
  | LoadExpr (SubExpr : Expr)
  | ParenExpr (SubExpr : Expr)
  | ThisApplyExpr (Fn Arg : Expr)
  | TupleExpr (Elements : List Expr)
  | TypeOfExpr (ty : Nat)
  | OtherExpr (kind : Nat)
  deriving Repr

mutual
/-- Statement nodes.  The operands of `AssignStmt`, `ForStmt` and `ForEachStmt` are never
read by the builder and are not represented. -/
inductive Stmt where
  | BraceStmt (Elements : List ExprStmtOrDecl)
  | SemiStmt
  | AssignStmt
  | ReturnStmt (Result : Option Expr)
  | IfStmt (Cond : Expr) (Then : Stmt) (Else : Option Stmt)
  | WhileStmt (Cond : Expr) (Body : Stmt)
  | DoWhileStmt (Body : Stmt) (Cond : Expr)
  | ForStmt
  | ForEachStmt
  | BreakStmt
  | ContinueStmt
/-- An element of a brace statement: `BraceStmt::ExprStmtOrDecl`. -/
inductive ExprStmtOrDecl where
  | stmt (S : Stmt)
  | expr (E : Expr)
  | decl
end

/-- The function `ignoreParens`. -/
def ignoreParens : Expr → Expr
  | .ParenExpr P => ignoreParens P
  | Ex => Ex

/-! ## The graph -/

/-- A value handle: the instruction that produces the value, as block and position. -/
abbrev CFGValue := Option (Nat × Nat)

/-- Instructions.  The last three are the terminators (`TermInst`). -/
inductive Instruction where
  | CallInst (Fn : CFGValue) (Args : List CFGValue)
  | DeclRefInst (decl : Nat)
  | ThisApplyInst (Fn Arg : CFGValue)
  | IntegerLiteralInst (value : Int)
  | LoadInst (Sub : CFGValue)
  | TupleInst (Elements : List CFGValue)
  | TypeOfInst (ty : Nat)
  | UncondBranchInst (TargetBlock : Option Nat)
  | CondBranchInst (Cond : CFGValue) (Branch0 Branch1 : Option Nat)
  | ReturnInst (Value : CFGValue)
  deriving DecidableEq, Repr

/-- The test `isa<TermInst>`. -/
def Instruction.isTermInst : Instruction → Bool
  | .UncondBranchInst _ => true
  | .CondBranchInst _ _ _ => true
  | .ReturnInst _ => true
  | _ => false

/-- The test `isa<ReturnInst>`. -/
def Instruction.isReturnInst : Instruction → Bool
  | .ReturnInst _ => true
  | _ => false

/-- A basic block: its instructions in order and its predecessors in registration order. -/
structure BasicBlock where
  insts : List Instruction
  preds : List Nat
  deriving DecidableEq, Repr, Inhabited

/-- The graph: its blocks in creation order. -/
structure CFG where
  BlockList : List BasicBlock
  deriving DecidableEq, Repr

/-- The block behind a block pointer. -/
def CFG.block (C : CFG) (BB : Nat) : BasicBlock := C.BlockList.getD BB ⟨[], []⟩

/-- Modelled from the spec: the constructor `BasicBlock(&C)`, declared in the header of
the graph; it allocates an empty block at the end of the block list of the graph. -/
def CFG.newBlock (C : CFG) : Nat × CFG :=
  (C.BlockList.length, ⟨C.BlockList ++ [⟨[], []⟩]⟩)

/-- Modelled from the spec: every instruction constructor that is given a parent block
appends the new instruction to that block. -/
def CFG.insert (C : CFG) (BB : Nat) (I : Instruction) : CFG :=
  ⟨C.BlockList.modify (fun B => { B with insts := B.insts ++ [I] }) BB⟩

/-- Modelled from the spec: `BasicBlock::addPred`, which registers a predecessor. -/
def CFG.addPred (C : CFG) (BB Pred : Nat) : CFG :=
  ⟨C.BlockList.modify (fun B => { B with preds := B.preds ++ [Pred] }) BB⟩

/-- Replace the last instruction of a list. -/
def modifyLast (f : Instruction → Instruction) (l : List Instruction) : List Instruction :=
  match l.getLast? with
  | none => l
  | some I => l.dropLast ++ [f I]

/-- Apply a change to the terminator of a block, that is, to its last instruction. -/
def CFG.modifyTerminator (C : CFG) (BB : Nat) (f : Instruction → Instruction) : CFG :=
  ⟨C.BlockList.modify (fun B => { B with insts := modifyLast f B.insts }) BB⟩

/-- Modelled from the spec: `UncondBranchInst::setTarget` on the branch that terminates
`BB`; it sets the edge target and registers `BB` as a predecessor of the target. -/
def CFG.setTarget (C : CFG) (BB Target : Nat) : CFG :=
  (C.modifyTerminator BB (fun I =>
    match I with
    | .UncondBranchInst _ => .UncondBranchInst (some Target)
    | I => I)).addPred Target BB

/-- The store `CBI.branches()[1] = TargetBlock` on the conditional branch that
terminates `BB`. -/
def CFG.setBranch1 (C : CFG) (BB Target : Nat) : CFG :=
  C.modifyTerminator BB (fun I =>
    match I with
    | .CondBranchInst c b0 _ => .CondBranchInst c b0 (some Target)
    | I => I)

/-- Register `BB` as a predecessor of an edge target, when the target is not null. -/
def CFG.addPredOpt (C : CFG) (Target : Option Nat) (BB : Nat) : CFG :=
  match Target with
  | none => C
  | some T => C.addPred T BB

/-- Modelled from the spec: the constructor `CondBranchInst(S, CondV, T1, T2, BB)`; it
appends the branch to `BB` and registers `BB` as a predecessor of each target that is
not null. -/
def CFG.newCondBranchInst (C : CFG) (CondV : CFGValue) (Target1 Target2 : Option Nat)
    (BB : Nat) : CFG :=
  ((C.insert BB (.CondBranchInst CondV Target1 Target2)).addPredOpt Target1 BB).addPredOpt
    Target2 BB

/-- The function `hasTerminator`. -/
def hasTerminator (BB : BasicBlock) : Bool :=
  match BB.insts.getLast? with
  | none => false
  | some I => I.isTermInst

/-! ## The builder -/

/-- The ways a run can end fatally. -/
inductive Abort where
  /-- The statement `assert(false && "Not yet implemented")`. -/
  | notYetImplemented
  /-- The call `llvm_unreachable("Not yet implemented")` of the default `visitExpr`. -/
  | unreachable
  /-- Any other failed `assert`. -/
  | assertion
  /-- A failed `cast<>`. -/
  | badCast
  deriving DecidableEq, Repr

abbrev BlocksVector := List Nat

/-- The state of `CFGBuilder`.  `PendingMergesStack` holds the vectors themselves, the
last one being `BasePendingMerges`; `ExprToInst` is kept as the list of its writes. -/
structure Builder where
  PendingMergesStack : List BlocksVector
  BreakStack : List BlocksVector
  ContinueStack : List BlocksVector
  ExprToInst : List (Expr × (Nat × Nat))
  Block : Option Nat
  C : CFG
  badCFG : Bool

/-- The constructor `CFGBuilder(CFG &C)` on a new graph. -/
def Builder.init : Builder :=
  { PendingMergesStack := [[]], BreakStack := [], ContinueStack := [], ExprToInst := [],
    Block := none, C := ⟨[]⟩, badCFG := false }

/-- The method `pendingMerges`. -/
def pendingMerges (b : Builder) : Except Abort BlocksVector :=
  match b.PendingMergesStack with
  | [] => .error .assertion
  | top :: _ => .ok top

/-- The call `pendingMerges().push_back(BB)`. -/
def pendingMergesPush (BB : Nat) (b : Builder) : Except Abort Builder :=
  match b.PendingMergesStack with
  | [] => .error .assertion
  | top :: rest => .ok { b with PendingMergesStack := (top ++ [BB]) :: rest }

/-- The body of the loop of `flushPending` for one block of the pending list. -/
def flushOne (TargetBlock PredBlock : Nat) (C : CFG) : Except Abort CFG :=
  if !hasTerminator (C.block PredBlock) then
    .ok ((C.insert PredBlock (.UncondBranchInst none)).setTarget PredBlock TargetBlock)
  else
    match (C.block PredBlock).insts.getLast? with
    | some (.UncondBranchInst tgt) =>
      if tgt.isSome then .error .assertion
      else .ok (C.setTarget PredBlock TargetBlock)
    | some (.CondBranchInst _ b0 b1) =>
      if b0.isNone then .error .assertion
      else if b1.isSome then .error .assertion
      else .ok ((C.setBranch1 PredBlock TargetBlock).addPred TargetBlock PredBlock)
    | _ => .error .badCast

/-- The loop of `flushPending`. -/
def flushLoop (TargetBlock : Nat) : List Nat → CFG → Except Abort CFG
  | [], C => .ok C
  | PredBlock :: rest, C => do
    let C ← flushOne TargetBlock PredBlock C
    flushLoop TargetBlock rest C

/-- The method `flushPending`. -/
def flushPending (TargetBlock : Nat) (b : Builder) : Except Abort Builder :=
  match b.PendingMergesStack with
  | [] => .error .assertion
  | top :: rest => do
    let C ← flushLoop TargetBlock top b.C
    .ok { b with C := C, PendingMergesStack := [] :: rest }

/-- The method `currentBlock`. -/
def currentBlock (b : Builder) : Except Abort (Nat × Builder) :=
  match b.Block with
  | some BB => .ok (BB, b)
  | none => do
    let (BB, C) := b.C.newBlock
    let b ← flushPending BB { b with Block := some BB, C := C }
    .ok (BB, b)

/-- The method `addCurrentBlockToPending`. -/
def addCurrentBlockToPending (b : Builder) : Except Abort Builder :=
  match b.Block with
  | none => .ok { b with Block := none }
  | some BB =>
    if !hasTerminator (b.C.block BB) then do
      let b ← pendingMergesPush BB b
      .ok { b with Block := none }
    else .ok { b with Block := none }

/-- The method `createFreshBlock`. -/
def createFreshBlock (b : Builder) : Nat × Builder :=
  let (BB, C) := b.C.newBlock
  (BB, { b with Block := some BB, C := C })

/-- A value instruction is constructed in block `BB` and handed to `addInst`, which
records it for its expression and returns it. -/
def addInst (Ex : Expr) (I : Instruction) (BB : Nat) (b : Builder) : CFGValue × Builder :=
  let ref := (BB, (b.C.block BB).insts.length)
  (some ref, { b with C := b.C.insert BB I, ExprToInst := b.ExprToInst ++ [(Ex, ref)] })

/-- The method `finishUp`. -/
def finishUp (b : Builder) : Except Abort Builder :=
  if b.PendingMergesStack.length ≠ 1 then .error .assertion
  else do
    let pm ← pendingMerges b
    if !pm.isEmpty then
      if b.Block.isSome then .error .assertion
      else do
        let (BB, b) ← currentBlock b
        .ok { b with C := b.C.insert BB (.ReturnInst none) }
    else
      match b.Block with
      | none => .ok b
      | some BB =>
        match (b.C.block BB).insts.getLast? with
        | none => .ok { b with C := b.C.insert BB (.ReturnInst none) }
        | some I =>
          if !I.isReturnInst then .ok { b with C := b.C.insert BB (.ReturnInst none) }
          else .ok b

/-- The method `popBreakStack`; `depth` is the depth of `BreakStack` when the caller
pushed `BlocksThatBreak`, which identifies that vector. -/
def popBreakStack (depth : Nat) (b : Builder) : Except Abort Builder :=
  match b.BreakStack with
  | [] => .error .assertion
  | BlocksThatBreak :: rest =>
    if b.BreakStack.length ≠ depth then .error .assertion
    else
      match b.PendingMergesStack with
      | [] => if BlocksThatBreak.isEmpty then .ok { b with BreakStack := rest }
              else .error .assertion
      | top :: prest =>
        .ok { b with PendingMergesStack := (top ++ BlocksThatBreak) :: prest,
                     BreakStack := rest }

/-- The body of the loop of `popContinueStack` for one block. -/
def rebindContinue (TargetBlock ContinueBlock : Nat) (C : CFG) : Except Abort CFG :=
  match (C.block ContinueBlock).insts.getLast? with
  | some (.UncondBranchInst _) => .ok (C.setTarget ContinueBlock TargetBlock)
  | _ => .error .badCast

/-- The loop of `popContinueStack`. -/
def rebindLoop (TargetBlock : Nat) : List Nat → CFG → Except Abort CFG
  | [], C => .ok C
  | ContinueBlock :: rest, C => do
    let C ← rebindContinue TargetBlock ContinueBlock C
    rebindLoop TargetBlock rest C

/-- The method `popContinueStack`; `depth` identifies `BlocksThatContinue` as in
`popBreakStack`. -/
def popContinueStack (depth : Nat) (TargetBlock : Nat) (b : Builder) : Except Abort Builder :=
  match b.ContinueStack with
  | [] => .error .assertion
  | BlocksThatContinue :: rest =>
    if b.ContinueStack.length ≠ depth then .error .assertion
    else do
      let C ← rebindLoop TargetBlock BlocksThatContinue b.C
      .ok { b with C := C, ContinueStack := rest }

/-! ## Expressions -/

/-- The tail shared by the value-instruction visitors: `addInst(E, new I(.., currentBlock()))`. -/
def emit (Ex : Expr) (I : Instruction) (b : Builder) : Except Abort (CFGValue × Builder) := do
  let (BB, b) ← currentBlock b
  .ok (addInst Ex I BB b)

mutual
/-- The dispatch `visit(E)` on an expression, with the eight `visit*Expr` methods inlined;
every other kind reaches the default `visitExpr`. -/
def visitExpr : Expr → Builder → Except Abort (CFGValue × Builder)
  | .CallExpr Fn Arg, b => do
    let (FnV, b) ← visitExpr Fn b
    let (ArgsV, b) ← visitCallArg Arg b
    emit (.CallExpr Fn Arg) (.CallInst FnV ArgsV) b
  | .DeclRefExpr d, b => emit (.DeclRefExpr d) (.DeclRefInst d) b
  | .ThisApplyExpr Fn Arg, b => do
    let (FnV, b) ← visitExpr Fn b
    let (ArgV, b) ← visitExpr Arg b
    emit (.ThisApplyExpr Fn Arg) (.ThisApplyInst FnV ArgV) b
  | .IntegerLiteralExpr v, b => emit (.IntegerLiteralExpr v) (.IntegerLiteralInst v) b
  | .LoadExpr Sub, b => do
    let (SubV, b) ← visitExpr Sub b
    emit (.LoadExpr Sub) (.LoadInst SubV) b
  | .ParenExpr Sub, b => visitExpr Sub b
  | .TupleExpr Elements, b => do
    let (ArgsV, b) ← visitExprs Elements b
    emit (.TupleExpr Elements) (.TupleInst ArgsV) b
  | .TypeOfExpr t, b => emit (.TypeOfExpr t) (.TypeOfInst t) b
  | .OtherExpr _, _ => .error .unreachable
/-- The loops `for (arg : getElements()) ArgsV.push_back(visit(arg))`. -/
def visitExprs : List Expr → Builder → Except Abort (List CFGValue × Builder)
  | [], b => .ok ([], b)
  | E :: rest, b => do
    let (V, b) ← visitExpr E b
    let (Vs, b) ← visitExprs rest b
    .ok (V :: Vs, b)
/-- The argument of a call in `visitCallExpr`: `Arg = ignoreParens(E->getArg())`, then the
elements of `Arg` when it is a tuple and `visit(Arg)` otherwise.  Stripping the
parentheses is folded into the recursion; `visitCallArg_eq` relates it to `callArgs`, which
calls `ignoreParens`. -/
def visitCallArg : Expr → Builder → Except Abort (List CFGValue × Builder)
  | .ParenExpr P, b => visitCallArg P b
  | .TupleExpr Elements, b => visitExprs Elements b
  | .CallExpr Fn Arg, b => do
    let (FnV, b) ← visitExpr Fn b
    let (ArgsV, b) ← visitCallArg Arg b
    let (V, b) ← emit (.CallExpr Fn Arg) (.CallInst FnV ArgsV) b
    .ok ([V], b)
  | .DeclRefExpr d, b => do
    let (V, b) ← emit (.DeclRefExpr d) (.DeclRefInst d) b
    .ok ([V], b)
  | .ThisApplyExpr Fn Arg, b => do
    let (FnV, b) ← visitExpr Fn b
    let (ArgV, b) ← visitExpr Arg b
    let (V, b) ← emit (.ThisApplyExpr Fn Arg) (.ThisApplyInst FnV ArgV) b
    .ok ([V], b)
  | .IntegerLiteralExpr v, b => do
    let (V, b) ← emit (.IntegerLiteralExpr v) (.IntegerLiteralInst v) b
    .ok ([V], b)
  | .LoadExpr Sub, b => do
    let (SubV, b) ← visitExpr Sub b
    let (V, b) ← emit (.LoadExpr Sub) (.LoadInst SubV) b
    .ok ([V], b)
  | .TypeOfExpr t, b => do
    let (V, b) ← emit (.TypeOfExpr t) (.TypeOfInst t) b
    .ok ([V], b)
  | .OtherExpr _, _ => .error .unreachable
end

/-! ## Statements -/

/-- The method `visitReturnStmt`, after its result expression has been lowered. -/
def lowerReturn (ArgV : CFGValue) (b : Builder) : Except Abort Builder := do
  let (BB, b) ← currentBlock b
  .ok { b with C := b.C.insert BB (.ReturnInst ArgV), Block := none }

/-- The method `visitBreakStmt`. -/
def visitBreakStmt (b : Builder) : Except Abort Builder :=
  match b.BreakStack with
  | [] => .error .assertion
  | _ :: _ => do
    let (BreakBlock, b) ← currentBlock b
    match b.BreakStack with
    | [] => .error .assertion
    | top :: rest =>
      .ok { b with BreakStack := (top ++ [BreakBlock]) :: rest,
                   C := b.C.insert BreakBlock (.UncondBranchInst none), Block := none }

/-- The method `visitContinueStmt`. -/
def visitContinueStmt (b : Builder) : Except Abort Builder :=
  match b.ContinueStack with
  | [] => .error .assertion
  | _ :: _ => do
    let (ContinueBlock, b) ← currentBlock b
    match b.ContinueStack with
    | [] => .error .assertion
    | top :: rest =>
      .ok { b with ContinueStack := (top ++ [ContinueBlock]) :: rest,
                   C := b.C.insert ContinueBlock (.UncondBranchInst none), Block := none }

/-- The end of `visitWhileStmt` and of `visitDoWhileStmt`, from the comment
`Pop the pending merges` on: the three scopes are popped, the conditional branch is
appended to the condition block and that block is queued. -/
def closeLoop (pendingDepth breakDepth continueDepth : Nat) (BodyBlock ConditionBlock : Nat)
    (b : Builder) : Except Abort Builder :=
  if b.PendingMergesStack.length ≠ pendingDepth then .error .assertion
  else do
    let b ← flushPending ConditionBlock b
    let b := { b with PendingMergesStack := b.PendingMergesStack.tail }
    let b ← popBreakStack breakDepth b
    let b ← popContinueStack continueDepth ConditionBlock b
    let b := { b with C := b.C.newCondBranchInst none (some BodyBlock) none ConditionBlock }
    pendingMergesPush ConditionBlock b

mutual
/-- The dispatch `visit(S)` on a statement, with the `visit*Stmt` methods inlined. -/
def visitStmt : Stmt → Builder → Except Abort Builder
  | .BraceStmt Elements, b => visitElements Elements b
  | .SemiStmt, b => .ok b
  | .AssignStmt, _ => .error .notYetImplemented
  | .ReturnStmt none, b => lowerReturn none b
  | .ReturnStmt (some Result), b => do
    let (ArgV, b) ← visitExpr Result b
    lowerReturn ArgV b
  | .IfStmt _ Then Else, b => do
    let (IfTermBlock, b) ← currentBlock b
    let b := { b with Block := none }
    let (Target1, b) := createFreshBlock b
    let b ← visitStmt Then b
    let b ← addCurrentBlockToPending b
    match Else with
    | some Else => do
      let (Target2, b) := createFreshBlock b
      let b ← visitStmt Else b
      let b ← addCurrentBlockToPending b
      .ok { b with C := b.C.newCondBranchInst none (some Target1) (some Target2) IfTermBlock }
    | none => do
      let b ← pendingMergesPush IfTermBlock b
      .ok { b with C := b.C.newCondBranchInst none (some Target1) none IfTermBlock }
  | .WhileStmt _ Body, b => do
    let b ← addCurrentBlockToPending b
    let (ConditionBlock, b) ← currentBlock b
    let b := { b with Block := none }
    let b := { b with BreakStack := [] :: b.BreakStack }
    let breakDepth := b.BreakStack.length
    let b := { b with ContinueStack := [] :: b.ContinueStack }
    let continueDepth := b.ContinueStack.length
    let b := { b with PendingMergesStack := [] :: b.PendingMergesStack }
    let pendingDepth := b.PendingMergesStack.length
    let (BodyBlock, b) := createFreshBlock b
    let b ← visitStmt Body b
    let b ← addCurrentBlockToPending b
    closeLoop pendingDepth breakDepth continueDepth BodyBlock ConditionBlock b
  | .DoWhileStmt Body _, b => do
    let b := { b with BreakStack := [] :: b.BreakStack }
    let breakDepth := b.BreakStack.length
    let b := { b with ContinueStack := [] :: b.ContinueStack }
    let continueDepth := b.ContinueStack.length
    let b ← addCurrentBlockToPending b
    let (BodyBlock, b) ← currentBlock b
    let b := { b with PendingMergesStack := [] :: b.PendingMergesStack }
    let pendingDepth := b.PendingMergesStack.length
    let b ← visitStmt Body b
    let b ← addCurrentBlockToPending b
    let (ConditionBlock, b) ← currentBlock b
    let b := { b with Block := none }
    closeLoop pendingDepth breakDepth continueDepth BodyBlock ConditionBlock b
  | .ForStmt, _ => .error .notYetImplemented
  | .ForEachStmt, b => .ok { b with badCFG := true }
  | .BreakStmt, b => visitBreakStmt b
  | .ContinueStmt, b => visitContinueStmt b
/-- The loop of `visitBraceStmt` over the elements of the brace statement. -/
def visitElements : List ExprStmtOrDecl → Builder → Except Abort Builder
  | [], b => .ok b
  | .decl :: _, _ => .error .assertion
  | .stmt S :: rest, b => do
    let b ← visitStmt S b
    visitElements rest b
  | .expr E :: rest, b => do
    let (_, b) ← visitExpr E b
    visitElements rest b
end

/-- The function `CFG::constructCFG`: the graph, or `none` for the null result.  The call
`C->verify()` is the external verifier; it does not change the graph and is not part of
the embedding. -/
def constructCFG (S : Stmt) : Except Abort (Option CFG) := do
  let builder ← visitStmt S Builder.init
  if !builder.badCFG then
    let builder ← finishUp builder
    .ok (some builder.C)
  else
    .ok none


/-! ## Reading the graph -/

/-- The number of blocks created so far. -/
def CFG.size (C : CFG) : Nat := C.BlockList.length

/-- The instruction list of a block. -/
def CFG.insts (C : CFG) (BB : Nat) : List Instruction := (C.block BB).insts

/-- The predecessors registered on a block. -/
def CFG.preds (C : CFG) (BB : Nat) : List Nat := (C.block BB).preds

/-! ## The instrumented visitor

The same walk as `visitStmt`, which in addition reports, for every loop statement it
lowers, the values of the local variables of `visitWhileStmt` / `visitDoWhileStmt` when the
scopes of the loop are popped.  `visitStmtLog_fst` states that the builder it returns is the
one `visitStmt` returns. -/

/-- The locals of one loop visit when its scopes are popped. -/
structure LoopRecord where
  ConditionBlock : Nat
  BodyBlock : Nat
  BlocksThatBreak : List Nat
  BlocksThatContinue : List Nat
  deriving DecidableEq, Repr

/-- The record of a loop, read off the builder just before `closeLoop`. -/
def loopRecord (BodyBlock ConditionBlock : Nat) (b : Builder) : LoopRecord :=
  { ConditionBlock := ConditionBlock, BodyBlock := BodyBlock,
    BlocksThatBreak := b.BreakStack.headD [], BlocksThatContinue := b.ContinueStack.headD [] }

mutual
/-- The walk `visitStmt`, also returning the records of the loops lowered, in the order
in which the loops are closed. -/
def visitStmtLog : Stmt → Builder → Except Abort (Builder × List LoopRecord)
  | .BraceStmt Elements, b => visitElementsLog Elements b
  | .SemiStmt, b => .ok (b, [])
  | .AssignStmt, _ => .error .notYetImplemented
  | .ReturnStmt none, b => do
    let b ← lowerReturn none b
    .ok (b, [])
  | .ReturnStmt (some Result), b => do
    let (ArgV, b) ← visitExpr Result b
    let b ← lowerReturn ArgV b
    .ok (b, [])
  | .IfStmt _ Then Else, b => do
    let (IfTermBlock, b) ← currentBlock b
    let b := { b with Block := none }
    let (Target1, b) := createFreshBlock b
    let (b, log1) ← visitStmtLog Then b
    let b ← addCurrentBlockToPending b
    match Else with
    | some Else => do
      let (Target2, b) := createFreshBlock b
      let (b, log2) ← visitStmtLog Else b
      let b ← addCurrentBlockToPending b
      .ok ({ b with C := b.C.newCondBranchInst none (some Target1) (some Target2) IfTermBlock },
           log1 ++ log2)
    | none => do
      let b ← pendingMergesPush IfTermBlock b
      .ok ({ b with C := b.C.newCondBranchInst none (some Target1) none IfTermBlock }, log1)
  | .WhileStmt _ Body, b => do
    let b ← addCurrentBlockToPending b
    let (ConditionBlock, b) ← currentBlock b
    let b := { b with Block := none }
    let b := { b with BreakStack := [] :: b.BreakStack }
    let breakDepth := b.BreakStack.length
    let b := { b with ContinueStack := [] :: b.ContinueStack }
    let continueDepth := b.ContinueStack.length
    let b := { b with PendingMergesStack := [] :: b.PendingMergesStack }
    let pendingDepth := b.PendingMergesStack.length
    let (BodyBlock, b) := createFreshBlock b
    let (b, log) ← visitStmtLog Body b
    let b ← addCurrentBlockToPending b
    let record := loopRecord BodyBlock ConditionBlock b
    let b ← closeLoop pendingDepth breakDepth continueDepth BodyBlock ConditionBlock b
    .ok (b, log ++ [record])
  | .DoWhileStmt Body _, b => do
    let b := { b with BreakStack := [] :: b.BreakStack }
    let breakDepth := b.BreakStack.length
    let b := { b with ContinueStack := [] :: b.ContinueStack }
    let continueDepth := b.ContinueStack.length
    let b ← addCurrentBlockToPending b
    let (BodyBlock, b) ← currentBlock b
    let b := { b with PendingMergesStack := [] :: b.PendingMergesStack }
    let pendingDepth := b.PendingMergesStack.length
    let (b, log) ← visitStmtLog Body b
    let b ← addCurrentBlockToPending b
    let (ConditionBlock, b) ← currentBlock b
    let b := { b with Block := none }
    let record := loopRecord BodyBlock ConditionBlock b
    let b ← closeLoop pendingDepth breakDepth continueDepth BodyBlock ConditionBlock b
    .ok (b, log ++ [record])
  | .ForStmt, _ => .error .notYetImplemented
  | .ForEachStmt, b => .ok ({ b with badCFG := true }, [])
  | .BreakStmt, b => do
    let b ← visitBreakStmt b
    .ok (b, [])
  | .ContinueStmt, b => do
    let b ← visitContinueStmt b
    .ok (b, [])
/-- The loop of `visitBraceStmt`, with the records of the loops lowered. -/
def visitElementsLog : List ExprStmtOrDecl → Builder → Except Abort (Builder × List LoopRecord)
  | [], b => .ok (b, [])
  | .decl :: _, _ => .error .assertion
  | .stmt S :: rest, b => do
    let (b, log1) ← visitStmtLog S b
    let (b, log2) ← visitElementsLog rest b
    .ok (b, log1 ++ log2)
  | .expr E :: rest, b => do
    let (_, b) ← visitExpr E b
    visitElementsLog rest b
end

/-- The records of the loops of a tree lowered from the initial builder, or `[]` when the
walk does not return. -/
def loopRecords (S : Stmt) : List LoopRecord :=
  match visitStmtLog S Builder.init with
  | .ok (_, log) => log
  | .error _ => []

/-! ## Classes of trees -/

mutual
/-- An expression all of whose nodes are of the eight kinds the builder lowers. -/
def Expr.supported : Expr → Bool
  | .CallExpr Fn Arg => Fn.supported && Arg.supported
  | .DeclRefExpr _ => true
  | .IntegerLiteralExpr _ => true
  | .LoadExpr Sub => Sub.supported
  | .ParenExpr Sub => Sub.supported
  | .ThisApplyExpr Fn Arg => Fn.supported && Arg.supported
  | .TupleExpr Elements => Expr.supportedAll Elements
  | .TypeOfExpr _ => true
  | .OtherExpr _ => false
/-- All expressions of a list are supported. -/
def Expr.supportedAll : List Expr → Bool
  | [] => true
  | E :: rest => E.supported && Expr.supportedAll rest
end

mutual
/-- A tree built from brace, empty, return, if, while, do-while, break and continue
statements and supported expressions, and from for-each statements when `forEach` is set,
in which every break and continue is nested in a loop unless `inLoop` is set. -/
def Stmt.supported (forEach : Bool) : Bool → Stmt → Bool
  | inLoop, .BraceStmt Elements => Stmt.supportedAll forEach inLoop Elements
  | _, .SemiStmt => true
  | _, .AssignStmt => false
  | _, .ReturnStmt none => true
  | _, .ReturnStmt (some Result) => Result.supported
  | inLoop, .IfStmt _ Then none => Stmt.supported forEach inLoop Then
  | inLoop, .IfStmt _ Then (some Else) =>
    Stmt.supported forEach inLoop Then && Stmt.supported forEach inLoop Else
  | _, .WhileStmt _ Body => Stmt.supported forEach true Body
  | _, .DoWhileStmt Body _ => Stmt.supported forEach true Body
  | _, .ForStmt => false
  | _, .ForEachStmt => forEach
  | inLoop, .BreakStmt => inLoop
  | inLoop, .ContinueStmt => inLoop
/-- All elements of a brace statement are supported. -/
def Stmt.supportedAll (forEach : Bool) : Bool → List ExprStmtOrDecl → Bool
  | _, [] => true
  | _, .decl :: _ => false
  | inLoop, .stmt S :: rest =>
    Stmt.supported forEach inLoop S && Stmt.supportedAll forEach inLoop rest
  | inLoop, .expr E :: rest => E.supported && Stmt.supportedAll forEach inLoop rest
end

mutual
/-- The tree contains a for-each statement. -/
def Stmt.hasForEach : Stmt → Bool
  | .BraceStmt Elements => Stmt.hasForEachAny Elements
  | .IfStmt _ Then none => Then.hasForEach
  | .IfStmt _ Then (some Else) => Then.hasForEach || Else.hasForEach
  | .WhileStmt _ Body => Body.hasForEach
  | .DoWhileStmt Body _ => Body.hasForEach
  | .ForEachStmt => true
  | _ => false
/-- Some element of a brace statement contains a for-each statement. -/
def Stmt.hasForEachAny : List ExprStmtOrDecl → Bool
  | [] => false
  | .stmt S :: rest => S.hasForEach || Stmt.hasForEachAny rest
  | _ :: rest => Stmt.hasForEachAny rest
end

mutual
/-- The tree contains a counted for statement or an assignment statement. -/
def Stmt.hasForOrAssign : Stmt → Bool
  | .BraceStmt Elements => Stmt.hasForOrAssignAny Elements
  | .IfStmt _ Then none => Then.hasForOrAssign
  | .IfStmt _ Then (some Else) => Then.hasForOrAssign || Else.hasForOrAssign
  | .WhileStmt _ Body => Body.hasForOrAssign
  | .DoWhileStmt Body _ => Body.hasForOrAssign
  | .ForStmt => true
  | .AssignStmt => true
  | _ => false
/-- Some element of a brace statement contains a counted for or an assignment statement. -/
def Stmt.hasForOrAssignAny : List ExprStmtOrDecl → Bool
  | [] => false
  | .stmt S :: rest => S.hasForOrAssign || Stmt.hasForOrAssignAny rest
  | _ :: rest => Stmt.hasForOrAssignAny rest
end

/-! ## States of a block and the invariant of the builder -/

/-- The edge targets that are set on an instruction. -/
def Instruction.targets : Instruction → List Nat
  | .UncondBranchInst t => t.toList
  | .CondBranchInst _ t1 t2 => t1.toList ++ t2.toList
  | _ => []

/-- A terminator all of whose edge-target slots are set. -/
def Instruction.resolved : Instruction → Bool
  | .UncondBranchInst t => t.isSome
  | .CondBranchInst _ t1 t2 => t1.isSome && t2.isSome
  | .ReturnInst _ => true
  | _ => false

/-- The edge targets set anywhere in an instruction list. -/
def succs (l : List Instruction) : List Nat := l.flatMap Instruction.targets

/-- No terminator in the list: the block is open. -/
def IsOpen (l : List Instruction) : Prop := ∀ I ∈ l, I.isTermInst = false

/-- The block is closed by an unconditional branch whose target is unset. -/
def UbNull (l : List Instruction) : Prop :=
  ∃ pre, IsOpen pre ∧ l = pre ++ [.UncondBranchInst none]

/-- The block is closed by a conditional branch whose second target is unset. -/
def CbHalf (l : List Instruction) : Prop :=
  ∃ pre c t1, IsOpen pre ∧ l = pre ++ [.CondBranchInst c (some t1) none]

/-- The block is closed by one terminator, in last position, with every target set. -/
def Closed (l : List Instruction) : Prop :=
  ∃ pre t, IsOpen pre ∧ t.resolved = true ∧ l = pre ++ [t]

/-- The three states `flushPending` accepts. -/
def Flushable (l : List Instruction) : Prop := IsOpen l ∨ UbNull l ∨ CbHalf l

/-- What `flushPending` makes of the instruction list of a block it is given. -/
def closeWith (t : Nat) (l : List Instruction) : List Instruction :=
  match l.getLast? with
  | some (.UncondBranchInst none) => l.dropLast ++ [.UncondBranchInst (some t)]
  | some (.CondBranchInst c (some t1) none) =>
    l.dropLast ++ [.CondBranchInst c (some t1) (some t)]
  | _ => l ++ [.UncondBranchInst (some t)]

/-- Append a list of instructions to a block. -/
def CFG.insertAll (C : CFG) (BB : Nat) (Is : List Instruction) : CFG :=
  ⟨C.BlockList.modify (fun B => { B with insts := B.insts ++ Is }) BB⟩

/-- The builder `b2` is `b1` with value instructions appended to its active block `BB`. -/
def Appended (BB : Nat) (b1 b2 : Builder) : Prop :=
  b1.Block = some BB ∧ b2.Block = some BB ∧
  b2.PendingMergesStack = b1.PendingMergesStack ∧ b2.BreakStack = b1.BreakStack ∧
  b2.ContinueStack = b1.ContinueStack ∧ b2.badCFG = b1.badCFG ∧
  ∃ Is, IsOpen Is ∧ b2.C = b1.C.insertAll BB Is

/-- How many times the builder still refers to block `i`: among the blocks `H` held in
local variables of the visits in progress, as the active block, and on the stacks. -/
def ownerCount (H : List Nat) (b : Builder) (i : Nat) : Nat :=
  H.count i + b.Block.toList.count i + b.PendingMergesStack.flatten.count i +
    b.BreakStack.flatten.count i + b.ContinueStack.flatten.count i

/-- The state of the blocks of a closed loop: its continue blocks branch to its condition
block; its condition block and its break blocks either wait in one pending list, or have
been flushed to one block `t`. -/
def LoopRecord.Settled (r : LoopRecord) (C : CFG) (P : List BlocksVector) : Prop :=
  (∀ x ∈ r.BlocksThatContinue,
      ∃ pre, C.insts x = pre ++ [.UncondBranchInst (some r.ConditionBlock)]) ∧
  ((∃ pre c, C.insts r.ConditionBlock = pre ++ [.CondBranchInst c (some r.BodyBlock) none] ∧
      ∃ L ∈ P, r.ConditionBlock ∈ L ∧
        ∀ x ∈ r.BlocksThatBreak, x ∈ L ∧ ∃ pre', C.insts x = pre' ++ [.UncondBranchInst none]) ∨
   (∃ pre c t,
      C.insts r.ConditionBlock = pre ++ [.CondBranchInst c (some r.BodyBlock) (some t)] ∧
      r.ConditionBlock ≠ t ∧
      ∀ x ∈ r.BlocksThatBreak,
        x ≠ t ∧ ∃ pre', C.insts x = pre' ++ [.UncondBranchInst (some t)]))

/-- The invariant of the builder between two steps of the walk.  `H` lists the blocks held
in local variables of the visits in progress; `Lg` lists the loops closed so far. -/
structure Inv (H : List Nat) (Lg : List LoopRecord) (b : Builder) : Prop where
  pstack : b.PendingMergesStack ≠ []
  once : ∀ i, ownerCount H b i ≤ 1
  lt : ∀ i, b.C.size ≤ i → ownerCount H b i = 0
  held : ∀ i ∈ H, IsOpen (b.C.insts i)
  cur : ∀ i, b.Block = some i → IsOpen (b.C.insts i)
  pend : ∀ i ∈ b.PendingMergesStack.flatten, Flushable (b.C.insts i)
  brk : ∀ i ∈ b.BreakStack.flatten, UbNull (b.C.insts i)
  cont : ∀ i ∈ b.ContinueStack.flatten, UbNull (b.C.insts i)
  rest : ∀ i, i < b.C.size → ownerCount H b i = 0 → Closed (b.C.insts i)
  tgt : ∀ i j, j ∈ succs (b.C.insts i) → j < b.C.size
  dual : ∀ i j, j ∈ succs (b.C.insts i) ↔ i ∈ b.C.preds j
  loops : ∀ r ∈ Lg, r.Settled b.C b.PendingMergesStack

/-- No block is active, or the innermost pending list is empty. -/
def Quiet (b : Builder) : Prop := b.Block = none ∨ b.PendingMergesStack.head? = some []

/-- What every visit leaves as it found it. -/
structure Frame (b b' : Builder) : Prop where
  pdepth : b'.PendingMergesStack.length = b.PendingMergesStack.length
  bdepth : b'.BreakStack.length = b.BreakStack.length
  cdepth : b'.ContinueStack.length = b.ContinueStack.length
  size : b.C.size ≤ b'.C.size
  quiet : Quiet b → Quiet b'

/-- The active block of `b` is, or on demand will be, the block `BB` of the builder `b0`,
up to value instructions appended to it. -/
def After (BB : Nat) (b0 b : Builder) : Prop :=
  ∃ b1, currentBlock b = .ok (BB, b1) ∧ (b1 = b0 ∨ Appended BB b0 b1)

/-- What the walk guarantees for one statement, visited from any builder that satisfies the
invariant: it returns, the invariant holds again with the loops of the statement settled,
the stacks have their depth of entry, and the failure flag is set exactly when it was set
before or the statement contains a for-each statement. -/
def VisitOK (S : Stmt) (inLoop : Bool) : Prop :=
  ∀ (H : List Nat) (Lg : List LoopRecord) (b : Builder), Inv H Lg b →
    (inLoop = true → b.BreakStack ≠ [] ∧ b.ContinueStack ≠ []) →
    ∃ b' lg, visitStmtLog S b = .ok (b', lg) ∧ Inv H (Lg ++ lg) b' ∧ Frame b b' ∧
      b'.badCFG = (b.badCFG || S.hasForEach)

/-- The guarantee of `VisitOK` for the elements of a brace statement. -/
def VisitAllOK (Elements : List ExprStmtOrDecl) (inLoop : Bool) : Prop :=
  ∀ (H : List Nat) (Lg : List LoopRecord) (b : Builder), Inv H Lg b →
    (inLoop = true → b.BreakStack ≠ [] ∧ b.ContinueStack ≠ []) →
    ∃ b' lg, visitElementsLog Elements b = .ok (b', lg) ∧ Inv H (Lg ++ lg) b' ∧ Frame b b' ∧
      b'.badCFG = (b.badCFG || Stmt.hasForEachAny Elements)

/-- What the invariant says of a graph once the builder refers to none of its blocks:
every block is closed, every edge has its predecessor entry, and the blocks of every loop
have been flushed. -/
structure Finished (Lg : List LoopRecord) (C : CFG) : Prop where
  closed : ∀ i, i < C.size → Closed (C.insts i)
  tgt : ∀ i j, j ∈ succs (C.insts i) → j < C.size
  dual : ∀ i j, j ∈ succs (C.insts i) ↔ i ∈ C.preds j
  loops : ∀ r ∈ Lg,
    (∀ x ∈ r.BlocksThatContinue,
      ∃ pre, C.insts x = pre ++ [.UncondBranchInst (some r.ConditionBlock)]) ∧
    ∃ pre c t,
      C.insts r.ConditionBlock = pre ++ [.CondBranchInst c (some r.BodyBlock) (some t)] ∧
      r.ConditionBlock ≠ t ∧
      ∀ x ∈ r.BlocksThatBreak,
        x ≠ t ∧ ∃ pre', C.insts x = pre' ++ [.UncondBranchInst (some t)]

/-- The argument of a call as `visitCallExpr` reads: `Arg = ignoreParens(E->getArg())`,
then the elements of `Arg` when it is a tuple and `visit(Arg)` alone otherwise. -/
def callArgs (Arg : Expr) (b : Builder) : Except Abort (List CFGValue × Builder) :=
  match ignoreParens Arg with
  | .TupleExpr Elements => visitExprs Elements b
  | A => do
    let (V, b) ← visitExpr A b
    .ok ([V], b)

/-- The three stacks of `b2` have the depths they have in `b1`, and the failure flag is
set in `b2` if it is set in `b1`. -/
def SameDepth (b1 b2 : Builder) : Prop :=
  b2.PendingMergesStack.length = b1.PendingMergesStack.length ∧
  b2.BreakStack.length = b1.BreakStack.length ∧
  b2.ContinueStack.length = b1.ContinueStack.length ∧
  (b1.badCFG = true → b2.badCFG = true)

/-! ## The reference flattening of an expression -/

/-- The handle of the last instruction of a sequence emitted from position `n` of block
`BB` on. -/
def lastHandle (BB n : Nat) (Is : List Instruction) : CFGValue := some (BB, n + Is.length - 1)

mutual
/-- The reference flattening: the instructions an expression contributes to block `BB`
from position `n` on, in post-order.  A parenthesis contributes what its inner expression
contributes; a name reference, an integer literal and a type query contribute one
instruction; a load, an apply and a tuple contribute the sequences of their operands, left
to right, followed by one instruction; a call contributes the sequence of its callee, what
`flattenArg` gives for its argument, and one call instruction.  The handle of an expression
is the last instruction of its sequence. -/
def flatten (BB : Nat) : Expr → Nat → List Instruction
  | .ParenExpr Sub, n => flatten BB Sub n
  | .DeclRefExpr d, _ => [.DeclRefInst d]
  | .IntegerLiteralExpr v, _ => [.IntegerLiteralInst v]
  | .TypeOfExpr t, _ => [.TypeOfInst t]
  | .LoadExpr Sub, n =>
    let s := flatten BB Sub n
    s ++ [.LoadInst (lastHandle BB n s)]
  | .ThisApplyExpr Fn Arg, n =>
    let s1 := flatten BB Fn n
    let s2 := flatten BB Arg (n + s1.length)
    s1 ++ s2 ++ [.ThisApplyInst (lastHandle BB n s1) (lastHandle BB (n + s1.length) s2)]
  | .TupleExpr Elements, n =>
    let r := flattenAll BB Elements n
    r.1 ++ [.TupleInst r.2]
  | .CallExpr Fn Arg, n =>
    let s1 := flatten BB Fn n
    let r := flattenArg BB Arg (n + s1.length)
    s1 ++ r.1 ++ [.CallInst (lastHandle BB n s1) r.2]
  | .OtherExpr _, _ => []
termination_by e => (sizeOf e, 0)
/-- The sequences of a list of expressions, left to right, with their handles in order. -/
def flattenAll (BB : Nat) : List Expr → Nat → List Instruction × List CFGValue
  | [], _ => ([], [])
  | E :: rest, n =>
    let s := flatten BB E n
    let r := flattenAll BB rest (n + s.length)
    (s ++ r.1, lastHandle BB n s :: r.2)
termination_by es => (sizeOf es, 0)
/-- The argument of a call: its parentheses are stripped; a tuple then contributes the
sequences of its elements and no tuple instruction, with the handles of the elements; any
other expression contributes its own sequence, with its one handle. -/
def flattenArg (BB : Nat) : Expr → Nat → List Instruction × List CFGValue
  | .ParenExpr Sub, n => flattenArg BB Sub n
  | .TupleExpr Elements, n => flattenAll BB Elements n
  | Arg, n =>
    let s := flatten BB Arg n
    (s, [lastHandle BB n s])
termination_by e => (sizeOf e, 1)
end

/-- The builder `b2` is `b1` with the instructions `Is` appended to its active block `BB`;
no block has been created and the stacks and the failure flag are those of `b1`. -/
def Lowered (BB : Nat) (Is : List Instruction) (b1 b2 : Builder) : Prop :=
  b2.C = b1.C.insertAll BB Is ∧ b2.Block = some BB ∧
  b2.PendingMergesStack = b1.PendingMergesStack ∧ b2.BreakStack = b1.BreakStack ∧
  b2.ContinueStack = b1.ContinueStack ∧ b2.badCFG = b1.badCFG

/-! ## Trees that lower to nothing -/

mutual
/-- The tree consists of brace statements and empty statements only. -/
def Stmt.isEmpty : Stmt → Bool
  | .BraceStmt Elements => Stmt.isEmptyAll Elements
  | .SemiStmt => true
  | _ => false
/-- All elements of a brace statement are statements that consist of brace statements and
empty statements only. -/
def Stmt.isEmptyAll : List ExprStmtOrDecl → Bool
  | [] => true
  | .stmt S :: rest => S.isEmpty && Stmt.isEmptyAll rest
  | _ => false
end

/-! ## Reachability -/

mutual
/-- A tree of brace, empty, if, while and do-while statements and supported expression
statements: a supported tree without return, break, continue and for-each statement. -/
def Stmt.straight : Stmt → Bool
  | .BraceStmt Elements => Stmt.straightAll Elements
  | .SemiStmt => true
  | .IfStmt _ Then none => Then.straight
  | .IfStmt _ Then (some Else) => Then.straight && Else.straight
  | .WhileStmt _ Body => Body.straight
  | .DoWhileStmt Body _ => Body.straight
  | _ => false
/-- All elements of a brace statement are straight statements or supported expressions. -/
def Stmt.straightAll : List ExprStmtOrDecl → Bool
  | [] => true
  | .stmt S :: rest => S.straight && Stmt.straightAll rest
  | .expr E :: rest => E.supported && Stmt.straightAll rest
  | .decl :: _ => false
end

/-- Block `i` is the entry block, block 0, or is reached from it by following edge targets
of the instructions of the graph. -/
def CFG.Reachable (C : CFG) (i : Nat) : Prop :=
  Relation.ReflTransGen (fun a c => c ∈ succs (C.insts a)) 0 i

/-- An edge of the graph, or one of the edges `E` that the visits in progress have yet to
create: from the head block of an `if` to its arms, from the condition block of a while
loop to its body. -/
def Edge (C : CFG) (E : List (Nat × Nat)) (a c : Nat) : Prop :=
  c ∈ succs (C.insts a) ∨ (a, c) ∈ E

/-- Every block of the graph is reached from block 0 along edges of `Edge C E`. -/
def Reach (E : List (Nat × Nat)) (C : CFG) : Prop :=
  ∀ i, i < C.size → Relation.ReflTransGen (Edge C E) 0 i

/-- The code lowered next is not dead: no block exists yet, or a block is active, or the
innermost pending list is not empty. -/
def Live (b : Builder) : Prop :=
  b.C.size = 0 ∨ b.Block ≠ none ∨ ∃ top rest, b.PendingMergesStack = top :: rest ∧ top ≠ []

/-- What the walk guarantees in addition to `VisitOK`: a statement that is not empty and
holds no for-each statement leaves a graph with a block, and a straight statement visited
where the code is live keeps every block reachable and leaves the code live. -/
def VisitReach (S : Stmt) (inLoop : Bool) : Prop :=
  ∀ (H : List Nat) (Lg : List LoopRecord) (b : Builder), Inv H Lg b →
    (inLoop = true → b.BreakStack ≠ [] ∧ b.ContinueStack ≠ []) →
    ∃ b' lg, visitStmtLog S b = .ok (b', lg) ∧ Inv H (Lg ++ lg) b' ∧ Frame b b' ∧
      (S.hasForEach = false → S.isEmpty = false → 0 < b'.C.size) ∧
      (S.straight = true → ∀ E, Reach E b.C → Live b → Reach E b'.C ∧ Live b')

/-- The guarantee of `VisitReach` for the elements of a brace statement. -/
def VisitAllReach (Elements : List ExprStmtOrDecl) (inLoop : Bool) : Prop :=
  ∀ (H : List Nat) (Lg : List LoopRecord) (b : Builder), Inv H Lg b →
    (inLoop = true → b.BreakStack ≠ [] ∧ b.ContinueStack ≠ []) →
    ∃ b' lg, visitElementsLog Elements b = .ok (b', lg) ∧ Inv H (Lg ++ lg) b' ∧ Frame b b' ∧
      (Stmt.hasForEachAny Elements = false → Stmt.isEmptyAll Elements = false →
        0 < b'.C.size) ∧
      (Stmt.straightAll Elements = true →
        ∀ E, Reach E b.C → Live b → Reach E b'.C ∧ Live b')

/-! ## The monitored walk

The walk of `visitStmt` and the finalizer once more, with checks added that the source does
not make.  A monitor selects the checks; a check that fails ends the run like a failed
assertion.  Apart from the checks every function below is the function of the same name
without `M`. -/

/-- The checks a monitored run makes in addition to the assertions of the source. -/
structure Monitor where
  /-- At every call of `flushPending` no block occurs twice in the list that is flushed and
  every block of it is in one of the three states that `flushable` tests. -/
  flushStates : Bool
  /-- An instruction is appended only to a block that holds no terminator. -/
  appendOpen : Bool
  /-- The call `setTarget` of `popContinueStack` acts on a branch whose target is unset; the
  writes to target slots in `flushPending` are guarded by the assertions of the source. -/
  bindOnce : Bool
  /-- Every step that appends an instruction or writes a target slot leaves each block that
  ended in a terminator with the instructions it had, up to target slots that were unset,
  and only appends to the other blocks: the test `grows`. -/
  keepsClosed : Bool

/-- The monitor of the states in which `flushPending` meets the blocks it is given. -/
def Monitor.flush : Monitor :=
  { flushStates := true, appendOpen := false, bindOnce := false, keepsClosed := false }

/-- The monitor of monotone construction: appends go to blocks without terminator, target
slots are bound once, and blocks that end in a terminator keep their instructions. -/
def Monitor.monotone : Monitor :=
  { flushStates := false, appendOpen := true, bindOnce := true, keepsClosed := true }

/-- No instruction of the list is a terminator. -/
def noTerminator (l : List Instruction) : Bool := l.all (fun I => !I.isTermInst)

/-- The three states in which `flushPending` may meet a block: the block holds no
terminator; or it holds one terminator, in last position, which is an unconditional branch
whose target is unset, or a conditional branch whose first target is set and whose second
target is unset. -/
def flushable (l : List Instruction) : Bool :=
  noTerminator l ||
    (noTerminator l.dropLast &&
      match l.getLast? with
      | some (.UncondBranchInst none) => true
      | some (.CondBranchInst _ (some _) none) => true
      | _ => false)

/-- The last instruction is an unconditional branch whose target is unset. -/
def targetUnset (l : List Instruction) : Bool :=
  match l.getLast? with
  | some (.UncondBranchInst none) => true
  | _ => false

/-- The last instruction of the list is a terminator. -/
def endsInTerminator (l : List Instruction) : Bool :=
  match l.getLast? with
  | some I => I.isTermInst
  | none => false

/-- The instruction `I2` is `I1`, or `I1` with a target slot that was unset now set. -/
def fills : Instruction → Instruction → Bool
  | .UncondBranchInst none, .UncondBranchInst _ => true
  | .CondBranchInst c b0 none, .CondBranchInst c2 b02 _ => decide (c = c2) && decide (b0 = b02)
  | I1, I2 => decide (I1 = I2)

/-- What a step may make of the instruction list `l` of a block: when `l` ends in a
terminator, the same instructions up to target slots that were unset; otherwise `l` with
instructions appended. -/
def keeps (l l2 : List Instruction) : Bool :=
  if endsInTerminator l then
    decide (l.length = l2.length) && (l.zip l2).all (fun p => fills p.1 p.2)
  else decide (l2.take l.length = l)

/-- Every block of `C` is a block of `C2`, with an instruction list that `keeps` allows. -/
def grows (C C2 : CFG) : Bool :=
  decide (C.size ≤ C2.size) && (List.range C.size).all (fun i => keeps (C.insts i) (C2.insts i))

/-- A check of the monitor: when the check is on and its condition fails, the run ends. -/
def check (active cond : Bool) : Except Abort Unit :=
  if active && !cond then .error .assertion else .ok ()

/-- The body of the loop of `flushPending`, monitored: a block that does not end in a
terminator, to which a branch is appended, holds no terminator at all. -/
def flushOneM (m : Monitor) (TargetBlock PredBlock : Nat) (C : CFG) : Except Abort CFG := do
  check m.appendOpen (hasTerminator (C.block PredBlock) || noTerminator (C.insts PredBlock))
  let C2 ← flushOne TargetBlock PredBlock C
  check m.keepsClosed (grows C C2)
  .ok C2

/-- The loop of `flushPending`, monitored. -/
def flushLoopM (m : Monitor) (TargetBlock : Nat) : List Nat → CFG → Except Abort CFG
  | [], C => .ok C
  | PredBlock :: rest, C => do
    let C ← flushOneM m TargetBlock PredBlock C
    flushLoopM m TargetBlock rest C

/-- The method `flushPending`, monitored: when it is called, the list it flushes holds no
block twice and holds only blocks in the three states of `flushable`. -/
def flushPendingM (m : Monitor) (TargetBlock : Nat) (b : Builder) : Except Abort Builder :=
  match b.PendingMergesStack with
  | [] => .error .assertion
  | top :: rest => do
    check m.flushStates (decide top.Nodup && top.all (fun p => flushable (b.C.insts p)))
    let C ← flushLoopM m TargetBlock top b.C
    .ok { b with C := C, PendingMergesStack := [] :: rest }

/-- The method `currentBlock`, monitored. -/
def currentBlockM (m : Monitor) (b : Builder) : Except Abort (Nat × Builder) :=
  match b.Block with
  | some BB => .ok (BB, b)
  | none => do
    let (BB, C) := b.C.newBlock
    let b ← flushPendingM m BB { b with Block := some BB, C := C }
    .ok (BB, b)

/-- The tail shared by the value-instruction visitors, monitored: the instruction is
appended to a block without terminator. -/
def emitM (m : Monitor) (Ex : Expr) (I : Instruction) (b : Builder) :
    Except Abort (CFGValue × Builder) := do
  let (BB, b) ← currentBlockM m b
  check m.appendOpen (noTerminator (b.C.insts BB))
  check m.keepsClosed (grows b.C (addInst Ex I BB b).2.C)
  .ok (addInst Ex I BB b)

mutual
/-- The dispatch `visit(E)` on an expression, monitored. -/
def visitExprM (m : Monitor) : Expr → Builder → Except Abort (CFGValue × Builder)
  | .CallExpr Fn Arg, b => do
    let (FnV, b) ← visitExprM m Fn b
    let (ArgsV, b) ← visitCallArgM m Arg b
    emitM m (.CallExpr Fn Arg) (.CallInst FnV ArgsV) b
  | .DeclRefExpr d, b => emitM m (.DeclRefExpr d) (.DeclRefInst d) b
  | .ThisApplyExpr Fn Arg, b => do
    let (FnV, b) ← visitExprM m Fn b
    let (ArgV, b) ← visitExprM m Arg b
    emitM m (.ThisApplyExpr Fn Arg) (.ThisApplyInst FnV ArgV) b
  | .IntegerLiteralExpr v, b => emitM m (.IntegerLiteralExpr v) (.IntegerLiteralInst v) b
  | .LoadExpr Sub, b => do
    let (SubV, b) ← visitExprM m Sub b
    emitM m (.LoadExpr Sub) (.LoadInst SubV) b
  | .ParenExpr Sub, b => visitExprM m Sub b
  | .TupleExpr Elements, b => do
    let (ArgsV, b) ← visitExprsM m Elements b
    emitM m (.TupleExpr Elements) (.TupleInst ArgsV) b
  | .TypeOfExpr t, b => emitM m (.TypeOfExpr t) (.TypeOfInst t) b
  | .OtherExpr _, _ => .error .unreachable
/-- The loops over the elements of a tuple, monitored. -/
def visitExprsM (m : Monitor) : List Expr → Builder → Except Abort (List CFGValue × Builder)
  | [], b => .ok ([], b)
  | E :: rest, b => do
    let (V, b) ← visitExprM m E b
    let (Vs, b) ← visitExprsM m rest b
    .ok (V :: Vs, b)
/-- The argument of a call, monitored. -/
def visitCallArgM (m : Monitor) : Expr → Builder → Except Abort (List CFGValue × Builder)
  | .ParenExpr P, b => visitCallArgM m P b
  | .TupleExpr Elements, b => visitExprsM m Elements b
  | .CallExpr Fn Arg, b => do
    let (FnV, b) ← visitExprM m Fn b
    let (ArgsV, b) ← visitCallArgM m Arg b
    let (V, b) ← emitM m (.CallExpr Fn Arg) (.CallInst FnV ArgsV) b
    .ok ([V], b)
  | .DeclRefExpr d, b => do
    let (V, b) ← emitM m (.DeclRefExpr d) (.DeclRefInst d) b
    .ok ([V], b)
  | .ThisApplyExpr Fn Arg, b => do
    let (FnV, b) ← visitExprM m Fn b
    let (ArgV, b) ← visitExprM m Arg b
    let (V, b) ← emitM m (.ThisApplyExpr Fn Arg) (.ThisApplyInst FnV ArgV) b
    .ok ([V], b)
  | .IntegerLiteralExpr v, b => do
    let (V, b) ← emitM m (.IntegerLiteralExpr v) (.IntegerLiteralInst v) b
    .ok ([V], b)
  | .LoadExpr Sub, b => do
    let (SubV, b) ← visitExprM m Sub b
    let (V, b) ← emitM m (.LoadExpr Sub) (.LoadInst SubV) b
    .ok ([V], b)
  | .TypeOfExpr t, b => do
    let (V, b) ← emitM m (.TypeOfExpr t) (.TypeOfInst t) b
    .ok ([V], b)
  | .OtherExpr _, _ => .error .unreachable
end

/-- The method `visitReturnStmt` after its result expression, monitored. -/
def lowerReturnM (m : Monitor) (ArgV : CFGValue) (b : Builder) : Except Abort Builder := do
  let (BB, b) ← currentBlockM m b
  check m.appendOpen (noTerminator (b.C.insts BB))
  check m.keepsClosed (grows b.C (b.C.insert BB (.ReturnInst ArgV)))
  .ok { b with C := b.C.insert BB (.ReturnInst ArgV), Block := none }

/-- The method `visitBreakStmt`, monitored. -/
def visitBreakStmtM (m : Monitor) (b : Builder) : Except Abort Builder :=
  match b.BreakStack with
  | [] => .error .assertion
  | _ :: _ => do
    let (BreakBlock, b) ← currentBlockM m b
    match b.BreakStack with
    | [] => .error .assertion
    | top :: rest => do
      check m.appendOpen (noTerminator (b.C.insts BreakBlock))
      check m.keepsClosed (grows b.C (b.C.insert BreakBlock (.UncondBranchInst none)))
      .ok { b with BreakStack := (top ++ [BreakBlock]) :: rest,
                   C := b.C.insert BreakBlock (.UncondBranchInst none), Block := none }

/-- The method `visitContinueStmt`, monitored. -/
def visitContinueStmtM (m : Monitor) (b : Builder) : Except Abort Builder :=
  match b.ContinueStack with
  | [] => .error .assertion
  | _ :: _ => do
    let (ContinueBlock, b) ← currentBlockM m b
    match b.ContinueStack with
    | [] => .error .assertion
    | top :: rest => do
      check m.appendOpen (noTerminator (b.C.insts ContinueBlock))
      check m.keepsClosed (grows b.C (b.C.insert ContinueBlock (.UncondBranchInst none)))
      .ok { b with ContinueStack := (top ++ [ContinueBlock]) :: rest,
                   C := b.C.insert ContinueBlock (.UncondBranchInst none), Block := none }

/-- The body of the loop of `popContinueStack`, monitored: the target that is set was
unset. -/
def rebindContinueM (m : Monitor) (TargetBlock ContinueBlock : Nat) (C : CFG) :
    Except Abort CFG := do
  check m.bindOnce (targetUnset (C.insts ContinueBlock))
  let C2 ← rebindContinue TargetBlock ContinueBlock C
  check m.keepsClosed (grows C C2)
  .ok C2

/-- The loop of `popContinueStack`, monitored. -/
def rebindLoopM (m : Monitor) (TargetBlock : Nat) : List Nat → CFG → Except Abort CFG
  | [], C => .ok C
  | ContinueBlock :: rest, C => do
    let C ← rebindContinueM m TargetBlock ContinueBlock C
    rebindLoopM m TargetBlock rest C

/-- The method `popContinueStack`, monitored. -/
def popContinueStackM (m : Monitor) (depth : Nat) (TargetBlock : Nat) (b : Builder) :
    Except Abort Builder :=
  match b.ContinueStack with
  | [] => .error .assertion
  | BlocksThatContinue :: rest =>
    if b.ContinueStack.length ≠ depth then .error .assertion
    else do
      let C ← rebindLoopM m TargetBlock BlocksThatContinue b.C
      .ok { b with C := C, ContinueStack := rest }

/-- The end of `visitWhileStmt` and of `visitDoWhileStmt`, monitored: the conditional branch
is appended to a block without terminator. -/
def closeLoopM (m : Monitor) (pendingDepth breakDepth continueDepth : Nat)
    (BodyBlock ConditionBlock : Nat) (b : Builder) : Except Abort Builder :=
  if b.PendingMergesStack.length ≠ pendingDepth then .error .assertion
  else do
    let b ← flushPendingM m ConditionBlock b
    let b := { b with PendingMergesStack := b.PendingMergesStack.tail }
    let b ← popBreakStack breakDepth b
    let b ← popContinueStackM m continueDepth ConditionBlock b
    check m.appendOpen (noTerminator (b.C.insts ConditionBlock))
    check m.keepsClosed
      (grows b.C (b.C.newCondBranchInst none (some BodyBlock) none ConditionBlock))
    let b := { b with C := b.C.newCondBranchInst none (some BodyBlock) none ConditionBlock }
    pendingMergesPush ConditionBlock b

mutual
/-- The dispatch `visit(S)` on a statement, monitored: the conditional branch of an `if` is
appended to a block without terminator. -/
def visitStmtM (m : Monitor) : Stmt → Builder → Except Abort Builder
  | .BraceStmt Elements, b => visitElementsM m Elements b
  | .SemiStmt, b => .ok b
  | .AssignStmt, _ => .error .notYetImplemented
  | .ReturnStmt none, b => lowerReturnM m none b
  | .ReturnStmt (some Result), b => do
    let (ArgV, b) ← visitExprM m Result b
    lowerReturnM m ArgV b
  | .IfStmt _ Then Else, b => do
    let (IfTermBlock, b) ← currentBlockM m b
    let b := { b with Block := none }
    let (Target1, b) := createFreshBlock b
    let b ← visitStmtM m Then b
    let b ← addCurrentBlockToPending b
    match Else with
    | some Else => do
      let (Target2, b) := createFreshBlock b
      let b ← visitStmtM m Else b
      let b ← addCurrentBlockToPending b
      check m.appendOpen (noTerminator (b.C.insts IfTermBlock))
      check m.keepsClosed
        (grows b.C (b.C.newCondBranchInst none (some Target1) (some Target2) IfTermBlock))
      .ok { b with C := b.C.newCondBranchInst none (some Target1) (some Target2) IfTermBlock }
    | none => do
      let b ← pendingMergesPush IfTermBlock b
      check m.appendOpen (noTerminator (b.C.insts IfTermBlock))
      check m.keepsClosed
        (grows b.C (b.C.newCondBranchInst none (some Target1) none IfTermBlock))
      .ok { b with C := b.C.newCondBranchInst none (some Target1) none IfTermBlock }
  | .WhileStmt _ Body, b => do
    let b ← addCurrentBlockToPending b
    let (ConditionBlock, b) ← currentBlockM m b
    let b := { b with Block := none }
    let b := { b with BreakStack := [] :: b.BreakStack }
    let breakDepth := b.BreakStack.length
    let b := { b with ContinueStack := [] :: b.ContinueStack }
    let continueDepth := b.ContinueStack.length
    let b := { b with PendingMergesStack := [] :: b.PendingMergesStack }
    let pendingDepth := b.PendingMergesStack.length
    let (BodyBlock, b) := createFreshBlock b
    let b ← visitStmtM m Body b
    let b ← addCurrentBlockToPending b
    closeLoopM m pendingDepth breakDepth continueDepth BodyBlock ConditionBlock b
  | .DoWhileStmt Body _, b => do
    let b := { b with BreakStack := [] :: b.BreakStack }
    let breakDepth := b.BreakStack.length
    let b := { b with ContinueStack := [] :: b.ContinueStack }
    let continueDepth := b.ContinueStack.length
    let b ← addCurrentBlockToPending b
    let (BodyBlock, b) ← currentBlockM m b
    let b := { b with PendingMergesStack := [] :: b.PendingMergesStack }
    let pendingDepth := b.PendingMergesStack.length
    let b ← visitStmtM m Body b
    let b ← addCurrentBlockToPending b
    let (ConditionBlock, b) ← currentBlockM m b
    let b := { b with Block := none }
    closeLoopM m pendingDepth breakDepth continueDepth BodyBlock ConditionBlock b
  | .ForStmt, _ => .error .notYetImplemented
  | .ForEachStmt, b => .ok { b with badCFG := true }
  | .BreakStmt, b => visitBreakStmtM m b
  | .ContinueStmt, b => visitContinueStmtM m b
/-- The loop of `visitBraceStmt`, monitored. -/
def visitElementsM (m : Monitor) : List ExprStmtOrDecl → Builder → Except Abort Builder
  | [], b => .ok b
  | .decl :: _, _ => .error .assertion
  | .stmt S :: rest, b => do
    let b ← visitStmtM m S b
    visitElementsM m rest b
  | .expr E :: rest, b => do
    let (_, b) ← visitExprM m E b
    visitElementsM m rest b
end

/-- The method `finishUp`, monitored: the return is appended to a block without
terminator. -/
def finishUpM (m : Monitor) (b : Builder) : Except Abort Builder :=
  if b.PendingMergesStack.length ≠ 1 then .error .assertion
  else do
    let pm ← pendingMerges b
    if !pm.isEmpty then
      if b.Block.isSome then .error .assertion
      else do
        let (BB, b) ← currentBlockM m b
        check m.appendOpen (noTerminator (b.C.insts BB))
        check m.keepsClosed (grows b.C (b.C.insert BB (.ReturnInst none)))
        .ok { b with C := b.C.insert BB (.ReturnInst none) }
    else
      match b.Block with
      | none => .ok b
      | some BB =>
        match (b.C.block BB).insts.getLast? with
        | none => do
          check m.appendOpen (noTerminator (b.C.insts BB))
          check m.keepsClosed (grows b.C (b.C.insert BB (.ReturnInst none)))
          .ok { b with C := b.C.insert BB (.ReturnInst none) }
        | some I =>
          if !I.isReturnInst then do
            check m.appendOpen (noTerminator (b.C.insts BB))
            check m.keepsClosed (grows b.C (b.C.insert BB (.ReturnInst none)))
            .ok { b with C := b.C.insert BB (.ReturnInst none) }
          else .ok b

/-- The function `CFG::constructCFG`, monitored. -/
def constructCFGM (m : Monitor) (S : Stmt) : Except Abort (Option CFG) := do
  let builder ← visitStmtM m S Builder.init
  if !builder.badCFG then
    let builder ← finishUpM m builder
    .ok (some builder.C)
  else
    .ok none

/-- The monitored visit of a statement is the visit, from every builder that satisfies the
invariant: no check of the monitor fails. -/
def VisitSame (m : Monitor) (S : Stmt) (inLoop : Bool) : Prop :=
  ∀ (H : List Nat) (Lg : List LoopRecord) (b : Builder), Inv H Lg b →
    (inLoop = true → b.BreakStack ≠ [] ∧ b.ContinueStack ≠ []) →
    visitStmtM m S b = visitStmt S b

/-- The statement of `VisitSame` for the elements of a brace statement. -/
def VisitAllSame (m : Monitor) (Elements : List ExprStmtOrDecl) (inLoop : Bool) : Prop :=
  ∀ (H : List Nat) (Lg : List LoopRecord) (b : Builder), Inv H Lg b →
    (inLoop = true → b.BreakStack ≠ [] ∧ b.ContinueStack ≠ []) →
    visitElementsM m Elements b = visitElements Elements b

/-! # Theorems -/

/-! ## Reading the graph -/

theorem getD_modify (f : BasicBlock → BasicBlock) (k i : Nat) (l : List BasicBlock)
    (d : BasicBlock) :
    (l.modify f k).getD i d = if i = k ∧ k < l.length then f (l.getD k d) else l.getD i d := by
  simp only [List.getD_eq_getElem?_getD, List.getElem?_modify]
  by_cases hik : i = k
  · subst hik
    by_cases hlt : i < l.length
    · simp [hlt, List.getElem?_eq_getElem]
    · simp [hlt, List.getElem?_eq_none (Nat.le_of_not_lt hlt)]
  · have : ¬ k = i := fun h => hik h.symm
    cases h : l[i]? <;> simp [hik, this]

theorem block_newBlock (C : CFG) (i : Nat) : C.newBlock.2.block i = C.block i := by
  simp only [CFG.newBlock, CFG.block, List.getD_eq_getElem?_getD, List.getElem?_append]
  by_cases h : i < C.BlockList.length
  · simp [h]
  · simp only [h, if_false, List.getElem?_eq_none (Nat.le_of_not_lt h)]
    cases hj : i - C.BlockList.length <;> simp

@[simp] theorem insts_newBlock (C : CFG) (i : Nat) : C.newBlock.2.insts i = C.insts i := by
  simp [CFG.insts, block_newBlock]

@[simp] theorem preds_newBlock (C : CFG) (i : Nat) : C.newBlock.2.preds i = C.preds i := by
  simp [CFG.preds, block_newBlock]

@[simp] theorem size_newBlock (C : CFG) : C.newBlock.2.size = C.size + 1 := by
  simp [CFG.newBlock, CFG.size]

@[simp] theorem fst_newBlock (C : CFG) : C.newBlock.1 = C.size := rfl

theorem insts_of_size_le (C : CFG) (i : Nat) (h : C.size ≤ i) : C.insts i = [] := by
  simp [CFG.insts, CFG.block, List.getD_eq_getElem?_getD, List.getElem?_eq_none h]

theorem preds_of_size_le (C : CFG) (i : Nat) (h : C.size ≤ i) : C.preds i = [] := by
  simp [CFG.preds, CFG.block, List.getD_eq_getElem?_getD, List.getElem?_eq_none h]

@[simp] theorem size_insert (C : CFG) (k : Nat) (I : Instruction) :
    (C.insert k I).size = C.size := by
  simp [CFG.insert, CFG.size]

theorem insts_insert (C : CFG) (k : Nat) (I : Instruction) (i : Nat) (hk : k < C.size) :
    (C.insert k I).insts i = if i = k then C.insts k ++ [I] else C.insts i := by
  simp only [CFG.insts, CFG.block, CFG.insert, getD_modify]
  have : k < C.BlockList.length := hk
  by_cases h : i = k <;> simp [h, this]

@[simp] theorem preds_insert (C : CFG) (k : Nat) (I : Instruction) (i : Nat) :
    (C.insert k I).preds i = C.preds i := by
  simp only [CFG.preds, CFG.block, CFG.insert, getD_modify]
  split
  · next h => rw [h.1]
  · rfl

@[simp] theorem size_addPred (C : CFG) (t p : Nat) : (C.addPred t p).size = C.size := by
  simp [CFG.addPred, CFG.size]

@[simp] theorem insts_addPred (C : CFG) (t p i : Nat) : (C.addPred t p).insts i = C.insts i := by
  simp only [CFG.insts, CFG.block, CFG.addPred, getD_modify]
  split
  · next h => rw [h.1]
  · rfl

theorem preds_addPred (C : CFG) (t p i : Nat) (ht : t < C.size) :
    (C.addPred t p).preds i = if i = t then C.preds t ++ [p] else C.preds i := by
  simp only [CFG.preds, CFG.block, CFG.addPred, getD_modify]
  have : t < C.BlockList.length := ht
  by_cases h : i = t <;> simp [h, this]

@[simp] theorem size_modifyTerminator (C : CFG) (k : Nat) (f : Instruction → Instruction) :
    (C.modifyTerminator k f).size = C.size := by
  simp [CFG.modifyTerminator, CFG.size]

theorem insts_modifyTerminator (C : CFG) (k : Nat) (f : Instruction → Instruction) (i : Nat) :
    (C.modifyTerminator k f).insts i = if i = k then modifyLast f (C.insts k) else C.insts i := by
  simp only [CFG.insts, CFG.block, CFG.modifyTerminator, getD_modify]
  by_cases h : i = k
  · subst h
    by_cases hlt : i < C.BlockList.length
    · simp [hlt]
    · simp [hlt, List.getD_eq_getElem?_getD, List.getElem?_eq_none (Nat.le_of_not_lt hlt),
        modifyLast]
  · simp [h]

@[simp] theorem preds_modifyTerminator (C : CFG) (k : Nat) (f : Instruction → Instruction)
    (i : Nat) : (C.modifyTerminator k f).preds i = C.preds i := by
  simp only [CFG.preds, CFG.block, CFG.modifyTerminator, getD_modify]
  split
  · next h => rw [h.1]
  · rfl


/-! ## States of a block -/

theorem IsOpen.nil : IsOpen [] := fun _ h => by simp at h

theorem isOpen_append {l l' : List Instruction} : IsOpen (l ++ l') ↔ IsOpen l ∧ IsOpen l' := by
  simp only [IsOpen, List.mem_append]
  constructor
  · intro h
    exact ⟨fun I hI => h I (Or.inl hI), fun I hI => h I (Or.inr hI)⟩
  · rintro ⟨h1, h2⟩ I (hI | hI)
    · exact h1 I hI
    · exact h2 I hI

theorem isOpen_singleton {I : Instruction} : IsOpen [I] ↔ I.isTermInst = false := by
  simp [IsOpen]

theorem targets_of_not_term {I : Instruction} (h : I.isTermInst = false) : I.targets = [] := by
  cases I <;> simp_all [Instruction.isTermInst, Instruction.targets]

theorem isTerm_of_resolved {I : Instruction} (h : I.resolved = true) : I.isTermInst = true := by
  cases I <;> simp_all [Instruction.isTermInst, Instruction.resolved]

theorem succs_append (l l' : List Instruction) : succs (l ++ l') = succs l ++ succs l' := by
  simp [succs]

@[simp] theorem succs_nil : succs [] = [] := rfl

@[simp] theorem succs_singleton (I : Instruction) : succs [I] = I.targets := by
  simp [succs]

theorem succs_of_isOpen {l : List Instruction} (h : IsOpen l) : succs l = [] := by
  induction l with
  | nil => rfl
  | cons I l ih =>
    have h1 : I.isTermInst = false := h I (by simp)
    have h2 : IsOpen l := fun J hJ => h J (by simp [hJ])
    have := succs_append [I] l
    simp only [List.singleton_append] at this
    rw [this, succs_singleton, targets_of_not_term h1, ih h2]
    rfl

/-- The last instruction of an open block, if any, is not a terminator. -/
theorem IsOpen.getLast {l : List Instruction} (h : IsOpen l) {I : Instruction}
    (hI : l.getLast? = some I) : I.isTermInst = false :=
  h I (List.mem_of_getLast?_eq_some hI)

/-- An open block does not end in a terminator. -/
theorem IsOpen.ne_concat {l : List Instruction} (h : IsOpen l) {pre : List Instruction}
    {t : Instruction} (ht : t.isTermInst = true) : l ≠ pre ++ [t] := by
  intro e
  have := h t (by rw [e]; simp)
  rw [ht] at this
  cases this

theorem concat_inj {α : Type} {l l' : List α} {a a' : α} (h : l ++ [a] = l' ++ [a']) :
    l = l' ∧ a = a' := by
  have := List.append_inj' h rfl
  exact ⟨this.1, by simpa using this.2⟩

theorem closeWith_open {l : List Instruction} (h : IsOpen l) (t : Nat) :
    closeWith t l = l ++ [.UncondBranchInst (some t)] := by
  unfold closeWith
  cases hl : l.getLast? with
  | none => rfl
  | some I =>
    have := h.getLast hl
    cases I <;> simp_all [Instruction.isTermInst]

@[simp] theorem closeWith_ub (pre : List Instruction) (t : Nat) :
    closeWith t (pre ++ [.UncondBranchInst none]) = pre ++ [.UncondBranchInst (some t)] := by
  simp [closeWith]

@[simp] theorem closeWith_cb (pre : List Instruction) (c : CFGValue) (t1 t : Nat) :
    closeWith t (pre ++ [.CondBranchInst c (some t1) none]) =
      pre ++ [.CondBranchInst c (some t1) (some t)] := by
  simp [closeWith]

theorem Flushable.closed {l : List Instruction} (h : Flushable l) (t : Nat) :
    Closed (closeWith t l) := by
  rcases h with h | ⟨pre, hp, rfl⟩ | ⟨pre, c, t1, hp, rfl⟩
  · exact ⟨l, .UncondBranchInst (some t), h, rfl, closeWith_open h t⟩
  · exact ⟨pre, .UncondBranchInst (some t), hp, rfl, closeWith_ub pre t⟩
  · exact ⟨pre, .CondBranchInst c (some t1) (some t), hp, rfl, closeWith_cb pre c t1 t⟩

theorem Flushable.mem_succs_closeWith {l : List Instruction} (h : Flushable l) (t j : Nat) :
    j ∈ succs (closeWith t l) ↔ j ∈ succs l ∨ j = t := by
  rcases h with h | ⟨pre, hp, rfl⟩ | ⟨pre, c, t1, hp, rfl⟩
  · rw [closeWith_open h, succs_append]
    simp [Instruction.targets]
  · rw [closeWith_ub, succs_append, succs_append]
    simp [Instruction.targets]
  · rw [closeWith_cb, succs_append, succs_append]
    simp [Instruction.targets, or_assoc]

theorem Closed.not_isOpen {l : List Instruction} (h : Closed l) : ¬ IsOpen l := by
  rcases h with ⟨pre, t, _, ht, rfl⟩
  intro ho
  exact ho.ne_concat (isTerm_of_resolved ht) rfl

theorem hasTerminator_of_isOpen {C : CFG} {p : Nat} (h : IsOpen (C.insts p)) :
    hasTerminator (C.block p) = false := by
  unfold hasTerminator
  change (match (C.insts p).getLast? with | none => false | some I => I.isTermInst) = false
  cases hl : (C.insts p).getLast? with
  | none => rfl
  | some I => exact h.getLast hl

theorem hasTerminator_of_concat {C : CFG} {p : Nat} {pre : List Instruction} {t : Instruction}
    (h : C.insts p = pre ++ [t]) : hasTerminator (C.block p) = t.isTermInst := by
  unfold hasTerminator
  change (match (C.insts p).getLast? with | none => false | some I => I.isTermInst) = _
  rw [h]
  simp

theorem getLast_block {C : CFG} {p : Nat} : (C.block p).insts.getLast? = (C.insts p).getLast? :=
  rfl

@[simp] theorem modifyLast_concat (f : Instruction → Instruction) (pre : List Instruction)
    (I : Instruction) : modifyLast f (pre ++ [I]) = pre ++ [f I] := by
  simp [modifyLast]

/-! ## Flushing -/

@[simp] theorem size_setTarget (C : CFG) (p t : Nat) : (C.setTarget p t).size = C.size := by
  simp [CFG.setTarget]

@[simp] theorem size_setBranch1 (C : CFG) (p t : Nat) : (C.setBranch1 p t).size = C.size := by
  simp [CFG.setBranch1]

theorem flushOne_ok (C : CFG) (t p : Nat) (hp : p < C.size) (ht : t < C.size)
    (hf : Flushable (C.insts p)) :
    ∃ C', flushOne t p C = .ok C' ∧ C'.size = C.size ∧
      (∀ i, C'.insts i = if i = p then closeWith t (C.insts p) else C.insts i) ∧
      (∀ i, C'.preds i = if i = t then C.preds t ++ [p] else C.preds i) := by
  rcases hf with h | ⟨pre, hpre, e⟩ | ⟨pre, c, t1, hpre, e⟩
  · refine ⟨(C.insert p (.UncondBranchInst none)).setTarget p t, ?_, by simp, ?_, ?_⟩
    · simp [flushOne, hasTerminator_of_isOpen h]
    · intro i
      simp only [CFG.setTarget, insts_addPred, insts_modifyTerminator, insts_insert _ _ _ _ hp,
        closeWith_open h]
      by_cases hi : i = p <;> simp [hi]
    · intro i
      simp only [CFG.setTarget]
      rw [preds_addPred _ _ _ _ (by simpa using ht)]
      simp
  · refine ⟨C.setTarget p t, ?_, by simp, ?_, ?_⟩
    · simp [flushOne, hasTerminator_of_concat e, Instruction.isTermInst, getLast_block, e]
    · intro i
      simp only [CFG.setTarget, insts_addPred, insts_modifyTerminator, e, closeWith_ub]
      by_cases hi : i = p <;> simp [hi]
    · intro i
      simp only [CFG.setTarget]
      rw [preds_addPred _ _ _ _ (by simpa using ht)]
      simp
  · refine ⟨(C.setBranch1 p t).addPred t p, ?_, by simp, ?_, ?_⟩
    · simp [flushOne, hasTerminator_of_concat e, Instruction.isTermInst, getLast_block, e]
    · intro i
      simp only [CFG.setBranch1, insts_addPred, insts_modifyTerminator, e, closeWith_cb]
      by_cases hi : i = p <;> simp [hi]
    · intro i
      rw [preds_addPred _ _ _ _ (by simpa using ht)]
      simp [CFG.setBranch1]

theorem flushLoop_ok (t : Nat) : ∀ (L : List Nat) (C : CFG), L.Nodup → t < C.size →
    (∀ p ∈ L, p < C.size ∧ Flushable (C.insts p)) →
    ∃ C', flushLoop t L C = .ok C' ∧ C'.size = C.size ∧
      (∀ i, C'.insts i = if i ∈ L then closeWith t (C.insts i) else C.insts i) ∧
      (∀ i j, j ∈ C'.preds i ↔ j ∈ C.preds i ∨ (i = t ∧ j ∈ L))
  | [], C, _, _, _ => ⟨C, rfl, rfl, by simp, by simp⟩
  | p :: L, C, hnd, ht, hL => by
    obtain ⟨hpL, hnd'⟩ := List.nodup_cons.1 hnd
    obtain ⟨hp, hf⟩ := hL p (by simp)
    obtain ⟨C1, e1, hs1, hi1, hp1⟩ := flushOne_ok C t p hp ht hf
    have hL1 : ∀ q ∈ L, q < C1.size ∧ Flushable (C1.insts q) := by
      intro q hq
      have hqp : q ≠ p := fun h => hpL (h ▸ hq)
      have := hL q (by simp [hq])
      rw [hs1, hi1, if_neg hqp]
      exact this
    obtain ⟨C2, e2, hs2, hi2, hp2⟩ := flushLoop_ok t L C1 hnd' (by rw [hs1]; exact ht) hL1
    refine ⟨C2, by simp [flushLoop, e1, e2, bind, Except.bind], by rw [hs2, hs1], ?_, ?_⟩
    · intro i
      rw [hi2, hi1]
      by_cases hip : i = p
      · subst hip
        simp [hpL]
      · simp [hip]
    · intro i j
      rw [hp2, hp1]
      by_cases hit : i = t
      · subst hit
        simp only [if_true, List.mem_append, List.mem_singleton, true_and, List.mem_cons]
        tauto
      · simp [hit]

/-! ## The invariant is kept by the steps of the builder -/

theorem count_toList_some (k i : Nat) : (some k : Option Nat).toList.count i = [k].count i := rfl

theorem LoopRecord.Settled.frame {r : LoopRecord} {C C' : CFG} {P P' : List BlocksVector}
    (h : r.Settled C P)
    (hI : ∀ i pre t, C.insts i = pre ++ [t] → t.isTermInst = true →
      (t ≠ .UncondBranchInst none ∨ i ∈ P.flatten) → C'.insts i = C.insts i)
    (hP : ∀ L ∈ P, L ≠ [] → ∃ L' ∈ P', L ⊆ L') : r.Settled C' P' := by
  obtain ⟨h1, h2⟩ := h
  refine ⟨?_, ?_⟩
  · intro x hx
    obtain ⟨pre, e⟩ := h1 x hx
    exact ⟨pre, by rw [hI x pre _ e rfl (Or.inl (by simp)), e]⟩
  · rcases h2 with ⟨pre, c, e, L, hL, hc, hb⟩ | ⟨pre, c, t, e, hct, hb⟩
    · left
      obtain ⟨L', hL', hsub⟩ := hP L hL (List.ne_nil_of_mem hc)
      refine ⟨pre, c, by rw [hI _ pre _ e rfl (Or.inl (by simp)), e], L', hL', hsub hc, ?_⟩
      intro x hx
      obtain ⟨hxL, pre', e'⟩ := hb x hx
      refine ⟨hsub hxL, pre', ?_⟩
      rw [hI x pre' _ e' rfl (Or.inr (List.mem_flatten.2 ⟨L, hL, hxL⟩)), e']
    · right
      refine ⟨pre, c, t, by rw [hI _ pre _ e rfl (Or.inl (by simp)), e], hct, ?_⟩
      intro x hx
      obtain ⟨hxt, pre', e'⟩ := hb x hx
      exact ⟨hxt, pre', by rw [hI x pre' _ e' rfl (Or.inl (by simp)), e']⟩

/-- The loops stay settled when the graph is unchanged and the pending lists only grow. -/
theorem LoopRecord.Settled.regroup {r : LoopRecord} {C : CFG} {P P' : List BlocksVector}
    (h : r.Settled C P) (hP : ∀ L ∈ P, L ≠ [] → ∃ L' ∈ P', L ⊆ L') : r.Settled C P' :=
  h.frame (fun _ _ _ _ _ _ => rfl) hP

theorem Inv.hold {H : List Nat} {Lg : List LoopRecord} {b : Builder} {k : Nat}
    (h : Inv H Lg b) (hk : b.Block = some k) : Inv (k :: H) Lg { b with Block := none } where
  pstack := h.pstack
  once i := by
    have := h.once i
    simp only [ownerCount, hk, count_toList_some, List.count_cons, List.count_nil,
      Option.toList] at this ⊢
    omega
  lt i hi := by
    have := h.lt i hi
    simp only [ownerCount, hk, count_toList_some, List.count_cons, List.count_nil,
      Option.toList] at this ⊢
    omega
  held i hi := by
    rcases List.mem_cons.1 hi with rfl | hi
    · exact h.cur _ hk
    · exact h.held i hi
  cur i hi := by simp at hi
  pend := h.pend
  brk := h.brk
  cont := h.cont
  rest i hi hc := by
    apply h.rest i hi
    simp only [ownerCount, hk, count_toList_some, List.count_cons, List.count_nil,
      Option.toList] at hc ⊢
    omega
  tgt := h.tgt
  dual := h.dual
  loops := h.loops

theorem Inv.block_lt {H : List Nat} {Lg : List LoopRecord} {b : Builder} {k : Nat}
    (h : Inv H Lg b) (hk : b.Block = some k) : k < b.C.size := by
  by_contra hlt
  have := h.lt k (Nat.le_of_not_lt hlt)
  simp [ownerCount, hk] at this

theorem Inv.block_count {H : List Nat} {Lg : List LoopRecord} {b : Builder} {k : Nat}
    (h : Inv H Lg b) (hk : b.Block = some k) :
    H.count k = 0 ∧ b.PendingMergesStack.flatten.count k = 0 ∧
      b.BreakStack.flatten.count k = 0 ∧ b.ContinueStack.flatten.count k = 0 := by
  have := h.once k
  simp only [ownerCount, hk, count_toList_some, List.count_cons, List.count_nil] at this
  simp at this
  omega

theorem Inv.block_not_mem {H : List Nat} {Lg : List LoopRecord} {b : Builder} {k : Nat}
    (h : Inv H Lg b) (hk : b.Block = some k) :
    k ∉ H ∧ k ∉ b.PendingMergesStack.flatten ∧ k ∉ b.BreakStack.flatten ∧
      k ∉ b.ContinueStack.flatten := by
  obtain ⟨h1, h2, h3, h4⟩ := h.block_count hk
  exact ⟨List.count_eq_zero.1 h1, List.count_eq_zero.1 h2, List.count_eq_zero.1 h3,
    List.count_eq_zero.1 h4⟩

/-- The invariant reads only the stacks, the active block and the graph. -/
theorem Inv.congr {H : List Nat} {Lg : List LoopRecord} {b b' : Builder} (h : Inv H Lg b)
    (hP : b'.PendingMergesStack = b.PendingMergesStack) (hK : b'.BreakStack = b.BreakStack)
    (hN : b'.ContinueStack = b.ContinueStack) (hB : b'.Block = b.Block) (hC : b'.C = b.C) :
    Inv H Lg b' where
  pstack := by rw [hP]; exact h.pstack
  once i := by simpa only [ownerCount, hP, hK, hN, hB] using h.once i
  lt i hi := by simpa only [ownerCount, hP, hK, hN, hB] using h.lt i (by rwa [hC] at hi)
  held i hi := by rw [hC]; exact h.held i hi
  cur i hi := by rw [hC]; exact h.cur i (by rwa [hB] at hi)
  pend i hi := by rw [hC]; exact h.pend i (by rwa [hP] at hi)
  brk i hi := by rw [hC]; exact h.brk i (by rwa [hK] at hi)
  cont i hi := by rw [hC]; exact h.cont i (by rwa [hN] at hi)
  rest i hi hc := by
    rw [hC]
    exact h.rest i (by rwa [hC] at hi) (by simpa only [ownerCount, hP, hK, hN, hB] using hc)
  tgt i j hj := by rw [hC] at hj ⊢; exact h.tgt i j hj
  dual i j := by rw [hC]; exact h.dual i j
  loops r hr := by rw [hC, hP]; exact h.loops r hr

@[simp] theorem size_insertAll (C : CFG) (k : Nat) (Is : List Instruction) :
    (C.insertAll k Is).size = C.size := by
  simp [CFG.insertAll, CFG.size]

theorem insts_insertAll (C : CFG) (k : Nat) (Is : List Instruction) (i : Nat) (hk : k < C.size) :
    (C.insertAll k Is).insts i = if i = k then C.insts k ++ Is else C.insts i := by
  simp only [CFG.insts, CFG.block, CFG.insertAll, getD_modify]
  have : k < C.BlockList.length := hk
  by_cases h : i = k <;> simp [h, this]

@[simp] theorem preds_insertAll (C : CFG) (k : Nat) (Is : List Instruction) (i : Nat) :
    (C.insertAll k Is).preds i = C.preds i := by
  simp only [CFG.preds, CFG.block, CFG.insertAll, getD_modify]
  split
  · next h => rw [h.1]
  · rfl

theorem insert_eq_insertAll (C : CFG) (k : Nat) (I : Instruction) :
    C.insert k I = C.insertAll k [I] := rfl

theorem insertAll_insertAll (C : CFG) (k : Nat) (Is Js : List Instruction) :
    (C.insertAll k Is).insertAll k Js = C.insertAll k (Is ++ Js) := by
  simp only [CFG.insertAll, List.modify_modify_eq]
  congr 2
  funext B
  simp

/-- Value instructions appended to the active block keep the invariant. -/
theorem Inv.appended {H : List Nat} {Lg : List LoopRecord} {b b' : Builder} {k : Nat}
    (h : Inv H Lg b) (ha : Appended k b b') : Inv H Lg b' := by
  obtain ⟨hk, hB, hP, hK, hN, _, Is, hIs, hC⟩ := ha
  have hlt := h.block_lt hk
  obtain ⟨n1, n2, n3, n4⟩ := h.block_not_mem hk
  have hne : ∀ {i}, i ≠ k → b'.C.insts i = b.C.insts i := fun hi => by
    rw [hC, insts_insertAll _ _ _ _ hlt, if_neg hi]
  have hkk : b'.C.insts k = b.C.insts k ++ Is := by
    rw [hC, insts_insertAll _ _ _ _ hlt, if_pos rfl]
  have hsuccs : ∀ i, succs (b'.C.insts i) = succs (b.C.insts i) := by
    intro i
    by_cases hi : i = k
    · subst hi
      rw [hkk, succs_append, succs_of_isOpen hIs, List.append_nil]
    · rw [hne hi]
  have hsz : b'.C.size = b.C.size := by rw [hC]; simp
  have hB' : b'.Block = b.Block := by rw [hB, hk]
  exact {
    pstack := by rw [hP]; exact h.pstack
    once := fun i => by simpa only [ownerCount, hP, hK, hN, hB'] using h.once i
    lt := fun i hi => by
      simpa only [ownerCount, hP, hK, hN, hB'] using h.lt i (by rwa [hsz] at hi)
    held := fun i hi => by
      rw [hne (fun e => n1 (e ▸ hi))]
      exact h.held i hi
    cur := fun i hi => by
      rw [hB] at hi
      cases hi
      rw [hkk]
      exact isOpen_append.2 ⟨h.cur k hk, hIs⟩
    pend := fun i hi => by
      rw [hP] at hi
      rw [hne (fun e => n2 (e ▸ hi))]
      exact h.pend i hi
    brk := fun i hi => by
      rw [hK] at hi
      rw [hne (fun e => n3 (e ▸ hi))]
      exact h.brk i hi
    cont := fun i hi => by
      rw [hN] at hi
      rw [hne (fun e => n4 (e ▸ hi))]
      exact h.cont i hi
    rest := fun i hi hc => by
      have hc' : ownerCount H b i = 0 := by simpa only [ownerCount, hP, hK, hN, hB'] using hc
      have hik : i ≠ k := by
        rintro rfl
        simp [ownerCount, hk] at hc'
      rw [hne hik]
      exact h.rest i (by rwa [hsz] at hi) hc'
    tgt := fun i j hj => by
      rw [hsuccs] at hj
      rw [hsz]
      exact h.tgt i j hj
    dual := fun i j => by
      rw [hsuccs, hC, preds_insertAll]
      exact h.dual i j
    loops := fun r hr => by
      rw [hP]
      refine (h.loops r hr).frame ?_ (fun L hL _ => ⟨L, hL, fun _ hx => hx⟩)
      intro i pre t e ht _
      apply hne
      rintro rfl
      exact (h.cur _ hk).ne_concat ht e }

/-- A terminator without target appended to the active block keeps the invariant, when the
block is released (a return), or moved to a break list (`dK`) or to a continue list (`dN`)
with an unset branch. -/
theorem Inv.terminate {H : List Nat} {Lg : List LoopRecord} {b : Builder} {k : Nat}
    (h : Inv H Lg b) (hk : b.Block = some k) (I : Instruction) (hI : I.targets = [])
    (K' N' : List BlocksVector) (dK dN : Bool)
    (hK : ∀ i, K'.flatten.count i = b.BreakStack.flatten.count i +
      (if dK = true then [k].count i else 0))
    (hN : ∀ i, N'.flatten.count i = b.ContinueStack.flatten.count i +
      (if dN = true then [k].count i else 0))
    (hd : (I.resolved = true ∧ dK = false ∧ dN = false) ∨
      (I = .UncondBranchInst none ∧ dK = true ∧ dN = false) ∨
      (I = .UncondBranchInst none ∧ dK = false ∧ dN = true)) :
    Inv H Lg { b with BreakStack := K', ContinueStack := N', C := b.C.insert k I,
                      Block := none } := by
  have hlt := h.block_lt hk
  obtain ⟨n1, n2, n3, n4⟩ := h.block_not_mem hk
  obtain ⟨c1, c2, c3, c4⟩ := h.block_count hk
  have hne : ∀ {i}, i ≠ k → (b.C.insert k I).insts i = b.C.insts i := fun hi => by
    rw [insts_insert _ _ _ _ hlt, if_neg hi]
  have hkk : (b.C.insert k I).insts k = b.C.insts k ++ [I] := by
    rw [insts_insert _ _ _ _ hlt, if_pos rfl]
  have hsuccs : ∀ i, succs ((b.C.insert k I).insts i) = succs (b.C.insts i) := by
    intro i
    by_cases hi : i = k
    · subst hi
      rw [hkk, succs_append, succs_singleton, hI, List.append_nil]
    · rw [hne hi]
  have hkc : [k].count k = 1 := by simp
  have hik : ∀ {i}, i ≠ k → [k].count i = 0 := fun hi => by
    simp [List.count_singleton, Ne.symm hi]
  have hle : ∀ i, ownerCount H ({ b with BreakStack := K', ContinueStack := N', C := b.C.insert k I, Block := none } : Builder) i ≤ ownerCount H b i := by
    intro i
    simp only [ownerCount, hk, count_toList_some, hK, hN, Option.toList, List.count_nil]
    rcases hd with ⟨_, e1, e2⟩ | ⟨_, e1, e2⟩ | ⟨_, e1, e2⟩ <;> simp [e1, e2] <;> omega
  have hmemK : ∀ i ∈ K'.flatten, (i = k ∧ dK = true) ∨ (i ≠ k ∧ i ∈ b.BreakStack.flatten) := by
    intro i hi
    have h0 := List.count_pos_iff.2 hi
    rw [hK] at h0
    by_cases hik' : i = k
    · subst hik'
      left
      refine ⟨rfl, ?_⟩
      by_contra hd'
      have hf : dK = false := by simpa using hd'
      rw [hf, c3] at h0
      simp at h0
    · right
      rw [hik hik'] at h0
      simp only [ite_self, Nat.add_zero] at h0
      exact ⟨hik', List.count_pos_iff.1 h0⟩
  have hmemN : ∀ i ∈ N'.flatten, (i = k ∧ dN = true) ∨ (i ≠ k ∧ i ∈ b.ContinueStack.flatten) := by
    intro i hi
    have h0 := List.count_pos_iff.2 hi
    rw [hN] at h0
    by_cases hik' : i = k
    · subst hik'
      left
      refine ⟨rfl, ?_⟩
      by_contra hd'
      have hf : dN = false := by simpa using hd'
      rw [hf, c4] at h0
      simp at h0
    · right
      rw [hik hik'] at h0
      simp only [ite_self, Nat.add_zero] at h0
      exact ⟨hik', List.count_pos_iff.1 h0⟩
  have hubk : I = .UncondBranchInst none → UbNull ((b.C.insert k I).insts k) := by
    intro e
    rw [hkk, e]
    exact ⟨_, h.cur k hk, rfl⟩
  exact {
    pstack := h.pstack
    once := fun i => le_trans (hle i) (h.once i)
    lt := fun i hi => Nat.eq_zero_of_le_zero (le_trans (hle i) (le_of_eq (h.lt i (by simpa using hi))))
    held := fun i hi => by
      show IsOpen ((b.C.insert k I).insts i)
      rw [hne (fun e => n1 (e ▸ hi))]
      exact h.held i hi
    cur := fun i hi => by simp at hi
    pend := fun i hi => by
      show Flushable ((b.C.insert k I).insts i)
      rw [hne (fun e => n2 (e ▸ hi))]
      exact h.pend i hi
    brk := fun i hi => by
      show UbNull ((b.C.insert k I).insts i)
      rcases hmemK i hi with ⟨rfl, e⟩ | ⟨hik', hi'⟩
      · rcases hd with ⟨_, e1, _⟩ | ⟨e0, _, _⟩ | ⟨_, e1, _⟩
        · rw [e1] at e; cases e
        · exact hubk e0
        · rw [e1] at e; cases e
      · rw [hne hik']
        exact h.brk i hi'
    cont := fun i hi => by
      show UbNull ((b.C.insert k I).insts i)
      rcases hmemN i hi with ⟨rfl, e⟩ | ⟨hik', hi'⟩
      · rcases hd with ⟨_, _, e1⟩ | ⟨_, _, e1⟩ | ⟨e0, _, _⟩
        · rw [e1] at e; cases e
        · rw [e1] at e; cases e
        · exact hubk e0
      · rw [hne hik']
        exact h.cont i hi'
    rest := fun i hi hc => by
      show Closed ((b.C.insert k I).insts i)
      by_cases hik' : i = k
      · subst hik'
        rw [hkk]
        refine ⟨_, I, h.cur i hk, ?_, rfl⟩
        rcases hd with ⟨e, _, _⟩ | ⟨_, e1, e2⟩ | ⟨_, e1, e2⟩
        · exact e
        · simp [ownerCount, hK, hN, e1, e2] at hc
        · simp [ownerCount, hK, hN, e1, e2] at hc
      · rw [hne hik']
        apply h.rest i (by simpa using hi)
        have hk1 := hK i
        have hk2 := hN i
        rw [hik hik'] at hk1 hk2
        simp only [ite_self, Nat.add_zero] at hk1 hk2
        simp only [ownerCount, hk1, hk2, Option.toList, List.count_nil] at hc
        simp only [ownerCount, hk, count_toList_some, hik hik']
        omega
    tgt := fun i j hj => by
      have hj' : j ∈ succs ((b.C.insert k I).insts i) := hj
      rw [hsuccs] at hj'
      simpa using h.tgt i j hj'
    dual := fun i j => by
      show j ∈ succs ((b.C.insert k I).insts i) ↔ i ∈ (b.C.insert k I).preds j
      rw [hsuccs, preds_insert]
      exact h.dual i j
    loops := fun r hr => by
      refine (h.loops r hr).frame ?_ (fun L hL _ => ⟨L, hL, fun _ hx => hx⟩)
      intro i pre t e ht _
      apply hne
      rintro rfl
      exact (h.cur _ hk).ne_concat ht e }

theorem UbNull.isFlushable {l : List Instruction} (h : UbNull l) : Flushable l := Or.inr (Or.inl h)

theorem IsOpen.flushable {l : List Instruction} (h : IsOpen l) : Flushable l := Or.inl h

/-- Moving blocks between the stacks, the active block and the local variables keeps the
invariant, when the graph is unchanged and every block moves to a place that accepts its
state. -/
theorem Inv.restack {H H' : List Nat} {Lg : List LoopRecord} {b b' : Builder}
    (h : Inv H Lg b) (hC : b'.C = b.C) (hps : b'.PendingMergesStack ≠ [])
    (hcount : ∀ i, ownerCount H' b' i = ownerCount H b i)
    (hheld : ∀ i ∈ H', i ∈ H ∨ b.Block = some i)
    (hcur : ∀ i, b'.Block = some i → i ∈ H ∨ b.Block = some i)
    (hbrk : ∀ i ∈ b'.BreakStack.flatten, i ∈ b.BreakStack.flatten ∨ i ∈ b.ContinueStack.flatten)
    (hcont : ∀ i ∈ b'.ContinueStack.flatten,
      i ∈ b.BreakStack.flatten ∨ i ∈ b.ContinueStack.flatten)
    (hP : ∀ L ∈ b.PendingMergesStack, L ≠ [] → ∃ L' ∈ b'.PendingMergesStack, L ⊆ L') :
    Inv H' Lg b' where
  pstack := hps
  once i := by rw [hcount]; exact h.once i
  lt i hi := by rw [hcount]; exact h.lt i (by rwa [hC] at hi)
  held i hi := by
    rw [hC]
    rcases hheld i hi with h1 | h1
    · exact h.held i h1
    · exact h.cur i h1
  cur i hi := by
    rw [hC]
    rcases hcur i hi with h1 | h1
    · exact h.held i h1
    · exact h.cur i h1
  pend i hi := by
    rw [hC]
    have h0 : 0 < ownerCount H b i := by
      rw [← hcount]
      have := List.count_pos_iff.2 hi
      simp only [ownerCount]
      omega
    simp only [ownerCount] at h0
    by_cases h1 : i ∈ H
    · exact (h.held i h1).flushable
    by_cases h2 : b.Block = some i
    · exact (h.cur i h2).flushable
    by_cases h3 : i ∈ b.PendingMergesStack.flatten
    · exact h.pend i h3
    by_cases h4 : i ∈ b.BreakStack.flatten
    · exact (h.brk i h4).isFlushable
    by_cases h5 : i ∈ b.ContinueStack.flatten
    · exact (h.cont i h5).isFlushable
    exfalso
    have e1 := List.count_eq_zero.2 h1
    have e3 := List.count_eq_zero.2 h3
    have e4 := List.count_eq_zero.2 h4
    have e5 := List.count_eq_zero.2 h5
    have e2 : b.Block.toList.count i = 0 := by
      cases hb : b.Block with
      | none => rfl
      | some k =>
        have : k ≠ i := fun e => h2 (by rw [hb, e])
        simp [List.count_singleton, this]
    omega
  brk i hi := by
    rw [hC]
    rcases hbrk i hi with h1 | h1
    · exact h.brk i h1
    · exact h.cont i h1
  cont i hi := by
    rw [hC]
    rcases hcont i hi with h1 | h1
    · exact h.brk i h1
    · exact h.cont i h1
  rest i hi hc := by
    rw [hC]
    exact h.rest i (by rwa [hC] at hi) (by rwa [hcount] at hc)
  tgt i j hj := by rw [hC] at hj ⊢; exact h.tgt i j hj
  dual i j := by rw [hC]; exact h.dual i j
  loops r hr := by rw [hC]; exact (h.loops r hr).regroup hP

theorem Inv.pushBreak {H : List Nat} {Lg : List LoopRecord} {b : Builder} (h : Inv H Lg b) :
    Inv H Lg { b with BreakStack := [] :: b.BreakStack } :=
  h.restack rfl h.pstack (fun i => by simp [ownerCount]) (fun i hi => Or.inl hi)
    (fun i hi => Or.inr hi) (fun i hi => Or.inl (by simpa using hi)) (fun i hi => Or.inr hi)
    (fun L hL _ => ⟨L, hL, fun _ hx => hx⟩)

theorem Inv.pushContinue {H : List Nat} {Lg : List LoopRecord} {b : Builder} (h : Inv H Lg b) :
    Inv H Lg { b with ContinueStack := [] :: b.ContinueStack } :=
  h.restack rfl h.pstack (fun i => by simp [ownerCount]) (fun i hi => Or.inl hi)
    (fun i hi => Or.inr hi) (fun i hi => Or.inl hi) (fun i hi => Or.inr (by simpa using hi))
    (fun L hL _ => ⟨L, hL, fun _ hx => hx⟩)

theorem Inv.pushPending {H : List Nat} {Lg : List LoopRecord} {b : Builder} (h : Inv H Lg b) :
    Inv H Lg { b with PendingMergesStack := [] :: b.PendingMergesStack } :=
  h.restack rfl (by simp) (fun i => by simp [ownerCount]) (fun i hi => Or.inl hi)
    (fun i hi => Or.inr hi) (fun i hi => Or.inl hi) (fun i hi => Or.inr hi)
    (fun L hL _ => ⟨L, List.mem_cons_of_mem _ hL, fun _ hx => hx⟩)

theorem Inv.popPending {H : List Nat} {Lg : List LoopRecord} {b : Builder} (h : Inv H Lg b)
    {rest : List BlocksVector} (hP : b.PendingMergesStack = [] :: rest) (hr : rest ≠ []) :
    Inv H Lg { b with PendingMergesStack := b.PendingMergesStack.tail } :=
  h.restack rfl (by simpa [hP] using hr) (fun i => by simp [ownerCount, hP])
    (fun i hi => Or.inl hi) (fun i hi => Or.inr hi) (fun i hi => Or.inl hi)
    (fun i hi => Or.inr hi)
    (fun L hL hne => by
      rw [hP] at hL
      rcases List.mem_cons.1 hL with rfl | hL
      · exact absurd rfl hne
      · exact ⟨L, by simpa [hP] using hL, fun _ hx => hx⟩)

theorem addCurrentBlockToPending_inv {H : List Nat} {Lg : List LoopRecord} {b : Builder}
    (h : Inv H Lg b) :
    ∃ b', addCurrentBlockToPending b = .ok b' ∧ Inv H Lg b' ∧ b'.Block = none ∧ b'.C = b.C ∧
      b'.BreakStack = b.BreakStack ∧ b'.ContinueStack = b.ContinueStack ∧
      b'.badCFG = b.badCFG ∧
      b'.PendingMergesStack.length = b.PendingMergesStack.length ∧
      b'.PendingMergesStack.tail = b.PendingMergesStack.tail ∧
      (∀ i ∈ b'.PendingMergesStack.head?.getD [],
        i ∈ b.PendingMergesStack.head?.getD [] ∨ b.Block = some i) := by
  cases hB : b.Block with
  | none =>
    refine ⟨{ b with Block := none }, by simp [addCurrentBlockToPending, hB], ?_, rfl, rfl, rfl,
      rfl, rfl, rfl, rfl, fun i hi => Or.inl hi⟩
    exact h.congr rfl rfl rfl (by simp [hB]) rfl
  | some k =>
    obtain ⟨top, rest, hP⟩ := List.exists_cons_of_ne_nil h.pstack
    refine ⟨{ b with PendingMergesStack := (top ++ [k]) :: rest, Block := none }, ?_, ?_, rfl,
      rfl, rfl, rfl, rfl, by simp [hP], by simp [hP], ?_⟩
    · simp [addCurrentBlockToPending, hB, hasTerminator_of_isOpen (h.cur k hB),
        pendingMergesPush, hP, bind, Except.bind]
    · refine h.restack rfl (by simp) (fun i => ?_) (fun i hi => Or.inl hi)
        (fun i hi => by simp at hi) (fun i hi => Or.inl hi) (fun i hi => Or.inr hi) ?_
      · simp only [ownerCount, hP, hB, count_toList_some, List.flatten_cons, List.count_append,
          Option.toList, List.count_nil]
        omega
      · intro L hL _
        rw [hP] at hL
        rcases List.mem_cons.1 hL with rfl | hL
        · exact ⟨L ++ [k], by simp, by simp⟩
        · exact ⟨L, by simp [hL], fun _ hx => hx⟩
    · intro i hi
      simp only [List.head?_cons, Option.getD_some, List.mem_append, List.mem_singleton] at hi
      rcases hi with hi | rfl
      · left; simp [hP, hi]
      · right; rfl

theorem createFreshBlock_eq (b : Builder) :
    createFreshBlock b = (b.C.size, { b with Block := some b.C.size, C := b.C.newBlock.2 }) := rfl

/-- A new block made active keeps the invariant, when no block was active. -/
theorem Inv.newBlock {H : List Nat} {Lg : List LoopRecord} {b : Builder} (h : Inv H Lg b)
    (hB : b.Block = none) :
    Inv H Lg { b with Block := some b.C.size, C := b.C.newBlock.2 } where
  pstack := h.pstack
  once i := by
    by_cases hi : i = b.C.size
    · subst hi
      have := h.lt _ (le_refl _)
      simp only [ownerCount, hB, Option.toList, List.count_nil] at this
      simp only [ownerCount, count_toList_some]
      simp
      omega
    · have := h.once i
      simp only [ownerCount, hB, Option.toList, List.count_nil] at this
      simp only [ownerCount, count_toList_some, List.count_singleton]
      simp [Ne.symm hi]
      omega
  lt i hi := by
    simp only [size_newBlock] at hi
    have := h.lt i (by omega)
    simp only [ownerCount, hB, Option.toList, List.count_nil] at this
    simp only [ownerCount, count_toList_some, List.count_singleton]
    have : b.C.size ≠ i := by omega
    simp [this]
    omega
  held i hi := by simpa using h.held i hi
  cur i hi := by
    simp only [Option.some.injEq] at hi
    subst hi
    simp only [insts_newBlock]
    rw [insts_of_size_le _ _ (le_refl _)]
    exact IsOpen.nil
  pend i hi := by simpa using h.pend i hi
  brk i hi := by simpa using h.brk i hi
  cont i hi := by simpa using h.cont i hi
  rest i hi hc := by
    simp only [insts_newBlock]
    by_cases hin : i = b.C.size
    · subst hin
      simp [ownerCount] at hc
    · simp only [size_newBlock] at hi
      apply h.rest i (by omega)
      simp only [ownerCount, count_toList_some, List.count_singleton] at hc
      simp only [ownerCount, hB, Option.toList, List.count_nil]
      simp [Ne.symm hin] at hc
      omega
  tgt i j hj := by
    simp only [insts_newBlock] at hj
    simp only [size_newBlock]
    exact Nat.lt_succ_of_lt (h.tgt i j hj)
  dual i j := by simpa using h.dual i j
  loops r hr := (h.loops r hr).frame (fun _ _ _ _ _ _ => by simp)
    (fun L hL _ => ⟨L, hL, fun _ hx => hx⟩)

theorem Flushable.not_resolved {pre : List Instruction} {t : Instruction}
    (h : Flushable (pre ++ [t])) : t.resolved = false := by
  rcases h with h | ⟨p, _, e⟩ | ⟨p, c, t1, _, e⟩
  · by_contra hr
    simp only [Bool.not_eq_false] at hr
    exact h.ne_concat (isTerm_of_resolved hr) rfl
  · rw [(concat_inj e).2]; rfl
  · rw [(concat_inj e).2]; rfl

/-- Flushing the innermost pending list keeps the closed loops settled. -/
theorem LoopRecord.Settled.flush {r : LoopRecord} {C C' : CFG} {top : BlocksVector}
    {rest : List BlocksVector} {t : Nat} (h : r.Settled C (top :: rest))
    (hI : ∀ i, C'.insts i = if i ∈ top then closeWith t (C.insts i) else C.insts i)
    (hF : ∀ i ∈ top, Flushable (C.insts i)) (hd : ∀ i ∈ top, i ∉ rest.flatten)
    (ht : t ∉ top) : r.Settled C' ([] :: rest) := by
  have keep : ∀ i pre I, C.insts i = pre ++ [I] → I.resolved = true →
      C'.insts i = C.insts i := by
    intro i pre I e hr
    rw [hI, if_neg]
    intro hi
    have := hF i hi
    rw [e] at this
    rw [this.not_resolved] at hr
    cases hr
  obtain ⟨h1, h2⟩ := h
  refine ⟨?_, ?_⟩
  · intro x hx
    obtain ⟨pre, e⟩ := h1 x hx
    exact ⟨pre, by rw [keep x pre _ e rfl, e]⟩
  · rcases h2 with ⟨pre, c, e, L, hL, hc, hb⟩ | ⟨pre, c, t', e, hct, hb⟩
    · rcases List.mem_cons.1 hL with rfl | hL
      · right
        refine ⟨pre, c, t, by rw [hI, if_pos hc, e, closeWith_cb], fun e => ht (e ▸ hc), ?_⟩
        intro x hx
        obtain ⟨hxL, pre', e'⟩ := hb x hx
        exact ⟨fun e => ht (e ▸ hxL), pre', by rw [hI, if_pos hxL, e', closeWith_ub]⟩
      · left
        have hnot : ∀ x ∈ L, x ∉ top := fun x hx hxt =>
          hd x hxt (List.mem_flatten.2 ⟨L, hL, hx⟩)
        refine ⟨pre, c, by rw [hI, if_neg (hnot _ hc), e], L, List.mem_cons_of_mem _ hL, hc, ?_⟩
        intro x hx
        obtain ⟨hxL, pre', e'⟩ := hb x hx
        exact ⟨hxL, pre', by rw [hI, if_neg (hnot _ hxL), e']⟩
    · right
      refine ⟨pre, c, t', by rw [keep _ pre _ e rfl, e], hct, ?_⟩
      intro x hx
      obtain ⟨hxt, pre', e'⟩ := hb x hx
      exact ⟨hxt, pre', by rw [keep x pre' _ e' rfl, e']⟩

/-- Closing every block of a list `L` taken off the stacks, with an edge to `t`, keeps the
invariant. -/
theorem Inv.flushList {H : List Nat} {Lg : List LoopRecord} {b : Builder} (h : Inv H Lg b)
    (L : List Nat) (t : Nat) (P' K' N' : List BlocksVector) (C' : CFG)
    (hps : P' ≠ []) (ht : t < b.C.size) (htL : t ∉ L)
    (hF : ∀ p ∈ L, Flushable (b.C.insts p))
    (hcount : ∀ i, ownerCount H ({ b with PendingMergesStack := P', BreakStack := K', ContinueStack := N', C := C' } : Builder) i + L.count i = ownerCount H b i)
    (hP : ∀ i ∈ P'.flatten, i ∈ b.PendingMergesStack.flatten)
    (hK : ∀ i ∈ K'.flatten, i ∈ b.BreakStack.flatten)
    (hN : ∀ i ∈ N'.flatten, i ∈ b.ContinueStack.flatten)
    (hsz : C'.size = b.C.size)
    (hI : ∀ i, C'.insts i = if i ∈ L then closeWith t (b.C.insts i) else b.C.insts i)
    (hpr : ∀ i j, j ∈ C'.preds i ↔ j ∈ b.C.preds i ∨ (i = t ∧ j ∈ L))
    (hloops : ∀ r ∈ Lg, r.Settled C' P') :
    Inv H Lg { b with PendingMergesStack := P', BreakStack := K', ContinueStack := N',
                      C := C' } := by
  have hnot : ∀ i, 0 < ownerCount H ({ b with PendingMergesStack := P', BreakStack := K', ContinueStack := N', C := C' } : Builder) i → i ∉ L := by
    intro i h0 hi
    have := hcount i
    have := h.once i
    have := List.count_pos_iff.2 hi
    omega
  have hsame : ∀ i, 0 < ownerCount H ({ b with PendingMergesStack := P', BreakStack := K', ContinueStack := N', C := C' } : Builder) i → C'.insts i = b.C.insts i := by
    intro i h0
    rw [hI, if_neg (hnot i h0)]
  exact {
    pstack := hps
    once := fun i => by
      have := hcount i
      have := h.once i
      omega
    lt := fun i hi => by
      have := hcount i
      have := h.lt i (by simpa [hsz] using hi)
      omega
    held := fun i hi => by
      show IsOpen (C'.insts i)
      rw [hsame i (by have := List.count_pos_iff.2 hi; simp only [ownerCount]; omega)]
      exact h.held i hi
    cur := fun i hi => by
      show IsOpen (C'.insts i)
      have hi' : b.Block = some i := hi
      rw [hsame i (by simp only [ownerCount, hi', count_toList_some]; simp)]
      exact h.cur i hi
    pend := fun i hi => by
      show Flushable (C'.insts i)
      have hi' : i ∈ P'.flatten := hi
      rw [hsame i (by have := List.count_pos_iff.2 hi'; simp only [ownerCount]; omega)]
      exact h.pend i (hP i hi')
    brk := fun i hi => by
      show UbNull (C'.insts i)
      have hi' : i ∈ K'.flatten := hi
      rw [hsame i (by have := List.count_pos_iff.2 hi'; simp only [ownerCount]; omega)]
      exact h.brk i (hK i hi')
    cont := fun i hi => by
      show UbNull (C'.insts i)
      have hi' : i ∈ N'.flatten := hi
      rw [hsame i (by have := List.count_pos_iff.2 hi'; simp only [ownerCount]; omega)]
      exact h.cont i (hN i hi')
    rest := fun i hi hc => by
      show Closed (C'.insts i)
      rw [hI]
      by_cases hiL : i ∈ L
      · rw [if_pos hiL]
        exact (hF i hiL).closed t
      · rw [if_neg hiL]
        apply h.rest i (by simpa [hsz] using hi)
        have := hcount i
        have := List.count_eq_zero.2 hiL
        omega
    tgt := fun i j hj => by
      show j < C'.size
      have hj' : j ∈ succs (C'.insts i) := hj
      rw [hsz]
      rw [hI] at hj'
      by_cases hiL : i ∈ L
      · rw [if_pos hiL, (hF i hiL).mem_succs_closeWith] at hj'
        rcases hj' with hj' | rfl
        · exact h.tgt i j hj'
        · exact ht
      · rw [if_neg hiL] at hj'
        exact h.tgt i j hj'
    dual := fun i j => by
      show j ∈ succs (C'.insts i) ↔ i ∈ C'.preds j
      rw [hpr, hI]
      by_cases hiL : i ∈ L
      · rw [if_pos hiL, (hF i hiL).mem_succs_closeWith, h.dual i j]
        simp [hiL]
      · rw [if_neg hiL, h.dual i j]
        simp [hiL]
    loops := hloops }

theorem Inv.lt_of_pos {H : List Nat} {Lg : List LoopRecord} {b : Builder} (h : Inv H Lg b)
    {i : Nat} (hi : 0 < ownerCount H b i) : i < b.C.size := by
  by_contra hlt
  have := h.lt i (Nat.le_of_not_lt hlt)
  omega

theorem flushPending_inv {H : List Nat} {Lg : List LoopRecord} {b : Builder} {t : Nat}
    (h : Inv H Lg b) (hown : t ∈ H ∨ b.Block = some t) :
    ∃ b', flushPending t b = .ok b' ∧ Inv H Lg b' ∧ b'.Block = b.Block ∧
      b'.BreakStack = b.BreakStack ∧ b'.ContinueStack = b.ContinueStack ∧
      b'.badCFG = b.badCFG ∧ b'.PendingMergesStack = [] :: b.PendingMergesStack.tail ∧
      b'.C.size = b.C.size ∧
      (∀ i, b'.C.insts i = if i ∈ b.PendingMergesStack.head?.getD [] then
        closeWith t (b.C.insts i) else b.C.insts i) := by
  obtain ⟨top, rest, hP⟩ := List.exists_cons_of_ne_nil h.pstack
  have hcnt : ∀ i, ownerCount H b i = H.count i + b.Block.toList.count i +
      (top.count i + rest.flatten.count i) + b.BreakStack.flatten.count i +
      b.ContinueStack.flatten.count i := by
    intro i
    simp only [ownerCount, hP, List.flatten_cons, List.count_append]
  have htpos : 0 < H.count t + b.Block.toList.count t := by
    rcases hown with h1 | h1
    · have := List.count_pos_iff.2 h1
      omega
    · rw [h1, count_toList_some]
      simp
  have ht : t < b.C.size := h.lt_of_pos (by rw [hcnt]; omega)
  have htL : t ∉ top := by
    intro hc
    have := List.count_pos_iff.2 hc
    have := h.once t
    rw [hcnt] at this
    omega
  have hnd : top.Nodup := List.nodup_iff_count_le_one.2 (fun i => by
    have := h.once i
    rw [hcnt] at this
    omega)
  have hF : ∀ p ∈ top, Flushable (b.C.insts p) := fun p hp =>
    h.pend p (by rw [hP]; simp [hp])
  have hlt : ∀ p ∈ top, p < b.C.size ∧ Flushable (b.C.insts p) := fun p hp =>
    ⟨h.lt_of_pos (by rw [hcnt]; have := List.count_pos_iff.2 hp; omega), hF p hp⟩
  obtain ⟨C', e, hsz, hI, hpr⟩ := flushLoop_ok t top b.C hnd ht hlt
  refine ⟨{ b with PendingMergesStack := [] :: rest, C := C' }, ?_, ?_, rfl, rfl, rfl, rfl,
    by simp [hP], hsz, by simpa [hP] using hI⟩
  · simp [flushPending, hP, e, bind, Except.bind]
  · refine h.flushList top t ([] :: rest) b.BreakStack b.ContinueStack C' (by simp) ht htL hF
      ?_ ?_ (fun i hi => hi) (fun i hi => hi) hsz hI hpr ?_
    · intro i
      rw [hcnt]
      simp only [ownerCount, List.flatten_cons, List.count_append, List.count_nil]
      omega
    · intro i hi
      rw [hP]
      simp only [List.flatten_cons, List.nil_append] at hi
      simp [hi]
    · intro r hr
      have hs := h.loops r hr
      rw [hP] at hs
      refine hs.flush hI hF ?_ htL
      intro i hi hir
      have := h.once i
      rw [hcnt] at this
      have := List.count_pos_iff.2 hi
      have := List.count_pos_iff.2 hir
      omega

theorem currentBlock_inv {H : List Nat} {Lg : List LoopRecord} {b : Builder}
    (h : Inv H Lg b) :
    ∃ k b', currentBlock b = .ok (k, b') ∧ Inv H Lg b' ∧ b'.Block = some k ∧
      b'.BreakStack = b.BreakStack ∧ b'.ContinueStack = b.ContinueStack ∧
      b'.badCFG = b.badCFG ∧
      b'.PendingMergesStack.length = b.PendingMergesStack.length ∧
      b'.PendingMergesStack.tail = b.PendingMergesStack.tail ∧
      b.C.size ≤ b'.C.size ∧
      ((b.Block = some k ∧ b' = b) ∨
       (b.Block = none ∧ k = b.C.size ∧ b'.C.size = b.C.size + 1 ∧
        b'.PendingMergesStack = [] :: b.PendingMergesStack.tail ∧
        ∀ i, b'.C.insts i = if i ∈ b.PendingMergesStack.head?.getD [] then
          closeWith k (b.C.insts i) else b.C.insts i)) := by
  cases hB : b.Block with
  | some k =>
    exact ⟨k, b, by simp [currentBlock, hB], h, hB, rfl, rfl, rfl, rfl, rfl, le_refl _,
      Or.inl ⟨rfl, rfl⟩⟩
  | none =>
    have h1 := h.newBlock hB
    obtain ⟨b', e, hI, hB', hK, hN, hbad, hP, hsz, hins⟩ :=
      flushPending_inv (t := b.C.size) h1 (Or.inr rfl)
    obtain ⟨top, rest, hPb⟩ := List.exists_cons_of_ne_nil h.pstack
    refine ⟨b.C.size, b', ?_, hI, hB', hK, hN, hbad, ?_, ?_, ?_, Or.inr ⟨rfl, rfl, ?_, hP, ?_⟩⟩
    · simp only [currentBlock, hB, fst_newBlock, bind, Except.bind]
      rw [e]
    · rw [hP]; simp [hPb]
    · rw [hP]; simp
    · rw [hsz]; simp
    · rw [hsz]; simp
    · intro i
      rw [hins]
      simp

/-! ## Popping the scopes of a loop -/

theorem rebindLoop_eq_flushLoop (t : Nat) : ∀ (L : List Nat) (C : CFG), L.Nodup → t < C.size →
    (∀ p ∈ L, p < C.size ∧ UbNull (C.insts p)) → rebindLoop t L C = flushLoop t L C
  | [], _, _, _, _ => rfl
  | p :: L, C, hnd, ht, hL => by
    obtain ⟨hpL, hnd'⟩ := List.nodup_cons.1 hnd
    obtain ⟨hp, pre, hpre, e⟩ := hL p (by simp)
    obtain ⟨C1, e1, hs1, hi1, _⟩ := flushOne_ok C t p hp ht (UbNull.isFlushable ⟨pre, hpre, e⟩)
    have e2 : rebindContinue t p C = .ok C1 := by
      rw [← e1]
      simp [rebindContinue, flushOne, getLast_block, e, hasTerminator_of_concat e,
        Instruction.isTermInst]
    have hL1 : ∀ q ∈ L, q < C1.size ∧ UbNull (C1.insts q) := by
      intro q hq
      have hqp : q ≠ p := fun h => hpL (h ▸ hq)
      have := hL q (by simp [hq])
      rw [hs1, hi1, if_neg hqp]
      exact this
    simp only [rebindLoop, flushLoop, e1, e2, bind, Except.bind]
    exact rebindLoop_eq_flushLoop t L C1 hnd' (by rw [hs1]; exact ht) hL1

theorem popContinueStack_inv {H : List Nat} {Lg : List LoopRecord} {b : Builder} {t : Nat}
    {ntop : BlocksVector} {nrest : List BlocksVector}
    (h : Inv H Lg b) (hown : t ∈ H ∨ b.Block = some t) (hN : b.ContinueStack = ntop :: nrest) :
    ∃ b', popContinueStack b.ContinueStack.length t b = .ok b' ∧ Inv H Lg b' ∧
      b'.PendingMergesStack = b.PendingMergesStack ∧ b'.BreakStack = b.BreakStack ∧
      b'.ContinueStack = nrest ∧ b'.Block = b.Block ∧ b'.badCFG = b.badCFG ∧
      b'.C.size = b.C.size ∧
      (∀ i, b'.C.insts i = if i ∈ ntop then closeWith t (b.C.insts i) else b.C.insts i) := by
  have hcnt : ∀ i, ownerCount H b i = H.count i + b.Block.toList.count i +
      b.PendingMergesStack.flatten.count i + b.BreakStack.flatten.count i +
      (ntop.count i + nrest.flatten.count i) := by
    intro i
    simp only [ownerCount, hN, List.flatten_cons, List.count_append]
  have htpos : 0 < H.count t + b.Block.toList.count t := by
    rcases hown with h1 | h1
    · have := List.count_pos_iff.2 h1
      omega
    · rw [h1, count_toList_some]
      simp
  have ht : t < b.C.size := h.lt_of_pos (by rw [hcnt]; omega)
  have htL : t ∉ ntop := by
    intro hc
    have := List.count_pos_iff.2 hc
    have := h.once t
    rw [hcnt] at this
    omega
  have hnd : ntop.Nodup := List.nodup_iff_count_le_one.2 (fun i => by
    have := h.once i
    rw [hcnt] at this
    omega)
  have hU : ∀ p ∈ ntop, UbNull (b.C.insts p) := fun p hp =>
    h.cont p (by rw [hN]; simp [hp])
  have hltp : ∀ p ∈ ntop, p < b.C.size := fun p hp =>
    h.lt_of_pos (by rw [hcnt]; have := List.count_pos_iff.2 hp; omega)
  obtain ⟨C', e, hsz, hI, hpr⟩ := flushLoop_ok t ntop b.C hnd ht
    (fun p hp => ⟨hltp p hp, (hU p hp).isFlushable⟩)
  refine ⟨{ b with C := C', ContinueStack := nrest }, ?_, ?_, rfl, rfl, rfl, rfl, rfl, hsz, hI⟩
  · simp only [popContinueStack, hN, ne_eq, not_true_eq_false, if_false,
      rebindLoop_eq_flushLoop t ntop b.C hnd ht (fun p hp => ⟨hltp p hp, hU p hp⟩), e, bind,
      Except.bind]
  · refine h.flushList ntop t b.PendingMergesStack b.BreakStack nrest C' h.pstack ht htL
      (fun p hp => (hU p hp).isFlushable) ?_ (fun i hi => hi) (fun i hi => hi) ?_ hsz hI hpr ?_
    · intro i
      rw [hcnt]
      simp only [ownerCount]
      omega
    · intro i hi
      rw [hN]
      simp [hi]
    · intro r hr
      refine (h.loops r hr).frame ?_ (fun L hL _ => ⟨L, hL, fun _ hx => hx⟩)
      intro i pre I e' _ hor
      rw [hI, if_neg]
      intro hi
      obtain ⟨pre', _, e''⟩ := hU i hi
      rw [e'] at e''
      rcases hor with hne | hmem
      · exact hne (concat_inj e'').2
      · have := h.once i
        rw [hcnt] at this
        have := List.count_pos_iff.2 hi
        have := List.count_pos_iff.2 hmem
        omega

theorem popBreakStack_inv {H : List Nat} {Lg : List LoopRecord} {b : Builder}
    {ktop top : BlocksVector} {krest rest : List BlocksVector}
    (h : Inv H Lg b) (hK : b.BreakStack = ktop :: krest)
    (hP : b.PendingMergesStack = top :: rest) :
    ∃ b', popBreakStack b.BreakStack.length b = .ok b' ∧ Inv H Lg b' ∧
      b'.PendingMergesStack = (top ++ ktop) :: rest ∧ b'.BreakStack = krest ∧
      b'.ContinueStack = b.ContinueStack ∧ b'.Block = b.Block ∧ b'.badCFG = b.badCFG ∧
      b'.C = b.C := by
  refine ⟨{ b with PendingMergesStack := (top ++ ktop) :: rest, BreakStack := krest },
    by simp [popBreakStack, hK, hP], ?_, rfl, rfl, rfl, rfl, rfl, rfl⟩
  refine h.restack rfl (by simp) (fun i => ?_) (fun i hi => Or.inl hi) (fun i hi => Or.inr hi)
    (fun i hi => Or.inl (by rw [hK]; simp only [List.flatten_cons, List.mem_append]; exact Or.inr hi))
    (fun i hi => Or.inr hi) ?_
  · simp only [ownerCount, hK, hP, List.flatten_cons, List.count_append]
    omega
  · intro L hL _
    rw [hP] at hL
    rcases List.mem_cons.1 hL with rfl | hL
    · exact ⟨L ++ ktop, by simp, by simp⟩
    · exact ⟨L, by simp [hL], fun _ hx => hx⟩

theorem Inv.addRecord {H : List Nat} {Lg : List LoopRecord} {b : Builder} (h : Inv H Lg b)
    {r : LoopRecord} (hr : r.Settled b.C b.PendingMergesStack) : Inv H (Lg ++ [r]) b :=
  { h with
    loops := fun r' hr' => by
      rcases List.mem_append.1 hr' with h1 | h1
      · exact h.loops r' h1
      · rw [List.mem_singleton.1 h1]
        exact hr }

theorem Inv.moreRecords {H : List Nat} {Lg Lg' : List LoopRecord} {b : Builder}
    (h : Inv H Lg b) (hr : ∀ r ∈ Lg', r.Settled b.C b.PendingMergesStack) : Inv H Lg' b :=
  { h with loops := hr }

/-! ## The conditional branch of an `if` or a loop -/

theorem newCondBranchInst_size (C : CFG) (c : CFGValue) (T1 T2 : Option Nat) (k : Nat) :
    (C.newCondBranchInst c T1 T2 k).size = C.size := by
  cases T1 <;> cases T2 <;> simp [CFG.newCondBranchInst, CFG.addPredOpt]

theorem newCondBranchInst_insts (C : CFG) (c : CFGValue) (T1 T2 : Option Nat) (k : Nat)
    (hk : k < C.size) (i : Nat) :
    (C.newCondBranchInst c T1 T2 k).insts i =
      if i = k then C.insts k ++ [.CondBranchInst c T1 T2] else C.insts i := by
  cases T1 <;> cases T2 <;>
    simp [CFG.newCondBranchInst, CFG.addPredOpt, insts_insert _ _ _ _ hk]

theorem mem_preds_addPred (C : CFG) (t p i j : Nat) (ht : t < C.size) :
    j ∈ (C.addPred t p).preds i ↔ j ∈ C.preds i ∨ (i = t ∧ j = p) := by
  rw [preds_addPred _ _ _ _ ht]
  by_cases hi : i = t
  · subst hi; simp
  · simp [hi]

theorem newCondBranchInst_preds (C : CFG) (c : CFGValue) (T1 : Nat) (T2 : Option Nat) (k : Nat)
    (hT1 : T1 < C.size) (hT2 : ∀ t ∈ T2, t < C.size) (i j : Nat) :
    j ∈ (C.newCondBranchInst c (some T1) T2 k).preds i ↔
      j ∈ C.preds i ∨ (j = k ∧ i ∈ (Instruction.CondBranchInst c (some T1) T2).targets) := by
  cases T2 with
  | none =>
    simp only [CFG.newCondBranchInst, CFG.addPredOpt, Instruction.targets, Option.toList,
      List.append_nil, List.mem_singleton]
    rw [mem_preds_addPred _ _ _ _ _ (by simpa using hT1)]
    simp only [preds_insert]
    tauto
  | some T2 =>
    have hT2' : T2 < C.size := hT2 T2 rfl
    simp only [CFG.newCondBranchInst, CFG.addPredOpt, Instruction.targets, Option.toList]
    rw [mem_preds_addPred _ _ _ _ _ (by simpa using hT2'),
      mem_preds_addPred _ _ _ _ _ (by simpa using hT1)]
    simp only [preds_insert, List.mem_append, List.mem_singleton, List.mem_cons,
      List.not_mem_nil, or_false]
    tauto

/-- The conditional branch appended to a held block `k` keeps the invariant, when the block
is released with both targets set, or queued on the innermost pending list (`dP`) with the
second target unset. -/
theorem Inv.condBranch {H : List Nat} {Lg : List LoopRecord} {b : Builder} {k : Nat}
    (h : Inv (k :: H) Lg b) (c : CFGValue) (T1 : Nat) (T2 : Option Nat)
    (hT1 : T1 < b.C.size) (hT2 : ∀ t ∈ T2, t < b.C.size) (P' : List BlocksVector) (dP : Bool)
    (hPne : P' ≠ [])
    (hPcount : ∀ i, P'.flatten.count i = b.PendingMergesStack.flatten.count i +
      (if dP = true then [k].count i else 0))
    (hPsub : ∀ L ∈ b.PendingMergesStack, L ≠ [] → ∃ L' ∈ P', L ⊆ L')
    (hd : (T2.isSome = true ∧ dP = false) ∨ (T2 = none ∧ dP = true)) :
    Inv H Lg { b with PendingMergesStack := P',
                      C := b.C.newCondBranchInst c (some T1) T2 k } := by
  have hkc : [k].count k = 1 := by simp
  have hik : ∀ {i}, i ≠ k → [k].count i = 0 := fun hi => by
    simp [List.count_singleton, Ne.symm hi]
  have hcnt : ∀ i, ownerCount (k :: H) b i = [k].count i + H.count i + b.Block.toList.count i +
      b.PendingMergesStack.flatten.count i + b.BreakStack.flatten.count i +
      b.ContinueStack.flatten.count i := by
    intro i
    simp only [ownerCount, List.count_cons, List.count_nil]
    omega
  have hklt : k < b.C.size := h.lt_of_pos (by rw [hcnt, hkc]; omega)
  have hk0 : H.count k + b.Block.toList.count k + b.PendingMergesStack.flatten.count k +
      b.BreakStack.flatten.count k + b.ContinueStack.flatten.count k = 0 := by
    have := h.once k
    rw [hcnt, hkc] at this
    omega
  have hkopen : IsOpen (b.C.insts k) := h.held k (by simp)
  have hins := newCondBranchInst_insts b.C c (some T1) T2 k hklt
  have hne : ∀ {i}, i ≠ k → (b.C.newCondBranchInst c (some T1) T2 k).insts i = b.C.insts i :=
    fun hi => by rw [hins, if_neg hi]
  have hkk : (b.C.newCondBranchInst c (some T1) T2 k).insts k =
      b.C.insts k ++ [.CondBranchInst c (some T1) T2] := by rw [hins, if_pos rfl]
  have hsz := newCondBranchInst_size b.C c (some T1) T2 k
  have hnek : ∀ i, 0 < H.count i + b.Block.toList.count i + b.PendingMergesStack.flatten.count i +
      b.BreakStack.flatten.count i + b.ContinueStack.flatten.count i → i ≠ k := by
    rintro i h0 rfl
    omega
  have hle : ∀ i, ownerCount H ({ b with PendingMergesStack := P', C := b.C.newCondBranchInst c (some T1) T2 k } : Builder) i ≤ ownerCount (k :: H) b i := by
    intro i
    rw [hcnt]
    simp only [ownerCount, hPcount]
    split <;> omega
  exact {
    pstack := hPne
    once := fun i => le_trans (hle i) (h.once i)
    lt := fun i hi => Nat.eq_zero_of_le_zero
      (le_trans (hle i) (le_of_eq (h.lt i (by simpa [hsz] using hi))))
    held := fun i hi => by
      show IsOpen ((b.C.newCondBranchInst c (some T1) T2 k).insts i)
      rw [hne (hnek i (by have := List.count_pos_iff.2 hi; omega))]
      exact h.held i (by simp [hi])
    cur := fun i hi => by
      show IsOpen ((b.C.newCondBranchInst c (some T1) T2 k).insts i)
      have hi' : b.Block = some i := hi
      rw [hne (hnek i (by rw [hi', count_toList_some]; simp))]
      exact h.cur i hi
    pend := fun i hi => by
      show Flushable ((b.C.newCondBranchInst c (some T1) T2 k).insts i)
      have hi' : i ∈ P'.flatten := hi
      have h0 := List.count_pos_iff.2 hi'
      rw [hPcount] at h0
      by_cases hik' : i = k
      · subst hik'
        rw [hkk]
        rcases hd with ⟨_, e⟩ | ⟨e, _⟩
        · rw [e] at h0
          simp only [Bool.false_eq_true, if_false, Nat.add_zero] at h0
          omega
        · rw [e]
          exact Or.inr (Or.inr ⟨_, c, T1, hkopen, rfl⟩)
      · rw [hne hik']
        rw [hik hik'] at h0
        simp only [ite_self, Nat.add_zero] at h0
        exact h.pend i (List.count_pos_iff.1 h0)
    brk := fun i hi => by
      show UbNull ((b.C.newCondBranchInst c (some T1) T2 k).insts i)
      have hi' : i ∈ b.BreakStack.flatten := hi
      rw [hne (hnek i (by have := List.count_pos_iff.2 hi'; omega))]
      exact h.brk i hi
    cont := fun i hi => by
      show UbNull ((b.C.newCondBranchInst c (some T1) T2 k).insts i)
      have hi' : i ∈ b.ContinueStack.flatten := hi
      rw [hne (hnek i (by have := List.count_pos_iff.2 hi'; omega))]
      exact h.cont i hi
    rest := fun i hi hc => by
      show Closed ((b.C.newCondBranchInst c (some T1) T2 k).insts i)
      simp only [ownerCount, hPcount] at hc
      by_cases hik' : i = k
      · subst hik'
        rw [hkk]
        rcases hd with ⟨e, _⟩ | ⟨_, e⟩
        · exact ⟨_, _, hkopen, by simpa [Instruction.resolved] using e, rfl⟩
        · rw [e, hkc] at hc
          simp at hc
      · rw [hne hik']
        apply h.rest i (by simpa [hsz] using hi)
        rw [hcnt, hik hik']
        rw [hik hik'] at hc
        simp only [ite_self, Nat.add_zero] at hc
        omega
    tgt := fun i j hj => by
      show j < (b.C.newCondBranchInst c (some T1) T2 k).size
      have hj' : j ∈ succs ((b.C.newCondBranchInst c (some T1) T2 k).insts i) := hj
      rw [hsz]
      by_cases hik' : i = k
      · subst hik'
        rw [hkk, succs_append, succs_of_isOpen hkopen] at hj'
        simp only [List.nil_append, succs_singleton, Instruction.targets, List.mem_append,
          Option.mem_toList, Option.mem_def, Option.some.injEq] at hj'
        rcases hj' with rfl | hj'
        · exact hT1
        · exact hT2 j hj'
      · rw [hne hik'] at hj'
        exact h.tgt i j hj'
    dual := fun i j => by
      show j ∈ succs ((b.C.newCondBranchInst c (some T1) T2 k).insts i) ↔
        i ∈ (b.C.newCondBranchInst c (some T1) T2 k).preds j
      rw [newCondBranchInst_preds _ _ _ _ _ hT1 hT2]
      by_cases hik' : i = k
      · subst hik'
        rw [hkk, succs_append, succs_singleton, List.mem_append, h.dual]
        simp
      · rw [hne hik', h.dual]
        simp [hik']
    loops := fun r hr => by
      refine (h.loops r hr).frame ?_ hPsub
      intro i pre t e ht _
      apply hne
      rintro rfl
      exact hkopen.ne_concat ht e }

theorem popPending_inv {H : List Nat} {Lg : List LoopRecord} {b : Builder}
    {rest : List BlocksVector} (h : Inv H Lg b) (hP : b.PendingMergesStack = [] :: rest)
    (hr : rest ≠ []) :
    ∃ b', ({ b with PendingMergesStack := b.PendingMergesStack.tail } : Builder) = b' ∧
      Inv H Lg b' ∧ b'.PendingMergesStack = rest ∧ b'.BreakStack = b.BreakStack ∧
      b'.ContinueStack = b.ContinueStack ∧ b'.Block = b.Block ∧ b'.badCFG = b.badCFG ∧
      b'.C = b.C :=
  ⟨_, rfl, h.popPending hP hr, by simp [hP], rfl, rfl, rfl, rfl, rfl⟩

/-- The last two steps of `closeLoop`: the conditional branch of the loop is appended to
the condition block, which is queued. -/
theorem loopBranch_inv {H : List Nat} {Lg : List LoopRecord} {b : Builder} {cond body : Nat}
    {top : BlocksVector} {rest : List BlocksVector}
    (h : Inv (cond :: H) Lg b) (hbody : body < b.C.size)
    (hP : b.PendingMergesStack = top :: rest) :
    ∃ b', pendingMergesPush cond
        { b with C := b.C.newCondBranchInst none (some body) none cond } = .ok b' ∧
      Inv H Lg b' ∧ b'.PendingMergesStack = (top ++ [cond]) :: rest ∧
      b'.BreakStack = b.BreakStack ∧ b'.ContinueStack = b.ContinueStack ∧
      b'.Block = b.Block ∧ b'.badCFG = b.badCFG ∧ b'.C.size = b.C.size ∧
      (∀ i, b'.C.insts i = if i = cond then
        b.C.insts cond ++ [.CondBranchInst none (some body) none] else b.C.insts i) := by
  have hcount : ∀ i, ((top ++ [cond]) :: rest).flatten.count i =
      b.PendingMergesStack.flatten.count i + (if true = true then [cond].count i else 0) := by
    intro i
    simp only [hP, List.flatten_cons, List.count_append, if_true]
    omega
  have hklt : cond < b.C.size := h.lt_of_pos (by simp [ownerCount])
  have I5 := h.condBranch none body none hbody (by simp) ((top ++ [cond]) :: rest) true
    (by simp) hcount
    (by
      intro L hL _
      rw [hP] at hL
      rcases List.mem_cons.1 hL with rfl | hL
      · exact ⟨L ++ [cond], by simp, by simp⟩
      · exact ⟨L, by simp [hL], fun _ hx => hx⟩)
    (Or.inr ⟨rfl, rfl⟩)
  exact ⟨_, by simp [pendingMergesPush, hP], I5, rfl, rfl, rfl, rfl, rfl,
    newCondBranchInst_size _ _ _ _ _, newCondBranchInst_insts _ _ _ _ _ hklt⟩

theorem closeLoop_inv {H : List Nat} {Lg : List LoopRecord} {b : Builder} {cond : Nat}
    (body : Nat)
    {top top2 ktop ntop : BlocksVector} {rest2 krest nrest : List BlocksVector}
    (h : Inv (cond :: H) Lg b) (hbody : body < b.C.size)
    (hP : b.PendingMergesStack = top :: top2 :: rest2) (hK : b.BreakStack = ktop :: krest)
    (hN : b.ContinueStack = ntop :: nrest) :
    ∃ b', closeLoop b.PendingMergesStack.length b.BreakStack.length b.ContinueStack.length
        body cond b = .ok b' ∧
      Inv H (Lg ++ [loopRecord body cond b]) b' ∧ b'.Block = b.Block ∧
      b'.badCFG = b.badCFG ∧ b'.C.size = b.C.size ∧
      b'.PendingMergesStack = (top2 ++ ktop ++ [cond]) :: rest2 ∧
      b'.BreakStack = krest ∧ b'.ContinueStack = nrest := by
  have hcm : cond ∈ cond :: H := by simp
  obtain ⟨b1, e1, I1, B1, K1, N1, bad1, P1, sz1, ins1⟩ := flushPending_inv h (Or.inl hcm)
  rw [hP] at P1
  simp only [List.tail_cons] at P1
  obtain ⟨b2, e2, I2, P2, K2, N2, B2, bad2, C2⟩ := popPending_inv I1 P1 (by simp)
  rw [K1, hK] at K2
  rw [N1, hN] at N2
  obtain ⟨b3, e3, I3, P3, K3, N3, B3, bad3, C3⟩ := popBreakStack_inv I2 K2 P2
  rw [N2] at N3
  obtain ⟨b4, e4, I4, P4, K4, N4, B4, bad4, sz4, ins4⟩ :=
    popContinueStack_inv (t := cond) I3 (Or.inl hcm) N3
  rw [P3] at P4
  have hb4 : body < b4.C.size := by rw [sz4, C3, C2, sz1]; exact hbody
  obtain ⟨b5, e5, I5, P5, K5, N5, B5, bad5, sz5, ins5⟩ := loopBranch_inv I4 hb4 P4
  have hlenK : b.BreakStack.length = b2.BreakStack.length := by rw [K2, hK]
  have hlenN : b.ContinueStack.length = b3.ContinueStack.length := by rw [N3, hN]
  refine ⟨b5, ?_, I5.addRecord ?_, ?_, ?_, ?_, P5, ?_, ?_⟩
  · simp only [closeLoop, ne_eq, not_true_eq_false, if_false, bind, Except.bind, e1, e2]
    rw [hlenK, e3]
    simp only []
    rw [hlenN, e4]
    exact e5
  · have hc2 : ∀ i, ownerCount (cond :: H) b2 i = [cond].count i + H.count i +
        b2.Block.toList.count i + b2.PendingMergesStack.flatten.count i +
        (ktop.count i + krest.flatten.count i) + (ntop.count i + nrest.flatten.count i) := by
      intro i
      simp only [ownerCount, K2, N2, List.flatten_cons, List.count_append, List.count_cons,
        List.count_nil]
      omega
    have hcc : [cond].count cond = 1 := by simp
    have hkc : ∀ x ∈ ktop, x ≠ cond ∧ x ∉ ntop := by
      intro x hx
      have h1 := I2.once x
      rw [hc2] at h1
      have h2 := List.count_pos_iff.2 hx
      refine ⟨?_, fun hn => ?_⟩
      · rintro rfl
        omega
      · have := List.count_pos_iff.2 hn
        omega
    have hnc : ∀ x ∈ ntop, x ≠ cond := by
      rintro x hx rfl
      have h1 := I2.once x
      rw [hc2] at h1
      have h2 := List.count_pos_iff.2 hx
      omega
    refine ⟨?_, Or.inl ⟨b4.C.insts cond, none, by rw [ins5]; simp [loopRecord], ?_⟩⟩
    · intro x hx
      have hx' : x ∈ ntop := by simpa [loopRecord, hN] using hx
      obtain ⟨pre, _, e⟩ := I3.cont x (by rw [N3]; simp [hx'])
      refine ⟨pre, ?_⟩
      rw [ins5, if_neg (hnc x hx'), ins4, if_pos hx', e, closeWith_ub]
      rfl
    · refine ⟨top2 ++ ktop ++ [cond], by rw [P5]; simp, by simp [loopRecord], ?_⟩
      intro x hx
      have hx' : x ∈ ktop := by simpa [loopRecord, hK] using hx
      obtain ⟨pre, _, e⟩ := I2.brk x (by rw [K2]; simp [hx'])
      refine ⟨by simp [hx'], pre, ?_⟩
      rw [ins5, if_neg (hkc x hx').1, ins4, if_neg (hkc x hx').2, C3, e]
  · rw [B5, B4, B3, B2, B1]
  · rw [bad5, bad4, bad3, bad2, bad1]
  · rw [sz5, sz4, C3, C2, sz1]
  · rw [K5, K4, K3]
  · rw [N5, N4]

/-! ## Lowering an expression -/

theorem flushPending_block {t : Nat} {b b' : Builder} (h : flushPending t b = .ok b') :
    b'.Block = b.Block := by
  unfold flushPending at h
  split at h
  · cases h
  · simp only [bind, Except.bind] at h
    split at h
    · cases h
    · cases h; rfl

theorem currentBlock_block {k : Nat} {b b0 : Builder} (h : currentBlock b = .ok (k, b0)) :
    b0.Block = some k := by
  unfold currentBlock at h
  split at h
  · next BB hB =>
    cases h
    exact hB
  · simp only [bind, Except.bind] at h
    split at h
    · cases h
    · next b1 e =>
      cases h
      exact flushPending_block e

theorem currentBlock_of_block {k : Nat} {b : Builder} (h : b.Block = some k) :
    currentBlock b = .ok (k, b) := by
  simp [currentBlock, h]

theorem Appended.chain {k : Nat} {a b c : Builder} (h1 : Appended k a b) (h2 : Appended k b c) :
    Appended k a c := by
  obtain ⟨a1, _, a3, a4, a5, a6, Is, hIs, aC⟩ := h1
  obtain ⟨_, b2, b3, b4, b5, b6, Js, hJs, bC⟩ := h2
  refine ⟨a1, b2, b3.trans a3, b4.trans a4, b5.trans a5, b6.trans a6, Is ++ Js,
    isOpen_append.2 ⟨hIs, hJs⟩, ?_⟩
  rw [bC, aC, insertAll_insertAll]

theorem After.of_appended {k : Nat} {b0 b : Builder} (h : Appended k b0 b) : After k b0 b :=
  ⟨b, currentBlock_of_block h.2.1, Or.inr h⟩

theorem emit_ok {k : Nat} {b0 b : Builder} (h : After k b0 b) (Ex : Expr) (I : Instruction)
    (hI : I.isTermInst = false) :
    ∃ v b', emit Ex I b = .ok (v, b') ∧ Appended k b0 b' := by
  obtain ⟨b1, e, h1⟩ := h
  have hB := currentBlock_block e
  have hA : Appended k b1 (addInst Ex I k b1).2 :=
    ⟨hB, hB, rfl, rfl, rfl, rfl, [I], isOpen_singleton.2 hI, rfl⟩
  refine ⟨_, _, by simp only [emit, e, bind, Except.bind]; rfl, ?_⟩
  rcases h1 with rfl | h1
  · exact hA
  · exact h1.chain hA

mutual
theorem visitExpr_ok : ∀ (e : Expr), e.supported = true → ∀ (k : Nat) (b0 b : Builder),
    After k b0 b → ∃ v b', visitExpr e b = .ok (v, b') ∧ Appended k b0 b'
  | .CallExpr Fn Arg, he, k, b0, b, h => by
    simp only [Expr.supported, Bool.and_eq_true] at he
    obtain ⟨v1, b1, e1, h1⟩ := visitExpr_ok Fn he.1 k b0 b h
    obtain ⟨v2, b2, e2, h2⟩ := visitCallArg_ok Arg he.2 k b0 b1 (After.of_appended h1)
    obtain ⟨v3, b3, e3, h3⟩ := emit_ok h2 (.CallExpr Fn Arg) (.CallInst v1 v2) rfl
    exact ⟨v3, b3, by simp only [visitExpr, e1, e2, bind, Except.bind]; exact e3, h3⟩
  | .DeclRefExpr d, _, k, b0, b, h => by
    obtain ⟨v3, b3, e3, h3⟩ := emit_ok h (.DeclRefExpr d) (.DeclRefInst d) rfl
    exact ⟨v3, b3, by simp only [visitExpr]; exact e3, h3⟩
  | .IntegerLiteralExpr d, _, k, b0, b, h => by
    obtain ⟨v3, b3, e3, h3⟩ := emit_ok h (.IntegerLiteralExpr d) (.IntegerLiteralInst d) rfl
    exact ⟨v3, b3, by simp only [visitExpr]; exact e3, h3⟩
  | .TypeOfExpr d, _, k, b0, b, h => by
    obtain ⟨v3, b3, e3, h3⟩ := emit_ok h (.TypeOfExpr d) (.TypeOfInst d) rfl
    exact ⟨v3, b3, by simp only [visitExpr]; exact e3, h3⟩
  | .LoadExpr Sub, he, k, b0, b, h => by
    simp only [Expr.supported] at he
    obtain ⟨v1, b1, e1, h1⟩ := visitExpr_ok Sub he k b0 b h
    obtain ⟨v3, b3, e3, h3⟩ := emit_ok (After.of_appended h1) (.LoadExpr Sub) (.LoadInst v1) rfl
    exact ⟨v3, b3, by simp only [visitExpr, e1, bind, Except.bind]; exact e3, h3⟩
  | .ParenExpr Sub, he, k, b0, b, h => by
    simp only [Expr.supported] at he
    obtain ⟨v1, b1, e1, h1⟩ := visitExpr_ok Sub he k b0 b h
    exact ⟨v1, b1, by simp only [visitExpr]; exact e1, h1⟩
  | .ThisApplyExpr Fn Arg, he, k, b0, b, h => by
    simp only [Expr.supported, Bool.and_eq_true] at he
    obtain ⟨v1, b1, e1, h1⟩ := visitExpr_ok Fn he.1 k b0 b h
    obtain ⟨v2, b2, e2, h2⟩ := visitExpr_ok Arg he.2 k b0 b1 (After.of_appended h1)
    obtain ⟨v3, b3, e3, h3⟩ :=
      emit_ok (After.of_appended h2) (.ThisApplyExpr Fn Arg) (.ThisApplyInst v1 v2) rfl
    exact ⟨v3, b3, by simp only [visitExpr, e1, e2, bind, Except.bind]; exact e3, h3⟩
  | .TupleExpr Elements, he, k, b0, b, h => by
    simp only [Expr.supported] at he
    obtain ⟨v1, b1, e1, h1⟩ := visitExprs_ok Elements he k b0 b h
    obtain ⟨v3, b3, e3, h3⟩ := emit_ok h1 (.TupleExpr Elements) (.TupleInst v1) rfl
    exact ⟨v3, b3, by simp only [visitExpr, e1, bind, Except.bind]; exact e3, h3⟩
  | .OtherExpr _, he, _, _, _, _ => by simp [Expr.supported] at he
theorem visitExprs_ok : ∀ (es : List Expr), Expr.supportedAll es = true →
    ∀ (k : Nat) (b0 b : Builder), After k b0 b →
    ∃ vs b', visitExprs es b = .ok (vs, b') ∧ After k b0 b'
  | [], _, _, _, b, h => ⟨[], b, rfl, h⟩
  | E :: rest, he, k, b0, b, h => by
    simp only [Expr.supportedAll, Bool.and_eq_true] at he
    obtain ⟨v1, b1, e1, h1⟩ := visitExpr_ok E he.1 k b0 b h
    obtain ⟨v2, b2, e2, h2⟩ := visitExprs_ok rest he.2 k b0 b1 (After.of_appended h1)
    exact ⟨v1 :: v2, b2, by simp only [visitExprs, e1, e2, bind, Except.bind], h2⟩
theorem visitCallArg_ok : ∀ (e : Expr), e.supported = true → ∀ (k : Nat) (b0 b : Builder),
    After k b0 b → ∃ vs b', visitCallArg e b = .ok (vs, b') ∧ After k b0 b'
  | .CallExpr Fn Arg, he, k, b0, b, h => by
    simp only [Expr.supported, Bool.and_eq_true] at he
    obtain ⟨v1, b1, e1, h1⟩ := visitExpr_ok Fn he.1 k b0 b h
    obtain ⟨v2, b2, e2, h2⟩ := visitCallArg_ok Arg he.2 k b0 b1 (After.of_appended h1)
    obtain ⟨v3, b3, e3, h3⟩ := emit_ok h2 (.CallExpr Fn Arg) (.CallInst v1 v2) rfl
    exact ⟨[v3], b3, by simp only [visitCallArg, e1, e2, e3, bind, Except.bind],
      After.of_appended h3⟩
  | .DeclRefExpr d, _, k, b0, b, h => by
    obtain ⟨v3, b3, e3, h3⟩ := emit_ok h (.DeclRefExpr d) (.DeclRefInst d) rfl
    exact ⟨[v3], b3, by simp only [visitCallArg, e3, bind, Except.bind], After.of_appended h3⟩
  | .IntegerLiteralExpr d, _, k, b0, b, h => by
    obtain ⟨v3, b3, e3, h3⟩ := emit_ok h (.IntegerLiteralExpr d) (.IntegerLiteralInst d) rfl
    exact ⟨[v3], b3, by simp only [visitCallArg, e3, bind, Except.bind], After.of_appended h3⟩
  | .TypeOfExpr d, _, k, b0, b, h => by
    obtain ⟨v3, b3, e3, h3⟩ := emit_ok h (.TypeOfExpr d) (.TypeOfInst d) rfl
    exact ⟨[v3], b3, by simp only [visitCallArg, e3, bind, Except.bind], After.of_appended h3⟩
  | .LoadExpr Sub, he, k, b0, b, h => by
    simp only [Expr.supported] at he
    obtain ⟨v1, b1, e1, h1⟩ := visitExpr_ok Sub he k b0 b h
    obtain ⟨v3, b3, e3, h3⟩ := emit_ok (After.of_appended h1) (.LoadExpr Sub) (.LoadInst v1) rfl
    exact ⟨[v3], b3, by simp only [visitCallArg, e1, e3, bind, Except.bind],
      After.of_appended h3⟩
  | .ParenExpr Sub, he, k, b0, b, h => by
    simp only [Expr.supported] at he
    obtain ⟨v1, b1, e1, h1⟩ := visitCallArg_ok Sub he k b0 b h
    exact ⟨v1, b1, by simp only [visitCallArg]; exact e1, h1⟩
  | .ThisApplyExpr Fn Arg, he, k, b0, b, h => by
    simp only [Expr.supported, Bool.and_eq_true] at he
    obtain ⟨v1, b1, e1, h1⟩ := visitExpr_ok Fn he.1 k b0 b h
    obtain ⟨v2, b2, e2, h2⟩ := visitExpr_ok Arg he.2 k b0 b1 (After.of_appended h1)
    obtain ⟨v3, b3, e3, h3⟩ :=
      emit_ok (After.of_appended h2) (.ThisApplyExpr Fn Arg) (.ThisApplyInst v1 v2) rfl
    exact ⟨[v3], b3, by simp only [visitCallArg, e1, e2, e3, bind, Except.bind],
      After.of_appended h3⟩
  | .TupleExpr Elements, he, k, b0, b, h => by
    simp only [Expr.supported] at he
    obtain ⟨v1, b1, e1, h1⟩ := visitExprs_ok Elements he k b0 b h
    exact ⟨v1, b1, by simp only [visitCallArg]; exact e1, h1⟩
  | .OtherExpr _, he, _, _, _, _ => by simp [Expr.supported] at he
end

/-! ## The walk keeps the invariant -/

theorem Frame.refl (b : Builder) : Frame b b := ⟨rfl, rfl, rfl, le_refl _, id⟩

theorem Frame.trans {a b c : Builder} (h1 : Frame a b) (h2 : Frame b c) : Frame a c :=
  ⟨h2.pdepth.trans h1.pdepth, h2.bdepth.trans h1.bdepth, h2.cdepth.trans h1.cdepth,
    le_trans h1.size h2.size, fun q => h2.quiet (h1.quiet q)⟩

theorem Quiet.of_block_none {b : Builder} (h : b.Block = none) : Quiet b := Or.inl h

theorem visitExpr_inv {H : List Nat} {Lg : List LoopRecord} {b : Builder} (h : Inv H Lg b)
    {E : Expr} (hE : E.supported = true) :
    ∃ v b', visitExpr E b = .ok (v, b') ∧ Inv H Lg b' ∧ Frame b b' ∧ b'.badCFG = b.badCFG := by
  obtain ⟨k, b0, e0, I0, B0, K0, N0, bad0, Pl0, Pt0, sz0, hcase⟩ := currentBlock_inv h
  obtain ⟨v, b', e, hA⟩ := visitExpr_ok E hE k b0 b ⟨b0, e0, Or.inl rfl⟩
  have hA' := hA
  obtain ⟨_, a2, a3, a4, a5, a6, Is, _, aC⟩ := hA'
  refine ⟨v, b', e, I0.appended hA, ⟨?_, ?_, ?_, ?_, ?_⟩, a6.trans bad0⟩
  · rw [a3, Pl0]
  · rw [a4, K0]
  · rw [a5, N0]
  · rw [aC, size_insertAll]; exact sz0
  · intro q
    right
    rw [a3]
    rcases hcase with ⟨hB, rfl⟩ | ⟨_, _, _, hP, _⟩
    · rcases q with q | q
      · rw [q] at hB; cases hB
      · exact q
    · rw [hP]; rfl

theorem lowerReturn_inv {H : List Nat} {Lg : List LoopRecord} {b : Builder} (h : Inv H Lg b)
    (v : CFGValue) :
    ∃ b', lowerReturn v b = .ok b' ∧ Inv H Lg b' ∧ Frame b b' ∧ b'.badCFG = b.badCFG := by
  obtain ⟨k, b0, e0, I0, B0, K0, N0, bad0, Pl0, Pt0, sz0, _⟩ := currentBlock_inv h
  have I1 := I0.terminate B0 (.ReturnInst v) rfl b0.BreakStack b0.ContinueStack false false
    (by simp) (by simp) (Or.inl ⟨rfl, rfl, rfl⟩)
  refine ⟨_, by simp only [lowerReturn, e0, bind, Except.bind], I1, ⟨Pl0, ?_, ?_, ?_, ?_⟩, bad0⟩
  · exact congrArg List.length K0
  · exact congrArg List.length N0
  · simpa using sz0
  · exact fun _ => Or.inl rfl

theorem visitBreakStmt_inv {H : List Nat} {Lg : List LoopRecord} {b : Builder}
    (h : Inv H Lg b) (hK : b.BreakStack ≠ []) :
    ∃ b', visitBreakStmt b = .ok b' ∧ Inv H Lg b' ∧ Frame b b' ∧ b'.badCFG = b.badCFG := by
  obtain ⟨k, b0, e0, I0, B0, K0, N0, bad0, Pl0, Pt0, sz0, _⟩ := currentBlock_inv h
  obtain ⟨top, rest, hK'⟩ := List.exists_cons_of_ne_nil hK
  have hK0 : b0.BreakStack = top :: rest := K0.trans hK'
  have I1 := I0.terminate B0 (.UncondBranchInst none) rfl ((top ++ [k]) :: rest)
    b0.ContinueStack true false
    (by intro i; simp only [hK0, List.flatten_cons, List.count_append, if_true]; omega)
    (by simp) (Or.inr (Or.inl ⟨rfl, rfl, rfl⟩))
  refine ⟨_, by simp only [visitBreakStmt, hK', e0, hK0, bind, Except.bind], I1,
    ⟨Pl0, ?_, ?_, ?_, ?_⟩, bad0⟩
  · simp [hK']
  · exact congrArg List.length N0
  · simpa using sz0
  · exact fun _ => Or.inl rfl

theorem visitContinueStmt_inv {H : List Nat} {Lg : List LoopRecord} {b : Builder}
    (h : Inv H Lg b) (hN : b.ContinueStack ≠ []) :
    ∃ b', visitContinueStmt b = .ok b' ∧ Inv H Lg b' ∧ Frame b b' ∧ b'.badCFG = b.badCFG := by
  obtain ⟨k, b0, e0, I0, B0, K0, N0, bad0, Pl0, Pt0, sz0, _⟩ := currentBlock_inv h
  obtain ⟨top, rest, hN'⟩ := List.exists_cons_of_ne_nil hN
  have hN0 : b0.ContinueStack = top :: rest := N0.trans hN'
  have I1 := I0.terminate B0 (.UncondBranchInst none) rfl b0.BreakStack
    ((top ++ [k]) :: rest) false true (by simp)
    (by intro i; simp only [hN0, List.flatten_cons, List.count_append, if_true]; omega)
    (Or.inr (Or.inr ⟨rfl, rfl, rfl⟩))
  refine ⟨_, by simp only [visitContinueStmt, hN', e0, hN0, bind, Except.bind], I1,
    ⟨Pl0, ?_, ?_, ?_, ?_⟩, bad0⟩
  · exact congrArg List.length K0
  · simp [hN']
  · simpa using sz0
  · exact fun _ => Or.inl rfl

theorem Inv.forEach {H : List Nat} {Lg : List LoopRecord} {b : Builder} (h : Inv H Lg b) :
    Inv H Lg { b with badCFG := true } :=
  h.congr rfl rfl rfl rfl rfl

/-- The head of an `if`: the active block becomes the head block, held in `IfTermBlock`,
and a new block becomes active. -/
theorem ifHead_inv {H : List Nat} {Lg : List LoopRecord} {b : Builder} (h : Inv H Lg b) :
    ∃ k b1 b2, currentBlock b = .ok (k, b1) ∧
      createFreshBlock { b1 with Block := none } = (b1.C.size, b2) ∧
      Inv (k :: H) Lg b2 ∧ Frame b b2 ∧ b2.badCFG = b.badCFG ∧ b1.C.size < b2.C.size ∧
      b2.BreakStack = b.BreakStack ∧ b2.ContinueStack = b.ContinueStack := by
  obtain ⟨k, b1, e1, I1, B1, K1, N1, bad1, Pl1, Pt1, sz1, hcase⟩ := currentBlock_inv h
  have I2 := (I1.hold B1).newBlock rfl
  refine ⟨k, b1, _, e1, rfl, I2, ⟨Pl1, congrArg List.length K1, congrArg List.length N1, ?_, ?_⟩,
    bad1, ?_, K1, N1⟩
  · show b.C.size ≤ (b1.C.newBlock.2).size
    rw [size_newBlock]
    omega
  · intro q
    right
    show b1.PendingMergesStack.head? = some []
    rcases hcase with ⟨hB, rfl⟩ | ⟨_, _, _, hP, _⟩
    · rcases q with q | q
      · rw [q] at hB; cases hB
      · exact q
    · rw [hP]; rfl
  · show b1.C.size < (b1.C.newBlock.2).size
    rw [size_newBlock]
    omega

/-- The `if` without `else`, with what it leaves of its head block `k`: a conditional
branch to the then block with the second target unset, queued on the innermost pending
list. -/
theorem ifNone_detail {Then : Stmt} {inLoop : Bool} (ih : VisitOK Then inLoop) (c : Expr)
    {H : List Nat} {Lg : List LoopRecord} {b : Builder} (h : Inv H Lg b)
    (hl : inLoop = true → b.BreakStack ≠ [] ∧ b.ContinueStack ≠ []) :
    ∃ k b1 b' lg pre top rest, currentBlock b = .ok (k, b1) ∧
      visitStmtLog (.IfStmt c Then none) b = .ok (b', lg) ∧ Inv H (Lg ++ lg) b' ∧
      Frame b b' ∧ b'.badCFG = (b.badCFG || Then.hasForEach) ∧ b'.Block = none ∧
      IsOpen pre ∧ b'.C.insts k = pre ++ [.CondBranchInst none (some b1.C.size) none] ∧
      b'.PendingMergesStack = top :: rest ∧ k ∈ top ∧ b1.C.size < b'.C.size := by
  obtain ⟨k, b1, b2, e1, e2, I2, F2, bad2, hsz2, K2, N2⟩ := ifHead_inv h
  obtain ⟨b3, lg, e3, I3, F3, bad3⟩ := ih (k :: H) Lg b2 I2 (by rw [K2, N2]; exact hl)
  obtain ⟨b4, e4, I4, B4, C4, K4, N4, bad4, Pl4, Pt4, _⟩ := addCurrentBlockToPending_inv I3
  obtain ⟨top, rest, hP4⟩ := List.exists_cons_of_ne_nil I4.pstack
  have hT : b1.C.size < b4.C.size := by
    rw [C4]
    exact lt_of_lt_of_le hsz2 F3.size
  have hcount : ∀ i, ((top ++ [k]) :: rest).flatten.count i =
      b4.PendingMergesStack.flatten.count i + (if true = true then [k].count i else 0) := by
    intro i
    simp only [hP4, List.flatten_cons, List.count_append, if_true]
    omega
  have I5 := I4.condBranch none b1.C.size none hT (by simp) ((top ++ [k]) :: rest) true
    (by simp) hcount
    (by
      intro L hL _
      rw [hP4] at hL
      rcases List.mem_cons.1 hL with rfl | hL
      · exact ⟨L ++ [k], by simp, by simp⟩
      · exact ⟨L, by simp [hL], fun _ hx => hx⟩)
    (Or.inr ⟨rfl, rfl⟩)
  have hklt : k < b4.C.size := I4.lt_of_pos (by simp [ownerCount])
  refine ⟨k, b1, _, lg, b4.C.insts k, top ++ [k], rest, e1, ?_, I5, ?_, ?_, B4,
    I4.held k (by simp), ?_, rfl, by simp, ?_⟩
  · rw [visitStmtLog]
    simp only [e1, bind, Except.bind]
    rw [e2]
    simp only [e3, e4, pendingMergesPush, hP4]
  · refine ⟨?_, ?_, ?_, ?_, fun _ => Or.inl B4⟩
    · show ((top ++ [k]) :: rest).length = _
      rw [← F2.pdepth, ← F3.pdepth, ← Pl4, hP4]
      rfl
    · show b4.BreakStack.length = _
      rw [K4, F3.bdepth, F2.bdepth]
    · show b4.ContinueStack.length = _
      rw [N4, F3.cdepth, F2.cdepth]
    · show b.C.size ≤ (b4.C.newCondBranchInst none (some b1.C.size) none k).size
      rw [newCondBranchInst_size, C4]
      exact le_trans F2.size F3.size
  · show b4.badCFG = _
    rw [bad4, bad3, bad2]
  · show (b4.C.newCondBranchInst none (some b1.C.size) none k).insts k = _
    rw [newCondBranchInst_insts _ _ _ _ _ hklt, if_pos rfl]
  · show b1.C.size < (b4.C.newCondBranchInst none (some b1.C.size) none k).size
    rw [newCondBranchInst_size]
    exact hT

theorem VisitOK.if_none {Then : Stmt} {inLoop : Bool} (ih : VisitOK Then inLoop) (c : Expr) :
    VisitOK (.IfStmt c Then none) inLoop := by
  intro H Lg b h hl
  obtain ⟨_, _, b', lg, _, _, _, _, e, I, F, bad, _⟩ := ifNone_detail ih c h hl
  exact ⟨b', lg, e, I, F, by rw [bad]; simp [Stmt.hasForEach]⟩

theorem VisitOK.if_some {Then Else : Stmt} {inLoop : Bool} (ih1 : VisitOK Then inLoop)
    (ih2 : VisitOK Else inLoop) (c : Expr) : VisitOK (.IfStmt c Then (some Else)) inLoop := by
  intro H Lg b h hl
  obtain ⟨k, b1, b2, e1, e2, I2, F2, bad2, hsz2, K2, N2⟩ := ifHead_inv h
  obtain ⟨b3, lg1, e3, I3, F3, bad3⟩ := ih1 (k :: H) Lg b2 I2 (by rw [K2, N2]; exact hl)
  obtain ⟨b4, e4, I4, B4, C4, K4, N4, bad4, Pl4, Pt4, _⟩ := addCurrentBlockToPending_inv I3
  have I5 := I4.newBlock B4
  have e5 : createFreshBlock b4 =
      (b4.C.size, { b4 with Block := some b4.C.size, C := b4.C.newBlock.2 }) := rfl
  have hl5 : inLoop = true → b4.BreakStack ≠ [] ∧ b4.ContinueStack ≠ [] := by
    intro hi
    have := hl hi
    have h1 := F3.bdepth
    have h2 := F3.cdepth
    rw [K2] at h1
    rw [N2] at h2
    rw [K4, N4]
    constructor
    · intro e; rw [e] at h1; exact this.1 (List.length_eq_zero.1 h1.symm)
    · intro e; rw [e] at h2; exact this.2 (List.length_eq_zero.1 h2.symm)
  obtain ⟨b6, lg2, e6, I6, F6, bad6⟩ := ih2 (k :: H) (Lg ++ lg1) _ I5 hl5
  obtain ⟨b7, e7, I7, B7, C7, K7, N7, bad7, Pl7, Pt7, _⟩ := addCurrentBlockToPending_inv I6
  have hsz6 : b4.C.size < b7.C.size := by
    rw [C7]
    refine lt_of_lt_of_le ?_ F6.size
    show b4.C.size < (b4.C.newBlock.2).size
    simp
  have hT1 : b1.C.size < b7.C.size := by
    refine lt_trans ?_ hsz6
    rw [C4]
    exact lt_of_lt_of_le hsz2 F3.size
  have I8 := I7.condBranch none b1.C.size (some b4.C.size) hT1
    (by intro t ht; cases ht; exact hsz6) b7.PendingMergesStack false I7.pstack (by simp)
    (fun L hL _ => ⟨L, hL, fun _ hx => hx⟩) (Or.inl ⟨rfl, rfl⟩)
  refine ⟨_, lg1 ++ lg2, ?_, by rw [← List.append_assoc]; exact I8, ?_, ?_⟩
  · rw [visitStmtLog]
    simp only [e1, bind, Except.bind]
    rw [e2]
    simp only [e3, e4]
    rw [e5]
    simp only [e6, e7]
  · refine ⟨?_, ?_, ?_, ?_, fun _ => Or.inl B7⟩
    · show b7.PendingMergesStack.length = _
      rw [Pl7, F6.pdepth]
      show b4.PendingMergesStack.length = _
      rw [Pl4, F3.pdepth, F2.pdepth]
    · show b7.BreakStack.length = _
      rw [K7, F6.bdepth]
      show b4.BreakStack.length = _
      rw [K4, F3.bdepth, F2.bdepth]
    · show b7.ContinueStack.length = _
      rw [N7, F6.cdepth]
      show b4.ContinueStack.length = _
      rw [N4, F3.cdepth, F2.cdepth]
    · show b.C.size ≤ (b7.C.newCondBranchInst none (some b1.C.size) (some b4.C.size) k).size
      rw [newCondBranchInst_size]
      have := F2.size
      have := F3.size
      rw [← C4] at this
      omega
  · show b7.badCFG = _
    rw [bad7, bad6]
    show (b4.badCFG || Else.hasForEach) = _
    rw [bad4, bad3, bad2]
    simp [Stmt.hasForEach, Bool.or_assoc]

theorem VisitOK.while {Body : Stmt} (ih : VisitOK Body true) (c : Expr) (inLoop : Bool) :
    VisitOK (.WhileStmt c Body) inLoop := by
  intro H Lg b h _
  obtain ⟨b1, e1, I1, B1, C1, K1, N1, bad1, Pl1, Pt1, _⟩ := addCurrentBlockToPending_inv h
  obtain ⟨cond, b2, e2, I2, B2, K2, N2, bad2, Pl2, Pt2, sz2, hcase⟩ := currentBlock_inv I1
  have I3 := (((I2.hold B2).pushBreak).pushContinue).pushPending
  have I4 := I3.newBlock rfl
  obtain ⟨b5, lg, e5, I5, F5, bad5⟩ := ih (cond :: H) Lg _ I4 (fun _ => ⟨by simp, by simp⟩)
  obtain ⟨b6, e6, I6, B6, C6, K6, N6, bad6, Pl6, Pt6, _⟩ := addCurrentBlockToPending_inv I5
  have hPl : b6.PendingMergesStack.length = b2.PendingMergesStack.length + 1 := by
    rw [Pl6, F5.pdepth]; rfl
  have hKl : b6.BreakStack.length = b2.BreakStack.length + 1 := by
    rw [K6, F5.bdepth]; rfl
  have hNl : b6.ContinueStack.length = b2.ContinueStack.length + 1 := by
    rw [N6, F5.cdepth]; rfl
  obtain ⟨top, rest, hP6⟩ := List.exists_cons_of_ne_nil I6.pstack
  obtain ⟨top2, rest2, hrest⟩ : ∃ top2 rest2, rest = top2 :: rest2 := by
    cases rest with
    | nil =>
      rw [hP6] at hPl
      have := List.length_pos.2 I2.pstack
      simp only [List.length_cons, List.length_nil] at hPl
      omega
    | cons a l => exact ⟨a, l, rfl⟩
  subst hrest
  obtain ⟨ktop, krest, hK6⟩ : ∃ ktop krest, b6.BreakStack = ktop :: krest := by
    cases hk : b6.BreakStack with
    | nil => rw [hk] at hKl; simp at hKl
    | cons a l => exact ⟨a, l, rfl⟩
  obtain ⟨ntop, nrest, hN6⟩ : ∃ ntop nrest, b6.ContinueStack = ntop :: nrest := by
    cases hk : b6.ContinueStack with
    | nil => rw [hk] at hNl; simp at hNl
    | cons a l => exact ⟨a, l, rfl⟩
  have hbody : b2.C.size < b6.C.size := by
    rw [C6]
    refine lt_of_lt_of_le ?_ F5.size
    show b2.C.size < (b2.C.newBlock.2).size
    simp
  obtain ⟨b7, e7, I7, B7, bad7, sz7, P7, K7, N7⟩ :=
    closeLoop_inv b2.C.size I6 hbody hP6 hK6 hN6
  refine ⟨b7, lg ++ [loopRecord b2.C.size cond b6], ?_, by rw [← List.append_assoc]; exact I7,
    ?_, ?_⟩
  · rw [visitStmtLog]
    simp only [e1, e2, bind, Except.bind, createFreshBlock_eq]
    rw [e5]
    simp only [e6, List.length_cons]
    rw [← hPl, ← hKl, ← hNl, e7]
  · refine ⟨?_, ?_, ?_, ?_, fun _ => Or.inl (by rw [B7, B6])⟩
    · rw [P7]
      rw [hP6] at hPl
      simp only [List.length_cons] at hPl ⊢
      omega
    · rw [K7]
      rw [hK6] at hKl
      simp only [List.length_cons] at hKl
      rw [← K1, ← K2]
      omega
    · rw [N7]
      rw [hN6] at hNl
      simp only [List.length_cons] at hNl
      rw [← N1, ← N2]
      omega
    · rw [sz7, ← C1]
      exact le_trans sz2 (le_of_lt hbody)
  · rw [bad7, bad6, bad5]
    show (b2.badCFG || Body.hasForEach) = _
    rw [bad2, bad1]
    simp [Stmt.hasForEach]

theorem VisitOK.doWhile {Body : Stmt} (ih : VisitOK Body true) (c : Expr) (inLoop : Bool) :
    VisitOK (.DoWhileStmt Body c) inLoop := by
  intro H Lg b h _
  have I2 := (h.pushBreak).pushContinue
  obtain ⟨b3, e3, I3, B3, C3, K3, N3, bad3, Pl3, Pt3, _⟩ := addCurrentBlockToPending_inv I2
  obtain ⟨body, b4, e4, I4, B4, K4, N4, bad4, Pl4, Pt4, sz4, _⟩ := currentBlock_inv I3
  have I5 := I4.pushPending
  have hK5 : b4.BreakStack = [] :: b.BreakStack := by rw [K4, K3]
  have hN5 : b4.ContinueStack = [] :: b.ContinueStack := by rw [N4, N3]
  obtain ⟨b6, lg, e6, I6, F6, bad6⟩ := ih H Lg _ I5
    (fun _ => ⟨by show b4.BreakStack ≠ []; rw [hK5]; simp,
               by show b4.ContinueStack ≠ []; rw [hN5]; simp⟩)
  obtain ⟨b7, e7, I7, B7, C7, K7, N7, bad7, Pl7, Pt7, _⟩ := addCurrentBlockToPending_inv I6
  obtain ⟨cond, b8, e8, I8, B8, K8, N8, bad8, Pl8, Pt8, sz8, _⟩ := currentBlock_inv I7
  have I9 := I8.hold B8
  have hPl : b8.PendingMergesStack.length = b4.PendingMergesStack.length + 1 := by
    rw [Pl8, Pl7, F6.pdepth]; rfl
  have hKl : b8.BreakStack.length = b.BreakStack.length + 1 := by
    rw [K8, K7, F6.bdepth]
    show b4.BreakStack.length = _
    rw [hK5]; rfl
  have hNl : b8.ContinueStack.length = b.ContinueStack.length + 1 := by
    rw [N8, N7, F6.cdepth]
    show b4.ContinueStack.length = _
    rw [hN5]; rfl
  obtain ⟨top, rest, hP8⟩ := List.exists_cons_of_ne_nil I8.pstack
  obtain ⟨top2, rest2, hrest⟩ : ∃ top2 rest2, rest = top2 :: rest2 := by
    cases rest with
    | nil =>
      rw [hP8] at hPl
      have := List.length_pos.2 I4.pstack
      simp only [List.length_cons, List.length_nil] at hPl
      omega
    | cons a l => exact ⟨a, l, rfl⟩
  subst hrest
  obtain ⟨ktop, krest, hK8⟩ : ∃ ktop krest, b8.BreakStack = ktop :: krest := by
    cases hk : b8.BreakStack with
    | nil => rw [hk] at hKl; simp at hKl
    | cons a l => exact ⟨a, l, rfl⟩
  obtain ⟨ntop, nrest, hN8⟩ : ∃ ntop nrest, b8.ContinueStack = ntop :: nrest := by
    cases hk : b8.ContinueStack with
    | nil => rw [hk] at hNl; simp at hNl
    | cons a l => exact ⟨a, l, rfl⟩
  have hbody : body < b8.C.size := by
    refine lt_of_lt_of_le (I4.block_lt B4) (le_trans ?_ sz8)
    rw [C7]
    exact F6.size
  obtain ⟨b10, e10, I10, B10, bad10, sz10, P10, K10, N10⟩ :=
    closeLoop_inv (b := { b8 with Block := none }) body I9 hbody hP8 hK8 hN8
  refine ⟨b10, lg ++ [loopRecord body cond { b8 with Block := none }], ?_,
    by rw [← List.append_assoc]; exact I10, ?_, ?_⟩
  · rw [visitStmtLog]
    simp only [e3, e4, bind, Except.bind]
    rw [e6]
    simp only [e7, e8, List.length_cons]
    have hPl' : ({ b8 with Block := none } : Builder).PendingMergesStack.length =
      b4.PendingMergesStack.length + 1 := hPl
    have hKl' : ({ b8 with Block := none } : Builder).BreakStack.length =
      b.BreakStack.length + 1 := hKl
    have hNl' : ({ b8 with Block := none } : Builder).ContinueStack.length =
      b.ContinueStack.length + 1 := hNl
    rw [← hPl', ← hKl', ← hNl', e10]
  · refine ⟨?_, ?_, ?_, ?_, fun _ => Or.inl (by rw [B10])⟩
    · rw [P10]
      rw [hP8] at hPl
      simp only [List.length_cons] at hPl ⊢
      have : b3.PendingMergesStack.length = b.PendingMergesStack.length := Pl3
      omega
    · rw [K10]
      rw [hK8] at hKl
      simp only [List.length_cons] at hKl
      omega
    · rw [N10]
      rw [hN8] at hNl
      simp only [List.length_cons] at hNl
      omega
    · rw [sz10]
      show b.C.size ≤ b8.C.size
      have : b3.C.size = b.C.size := by rw [C3]
      have := F6.size
      have : b7.C.size = b6.C.size := by rw [C7]
      have : b4.C.size ≤ b6.C.size := F6.size
      omega
  · rw [bad10]
    show b8.badCFG = _
    rw [bad8, bad7, bad6]
    show (b4.badCFG || Body.hasForEach) = _
    rw [bad4, bad3]
    simp [Stmt.hasForEach]

theorem VisitOK.elements_nil (inLoop : Bool) : VisitAllOK [] inLoop := by
  intro H Lg b h _
  exact ⟨b, [], rfl, by simpa using h, Frame.refl b, by simp [Stmt.hasForEachAny]⟩

theorem VisitOK.elements_stmt {S : Stmt} {rest : List ExprStmtOrDecl} {inLoop : Bool}
    (ih1 : VisitOK S inLoop) (ih2 : VisitAllOK rest inLoop) :
    VisitAllOK (.stmt S :: rest) inLoop := by
  intro H Lg b h hl
  obtain ⟨b1, lg1, e1, I1, F1, bad1⟩ := ih1 H Lg b h hl
  have hl1 : inLoop = true → b1.BreakStack ≠ [] ∧ b1.ContinueStack ≠ [] := by
    intro hi
    have := hl hi
    have h1 := F1.bdepth
    have h2 := F1.cdepth
    constructor
    · intro e; rw [e] at h1; exact this.1 (List.length_eq_zero.1 h1.symm)
    · intro e; rw [e] at h2; exact this.2 (List.length_eq_zero.1 h2.symm)
  obtain ⟨b2, lg2, e2, I2, F2, bad2⟩ := ih2 H (Lg ++ lg1) b1 I1 hl1
  refine ⟨b2, lg1 ++ lg2, ?_, by rw [← List.append_assoc]; exact I2, F1.trans F2, ?_⟩
  · simp only [visitElementsLog, e1, e2, bind, Except.bind]
  · rw [bad2, bad1]
    simp [Stmt.hasForEachAny, Bool.or_assoc]

theorem VisitOK.elements_expr {E : Expr} {rest : List ExprStmtOrDecl} {inLoop : Bool}
    (hE : E.supported = true) (ih2 : VisitAllOK rest inLoop) :
    VisitAllOK (.expr E :: rest) inLoop := by
  intro H Lg b h hl
  obtain ⟨v, b1, e1, I1, F1, bad1⟩ := visitExpr_inv h hE
  have hl1 : inLoop = true → b1.BreakStack ≠ [] ∧ b1.ContinueStack ≠ [] := by
    intro hi
    have := hl hi
    have h1 := F1.bdepth
    have h2 := F1.cdepth
    constructor
    · intro e; rw [e] at h1; exact this.1 (List.length_eq_zero.1 h1.symm)
    · intro e; rw [e] at h2; exact this.2 (List.length_eq_zero.1 h2.symm)
  obtain ⟨b2, lg2, e2, I2, F2, bad2⟩ := ih2 H Lg b1 I1 hl1
  refine ⟨b2, lg2, ?_, I2, F1.trans F2, ?_⟩
  · simp only [visitElementsLog, e1, e2, bind, Except.bind]
  · rw [bad2, bad1]
    simp [Stmt.hasForEachAny]

mutual
/-- The walk of a supported tree returns and keeps the invariant. -/
theorem visitStmtLog_inv : ∀ (S : Stmt) (forEach inLoop : Bool),
    S.supported forEach inLoop = true → VisitOK S inLoop
  | .BraceStmt Elements, fe, inLoop, hS => by
    have ih := visitElementsLog_inv Elements fe inLoop (by simpa [Stmt.supported] using hS)
    intro H Lg b h hl
    obtain ⟨b', lg, e, I, F, bad⟩ := ih H Lg b h hl
    exact ⟨b', lg, by rw [visitStmtLog]; exact e, I, F, by rw [bad]; simp [Stmt.hasForEach]⟩
  | .SemiStmt, _, _, _ => by
    intro H Lg b h _
    exact ⟨b, [], rfl, by simpa using h, Frame.refl b, by simp [Stmt.hasForEach]⟩
  | .AssignStmt, _, _, hS => by simp [Stmt.supported] at hS
  | .ReturnStmt none, _, _, _ => by
    intro H Lg b h _
    obtain ⟨b', e, I, F, bad⟩ := lowerReturn_inv h none
    exact ⟨b', [], by simp only [visitStmtLog, e, bind, Except.bind], by simpa using I, F,
      by rw [bad]; simp [Stmt.hasForEach]⟩
  | .ReturnStmt (some Result), _, _, hS => by
    intro H Lg b h _
    obtain ⟨v, b1, e1, I1, F1, bad1⟩ := visitExpr_inv h (by simpa [Stmt.supported] using hS)
    obtain ⟨b', e, I, F, bad⟩ := lowerReturn_inv I1 v
    exact ⟨b', [], by simp only [visitStmtLog, e1, e, bind, Except.bind], by simpa using I,
      F1.trans F, by rw [bad, bad1]; simp [Stmt.hasForEach]⟩
  | .IfStmt c Then none, fe, inLoop, hS =>
    (visitStmtLog_inv Then fe inLoop (by simpa [Stmt.supported] using hS)).if_none c
  | .IfStmt c Then (some Else), fe, inLoop, hS => by
    simp only [Stmt.supported, Bool.and_eq_true] at hS
    exact (visitStmtLog_inv Then fe inLoop hS.1).if_some (visitStmtLog_inv Else fe inLoop hS.2) c
  | .WhileStmt c Body, fe, inLoop, hS =>
    (visitStmtLog_inv Body fe true (by simpa [Stmt.supported] using hS)).while c inLoop
  | .DoWhileStmt Body c, fe, inLoop, hS =>
    (visitStmtLog_inv Body fe true (by simpa [Stmt.supported] using hS)).doWhile c inLoop
  | .ForStmt, _, _, hS => by simp [Stmt.supported] at hS
  | .ForEachStmt, _, _, _ => by
    intro H Lg b h _
    exact ⟨{ b with badCFG := true }, [], rfl, by simpa using h.forEach,
      ⟨rfl, rfl, rfl, le_refl _, id⟩, by simp [Stmt.hasForEach]⟩
  | .BreakStmt, _, inLoop, hS => by
    intro H Lg b h hl
    have hi : inLoop = true := by simpa [Stmt.supported] using hS
    obtain ⟨b', e, I, F, bad⟩ := visitBreakStmt_inv h (hl hi).1
    exact ⟨b', [], by simp only [visitStmtLog, e, bind, Except.bind], by simpa using I, F,
      by rw [bad]; simp [Stmt.hasForEach]⟩
  | .ContinueStmt, _, inLoop, hS => by
    intro H Lg b h hl
    have hi : inLoop = true := by simpa [Stmt.supported] using hS
    obtain ⟨b', e, I, F, bad⟩ := visitContinueStmt_inv h (hl hi).2
    exact ⟨b', [], by simp only [visitStmtLog, e, bind, Except.bind], by simpa using I, F,
      by rw [bad]; simp [Stmt.hasForEach]⟩
/-- The walk of the elements of a supported brace statement returns and keeps the
invariant. -/
theorem visitElementsLog_inv : ∀ (Elements : List ExprStmtOrDecl) (forEach inLoop : Bool),
    Stmt.supportedAll forEach inLoop Elements = true → VisitAllOK Elements inLoop
  | [], _, inLoop, _ => VisitOK.elements_nil inLoop
  | .decl :: _, _, _, hS => by simp [Stmt.supportedAll] at hS
  | .stmt S :: rest, fe, inLoop, hS => by
    simp only [Stmt.supportedAll, Bool.and_eq_true] at hS
    exact (visitStmtLog_inv S fe inLoop hS.1).elements_stmt
      (visitElementsLog_inv rest fe inLoop hS.2)
  | .expr E :: rest, fe, inLoop, hS => by
    simp only [Stmt.supportedAll, Bool.and_eq_true] at hS
    exact VisitOK.elements_expr hS.1 (visitElementsLog_inv rest fe inLoop hS.2)
end

/-! ## The instrumented walk builds what the walk builds -/

mutual
theorem visitStmtLog_fst : ∀ (S : Stmt) (b : Builder),
    (visitStmtLog S b).map Prod.fst = visitStmt S b
  | .BraceStmt Elements, b => by
    rw [visitStmtLog, visitStmt]
    exact visitElementsLog_fst Elements b
  | .SemiStmt, b => rfl
  | .AssignStmt, b => rfl
  | .ReturnStmt none, b => by
    rw [visitStmtLog, visitStmt]
    cases lowerReturn none b <;> rfl
  | .ReturnStmt (some Result), b => by
    rw [visitStmtLog, visitStmt]
    cases visitExpr Result b with
    | error e => rfl
    | ok p =>
      simp only [bind, Except.bind]
      cases lowerReturn p.1 p.2 <;> rfl
  | .IfStmt c Then none, b => by
    rw [visitStmtLog, visitStmt]
    cases currentBlock b with
    | error e => rfl
    | ok p =>
      simp only [bind, Except.bind]
      rw [← visitStmtLog_fst Then]
      cases visitStmtLog Then _ with
      | error e => rfl
      | ok q =>
        simp only [Except.map]
        cases addCurrentBlockToPending q.1 with
        | error e => rfl
        | ok r =>
          simp only []
          cases pendingMergesPush p.1 r <;> rfl
  | .IfStmt c Then (some Else), b => by
    rw [visitStmtLog, visitStmt]
    cases currentBlock b with
    | error e => rfl
    | ok p =>
      simp only [bind, Except.bind]
      rw [← visitStmtLog_fst Then]
      cases visitStmtLog Then _ with
      | error e => rfl
      | ok q =>
        simp only [Except.map]
        cases addCurrentBlockToPending q.1 with
        | error e => rfl
        | ok r =>
          simp only []
          rw [← visitStmtLog_fst Else]
          cases visitStmtLog Else _ with
          | error e => rfl
          | ok s =>
            simp only [Except.map]
            cases addCurrentBlockToPending s.1 <;> rfl
  | .WhileStmt c Body, b => by
    rw [visitStmtLog, visitStmt]
    cases addCurrentBlockToPending b with
    | error e => rfl
    | ok p =>
      simp only [bind, Except.bind]
      cases currentBlock p with
      | error e => rfl
      | ok q =>
        simp only []
        rw [← visitStmtLog_fst Body]
        cases visitStmtLog Body _ with
        | error e => rfl
        | ok r =>
          simp only [Except.map]
          cases addCurrentBlockToPending r.1 with
          | error e => rfl
          | ok s =>
            simp only []
            cases closeLoop _ _ _ _ _ s <;> rfl
  | .DoWhileStmt Body c, b => by
    rw [visitStmtLog, visitStmt]
    simp only [bind, Except.bind]
    cases addCurrentBlockToPending _ with
    | error e => rfl
    | ok p =>
      simp only []
      cases currentBlock p with
      | error e => rfl
      | ok q =>
        simp only []
        rw [← visitStmtLog_fst Body]
        cases visitStmtLog Body _ with
        | error e => rfl
        | ok r =>
          simp only [Except.map]
          cases addCurrentBlockToPending r.1 with
          | error e => rfl
          | ok s =>
            simp only []
            cases currentBlock s with
            | error e => rfl
            | ok t =>
              simp only []
              cases closeLoop _ _ _ _ _ _ <;> rfl
  | .ForStmt, b => rfl
  | .ForEachStmt, b => rfl
  | .BreakStmt, b => by
    rw [visitStmtLog, visitStmt]
    cases visitBreakStmt b <;> rfl
  | .ContinueStmt, b => by
    rw [visitStmtLog, visitStmt]
    cases visitContinueStmt b <;> rfl
theorem visitElementsLog_fst : ∀ (Elements : List ExprStmtOrDecl) (b : Builder),
    (visitElementsLog Elements b).map Prod.fst = visitElements Elements b
  | [], b => rfl
  | .decl :: _, b => rfl
  | .stmt S :: rest, b => by
    rw [visitElementsLog, visitElements]
    simp only [bind, Except.bind]
    rw [← visitStmtLog_fst S]
    cases visitStmtLog S b with
    | error e => rfl
    | ok p =>
      simp only [Except.map]
      rw [← visitElementsLog_fst rest]
      cases visitElementsLog rest p.1 <;> rfl
  | .expr E :: rest, b => by
    rw [visitElementsLog, visitElements]
    cases visitExpr E b with
    | error e => rfl
    | ok p =>
      simp only [bind, Except.bind]
      exact visitElementsLog_fst rest p.2
end

/-! ## From the invariant to the finished graph -/

theorem Inv.init : Inv [] [] Builder.init where
  pstack := by simp [Builder.init]
  once i := by simp [ownerCount, Builder.init]
  lt i _ := by simp [ownerCount, Builder.init]
  held i hi := by simp at hi
  cur i hi := by simp [Builder.init] at hi
  pend i hi := by simp [Builder.init] at hi
  brk i hi := by simp [Builder.init] at hi
  cont i hi := by simp [Builder.init] at hi
  rest i hi _ := by simp [Builder.init, CFG.size] at hi
  tgt i j hj := by
    rw [insts_of_size_le _ _ (by simp [Builder.init, CFG.size])] at hj
    simp at hj
  dual i j := by
    rw [insts_of_size_le _ _ (by simp [Builder.init, CFG.size]),
      preds_of_size_le _ _ (by simp [Builder.init, CFG.size])]
    simp
  loops r hr := by simp at hr

theorem Inv.finished {Lg : List LoopRecord} {b : Builder} (h : Inv [] Lg b)
    (hB : b.Block = none) (hP : b.PendingMergesStack = [[]]) (hK : b.BreakStack = [])
    (hN : b.ContinueStack = []) : Finished Lg b.C where
  closed i hi := h.rest i hi (by simp [ownerCount, hB, hP, hK, hN])
  tgt := h.tgt
  dual := h.dual
  loops r hr := by
    obtain ⟨h1, h2⟩ := h.loops r hr
    refine ⟨h1, ?_⟩
    rcases h2 with ⟨_, _, _, L, hL, hc, _⟩ | h2
    · rw [hP] at hL
      simp only [List.mem_singleton] at hL
      rw [hL] at hc
      simp at hc
    · exact h2

/-- The finalizer when the base pending list is not empty: one block is created, the
pending blocks are flushed into it, and it receives the implicit return. -/
theorem finishUp_pending {Lg : List LoopRecord} {b : Builder} (h : Inv [] Lg b)
    {pm : BlocksVector} (hP : b.PendingMergesStack = [pm]) (hpm : pm ≠ [])
    (hB : b.Block = none) (hK : b.BreakStack = []) (hN : b.ContinueStack = []) :
    ∃ b', finishUp b = .ok b' ∧ Finished Lg b'.C ∧ b'.C.size = b.C.size + 1 ∧
      ∀ i, b'.C.insts i = if i = b.C.size then [.ReturnInst none] else
        if i ∈ pm then closeWith b.C.size (b.C.insts i) else b.C.insts i := by
  obtain ⟨k, b1, e1, I1, B1, K1, N1, bad1, Pl1, Pt1, sz1, hcase⟩ := currentBlock_inv h
  rcases hcase with ⟨hB', _⟩ | ⟨_, hk, hsz, hP1, hins⟩
  · rw [hB] at hB'; cases hB'
  subst hk
  have hlt := I1.block_lt B1
  have I2 := I1.terminate B1 (.ReturnInst none) rfl b1.BreakStack b1.ContinueStack false false
    (by simp) (by simp) (Or.inl ⟨rfl, rfl, rfl⟩)
  have hpm' : pm.isEmpty = false := by
    cases pm with
    | nil => exact absurd rfl hpm
    | cons a l => rfl
  refine ⟨{ b1 with C := b1.C.insert b.C.size (.ReturnInst none) }, ?_, ?_, ?_, ?_⟩
  · simp only [finishUp, hP, List.length_singleton, ne_eq, not_true_eq_false, if_false,
      pendingMerges, bind, Except.bind, hpm', Bool.not_false, if_true, hB, Option.isSome_none,
      Bool.false_eq_true, e1]
  · have := I2.finished rfl (by show b1.PendingMergesStack = [[]]; rw [hP1, hP]; rfl)
      (by show b1.BreakStack = []; rw [K1, hK]) (by show b1.ContinueStack = []; rw [N1, hN])
    exact this
  · show (b1.C.insert b.C.size (.ReturnInst none)).size = _
    rw [size_insert, hsz]
  · intro i
    show (b1.C.insert b.C.size (.ReturnInst none)).insts i = _
    rw [insts_insert _ _ _ _ hlt]
    by_cases hi : i = b.C.size
    · subst hi
      rw [if_pos rfl, if_pos rfl, hins, hP]
      have hnot : b.C.size ∉ pm := by
        intro hm
        have := h.lt b.C.size (le_refl _)
        have hc := List.count_pos_iff.2 hm
        simp only [ownerCount, hP, List.flatten_cons, List.count_append] at this
        omega
      simp only [List.head?_cons, Option.getD_some, if_neg hnot]
      rw [insts_of_size_le _ _ (le_refl _)]
      rfl
    · rw [if_neg hi, if_neg hi, hins, hP]
      rfl

theorem finishUp_ok {Lg : List LoopRecord} {b : Builder} (h : Inv [] Lg b)
    (hP : b.PendingMergesStack.length = 1) (hq : Quiet b) (hK : b.BreakStack = [])
    (hN : b.ContinueStack = []) :
    ∃ b', finishUp b = .ok b' ∧ Finished Lg b'.C := by
  obtain ⟨pm, hPm⟩ := List.length_eq_one.1 hP
  by_cases hpm : pm = []
  · subst hpm
    cases hB : b.Block with
    | none =>
      exact ⟨b, by simp [finishUp, hPm, pendingMerges, hB, bind, Except.bind],
        h.finished hB hPm hK hN⟩
    | some k =>
      have hopen := h.cur k hB
      have I2 := h.terminate hB (.ReturnInst none) rfl b.BreakStack b.ContinueStack false false
        (by simp) (by simp) (Or.inl ⟨rfl, rfl, rfl⟩)
      have hF : Finished Lg (b.C.insert k (.ReturnInst none)) :=
        I2.finished rfl hPm hK hN
      refine ⟨{ b with C := b.C.insert k (.ReturnInst none) }, ?_, hF⟩
      simp only [finishUp, hPm, List.length_singleton, ne_eq, not_true_eq_false, if_false,
        pendingMerges, bind, Except.bind, List.isEmpty_nil, Bool.not_true, Bool.false_eq_true,
        hB, getLast_block]
      cases hl : (b.C.insts k).getLast? with
      | none => rfl
      | some I =>
        have := hopen.getLast hl
        have hr : I.isReturnInst = false := by
          cases I <;> simp_all [Instruction.isTermInst, Instruction.isReturnInst]
        simp [hr]
  · have hB : b.Block = none := by
      rcases hq with hq | hq
      · exact hq
      · rw [hPm] at hq
        simp only [List.head?_cons, Option.some.injEq] at hq
        exact absurd hq hpm
    obtain ⟨b', e, hF, _⟩ := finishUp_pending h hPm hpm hB hK hN
    exact ⟨b', e, hF⟩

/-- The top-level call on a tree in which every break and continue is nested in a loop:
the walk returns; when the tree contains no for-each statement, the finalizer returns too
and the graph is finished. -/
theorem constructCFG_ok (S : Stmt) (forEach : Bool) (hS : S.supported forEach false = true) :
    ∃ b lg, visitStmtLog S Builder.init = .ok (b, lg) ∧ visitStmt S Builder.init = .ok b ∧
      b.badCFG = S.hasForEach ∧ b.BreakStack = [] ∧ b.ContinueStack = [] ∧
      b.PendingMergesStack.length = 1 ∧
      (S.hasForEach = true → constructCFG S = .ok none) ∧
      (S.hasForEach = false → ∃ g, constructCFG S = .ok (some g) ∧ Finished lg g) := by
  obtain ⟨b, lg, e, I, F, bad⟩ :=
    visitStmtLog_inv S forEach false hS [] [] Builder.init Inv.init (by simp)
  have e' : visitStmt S Builder.init = .ok b := by
    rw [← visitStmtLog_fst, e]
    rfl
  have hbad : b.badCFG = S.hasForEach := by simpa [Builder.init] using bad
  have hK : b.BreakStack = [] := List.length_eq_zero.1 F.bdepth
  have hN : b.ContinueStack = [] := List.length_eq_zero.1 F.cdepth
  have hP : b.PendingMergesStack.length = 1 := F.pdepth
  refine ⟨b, lg, e, e', hbad, hK, hN, hP, ?_, ?_⟩
  · intro hf
    simp [constructCFG, e', hbad, hf, bind, Except.bind]
  · intro hf
    obtain ⟨b', e2, hF⟩ := finishUp_ok (by simpa using I) hP (F.quiet (Or.inl rfl)) hK hN
    exact ⟨b'.C, by simp [constructCFG, e', hbad, hf, e2, bind, Except.bind], hF⟩

mutual
theorem hasForEach_of_supported : ∀ (S : Stmt) (inLoop : Bool),
    S.supported false inLoop = true → S.hasForEach = false
  | .BraceStmt Elements, inLoop, h => by
    rw [Stmt.hasForEach]
    exact hasForEachAny_of_supported Elements inLoop (by simpa [Stmt.supported] using h)
  | .SemiStmt, _, _ => rfl
  | .AssignStmt, _, _ => rfl
  | .ReturnStmt _, _, _ => rfl
  | .IfStmt _ Then none, inLoop, h => by
    rw [Stmt.hasForEach]
    exact hasForEach_of_supported Then inLoop (by simpa [Stmt.supported] using h)
  | .IfStmt _ Then (some Else), inLoop, h => by
    simp only [Stmt.supported, Bool.and_eq_true] at h
    rw [Stmt.hasForEach, hasForEach_of_supported Then inLoop h.1,
      hasForEach_of_supported Else inLoop h.2]
    rfl
  | .WhileStmt _ Body, _, h => by
    rw [Stmt.hasForEach]
    exact hasForEach_of_supported Body true (by simpa [Stmt.supported] using h)
  | .DoWhileStmt Body _, _, h => by
    rw [Stmt.hasForEach]
    exact hasForEach_of_supported Body true (by simpa [Stmt.supported] using h)
  | .ForStmt, _, _ => rfl
  | .ForEachStmt, _, h => by simp [Stmt.supported] at h
  | .BreakStmt, _, _ => rfl
  | .ContinueStmt, _, _ => rfl
theorem hasForEachAny_of_supported : ∀ (Elements : List ExprStmtOrDecl) (inLoop : Bool),
    Stmt.supportedAll false inLoop Elements = true → Stmt.hasForEachAny Elements = false
  | [], _, _ => rfl
  | .decl :: _, _, h => by simp [Stmt.supportedAll] at h
  | .stmt S :: rest, inLoop, h => by
    simp only [Stmt.supportedAll, Bool.and_eq_true] at h
    rw [Stmt.hasForEachAny, hasForEach_of_supported S inLoop h.1,
      hasForEachAny_of_supported rest inLoop h.2]
    rfl
  | .expr _ :: rest, inLoop, h => by
    simp only [Stmt.supportedAll, Bool.and_eq_true] at h
    simp only [Stmt.hasForEachAny]
    exact hasForEachAny_of_supported rest inLoop h.2
end

/-- A tree without for-each statement, in which every break and continue is nested in a
loop, is lowered to a finished graph, and the instrumented walk returns its loops. -/
theorem lowered_finished (S : Stmt) (hS : S.supported false false = true) :
    ∃ g, constructCFG S = .ok (some g) ∧ Finished (loopRecords S) g := by
  obtain ⟨b, lg, e, _, _, _, _, _, _, h2⟩ := constructCFG_ok S false hS
  obtain ⟨g, eg, hF⟩ := h2 (hasForEach_of_supported S false hS)
  exact ⟨g, eg, by simpa [loopRecords, e] using hF⟩

theorem insts_of_mem {g : CFG} {B : BasicBlock} (hB : B ∈ g.BlockList) :
    ∃ i, i < g.size ∧ g.insts i = B.insts := by
  obtain ⟨i, hi, e⟩ := List.getElem_of_mem hB
  refine ⟨i, hi, ?_⟩
  simp [CFG.insts, CFG.block, List.getD_eq_getElem?_getD, List.getElem?_eq_getElem hi, e]

/-! ## The claims -/

/-- C1. Closure invariant: for a tree of brace, empty, return, if, while, do-while, break
and continue statements over supported expressions, with every break and continue nested
in a loop, `constructCFG` returns a graph, and in it every block is a list of
non-terminators followed by exactly one terminator, all of whose edge-target slots are
set. -/
theorem closure_invariant (S : Stmt) (hS : S.supported false false = true) :
    ∃ g, constructCFG S = .ok (some g) ∧
      ∀ B ∈ g.BlockList, ∃ pre t, B.insts = pre ++ [t] ∧
        (∀ I ∈ pre, I.isTermInst = false) ∧ t.isTermInst = true ∧ t.resolved = true := by
  obtain ⟨g, eg, hF⟩ := lowered_finished S hS
  refine ⟨g, eg, fun B hB => ?_⟩
  obtain ⟨i, hi, e⟩ := insts_of_mem hB
  obtain ⟨pre, t, hpre, ht, el⟩ := hF.closed i hi
  exact ⟨pre, t, by rw [← e, el], hpre, isTerm_of_resolved ht, ht⟩

/-- C1, witness: `while (c) { if (d) { break }; continue }`. -/
theorem closure_invariant_witness :
    Stmt.supported false false (.WhileStmt (.DeclRefExpr 0) (.BraceStmt
        [.stmt (.IfStmt (.DeclRefExpr 1) (.BraceStmt [.stmt .BreakStmt]) none),
         .stmt .ContinueStmt])) = true ∧
    ∃ g, constructCFG (.WhileStmt (.DeclRefExpr 0) (.BraceStmt
        [.stmt (.IfStmt (.DeclRefExpr 1) (.BraceStmt [.stmt .BreakStmt]) none),
         .stmt .ContinueStmt])) = .ok (some g) ∧
      ∀ B ∈ g.BlockList, ∃ pre t, B.insts = pre ++ [t] ∧
        (∀ I ∈ pre, I.isTermInst = false) ∧ t.isTermInst = true ∧ t.resolved = true :=
  ⟨by decide, closure_invariant _ (by decide)⟩

/-- C2. Predecessor/successor duality: in the graph returned for a supported tree, block
`B` is an edge target of the terminator of block `A` if and only if `A` is in the
predecessor list of `B`. -/
theorem pred_succ_duality (S : Stmt) (hS : S.supported false false = true) :
    ∃ g, constructCFG S = .ok (some g) ∧
      ∀ A B : Nat, (∃ t, (g.block A).insts.getLast? = some t ∧ t.isTermInst = true ∧
        B ∈ t.targets) ↔ A ∈ (g.block B).preds := by
  obtain ⟨g, eg, hF⟩ := lowered_finished S hS
  refine ⟨g, eg, fun A B => ?_⟩
  have hd := hF.dual A B
  change _ ↔ A ∈ g.preds B
  rw [← hd]
  by_cases hA : A < g.size
  · obtain ⟨pre, t, hpre, ht, el⟩ := hF.closed A hA
    have e1 : (g.block A).insts.getLast? = some t := by
      change (g.insts A).getLast? = some t
      rw [el]; simp
    rw [el, succs_append, succs_of_isOpen hpre, List.nil_append, succs_singleton]
    constructor
    · rintro ⟨t', e2, _, hB⟩
      rw [e1] at e2
      cases e2
      exact hB
    · intro hB
      exact ⟨t, e1, isTerm_of_resolved ht, hB⟩
  · have e0 := insts_of_size_le g A (Nat.le_of_not_lt hA)
    have e1 : (g.block A).insts.getLast? = none := by
      change (g.insts A).getLast? = none
      rw [e0]; rfl
    rw [e0]
    simp [e1]

/-- C2, witness: `do { if (c) { continue } else { x } } while (d)`. -/
theorem pred_succ_duality_witness :
    Stmt.supported false false (.DoWhileStmt (.BraceStmt
        [.stmt (.IfStmt (.DeclRefExpr 0) (.BraceStmt [.stmt .ContinueStmt])
          (some (.BraceStmt [.expr (.DeclRefExpr 1)])))]) (.DeclRefExpr 2)) = true ∧
    ∃ g, constructCFG (.DoWhileStmt (.BraceStmt
        [.stmt (.IfStmt (.DeclRefExpr 0) (.BraceStmt [.stmt .ContinueStmt])
          (some (.BraceStmt [.expr (.DeclRefExpr 1)])))]) (.DeclRefExpr 2)) = .ok (some g) ∧
      ∀ A B : Nat, (∃ t, (g.block A).insts.getLast? = some t ∧ t.isTermInst = true ∧
        B ∈ t.targets) ↔ A ∈ (g.block B).preds :=
  ⟨by decide, pred_succ_duality _ (by decide)⟩

/-- C3. Break converges with the loop exit: in the graph returned for a supported tree,
for every loop and every block in which a break of that loop was lowered, the block ends in
an unconditional branch to the block that is the second target of the conditional branch
ending the condition block of the loop, and that block is not the break block. -/
theorem break_converges (S : Stmt) (hS : S.supported false false = true) :
    ∃ g, constructCFG S = .ok (some g) ∧
      ∀ r ∈ loopRecords S, ∀ x ∈ r.BlocksThatBreak, ∃ pre pre' c t1 t,
        (g.block x).insts = pre ++ [.UncondBranchInst (some t)] ∧
        (g.block r.ConditionBlock).insts = pre' ++ [.CondBranchInst c t1 (some t)] ∧
        t ≠ x := by
  obtain ⟨g, eg, hF⟩ := lowered_finished S hS
  refine ⟨g, eg, fun r hr x hx => ?_⟩
  obtain ⟨_, pre', c, t, e, _, hb⟩ := hF.loops r hr
  obtain ⟨hxt, pre, e'⟩ := hb x hx
  exact ⟨pre, pre', c, some r.BodyBlock, t, e', e, Ne.symm hxt⟩

/-- C3, witness: `while (c) { break }`, whose one loop has condition block 0 and break
block 1. -/
theorem break_converges_witness :
    Stmt.supported false false
        (.WhileStmt (.DeclRefExpr 0) (.BraceStmt [.stmt .BreakStmt])) = true ∧
    loopRecords (.WhileStmt (.DeclRefExpr 0) (.BraceStmt [.stmt .BreakStmt])) =
      [{ ConditionBlock := 0, BodyBlock := 1, BlocksThatBreak := [1],
         BlocksThatContinue := [] }] ∧
    ∃ g, constructCFG (.WhileStmt (.DeclRefExpr 0) (.BraceStmt [.stmt .BreakStmt])) =
        .ok (some g) ∧
      ∀ r ∈ loopRecords (.WhileStmt (.DeclRefExpr 0) (.BraceStmt [.stmt .BreakStmt])),
        ∀ x ∈ r.BlocksThatBreak, ∃ pre pre' c t1 t,
          (g.block x).insts = pre ++ [.UncondBranchInst (some t)] ∧
          (g.block r.ConditionBlock).insts = pre' ++ [.CondBranchInst c t1 (some t)] ∧
          t ≠ x :=
  ⟨by decide, by decide, break_converges _ (by decide)⟩

/-- C4. Continue rebinds to the condition block: in the graph returned for a supported
tree, for every loop, every block in which a continue of that loop was lowered ends in an
unconditional branch to the condition block of the loop, and the condition block ends in a
conditional branch whose first target is the body block of the loop and whose second
target, the exit of the loop, is another block than the condition block. -/
theorem continue_rebinds (S : Stmt) (hS : S.supported false false = true) :
    ∃ g, constructCFG S = .ok (some g) ∧
      ∀ r ∈ loopRecords S,
        (∀ x ∈ r.BlocksThatContinue, ∃ pre,
          (g.block x).insts = pre ++ [.UncondBranchInst (some r.ConditionBlock)]) ∧
        ∃ pre c t, (g.block r.ConditionBlock).insts =
            pre ++ [.CondBranchInst c (some r.BodyBlock) (some t)] ∧
          t ≠ r.ConditionBlock := by
  obtain ⟨g, eg, hF⟩ := lowered_finished S hS
  refine ⟨g, eg, fun r hr => ?_⟩
  obtain ⟨h1, pre, c, t, e, hne, _⟩ := hF.loops r hr
  exact ⟨h1, pre, c, t, e, Ne.symm hne⟩

/-- C4, witness: `do { continue } while (c)`, whose one loop has body block 0, condition
block 1 and continue block 0. -/
theorem continue_rebinds_witness :
    Stmt.supported false false
        (.DoWhileStmt (.BraceStmt [.stmt .ContinueStmt]) (.DeclRefExpr 0)) = true ∧
    loopRecords (.DoWhileStmt (.BraceStmt [.stmt .ContinueStmt]) (.DeclRefExpr 0)) =
      [{ ConditionBlock := 1, BodyBlock := 0, BlocksThatBreak := [],
         BlocksThatContinue := [0] }] ∧
    ∃ g, constructCFG (.DoWhileStmt (.BraceStmt [.stmt .ContinueStmt]) (.DeclRefExpr 0)) =
        .ok (some g) ∧
      ∀ r ∈ loopRecords (.DoWhileStmt (.BraceStmt [.stmt .ContinueStmt]) (.DeclRefExpr 0)),
        (∀ x ∈ r.BlocksThatContinue, ∃ pre,
          (g.block x).insts = pre ++ [.UncondBranchInst (some r.ConditionBlock)]) ∧
        ∃ pre c t, (g.block r.ConditionBlock).insts =
            pre ++ [.CondBranchInst c (some r.BodyBlock) (some t)] ∧
          t ≠ r.ConditionBlock :=
  ⟨by decide, by decide, continue_rebinds _ (by decide)⟩

/-- C7. No graph exactly when a for-each statement is present: for a tree of brace, empty,
return, if, while, do-while, break, continue and for-each statements over supported
expressions, with every break and continue nested in a loop, `constructCFG` returns, and
its result is the null result if and only if the tree contains a for-each statement. -/
theorem no_graph_iff_forEach (S : Stmt) (hS : S.supported true false = true) :
    ∃ r, constructCFG S = .ok r ∧ (r = none ↔ S.hasForEach = true) := by
  obtain ⟨b, lg, _, _, _, _, _, _, h1, h2⟩ := constructCFG_ok S true hS
  cases hf : S.hasForEach with
  | true => exact ⟨none, h1 hf, by simp⟩
  | false =>
    obtain ⟨g, eg, _⟩ := h2 hf
    exact ⟨some g, eg, by simp⟩

/-- C7, witness: `if (c) { while (d) { for-each } } else { return }`. -/
theorem no_graph_iff_forEach_witness :
    Stmt.supported true false (.IfStmt (.DeclRefExpr 0)
        (.BraceStmt [.stmt (.WhileStmt (.DeclRefExpr 1) (.BraceStmt [.stmt .ForEachStmt]))])
        (some (.BraceStmt [.stmt (.ReturnStmt none)]))) = true ∧
    ∃ r, constructCFG (.IfStmt (.DeclRefExpr 0)
        (.BraceStmt [.stmt (.WhileStmt (.DeclRefExpr 1) (.BraceStmt [.stmt .ForEachStmt]))])
        (some (.BraceStmt [.stmt (.ReturnStmt none)]))) = .ok r ∧
      (r = none ↔ Stmt.hasForEach (.IfStmt (.DeclRefExpr 0)
        (.BraceStmt [.stmt (.WhileStmt (.DeclRefExpr 1) (.BraceStmt [.stmt .ForEachStmt]))])
        (some (.BraceStmt [.stmt (.ReturnStmt none)]))) = true) :=
  ⟨by decide, no_graph_iff_forEach _ (by decide)⟩

theorem currentBlock_init :
    currentBlock Builder.init =
      .ok (0, { PendingMergesStack := [[]], BreakStack := [], ContinueStack := [],
                ExprToInst := [], Block := some 0, C := ⟨[⟨[], []⟩]⟩, badCFG := false }) := rfl

/-- C5. If without else: for `if (c) T` at the root, `T` supported, `constructCFG` returns
a graph in which the first block created, the head, ends in a conditional branch whose
first target is the second block created and whose second target is the last block
created; the last block holds one instruction, a return without value; the head is not
the last block and is not among its own predecessors. -/
theorem if_without_else (c : Expr) (T : Stmt) (hT : T.supported false false = true) :
    ∃ g, constructCFG (.IfStmt c T none) = .ok (some g) ∧ 2 ≤ g.BlockList.length ∧
      (∃ pre cv, (g.block 0).insts =
        pre ++ [.CondBranchInst cv (some 1) (some (g.BlockList.length - 1))]) ∧
      (g.block (g.BlockList.length - 1)).insts = [.ReturnInst none] ∧
      g.BlockList.length - 1 ≠ 0 ∧ 0 ∉ (g.block 0).preds := by
  have ih := visitStmtLog_inv T false false hT
  obtain ⟨k, b1, b', lg, pre, top, rest, e1, e, I, F, bad, hB, hpre, hins, hP, hk, hsz⟩ :=
    ifNone_detail ih c Inv.init (by simp)
  rw [currentBlock_init] at e1
  simp only [Except.ok.injEq, Prod.mk.injEq] at e1
  obtain ⟨rfl, rfl⟩ := e1
  have hsz1 : 1 < b'.C.size := hsz
  have e' : visitStmt (.IfStmt c T none) Builder.init = .ok b' := by
    rw [← visitStmtLog_fst, e]
    rfl
  have hbad : b'.badCFG = false := by
    rw [bad, hasForEach_of_supported T false hT]
    rfl
  have hrest : rest = [] := by
    have := F.pdepth
    rw [hP] at this
    simpa [Builder.init] using this
  subst hrest
  obtain ⟨b2, e2, hF, hsz2, hins2⟩ := finishUp_pending (by simpa using I) hP
    (List.ne_nil_of_mem hk) hB (List.length_eq_zero.1 F.bdepth) (List.length_eq_zero.1 F.cdepth)
  have hlen : b2.C.BlockList.length = b'.C.size + 1 := hsz2
  have h0 : b2.C.insts 0 = pre ++ [.CondBranchInst none (some 1) (some b'.C.size)] := by
    rw [hins2, if_neg (by omega), if_pos hk, hins]
    exact closeWith_cb _ _ _ _
  refine ⟨b2.C, by simp [constructCFG, e', hbad, e2, bind, Except.bind], by omega,
    ⟨pre, none, ?_⟩, ?_, by omega, ?_⟩
  · rw [hlen, Nat.add_sub_cancel]
    exact h0
  · rw [hlen, Nat.add_sub_cancel]
    show b2.C.insts b'.C.size = _
    rw [hins2, if_pos rfl]
  · show 0 ∉ b2.C.preds 0
    rw [← hF.dual, h0, succs_append, succs_of_isOpen hpre]
    simp only [List.nil_append, succs_singleton, Instruction.targets, Option.toList,
      List.singleton_append, List.mem_cons, List.mem_singleton, List.not_mem_nil, or_false]
    omega

/-- C5, witness: `if (c) { return 1 }`. -/
theorem if_without_else_witness :
    Stmt.supported false false
        (.BraceStmt [.stmt (.ReturnStmt (some (.IntegerLiteralExpr 1)))]) = true ∧
    ∃ g, constructCFG (.IfStmt (.DeclRefExpr 0)
        (.BraceStmt [.stmt (.ReturnStmt (some (.IntegerLiteralExpr 1)))]) none) =
        .ok (some g) ∧ 2 ≤ g.BlockList.length ∧
      (∃ pre cv, (g.block 0).insts =
        pre ++ [.CondBranchInst cv (some 1) (some (g.BlockList.length - 1))]) ∧
      (g.block (g.BlockList.length - 1)).insts = [.ReturnInst none] ∧
      g.BlockList.length - 1 ≠ 0 ∧ 0 ∉ (g.block 0).preds :=
  ⟨by decide, if_without_else _ _ (by decide)⟩

/-! ## The depth of the stacks -/

theorem bind_ok {α β : Type} {x : Except Abort α} {f : α → Except Abort β} {r : β}
    (h : x >>= f = .ok r) : ∃ a, x = .ok a ∧ f a = .ok r := by
  cases x with
  | error e => cases h
  | ok a => exact ⟨a, rfl, h⟩

theorem sameDepth_refl (b : Builder) : SameDepth b b := ⟨rfl, rfl, rfl, id⟩

theorem sameDepth_trans {a b c : Builder} (h1 : SameDepth a b) (h2 : SameDepth b c) :
    SameDepth a c :=
  ⟨h2.1.trans h1.1, h2.2.1.trans h1.2.1, h2.2.2.1.trans h1.2.2.1,
    fun h => h2.2.2.2 (h1.2.2.2 h)⟩

theorem flushPending_depth {t : Nat} {b b' : Builder} (h : flushPending t b = .ok b') :
    SameDepth b b' := by
  unfold flushPending at h
  split at h
  · cases h
  · next top rest hP =>
    obtain ⟨C, _, h2⟩ := bind_ok h
    cases h2
    exact ⟨by simp [hP], rfl, rfl, id⟩

theorem currentBlock_depth {k : Nat} {b b' : Builder} (h : currentBlock b = .ok (k, b')) :
    SameDepth b b' := by
  unfold currentBlock at h
  split at h
  · cases h
    exact sameDepth_refl _
  · obtain ⟨b1, h1, h2⟩ := bind_ok h
    cases h2
    have d := flushPending_depth h1
    exact d

theorem pendingMergesPush_depth {k : Nat} {b b' : Builder}
    (h : pendingMergesPush k b = .ok b') : SameDepth b b' := by
  unfold pendingMergesPush at h
  split at h
  · cases h
  · next top rest hP =>
    cases h
    exact ⟨by simp [hP], rfl, rfl, id⟩

theorem addCurrentBlockToPending_depth {b b' : Builder}
    (h : addCurrentBlockToPending b = .ok b') : SameDepth b b' := by
  unfold addCurrentBlockToPending at h
  split at h
  · cases h
    exact sameDepth_refl _
  · split at h
    · obtain ⟨b1, h1, h2⟩ := bind_ok h
      cases h2
      have d := pendingMergesPush_depth h1
      exact d
    · cases h
      exact sameDepth_refl _

theorem emit_depth {Ex : Expr} {I : Instruction} {b b' : Builder} {v : CFGValue}
    (h : emit Ex I b = .ok (v, b')) : SameDepth b b' := by
  unfold emit at h
  obtain ⟨⟨k, b1⟩, h1, h2⟩ := bind_ok h
  cases h2
  have d := currentBlock_depth h1
  exact d

mutual
theorem visitExpr_depth : ∀ (e : Expr) (b b' : Builder) (v : CFGValue),
    visitExpr e b = .ok (v, b') → SameDepth b b'
  | .CallExpr Fn Arg, b, b', v, h => by
    rw [visitExpr] at h
    obtain ⟨⟨v1, b1⟩, h1, h⟩ := bind_ok h
    obtain ⟨⟨v2, b2⟩, h2, h⟩ := bind_ok h
    exact sameDepth_trans (visitExpr_depth Fn b b1 v1 h1)
      (sameDepth_trans (visitCallArg_depth Arg b1 b2 v2 h2) (emit_depth h))
  | .DeclRefExpr _, b, b', v, h => by
    rw [visitExpr] at h
    exact emit_depth h
  | .IntegerLiteralExpr _, b, b', v, h => by
    rw [visitExpr] at h
    exact emit_depth h
  | .TypeOfExpr _, b, b', v, h => by
    rw [visitExpr] at h
    exact emit_depth h
  | .LoadExpr Sub, b, b', v, h => by
    rw [visitExpr] at h
    obtain ⟨⟨v1, b1⟩, h1, h⟩ := bind_ok h
    exact sameDepth_trans (visitExpr_depth Sub b b1 v1 h1) (emit_depth h)
  | .ParenExpr Sub, b, b', v, h => by
    rw [visitExpr] at h
    exact visitExpr_depth Sub b b' v h
  | .ThisApplyExpr Fn Arg, b, b', v, h => by
    rw [visitExpr] at h
    obtain ⟨⟨v1, b1⟩, h1, h⟩ := bind_ok h
    obtain ⟨⟨v2, b2⟩, h2, h⟩ := bind_ok h
    exact sameDepth_trans (visitExpr_depth Fn b b1 v1 h1)
      (sameDepth_trans (visitExpr_depth Arg b1 b2 v2 h2) (emit_depth h))
  | .TupleExpr Elements, b, b', v, h => by
    rw [visitExpr] at h
    obtain ⟨⟨v1, b1⟩, h1, h⟩ := bind_ok h
    exact sameDepth_trans (visitExprs_depth Elements b b1 v1 h1) (emit_depth h)
  | .OtherExpr _, b, b', v, h => by
    rw [visitExpr] at h
    cases h
theorem visitExprs_depth : ∀ (es : List Expr) (b b' : Builder) (vs : List CFGValue),
    visitExprs es b = .ok (vs, b') → SameDepth b b'
  | [], b, b', vs, h => by
    rw [visitExprs] at h
    cases h
    exact sameDepth_refl _
  | E :: rest, b, b', vs, h => by
    rw [visitExprs] at h
    obtain ⟨⟨v1, b1⟩, h1, h⟩ := bind_ok h
    obtain ⟨⟨v2, b2⟩, h2, h⟩ := bind_ok h
    have d := sameDepth_trans (visitExpr_depth E b b1 v1 h1)
      (visitExprs_depth rest b1 b2 v2 h2)
    cases h
    exact d
theorem visitCallArg_depth : ∀ (e : Expr) (b b' : Builder) (vs : List CFGValue),
    visitCallArg e b = .ok (vs, b') → SameDepth b b'
  | .CallExpr Fn Arg, b, b', v, h => by
    rw [visitCallArg] at h
    obtain ⟨⟨v1, b1⟩, h1, h⟩ := bind_ok h
    obtain ⟨⟨v2, b2⟩, h2, h⟩ := bind_ok h
    obtain ⟨⟨v3, b3⟩, h3, h⟩ := bind_ok h
    have d := sameDepth_trans (visitExpr_depth Fn b b1 v1 h1)
      (sameDepth_trans (visitCallArg_depth Arg b1 b2 v2 h2) (emit_depth h3))
    cases h
    exact d
  | .DeclRefExpr _, b, b', v, h => by
    rw [visitCallArg] at h
    obtain ⟨⟨v3, b3⟩, h3, h⟩ := bind_ok h
    have d := emit_depth h3
    cases h
    exact d
  | .IntegerLiteralExpr _, b, b', v, h => by
    rw [visitCallArg] at h
    obtain ⟨⟨v3, b3⟩, h3, h⟩ := bind_ok h
    have d := emit_depth h3
    cases h
    exact d
  | .TypeOfExpr _, b, b', v, h => by
    rw [visitCallArg] at h
    obtain ⟨⟨v3, b3⟩, h3, h⟩ := bind_ok h
    have d := emit_depth h3
    cases h
    exact d
  | .LoadExpr Sub, b, b', v, h => by
    rw [visitCallArg] at h
    obtain ⟨⟨v1, b1⟩, h1, h⟩ := bind_ok h
    obtain ⟨⟨v3, b3⟩, h3, h⟩ := bind_ok h
    have d := sameDepth_trans (visitExpr_depth Sub b b1 v1 h1) (emit_depth h3)
    cases h
    exact d
  | .ParenExpr Sub, b, b', v, h => by
    rw [visitCallArg] at h
    exact visitCallArg_depth Sub b b' v h
  | .ThisApplyExpr Fn Arg, b, b', v, h => by
    rw [visitCallArg] at h
    obtain ⟨⟨v1, b1⟩, h1, h⟩ := bind_ok h
    obtain ⟨⟨v2, b2⟩, h2, h⟩ := bind_ok h
    obtain ⟨⟨v3, b3⟩, h3, h⟩ := bind_ok h
    have d := sameDepth_trans (visitExpr_depth Fn b b1 v1 h1)
      (sameDepth_trans (visitExpr_depth Arg b1 b2 v2 h2) (emit_depth h3))
    cases h
    exact d
  | .TupleExpr Elements, b, b', v, h => by
    rw [visitCallArg] at h
    exact visitExprs_depth Elements b b' v h
  | .OtherExpr _, b, b', v, h => by
    rw [visitCallArg] at h
    cases h
end

theorem lowerReturn_depth {v : CFGValue} {b b' : Builder} (h : lowerReturn v b = .ok b') :
    SameDepth b b' := by
  unfold lowerReturn at h
  obtain ⟨⟨k, b1⟩, h1, h2⟩ := bind_ok h
  cases h2
  have d := currentBlock_depth h1
  exact d

theorem visitBreakStmt_depth {b b' : Builder} (h : visitBreakStmt b = .ok b') :
    SameDepth b b' := by
  unfold visitBreakStmt at h
  split at h
  · cases h
  · obtain ⟨⟨k, b1⟩, h1, h2⟩ := bind_ok h
    have d := currentBlock_depth h1
    simp only at h2
    split at h2
    · cases h2
    · next top rest hK =>
      cases h2
      exact ⟨d.1, by rw [← d.2.1, hK]; rfl, d.2.2.1, d.2.2.2⟩

theorem visitContinueStmt_depth {b b' : Builder} (h : visitContinueStmt b = .ok b') :
    SameDepth b b' := by
  unfold visitContinueStmt at h
  split at h
  · cases h
  · obtain ⟨⟨k, b1⟩, h1, h2⟩ := bind_ok h
    have d := currentBlock_depth h1
    simp only at h2
    split at h2
    · cases h2
    · next top rest hN =>
      cases h2
      exact ⟨d.1, d.2.1, by rw [← d.2.2.1, hN]; rfl, d.2.2.2⟩

theorem popBreakStack_depth {d : Nat} {b b' : Builder} (h : popBreakStack d b = .ok b') :
    b'.PendingMergesStack.length = b.PendingMergesStack.length ∧
      b'.BreakStack.length + 1 = d ∧ b'.ContinueStack.length = b.ContinueStack.length ∧
      b'.badCFG = b.badCFG := by
  unfold popBreakStack at h
  split at h
  · cases h
  · next ktop krest hK =>
    split at h
    · cases h
    · next hd =>
      simp only [ne_eq, Decidable.not_not] at hd
      split at h
      · next hP =>
        split at h
        · cases h
          exact ⟨rfl, by rw [← hd, hK]; rfl, rfl, rfl⟩
        · cases h
      · next top prest hP =>
        cases h
        exact ⟨by simp [hP], by rw [← hd, hK]; rfl, rfl, rfl⟩

theorem popContinueStack_depth {d t : Nat} {b b' : Builder}
    (h : popContinueStack d t b = .ok b') :
    b'.PendingMergesStack.length = b.PendingMergesStack.length ∧
      b'.BreakStack.length = b.BreakStack.length ∧ b'.ContinueStack.length + 1 = d ∧
      b'.badCFG = b.badCFG := by
  unfold popContinueStack at h
  split at h
  · cases h
  · next ntop nrest hN =>
    split at h
    · cases h
    · next hd =>
      simp only [ne_eq, Decidable.not_not] at hd
      obtain ⟨C, _, h2⟩ := bind_ok h
      cases h2
      exact ⟨rfl, rfl, by rw [← hd, hN]; rfl, rfl⟩

theorem closeLoop_depth {pd bd cd body cond : Nat} {b b' : Builder}
    (h : closeLoop pd bd cd body cond b = .ok b') :
    b'.PendingMergesStack.length + 1 = pd ∧ b'.BreakStack.length + 1 = bd ∧
      b'.ContinueStack.length + 1 = cd ∧ (b.badCFG = true → b'.badCFG = true) := by
  unfold closeLoop at h
  split at h
  · cases h
  · next hd =>
    simp only [ne_eq, Decidable.not_not] at hd
    obtain ⟨b1, h1, h⟩ := bind_ok h
    obtain ⟨b3, h3, h⟩ := bind_ok h
    obtain ⟨b4, h4, h⟩ := bind_ok h
    have d1 := flushPending_depth h1
    have d3 := popBreakStack_depth h3
    have d4 := popContinueStack_depth h4
    have d5 := pendingMergesPush_depth h
    have hne : b1.PendingMergesStack ≠ [] := by
      intro e
      unfold flushPending at h1
      split at h1
      · cases h1
      · obtain ⟨C, _, h2⟩ := bind_ok h1
        cases h2
        cases e
    have hpos := List.length_pos.2 hne
    have htail : b1.PendingMergesStack.tail.length + 1 = b1.PendingMergesStack.length := by
      rw [List.length_tail]
      omega
    refine ⟨?_, ?_, ?_, ?_⟩
    · have e1 : b'.PendingMergesStack.length = b4.PendingMergesStack.length := d5.1
      have e2 := d4.1
      have e3 : b3.PendingMergesStack.length = b1.PendingMergesStack.tail.length := d3.1
      have e4 := d1.1
      omega
    · have e1 : b'.BreakStack.length = b4.BreakStack.length := d5.2.1
      have e2 := d4.2.1
      have e3 := d3.2.1
      omega
    · have e1 : b'.ContinueStack.length = b4.ContinueStack.length := d5.2.2.1
      have e2 := d4.2.2.1
      omega
    · intro hb
      have f1 := d1.2.2.2 hb
      have f3 : b3.badCFG = true := by rw [d3.2.2.2]; exact f1
      have f4 : b4.badCFG = true := by rw [d4.2.2.2]; exact f3
      exact d5.2.2.2 f4

mutual
/-- Every visit that returns leaves the three stacks with the depth they had on entry,
and leaves the failure flag set when it was set on entry. -/
theorem visitStmt_depth : ∀ (S : Stmt) (b b' : Builder), visitStmt S b = .ok b' →
    SameDepth b b'
  | .BraceStmt Elements, b, b', h => by
    rw [visitStmt] at h
    exact visitElements_depth Elements b b' h
  | .SemiStmt, b, b', h => by
    rw [visitStmt] at h
    cases h
    exact sameDepth_refl _
  | .AssignStmt, b, b', h => by
    rw [visitStmt] at h
    cases h
  | .ReturnStmt none, b, b', h => by
    rw [visitStmt] at h
    exact lowerReturn_depth h
  | .ReturnStmt (some Result), b, b', h => by
    rw [visitStmt] at h
    obtain ⟨⟨v1, b1⟩, h1, h⟩ := bind_ok h
    exact sameDepth_trans (visitExpr_depth Result b b1 v1 h1) (lowerReturn_depth h)
  | .IfStmt _ Then none, b, b', h => by
    rw [visitStmt] at h
    obtain ⟨⟨k, b1⟩, h1, h⟩ := bind_ok h
    try dsimp only [createFreshBlock_eq] at h
    obtain ⟨b2, h2, h⟩ := bind_ok h
    obtain ⟨b3, h3, h⟩ := bind_ok h
    obtain ⟨b4, h4, h⟩ := bind_ok h
    have d1 := currentBlock_depth h1
    have d2 := visitStmt_depth Then _ b2 h2
    have d3 := addCurrentBlockToPending_depth h3
    have d4 := pendingMergesPush_depth h4
    have d := sameDepth_trans d1 (sameDepth_trans d2 (sameDepth_trans d3 d4))
    cases h
    exact d
  | .IfStmt _ Then (some Else), b, b', h => by
    rw [visitStmt] at h
    obtain ⟨⟨k, b1⟩, h1, h⟩ := bind_ok h
    try dsimp only [createFreshBlock_eq] at h
    obtain ⟨b2, h2, h⟩ := bind_ok h
    obtain ⟨b3, h3, h⟩ := bind_ok h
    try dsimp only [createFreshBlock_eq] at h
    obtain ⟨b4, h4, h⟩ := bind_ok h
    obtain ⟨b5, h5, h⟩ := bind_ok h
    have d1 := currentBlock_depth h1
    have d2 := visitStmt_depth Then _ b2 h2
    have d3 := addCurrentBlockToPending_depth h3
    have d4 := visitStmt_depth Else _ b4 h4
    have d5 := addCurrentBlockToPending_depth h5
    have d := sameDepth_trans d1 (sameDepth_trans d2 (sameDepth_trans d3
      (sameDepth_trans d4 d5)))
    cases h
    exact d
  | .WhileStmt _ Body, b, b', h => by
    rw [visitStmt] at h
    obtain ⟨b1, h1, h⟩ := bind_ok h
    obtain ⟨⟨cond, b2⟩, h2, h⟩ := bind_ok h
    try dsimp only [createFreshBlock_eq] at h
    obtain ⟨b3, h3, h⟩ := bind_ok h
    obtain ⟨b4, h4, h⟩ := bind_ok h
    have d1 := addCurrentBlockToPending_depth h1
    have d2 := currentBlock_depth h2
    have d3 := visitStmt_depth Body _ b3 h3
    have d4 := addCurrentBlockToPending_depth h4
    have d5 := closeLoop_depth h
    obtain ⟨p1, k1, n1, f1⟩ := d1
    obtain ⟨p2, k2, n2, f2⟩ := d2
    obtain ⟨p3, k3, n3, f3⟩ := d3
    obtain ⟨p4, k4, n4, f4⟩ := d4
    obtain ⟨p5, k5, n5, f5⟩ := d5
    simp only [List.length_cons] at p5 k5 n5 p3 k3 n3
    exact ⟨by omega, by omega, by omega, fun hb => f5 (f4 (f3 (f2 (f1 hb))))⟩
  | .DoWhileStmt Body _, b, b', h => by
    rw [visitStmt] at h
    try dsimp only [createFreshBlock_eq] at h
    obtain ⟨b1, h1, h⟩ := bind_ok h
    obtain ⟨⟨body, b2⟩, h2, h⟩ := bind_ok h
    try dsimp only [createFreshBlock_eq] at h
    obtain ⟨b3, h3, h⟩ := bind_ok h
    obtain ⟨b4, h4, h⟩ := bind_ok h
    obtain ⟨⟨cond, b5⟩, h5, h⟩ := bind_ok h
    try dsimp only [createFreshBlock_eq] at h
    have d1 := addCurrentBlockToPending_depth h1
    have d2 := currentBlock_depth h2
    have d3 := visitStmt_depth Body _ b3 h3
    have d4 := addCurrentBlockToPending_depth h4
    have d5 := currentBlock_depth h5
    have d6 := closeLoop_depth h
    obtain ⟨p1, k1, n1, f1⟩ := d1
    obtain ⟨p2, k2, n2, f2⟩ := d2
    obtain ⟨p3, k3, n3, f3⟩ := d3
    obtain ⟨p4, k4, n4, f4⟩ := d4
    obtain ⟨p5, k5, n5, f5⟩ := d5
    obtain ⟨p6, k6, n6, f6⟩ := d6
    simp only [List.length_cons] at p6 k6 n6 p1 k1 n1 p3 k3 n3
    exact ⟨by omega, by omega, by omega, fun hb => f6 (f5 (f4 (f3 (f2 (f1 hb)))))⟩
  | .ForStmt, b, b', h => by
    rw [visitStmt] at h
    cases h
  | .ForEachStmt, b, b', h => by
    rw [visitStmt] at h
    cases h
    exact ⟨rfl, rfl, rfl, fun _ => rfl⟩
  | .BreakStmt, b, b', h => by
    rw [visitStmt] at h
    exact visitBreakStmt_depth h
  | .ContinueStmt, b, b', h => by
    rw [visitStmt] at h
    exact visitContinueStmt_depth h
theorem visitElements_depth : ∀ (Elements : List ExprStmtOrDecl) (b b' : Builder),
    visitElements Elements b = .ok b' → SameDepth b b'
  | [], b, b', h => by
    rw [visitElements] at h
    cases h
    exact sameDepth_refl _
  | .decl :: _, b, b', h => by
    rw [visitElements] at h
    cases h
  | .stmt S :: rest, b, b', h => by
    rw [visitElements] at h
    obtain ⟨b1, h1, h⟩ := bind_ok h
    exact sameDepth_trans (visitStmt_depth S b b1 h1) (visitElements_depth rest b1 b' h)
  | .expr E :: rest, b, b', h => by
    rw [visitElements] at h
    obtain ⟨⟨v1, b1⟩, h1, h⟩ := bind_ok h
    exact sameDepth_trans (visitExpr_depth E b b1 v1 h1) (visitElements_depth rest b1 b' h)
end

/-! ## The argument of a call -/

/-- The recursion `visitCallArg` computes what `visitCallExpr` computes for its argument
after `ignoreParens`. -/
theorem visitCallArg_eq : ∀ (Arg : Expr) (b : Builder), visitCallArg Arg b = callArgs Arg b
  | .ParenExpr P, b => by
    rw [visitCallArg, callArgs, ignoreParens, ← callArgs]
    exact visitCallArg_eq P b
  | .TupleExpr Elements, b => by
    rw [visitCallArg, callArgs]
    simp only [ignoreParens]
  | .CallExpr Fn Arg, b => by
    rw [visitCallArg, callArgs]
    simp only [ignoreParens, visitExpr, bind_assoc]
  | .DeclRefExpr d, b => by
    rw [visitCallArg, callArgs]
    simp only [ignoreParens, visitExpr]
  | .ThisApplyExpr Fn Arg, b => by
    rw [visitCallArg, callArgs]
    simp only [ignoreParens, visitExpr, bind_assoc]
  | .IntegerLiteralExpr v, b => by
    rw [visitCallArg, callArgs]
    simp only [ignoreParens, visitExpr]
  | .LoadExpr Sub, b => by
    rw [visitCallArg, callArgs]
    simp only [ignoreParens, visitExpr, bind_assoc]
  | .TypeOfExpr t, b => by
    rw [visitCallArg, callArgs]
    simp only [ignoreParens, visitExpr]
  | .OtherExpr k, b => by
    rw [visitCallArg, callArgs]
    simp only [ignoreParens, visitExpr]
    rfl

/-! ## Statements that are not implemented -/

mutual
/-- A visit that returns has met no counted for statement and no assignment statement. -/
theorem visitStmt_implemented : ∀ (S : Stmt) (b b' : Builder), visitStmt S b = .ok b' →
    S.hasForOrAssign = false
  | .BraceStmt Elements, b, b', h => by
    rw [visitStmt] at h
    rw [Stmt.hasForOrAssign]
    exact visitElements_implemented Elements b b' h
  | .SemiStmt, b, b', h => by
    simp only [Stmt.hasForOrAssign]
  | .AssignStmt, b, b', h => by
    rw [visitStmt] at h
    cases h
  | .ReturnStmt _, b, b', h => by
    simp only [Stmt.hasForOrAssign]
  | .IfStmt _ Then none, b, b', h => by
    rw [visitStmt] at h
    obtain ⟨⟨k, b1⟩, h1, h⟩ := bind_ok h
    try dsimp only [createFreshBlock_eq] at h
    obtain ⟨b2, h2, h⟩ := bind_ok h
    rw [Stmt.hasForOrAssign]
    exact visitStmt_implemented Then _ b2 h2
  | .IfStmt _ Then (some Else), b, b', h => by
    rw [visitStmt] at h
    obtain ⟨⟨k, b1⟩, h1, h⟩ := bind_ok h
    try dsimp only [createFreshBlock_eq] at h
    obtain ⟨b2, h2, h⟩ := bind_ok h
    obtain ⟨b3, h3, h⟩ := bind_ok h
    try dsimp only [createFreshBlock_eq] at h
    obtain ⟨b4, h4, h⟩ := bind_ok h
    rw [Stmt.hasForOrAssign, visitStmt_implemented Then _ b2 h2,
      visitStmt_implemented Else _ b4 h4]
    rfl
  | .WhileStmt _ Body, b, b', h => by
    rw [visitStmt] at h
    obtain ⟨b1, h1, h⟩ := bind_ok h
    obtain ⟨⟨cond, b2⟩, h2, h⟩ := bind_ok h
    try dsimp only [createFreshBlock_eq] at h
    obtain ⟨b3, h3, h⟩ := bind_ok h
    rw [Stmt.hasForOrAssign]
    exact visitStmt_implemented Body _ b3 h3
  | .DoWhileStmt Body _, b, b', h => by
    rw [visitStmt] at h
    try dsimp only [createFreshBlock_eq] at h
    obtain ⟨b1, h1, h⟩ := bind_ok h
    obtain ⟨⟨body, b2⟩, h2, h⟩ := bind_ok h
    try dsimp only [createFreshBlock_eq] at h
    obtain ⟨b3, h3, h⟩ := bind_ok h
    rw [Stmt.hasForOrAssign]
    exact visitStmt_implemented Body _ b3 h3
  | .ForStmt, b, b', h => by
    rw [visitStmt] at h
    cases h
  | .ForEachStmt, b, b', h => by
    simp only [Stmt.hasForOrAssign]
  | .BreakStmt, b, b', h => by
    simp only [Stmt.hasForOrAssign]
  | .ContinueStmt, b, b', h => by
    simp only [Stmt.hasForOrAssign]
theorem visitElements_implemented : ∀ (Elements : List ExprStmtOrDecl) (b b' : Builder),
    visitElements Elements b = .ok b' → Stmt.hasForOrAssignAny Elements = false
  | [], b, b', h => by
    simp only [Stmt.hasForOrAssignAny]
  | .decl :: _, b, b', h => by
    rw [visitElements] at h
    cases h
  | .stmt S :: rest, b, b', h => by
    rw [visitElements] at h
    obtain ⟨b1, h1, h⟩ := bind_ok h
    rw [Stmt.hasForOrAssignAny, visitStmt_implemented S b b1 h1,
      visitElements_implemented rest b1 b' h]
    rfl
  | .expr E :: rest, b, b', h => by
    rw [visitElements] at h
    obtain ⟨⟨v1, b1⟩, h1, h⟩ := bind_ok h
    simp only [Stmt.hasForOrAssignAny]
    exact visitElements_implemented rest b1 b' h
end

/-! ## The stacks, the statements that are not implemented and the failure flag -/

/-- C10. Stack drain: every visit of a statement that returns leaves `BreakStack`,
`ContinueStack` and `PendingMergesStack` with the depth they had on entry; and for a tree
`S` of brace, empty, return, if, while, do-while, break, continue and for-each statements
over supported expressions, with every break and continue nested in a loop, the walk from
the initial builder returns with `BreakStack` and `ContinueStack` empty and with one list
in `PendingMergesStack`, and `finishUp`, which is called when the failure flag is unset,
returns: none of its assertions fails. -/
theorem stack_drain (S : Stmt) (hS : S.supported true false = true) :
    (∀ (T : Stmt) (b b' : Builder), visitStmt T b = .ok b' →
      b'.BreakStack.length = b.BreakStack.length ∧
      b'.ContinueStack.length = b.ContinueStack.length ∧
      b'.PendingMergesStack.length = b.PendingMergesStack.length) ∧
    ∃ b', visitStmt S Builder.init = .ok b' ∧ b'.BreakStack = [] ∧ b'.ContinueStack = [] ∧
      b'.PendingMergesStack.length = 1 ∧
      (b'.badCFG = false → ∃ b'', finishUp b' = .ok b'') := by
  refine ⟨fun T b b' h => ?_, ?_⟩
  · have d := visitStmt_depth T b b' h
    exact ⟨d.2.1, d.2.2.1, d.1⟩
  · obtain ⟨b', lg, _, e, hbad, hK, hN, hP, _, h2⟩ := constructCFG_ok S true hS
    refine ⟨b', e, hK, hN, hP, fun hf => ?_⟩
    obtain ⟨g, eg, _⟩ := h2 (by rw [← hbad]; exact hf)
    cases hfin : finishUp b' with
    | ok b'' => exact ⟨b'', rfl⟩
    | error err =>
      simp [constructCFG, e, hf, hfin, bind, Except.bind] at eg

/-- C10, witness: `while (c) { if (d) { break } else { for-each }; do { continue } while (e) }`. -/
theorem stack_drain_witness :
    Stmt.supported true false (.WhileStmt (.DeclRefExpr 0) (.BraceStmt
        [.stmt (.IfStmt (.DeclRefExpr 1) .BreakStmt (some .ForEachStmt)),
         .stmt (.DoWhileStmt .ContinueStmt (.DeclRefExpr 2))])) = true ∧
    ((∀ (T : Stmt) (b b' : Builder), visitStmt T b = .ok b' →
      b'.BreakStack.length = b.BreakStack.length ∧
      b'.ContinueStack.length = b.ContinueStack.length ∧
      b'.PendingMergesStack.length = b.PendingMergesStack.length) ∧
    ∃ b', visitStmt (.WhileStmt (.DeclRefExpr 0) (.BraceStmt
        [.stmt (.IfStmt (.DeclRefExpr 1) .BreakStmt (some .ForEachStmt)),
         .stmt (.DoWhileStmt .ContinueStmt (.DeclRefExpr 2))])) Builder.init = .ok b' ∧
      b'.BreakStack = [] ∧ b'.ContinueStack = [] ∧ b'.PendingMergesStack.length = 1 ∧
      (b'.badCFG = false → ∃ b'', finishUp b' = .ok b'')) :=
  ⟨by decide, stack_drain _ (by decide)⟩

/-- A tree that contains a counted for statement or an assignment statement ends in a fatal
abort, whatever else it contains: `constructCFG` returns neither a graph nor the null
result. -/
theorem unimplemented_aborts (S : Stmt) (hS : S.hasForOrAssign = true) :
    ∃ e, constructCFG S = .error e := by
  cases hv : visitStmt S Builder.init with
  | error e => exact ⟨e, by simp [constructCFG, hv, bind, Except.bind]⟩
  | ok b' =>
    have hn := visitStmt_implemented S Builder.init b' hv
    rw [hS] at hn
    cases hn

/-- An instance of `unimplemented_aborts`: `if (c) { x } else { while (d) { for } }`. -/
theorem unimplemented_aborts_witness :
    Stmt.hasForOrAssign (.IfStmt (.DeclRefExpr 0) (.BraceStmt [.expr (.DeclRefExpr 1)])
        (some (.WhileStmt (.DeclRefExpr 2) (.BraceStmt [.stmt .ForStmt])))) = true ∧
    ∃ e, constructCFG (.IfStmt (.DeclRefExpr 0) (.BraceStmt [.expr (.DeclRefExpr 1)])
        (some (.WhileStmt (.DeclRefExpr 2) (.BraceStmt [.stmt .ForStmt])))) = .error e :=
  ⟨by decide, unimplemented_aborts _ (by decide)⟩

/-- C8. Unimplemented statements are not a recoverable failure in the code.  A counted for
statement alone and an assignment statement alone end in the failed assertion
`Not yet implemented`: the result is not the null result.  The sibling for-each statement
alone sets the failure flag and gives the null result.  A for statement after a for-each
statement ends in the failed assertion although the failure flag is set by then, and so
does a for statement nested in a loop in the else-branch of an if statement.  When the
walk aborts before it reaches the for statement, the abort is that earlier one: after an
expression of a kind without visitor it is the `llvm_unreachable` of `visitExpr`, after a
break outside a loop it is the assertion of `visitBreakStmt`. -/
theorem unimplemented_not_recoverable :
    constructCFG .ForStmt = .error .notYetImplemented ∧
    constructCFG .AssignStmt = .error .notYetImplemented ∧
    constructCFG .ForStmt ≠ .ok none ∧
    constructCFG .AssignStmt ≠ .ok none ∧
    constructCFG .ForEachStmt = .ok none ∧
    constructCFG (.BraceStmt [.stmt .ForEachStmt, .stmt .ForStmt]) =
      .error .notYetImplemented ∧
    constructCFG (.IfStmt (.DeclRefExpr 0) (.BraceStmt [.expr (.DeclRefExpr 1)])
        (some (.WhileStmt (.DeclRefExpr 2) (.BraceStmt [.stmt .ForStmt])))) =
      .error .notYetImplemented ∧
    constructCFG (.BraceStmt [.expr (.OtherExpr 7), .stmt .ForStmt]) = .error .unreachable ∧
    constructCFG (.BraceStmt [.stmt .BreakStmt, .stmt .ForStmt]) = .error .assertion := by
  decide

/-- C9, as the code has it. The failure flag is sticky and decides the result: a visit
that starts with `badCFG` set and returns leaves it set, and when the walk of a root ends
in such a state `constructCFG` returns the null result, without calling `finishUp`. -/
theorem failure_flag_sticky (S : Stmt) (b b' : Builder) (h : visitStmt S b = .ok b')
    (hb : b.badCFG = true) :
    b'.badCFG = true ∧
      ∀ Root : Stmt, visitStmt Root Builder.init = .ok b' → constructCFG Root = .ok none := by
  have hb' : b'.badCFG = true := (visitStmt_depth S b b' h).2.2.2 hb
  refine ⟨hb', fun Root hR => ?_⟩
  simp [constructCFG, hR, hb', bind, Except.bind]

/-- C9, witness: `return 5` visited with the flag set, which is the second step of the
walk of `{ for-each; return 5 }`. -/
theorem failure_flag_sticky_witness :
    visitStmt (.ReturnStmt (some (.IntegerLiteralExpr 5)))
        { Builder.init with badCFG := true } =
      .ok { PendingMergesStack := [[]], BreakStack := [], ContinueStack := [],
            ExprToInst := [(.IntegerLiteralExpr 5, (0, 0))], Block := none,
            C := ⟨[⟨[.IntegerLiteralInst 5, .ReturnInst (some (0, 0))], []⟩]⟩,
            badCFG := true } ∧
    ({ Builder.init with badCFG := true } : Builder).badCFG = true ∧
    visitStmt (.BraceStmt [.stmt .ForEachStmt,
        .stmt (.ReturnStmt (some (.IntegerLiteralExpr 5)))]) Builder.init =
      .ok { PendingMergesStack := [[]], BreakStack := [], ContinueStack := [],
            ExprToInst := [(.IntegerLiteralExpr 5, (0, 0))], Block := none,
            C := ⟨[⟨[.IntegerLiteralInst 5, .ReturnInst (some (0, 0))], []⟩]⟩,
            badCFG := true } ∧
    (Builder.badCFG
          { PendingMergesStack := [[]], BreakStack := [], ContinueStack := [],
            ExprToInst := [(.IntegerLiteralExpr 5, (0, 0))], Block := none,
            C := ⟨[⟨[.IntegerLiteralInst 5, .ReturnInst (some (0, 0))], []⟩]⟩,
            badCFG := true } = true ∧
      ∀ Root : Stmt, visitStmt Root Builder.init =
        .ok { PendingMergesStack := [[]], BreakStack := [], ContinueStack := [],
              ExprToInst := [(.IntegerLiteralExpr 5, (0, 0))], Block := none,
              C := ⟨[⟨[.IntegerLiteralInst 5, .ReturnInst (some (0, 0))], []⟩]⟩,
              badCFG := true } →
        constructCFG Root = .ok none) :=
  ⟨rfl, rfl, rfl,
    failure_flag_sticky (.ReturnStmt (some (.IntegerLiteralExpr 5)))
      { Builder.init with badCFG := true } _ rfl rfl⟩

/-- C9, counterexample: in the walk of `{ for-each; return 5 }` the flag is set and the
graph is empty after the for-each statement; when the walk finishes the graph holds one
block with two instructions, created and filled by the visit of `return 5`. -/
theorem walk_goes_on_after_failure :
    (visitElements [.stmt .ForEachStmt] Builder.init).map (fun b => (b.badCFG, b.C)) =
      .ok (true, ⟨[]⟩) ∧
    (visitElements [.stmt .ForEachStmt, .stmt (.ReturnStmt (some (.IntegerLiteralExpr 5)))]
        Builder.init).map (fun b => (b.badCFG, b.C)) =
      .ok (true, ⟨[⟨[.IntegerLiteralInst 5, .ReturnInst (some (0, 0))], []⟩]⟩) ∧
    constructCFG (.BraceStmt [.stmt .ForEachStmt,
      .stmt (.ReturnStmt (some (.IntegerLiteralExpr 5)))]) = .ok none := by
  decide

/-! ## Expression lowering and the reference flattening -/

theorem insertAll_nil (C : CFG) (k : Nat) : C.insertAll k [] = C := by
  have hf : (fun B : BasicBlock => ({ B with insts := B.insts ++ [] } : BasicBlock)) = id := by
    funext B
    simp
  simp only [CFG.insertAll, hf, List.modify_id]

theorem Lowered.noneEmitted {k : Nat} {b : Builder} (hB : b.Block = some k) : Lowered k [] b b :=
  ⟨(insertAll_nil _ _).symm, hB, rfl, rfl, rfl, rfl⟩

theorem Lowered.andThen {k : Nat} {Is Js : List Instruction} {a b c : Builder}
    (h1 : Lowered k Is a b) (h2 : Lowered k Js b c) : Lowered k (Is ++ Js) a c := by
  obtain ⟨a1, _, a3, a4, a5, a6⟩ := h1
  obtain ⟨c1, c2, c3, c4, c5, c6⟩ := h2
  exact ⟨by rw [c1, a1, insertAll_insertAll], c2, c3.trans a3, c4.trans a4, c5.trans a5,
    c6.trans a6⟩

theorem Lowered.size {k : Nat} {Is : List Instruction} {a b : Builder} (h : Lowered k Is a b) :
    b.C.size = a.C.size := by
  rw [h.1, size_insertAll]

theorem Lowered.insts {k : Nat} {Is : List Instruction} {a b : Builder} (h : Lowered k Is a b)
    (hk : k < a.C.size) : b.C.insts k = a.C.insts k ++ Is := by
  rw [h.1, insts_insertAll _ _ _ _ hk, if_pos rfl]

/-- What the next visit starts from after a sequence has been lowered. -/
theorem Lowered.next {k n : Nat} {Is : List Instruction} {a b : Builder} (h : Lowered k Is a b)
    (hk : k < a.C.size) (hn : (a.C.insts k).length = n) :
    b.Block = some k ∧ k < b.C.size ∧ (b.C.insts k).length = n + Is.length :=
  ⟨h.2.1, by rw [h.size]; exact hk, by rw [h.insts hk, List.length_append, hn]⟩

theorem lastHandle_concat (k n : Nat) (s : List Instruction) (I : Instruction) :
    lastHandle k n (s ++ [I]) = some (k, n + s.length) := by
  simp [lastHandle]

theorem emit_flat {k n : Nat} {b : Builder} (hB : b.Block = some k)
    (hn : (b.C.insts k).length = n) (Ex : Expr) (I : Instruction) :
    ∃ b', emit Ex I b = .ok (some (k, n), b') ∧ Lowered k [I] b b' := by
  refine ⟨(addInst Ex I k b).2, ?_, rfl, hB, rfl, rfl, rfl, rfl⟩
  simp only [emit, currentBlock_of_block hB, bind, Except.bind]
  rw [← hn]
  rfl

mutual
theorem visitExpr_flatten : ∀ (e : Expr) (k n : Nat) (b : Builder), e.supported = true →
    b.Block = some k → k < b.C.size → (b.C.insts k).length = n →
    ∃ b', visitExpr e b = .ok (lastHandle k n (flatten k e n), b') ∧
      Lowered k (flatten k e n) b b' ∧ flatten k e n ≠ []
  | .ParenExpr Sub, k, n, b, he, hB, hk, hn => by
    simp only [Expr.supported] at he
    obtain ⟨b', e1, h1, h2⟩ := visitExpr_flatten Sub k n b he hB hk hn
    exact ⟨b', by rw [visitExpr, flatten]; exact e1, by rw [flatten]; exact h1,
      by rw [flatten]; exact h2⟩
  | .DeclRefExpr d, k, n, b, _, hB, hk, hn => by
    obtain ⟨b', e1, h1⟩ := emit_flat hB hn (.DeclRefExpr d) (.DeclRefInst d)
    exact ⟨b', by rw [visitExpr, flatten, e1]; simp [lastHandle], by rw [flatten]; exact h1,
      by rw [flatten]; simp⟩
  | .IntegerLiteralExpr v, k, n, b, _, hB, hk, hn => by
    obtain ⟨b', e1, h1⟩ := emit_flat hB hn (.IntegerLiteralExpr v) (.IntegerLiteralInst v)
    exact ⟨b', by rw [visitExpr, flatten, e1]; simp [lastHandle], by rw [flatten]; exact h1,
      by rw [flatten]; simp⟩
  | .TypeOfExpr t, k, n, b, _, hB, hk, hn => by
    obtain ⟨b', e1, h1⟩ := emit_flat hB hn (.TypeOfExpr t) (.TypeOfInst t)
    exact ⟨b', by rw [visitExpr, flatten, e1]; simp [lastHandle], by rw [flatten]; exact h1,
      by rw [flatten]; simp⟩
  | .LoadExpr Sub, k, n, b, he, hB, hk, hn => by
    simp only [Expr.supported] at he
    obtain ⟨b1, e1, h1, _⟩ := visitExpr_flatten Sub k n b he hB hk hn
    obtain ⟨hB1, hk1, hn1⟩ := h1.next hk hn
    obtain ⟨b2, e2, h2⟩ := emit_flat hB1 hn1 (.LoadExpr Sub)
      (.LoadInst (lastHandle k n (flatten k Sub n)))
    refine ⟨b2, ?_, by rw [flatten]; exact h1.andThen h2, by rw [flatten]; simp⟩
    rw [visitExpr, flatten]
    simp only [e1, bind, Except.bind]
    rw [e2, lastHandle_concat]
  | .ThisApplyExpr Fn Arg, k, n, b, he, hB, hk, hn => by
    simp only [Expr.supported, Bool.and_eq_true] at he
    obtain ⟨b1, e1, h1, _⟩ := visitExpr_flatten Fn k n b he.1 hB hk hn
    obtain ⟨hB1, hk1, hn1⟩ := h1.next hk hn
    obtain ⟨b2, e2, h2, _⟩ := visitExpr_flatten Arg k _ b1 he.2 hB1 hk1 hn1
    have h12 := h1.andThen h2
    obtain ⟨hB2, hk2, hn2⟩ := h12.next hk hn
    obtain ⟨b3, e3, h3⟩ := emit_flat hB2 hn2 (.ThisApplyExpr Fn Arg)
      (.ThisApplyInst (lastHandle k n (flatten k Fn n))
        (lastHandle k (n + (flatten k Fn n).length)
          (flatten k Arg (n + (flatten k Fn n).length))))
    refine ⟨b3, ?_, by rw [flatten]; exact h12.andThen h3, by rw [flatten]; simp⟩
    rw [visitExpr, flatten]
    simp only [e1, e2, bind, Except.bind]
    rw [e3, lastHandle_concat]
  | .TupleExpr Elements, k, n, b, he, hB, hk, hn => by
    simp only [Expr.supported] at he
    obtain ⟨b1, e1, h1⟩ := visitExprs_flatten Elements k n b he hB hk hn
    obtain ⟨hB1, hk1, hn1⟩ := h1.next hk hn
    obtain ⟨b2, e2, h2⟩ := emit_flat hB1 hn1 (.TupleExpr Elements)
      (.TupleInst (flattenAll k Elements n).2)
    refine ⟨b2, ?_, by rw [flatten]; exact h1.andThen h2, by rw [flatten]; simp⟩
    rw [visitExpr, flatten]
    simp only [e1, bind, Except.bind]
    rw [e2, lastHandle_concat]
  | .CallExpr Fn Arg, k, n, b, he, hB, hk, hn => by
    simp only [Expr.supported, Bool.and_eq_true] at he
    obtain ⟨b1, e1, h1, _⟩ := visitExpr_flatten Fn k n b he.1 hB hk hn
    obtain ⟨hB1, hk1, hn1⟩ := h1.next hk hn
    obtain ⟨b2, e2, h2⟩ := visitCallArg_flatten Arg k _ b1 he.2 hB1 hk1 hn1
    have h12 := h1.andThen h2
    obtain ⟨hB2, hk2, hn2⟩ := h12.next hk hn
    obtain ⟨b3, e3, h3⟩ := emit_flat hB2 hn2 (.CallExpr Fn Arg)
      (.CallInst (lastHandle k n (flatten k Fn n))
        (flattenArg k Arg (n + (flatten k Fn n).length)).2)
    refine ⟨b3, ?_, by rw [flatten]; exact h12.andThen h3, by rw [flatten]; simp⟩
    rw [visitExpr, flatten]
    simp only [e1, e2, bind, Except.bind]
    rw [e3, lastHandle_concat]
  | .OtherExpr _, _, _, _, he, _, _, _ => by
    simp [Expr.supported] at he
termination_by e => (sizeOf e, 0)
theorem visitExprs_flatten : ∀ (es : List Expr) (k n : Nat) (b : Builder),
    Expr.supportedAll es = true → b.Block = some k → k < b.C.size →
    (b.C.insts k).length = n →
    ∃ b', visitExprs es b = .ok ((flattenAll k es n).2, b') ∧
      Lowered k (flattenAll k es n).1 b b'
  | [], k, n, b, _, hB, _, _ => ⟨b, by rw [visitExprs, flattenAll], by
      rw [flattenAll]; exact Lowered.noneEmitted hB⟩
  | E :: rest, k, n, b, he, hB, hk, hn => by
    simp only [Expr.supportedAll, Bool.and_eq_true] at he
    obtain ⟨b1, e1, h1, _⟩ := visitExpr_flatten E k n b he.1 hB hk hn
    obtain ⟨hB1, hk1, hn1⟩ := h1.next hk hn
    obtain ⟨b2, e2, h2⟩ := visitExprs_flatten rest k _ b1 he.2 hB1 hk1 hn1
    refine ⟨b2, ?_, by rw [flattenAll]; exact h1.andThen h2⟩
    rw [visitExprs, flattenAll]
    simp only [e1, e2, bind, Except.bind]
termination_by es => (sizeOf es, 0)
theorem visitCallArg_flatten : ∀ (e : Expr) (k n : Nat) (b : Builder), e.supported = true →
    b.Block = some k → k < b.C.size → (b.C.insts k).length = n →
    ∃ b', visitCallArg e b = .ok ((flattenArg k e n).2, b') ∧
      Lowered k (flattenArg k e n).1 b b'
  | .ParenExpr Sub, k, n, b, he, hB, hk, hn => by
    simp only [Expr.supported] at he
    obtain ⟨b', e1, h1⟩ := visitCallArg_flatten Sub k n b he hB hk hn
    exact ⟨b', by rw [visitCallArg, flattenArg]; exact e1, by rw [flattenArg]; exact h1⟩
  | .TupleExpr Elements, k, n, b, he, hB, hk, hn => by
    simp only [Expr.supported] at he
    obtain ⟨b', e1, h1⟩ := visitExprs_flatten Elements k n b he hB hk hn
    exact ⟨b', by rw [visitCallArg, flattenArg]; exact e1, by rw [flattenArg]; exact h1⟩
  | .CallExpr Fn Arg, k, n, b, he, hB, hk, hn => by
    obtain ⟨b', e1, h1, _⟩ := visitExpr_flatten (.CallExpr Fn Arg) k n b he hB hk hn
    refine ⟨b', ?_, by simp only [flattenArg]; exact h1⟩
    rw [visitCallArg_eq, callArgs]
    simp only [ignoreParens, e1, bind, Except.bind, flattenArg]
  | .DeclRefExpr d, k, n, b, he, hB, hk, hn => by
    obtain ⟨b', e1, h1, _⟩ := visitExpr_flatten (.DeclRefExpr d) k n b he hB hk hn
    refine ⟨b', ?_, by simp only [flattenArg]; exact h1⟩
    rw [visitCallArg_eq, callArgs]
    simp only [ignoreParens, e1, bind, Except.bind, flattenArg]
  | .IntegerLiteralExpr v, k, n, b, he, hB, hk, hn => by
    obtain ⟨b', e1, h1, _⟩ := visitExpr_flatten (.IntegerLiteralExpr v) k n b he hB hk hn
    refine ⟨b', ?_, by simp only [flattenArg]; exact h1⟩
    rw [visitCallArg_eq, callArgs]
    simp only [ignoreParens, e1, bind, Except.bind, flattenArg]
  | .TypeOfExpr t, k, n, b, he, hB, hk, hn => by
    obtain ⟨b', e1, h1, _⟩ := visitExpr_flatten (.TypeOfExpr t) k n b he hB hk hn
    refine ⟨b', ?_, by simp only [flattenArg]; exact h1⟩
    rw [visitCallArg_eq, callArgs]
    simp only [ignoreParens, e1, bind, Except.bind, flattenArg]
  | .LoadExpr Sub, k, n, b, he, hB, hk, hn => by
    obtain ⟨b', e1, h1, _⟩ := visitExpr_flatten (.LoadExpr Sub) k n b he hB hk hn
    refine ⟨b', ?_, by simp only [flattenArg]; exact h1⟩
    rw [visitCallArg_eq, callArgs]
    simp only [ignoreParens, e1, bind, Except.bind, flattenArg]
  | .ThisApplyExpr Fn Arg, k, n, b, he, hB, hk, hn => by
    obtain ⟨b', e1, h1, _⟩ := visitExpr_flatten (.ThisApplyExpr Fn Arg) k n b he hB hk hn
    refine ⟨b', ?_, by simp only [flattenArg]; exact h1⟩
    rw [visitCallArg_eq, callArgs]
    simp only [ignoreParens, e1, bind, Except.bind, flattenArg]
  | .OtherExpr _, _, _, _, he, _, _, _ => by
    simp [Expr.supported] at he
termination_by e => (sizeOf e, 1)
end

mutual
/-- The reference flattening holds value instructions only. -/
theorem flatten_isOpen (k : Nat) : ∀ (e : Expr) (n : Nat), IsOpen (flatten k e n)
  | .ParenExpr Sub, n => by
    rw [flatten]
    exact flatten_isOpen k Sub n
  | .DeclRefExpr d, n => by
    rw [flatten]
    exact isOpen_singleton.2 rfl
  | .IntegerLiteralExpr v, n => by
    rw [flatten]
    exact isOpen_singleton.2 rfl
  | .TypeOfExpr t, n => by
    rw [flatten]
    exact isOpen_singleton.2 rfl
  | .LoadExpr Sub, n => by
    rw [flatten]
    exact isOpen_append.2 ⟨flatten_isOpen k Sub n, isOpen_singleton.2 rfl⟩
  | .ThisApplyExpr Fn Arg, n => by
    rw [flatten]
    exact isOpen_append.2 ⟨isOpen_append.2 ⟨flatten_isOpen k Fn n, flatten_isOpen k Arg _⟩,
      isOpen_singleton.2 rfl⟩
  | .TupleExpr Elements, n => by
    rw [flatten]
    exact isOpen_append.2 ⟨flattenAll_isOpen k Elements n, isOpen_singleton.2 rfl⟩
  | .CallExpr Fn Arg, n => by
    rw [flatten]
    exact isOpen_append.2 ⟨isOpen_append.2 ⟨flatten_isOpen k Fn n, flattenArg_isOpen k Arg _⟩,
      isOpen_singleton.2 rfl⟩
  | .OtherExpr _, n => by
    rw [flatten]
    exact IsOpen.nil
termination_by e => (sizeOf e, 0)
theorem flattenAll_isOpen (k : Nat) : ∀ (es : List Expr) (n : Nat),
    IsOpen (flattenAll k es n).1
  | [], n => by
    rw [flattenAll]
    exact IsOpen.nil
  | E :: rest, n => by
    rw [flattenAll]
    exact isOpen_append.2 ⟨flatten_isOpen k E n, flattenAll_isOpen k rest _⟩
termination_by es => (sizeOf es, 0)
theorem flattenArg_isOpen (k : Nat) : ∀ (e : Expr) (n : Nat), IsOpen (flattenArg k e n).1
  | .ParenExpr Sub, n => by
    rw [flattenArg]
    exact flattenArg_isOpen k Sub n
  | .TupleExpr Elements, n => by
    rw [flattenArg]
    exact flattenAll_isOpen k Elements n
  | .CallExpr Fn Arg, n => by
    simp only [flattenArg]
    exact flatten_isOpen k _ n
  | .DeclRefExpr d, n => by
    simp only [flattenArg]
    exact flatten_isOpen k _ n
  | .IntegerLiteralExpr v, n => by
    simp only [flattenArg]
    exact flatten_isOpen k _ n
  | .TypeOfExpr t, n => by
    simp only [flattenArg]
    exact flatten_isOpen k _ n
  | .LoadExpr Sub, n => by
    simp only [flattenArg]
    exact flatten_isOpen k _ n
  | .ThisApplyExpr Fn Arg, n => by
    simp only [flattenArg]
    exact flatten_isOpen k _ n
  | .OtherExpr _, n => by
    simp only [flattenArg]
    exact flatten_isOpen k _ n
termination_by e => (sizeOf e, 1)
end

/-- The expression statements of a brace statement are lowered one after the other into
the active block. -/
theorem visitElements_exprs : ∀ (es : List Expr) (k n : Nat) (b : Builder),
    Expr.supportedAll es = true → b.Block = some k → k < b.C.size →
    (b.C.insts k).length = n →
    ∃ b', visitElements (es.map .expr) b = .ok b' ∧ Lowered k (flattenAll k es n).1 b b'
  | [], k, n, b, _, hB, _, _ => ⟨b, by rw [List.map_nil, visitElements], by
      rw [flattenAll]; exact Lowered.noneEmitted hB⟩
  | E :: rest, k, n, b, he, hB, hk, hn => by
    simp only [Expr.supportedAll, Bool.and_eq_true] at he
    obtain ⟨b1, e1, h1, _⟩ := visitExpr_flatten E k n b he.1 hB hk hn
    obtain ⟨hB1, hk1, hn1⟩ := h1.next hk hn
    obtain ⟨b2, e2, h2⟩ := visitElements_exprs rest k _ b1 he.2 hB1 hk1 hn1
    refine ⟨b2, ?_, by rw [flattenAll]; exact h1.andThen h2⟩
    rw [List.map_cons, visitElements]
    simp only [e1, bind, Except.bind]
    exact e2

/-- C14. Expression lowering equals post-order flattening: a supported expression `e`
visited while block `k` is active is lowered into that block alone: the visit returns, the
graph afterwards is the graph before with the reference flattening of `e` appended to
block `k`, so that no block is created and no other block changes, at least one
instruction is emitted, and the handle returned is the last instruction emitted. -/
theorem expr_lowering_is_flattening (e : Expr) (b : Builder) (k : Nat)
    (he : e.supported = true) (hB : b.Block = some k) (hk : k < b.C.size) :
    ∃ b', visitExpr e b =
        .ok (lastHandle k (b.C.insts k).length (flatten k e (b.C.insts k).length), b') ∧
      b'.C = b.C.insertAll k (flatten k e (b.C.insts k).length) ∧
      b'.C.size = b.C.size ∧ b'.Block = some k ∧
      b'.C.insts k = b.C.insts k ++ flatten k e (b.C.insts k).length ∧
      (∀ i, i ≠ k → b'.C.insts i = b.C.insts i) ∧
      flatten k e (b.C.insts k).length ≠ [] := by
  obtain ⟨b', e1, h1, h2⟩ := visitExpr_flatten e k _ b he hB hk rfl
  refine ⟨b', e1, h1.1, h1.size, h1.2.1, h1.insts hk, fun i hi => ?_, h2⟩
  rw [h1.1, insts_insertAll _ _ _ _ hk, if_neg hi]

/-- C14, witness: `f((1, x))` lowered into an empty block 0 gives the literal, the name
reference and one call instruction with the two handles, and no tuple instruction. -/
theorem expr_lowering_is_flattening_witness :
    Expr.supported (.CallExpr (.DeclRefExpr 1)
      (.ParenExpr (.TupleExpr [.IntegerLiteralExpr 1, .DeclRefExpr 3]))) = true ∧
    ({ Builder.init with Block := some 0, C := ⟨[⟨[], []⟩]⟩ } : Builder).Block = some 0 ∧
    0 < ({ Builder.init with Block := some 0, C := ⟨[⟨[], []⟩]⟩ } : Builder).C.size ∧
    flatten 0 (.CallExpr (.DeclRefExpr 1)
      (.ParenExpr (.TupleExpr [.IntegerLiteralExpr 1, .DeclRefExpr 3]))) 0 =
      [.DeclRefInst 1, .IntegerLiteralInst 1, .DeclRefInst 3,
        .CallInst (some (0, 0)) [some (0, 1), some (0, 2)]] ∧
    ∃ b', visitExpr (.CallExpr (.DeclRefExpr 1)
        (.ParenExpr (.TupleExpr [.IntegerLiteralExpr 1, .DeclRefExpr 3])))
        { Builder.init with Block := some 0, C := ⟨[⟨[], []⟩]⟩ } =
        .ok (some (0, 3), b') ∧
      b'.C = ⟨[⟨[.DeclRefInst 1, .IntegerLiteralInst 1, .DeclRefInst 3,
        .CallInst (some (0, 0)) [some (0, 1), some (0, 2)]], []⟩]⟩ := by
  have hf : flatten 0 (.CallExpr (.DeclRefExpr 1)
      (.ParenExpr (.TupleExpr [.IntegerLiteralExpr 1, .DeclRefExpr 3]))) 0 =
      [.DeclRefInst 1, .IntegerLiteralInst 1, .DeclRefInst 3,
        .CallInst (some (0, 0)) [some (0, 1), some (0, 2)]] := by
    simp [flatten, flattenAll, flattenArg, lastHandle]
  obtain ⟨b', e1, e2, _⟩ := expr_lowering_is_flattening (.CallExpr (.DeclRefExpr 1)
      (.ParenExpr (.TupleExpr [.IntegerLiteralExpr 1, .DeclRefExpr 3])))
      { Builder.init with Block := some 0, C := ⟨[⟨[], []⟩]⟩ } 0 (by decide) rfl (by decide)
  refine ⟨by decide, rfl, by decide, hf, b', ?_, ?_⟩
  · rw [e1]
    have : (CFG.insts ⟨[⟨[], []⟩]⟩ 0).length = 0 := rfl
    simp only [Builder.init, this, hf, lastHandle]
    rfl
  · rw [e2]
    have : (CFG.insts ⟨[⟨[], []⟩]⟩ 0).length = 0 := rfl
    simp only [Builder.init, this, hf]
    rfl

/-! ## The shape of a while loop at the root -/

theorem hasTerminator_open_block {s : List Instruction} (hs : IsOpen s) (p : List Nat) :
    hasTerminator ⟨s, p⟩ = false := by
  unfold hasTerminator
  cases h : s.getLast? with
  | none => simp [h]
  | some I => simp [h, hs.getLast h]

/-- The steps of `visitWhileStmt` before the body, from the initial builder: block 0 is the
condition block and block 1, which is active, the body block. -/
theorem while_head (c : Expr) (Body : Stmt) :
    visitStmt (.WhileStmt c Body) Builder.init =
      (do
        let b ← visitStmt Body
          { PendingMergesStack := [[], []], BreakStack := [[]], ContinueStack := [[]],
            ExprToInst := [], Block := some 1, C := ⟨[⟨[], []⟩, ⟨[], []⟩]⟩, badCFG := false }
        let b ← addCurrentBlockToPending b
        closeLoop 2 1 1 1 0 b) := by
  rw [visitStmt]
  rfl

/-- The steps of `visitWhileStmt` after the body, and `finishUp`, when the body has left the
value instructions `s` in the body block. -/
theorem while_tail (s : List Instruction) (hs : IsOpen s) (X : List (Expr × (Nat × Nat))) :
    ∃ b3, (addCurrentBlockToPending
          { PendingMergesStack := [[], []], BreakStack := [[]], ContinueStack := [[]],
            ExprToInst := X, Block := some 1, C := ⟨[⟨[], []⟩, ⟨s, []⟩]⟩, badCFG := false } >>=
        closeLoop 2 1 1 1 0) = .ok b3 ∧ b3.badCFG = false ∧
      ∃ b4, finishUp b3 = .ok b4 ∧
        b4.C = ⟨[⟨[.CondBranchInst none (some 1) (some 2)], [1]⟩,
          ⟨s ++ [.UncondBranchInst (some 0)], [0]⟩, ⟨[.ReturnInst none], [0]⟩]⟩ := by
  have h1 : hasTerminator ⟨s, []⟩ = false := hasTerminator_open_block hs []
  have h2 : ∀ p, hasTerminator ⟨[.CondBranchInst none (some 1) none], p⟩ = true := fun _ => rfl
  refine ⟨{ PendingMergesStack := [[0]], BreakStack := [], ContinueStack := [],
            ExprToInst := X, Block := none,
            C := ⟨[⟨[.CondBranchInst none (some 1) none], [1]⟩,
              ⟨s ++ [.UncondBranchInst (some 0)], [0]⟩]⟩, badCFG := false }, ?_, rfl,
    { PendingMergesStack := [[]], BreakStack := [], ContinueStack := [],
      ExprToInst := X, Block := some 2,
      C := ⟨[⟨[.CondBranchInst none (some 1) (some 2)], [1]⟩,
        ⟨s ++ [.UncondBranchInst (some 0)], [0]⟩, ⟨[.ReturnInst none], [0]⟩]⟩,
      badCFG := false }, ?_, rfl⟩
  · simp [addCurrentBlockToPending, CFG.block, h1, pendingMergesPush, closeLoop, flushPending,
      flushLoop, flushOne, bind, Except.bind, CFG.insert, CFG.setTarget, CFG.modifyTerminator,
      CFG.addPred, modifyLast, popBreakStack, popContinueStack, rebindLoop,
      CFG.newCondBranchInst, CFG.addPredOpt]
  · simp [CFG.block, h2, flushPending, flushLoop, flushOne, bind, Except.bind, CFG.insert,
      CFG.modifyTerminator, CFG.addPred, modifyLast, finishUp, pendingMerges, currentBlock,
      CFG.newBlock, CFG.setBranch1]

/-- C17. While-loop shape with back-edge: for a while loop at the root whose body is a
brace statement of supported expression statements, `constructCFG` returns a graph of
exactly three blocks: block 0, the condition block, holds a conditional branch with true
target block 1 and false target block 2; block 1, the body block, holds the reference
flattening of the expressions, which are value instructions, followed by an unconditional
branch to block 0; block 2, the exit block, holds a return without value alone. -/
theorem while_loop_shape (c : Expr) (es : List Expr) (hes : Expr.supportedAll es = true) :
    constructCFG (.WhileStmt c (.BraceStmt (es.map .expr))) =
      .ok (some ⟨[⟨[.CondBranchInst none (some 1) (some 2)], [1]⟩,
        ⟨(flattenAll 1 es 0).1 ++ [.UncondBranchInst (some 0)], [0]⟩,
        ⟨[.ReturnInst none], [0]⟩]⟩) ∧
    IsOpen (flattenAll 1 es 0).1 := by
  refine ⟨?_, flattenAll_isOpen 1 es 0⟩
  obtain ⟨b1, e1, h1⟩ := visitElements_exprs es 1 0
    { PendingMergesStack := [[], []], BreakStack := [[]], ContinueStack := [[]],
      ExprToInst := [], Block := some 1, C := ⟨[⟨[], []⟩, ⟨[], []⟩]⟩, badCFG := false }
    hes rfl (by decide) rfl
  obtain ⟨P, K, N, X, Bl, C, bad⟩ := b1
  obtain ⟨hC, hB, hP, hK, hN, hbad⟩ := h1
  simp only at hC hB hP hK hN hbad
  have hC' : C = ⟨[⟨[], []⟩, ⟨(flattenAll 1 es 0).1, []⟩]⟩ := by
    rw [hC]
    simp [CFG.insertAll]
  subst hC' hB hP hK hN hbad
  obtain ⟨b3, e3, hbad3, b4, e4, h4⟩ := while_tail (flattenAll 1 es 0).1
    (flattenAll_isOpen 1 es 0) X
  simp only [bind, Except.bind] at e3
  unfold constructCFG
  rw [while_head, visitStmt, e1]
  simp only [bind, Except.bind]
  rw [e3]
  simp only [hbad3, e4, h4, Bool.not_false, if_true]

/-- C17, witness: `while (c) { f(x); 7 }`. -/
theorem while_loop_shape_witness :
    Expr.supportedAll [.CallExpr (.DeclRefExpr 0) (.DeclRefExpr 1), .IntegerLiteralExpr 7] =
      true ∧
    constructCFG (.WhileStmt (.DeclRefExpr 9) (.BraceStmt
      [.expr (.CallExpr (.DeclRefExpr 0) (.DeclRefExpr 1)), .expr (.IntegerLiteralExpr 7)])) =
      .ok (some ⟨[⟨[.CondBranchInst none (some 1) (some 2)], [1]⟩,
        ⟨[.DeclRefInst 0, .DeclRefInst 1, .CallInst (some (1, 0)) [some (1, 1)],
          .IntegerLiteralInst 7, .UncondBranchInst (some 0)], [0]⟩,
        ⟨[.ReturnInst none], [0]⟩]⟩) :=
  ⟨by decide, by
    have h := (while_loop_shape (.DeclRefExpr 9)
      [.CallExpr (.DeclRefExpr 0) (.DeclRefExpr 1), .IntegerLiteralExpr 7] (by decide)).1
    simpa [flatten, flattenAll, flattenArg, lastHandle] using h⟩

/-! ## Conditions, the arms of an `if`, and the finalizer -/

/-- C13, the code at the failing inputs: for `if (1) {}`, `while (1) {}` and
`do {} while (1)` no instruction is lowered from the condition and the conditional branch
has no condition operand; the walk does not read the condition of any of the three
statements. -/
theorem condition_not_lowered :
    constructCFG (.IfStmt (.IntegerLiteralExpr 1) (.BraceStmt []) none) =
      .ok (some ⟨[⟨[.CondBranchInst none (some 1) (some 2)], []⟩,
        ⟨[.UncondBranchInst (some 2)], [0]⟩, ⟨[.ReturnInst none], [1, 0]⟩]⟩) ∧
    constructCFG (.WhileStmt (.IntegerLiteralExpr 1) (.BraceStmt [])) =
      .ok (some ⟨[⟨[.CondBranchInst none (some 1) (some 2)], [1]⟩,
        ⟨[.UncondBranchInst (some 0)], [0]⟩, ⟨[.ReturnInst none], [0]⟩]⟩) ∧
    constructCFG (.DoWhileStmt (.BraceStmt []) (.IntegerLiteralExpr 1)) =
      .ok (some ⟨[⟨[.UncondBranchInst (some 1)], [1]⟩,
        ⟨[.CondBranchInst none (some 0) (some 2)], [0]⟩, ⟨[.ReturnInst none], [1]⟩]⟩) ∧
    (∀ (c c' : Expr) (Then : Stmt) (Else : Option Stmt) (b : Builder),
      visitStmt (.IfStmt c Then Else) b = visitStmt (.IfStmt c' Then Else) b) ∧
    (∀ (c c' : Expr) (Body : Stmt) (b : Builder),
      visitStmt (.WhileStmt c Body) b = visitStmt (.WhileStmt c' Body) b) ∧
    (∀ (c c' : Expr) (Body : Stmt) (b : Builder),
      visitStmt (.DoWhileStmt Body c) b = visitStmt (.DoWhileStmt Body c') b) := by
  refine ⟨by decide, by decide, by decide, ?_, ?_, ?_⟩
  · intro c c' Then Else b
    rw [visitStmt, visitStmt]
  · intro c c' Body b
    rw [visitStmt, visitStmt]
  · intro c c' Body b
    rw [visitStmt, visitStmt]

/-- C18, the code at the failing inputs: in the graph of `if (c) { x } else { while (d) {} }`
the then block, block 1, branches to block 3, the condition block of the loop of the else
branch, and not to the block created after the `if`, block 5; in the graph of
`if (c) { x } else { return; y }` the then block branches to block 3, which holds the
code that follows the return in the else branch.  With a plain else arm both arms branch
to the block created after the `if`. -/
theorem then_exit_enters_else :
    constructCFG (.IfStmt (.DeclRefExpr 0) (.BraceStmt [.expr (.DeclRefExpr 1)])
      (some (.WhileStmt (.DeclRefExpr 2) (.BraceStmt [])))) =
      .ok (some ⟨[⟨[.CondBranchInst none (some 1) (some 2)], []⟩,
        ⟨[.DeclRefInst 1, .UncondBranchInst (some 3)], [0]⟩,
        ⟨[.UncondBranchInst (some 3)], [0]⟩,
        ⟨[.CondBranchInst none (some 4) (some 5)], [1, 2, 4]⟩,
        ⟨[.UncondBranchInst (some 3)], [3]⟩,
        ⟨[.ReturnInst none], [3]⟩]⟩) ∧
    constructCFG (.IfStmt (.DeclRefExpr 0) (.BraceStmt [.expr (.DeclRefExpr 1)])
      (some (.BraceStmt [.stmt (.ReturnStmt none), .expr (.DeclRefExpr 5)]))) =
      .ok (some ⟨[⟨[.CondBranchInst none (some 1) (some 2)], []⟩,
        ⟨[.DeclRefInst 1, .UncondBranchInst (some 3)], [0]⟩,
        ⟨[.ReturnInst none], [0]⟩,
        ⟨[.DeclRefInst 5, .UncondBranchInst (some 4)], [1]⟩,
        ⟨[.ReturnInst none], [3]⟩]⟩) ∧
    constructCFG (.IfStmt (.DeclRefExpr 0) (.BraceStmt [.expr (.DeclRefExpr 1)])
      (some (.BraceStmt [.expr (.DeclRefExpr 2)]))) =
      .ok (some ⟨[⟨[.CondBranchInst none (some 1) (some 2)], []⟩,
        ⟨[.DeclRefInst 1, .UncondBranchInst (some 3)], [0]⟩,
        ⟨[.DeclRefInst 2, .UncondBranchInst (some 3)], [0]⟩,
        ⟨[.ReturnInst none], [1, 2]⟩]⟩) := by
  decide

/-- The finalizer from a state the walk ends in: it returns, and either leaves the graph as
it is or appends one return without value to the block that `currentBlock` gives, which
holds no terminator. -/
theorem finishUp_shape {Lg : List LoopRecord} {b : Builder} (I : Inv [] Lg b)
    (hP : b.PendingMergesStack.length = 1) (hq : Quiet b) :
    (∀ pm, pendingMerges b = .ok pm → pm ≠ [] → b.Block = none) ∧
      ∃ b'', finishUp b = .ok b'' ∧
        (b''.C = b.C ∨
          ∃ k b1, currentBlock b = .ok (k, b1) ∧ IsOpen (b1.C.insts k) ∧
            hasTerminator (b1.C.block k) = false ∧
            b''.C = b1.C.insert k (.ReturnInst none)) := by
  obtain ⟨pm, hPm⟩ := List.length_eq_one.1 hP
  have hquiet : ∀ pm', pendingMerges b = .ok pm' → pm' ≠ [] → b.Block = none := by
    intro pm' h1 h2
    rw [pendingMerges, hPm] at h1
    cases h1
    rcases hq with hq | hq
    · exact hq
    · rw [hPm] at hq
      simp only [List.head?_cons, Option.some.injEq] at hq
      exact absurd hq h2
  refine ⟨hquiet, ?_⟩
  by_cases hpm : pm = []
  · subst hpm
    cases hB : b.Block with
    | none =>
      exact ⟨b, by simp [finishUp, hPm, pendingMerges, hB, bind, Except.bind], Or.inl rfl⟩
    | some k =>
      have ho := I.cur k hB
      have hcase : ∀ J, (b.C.block k).insts.getLast? = some J → J.isReturnInst = false := by
        intro J hJ
        have := ho.getLast (getLast_block.symm.trans hJ)
        cases J <;> simp_all [Instruction.isTermInst, Instruction.isReturnInst]
      refine ⟨{ b with C := b.C.insert k (.ReturnInst none) }, ?_, Or.inr ⟨k, b,
        currentBlock_of_block hB, ho, hasTerminator_of_isOpen ho, rfl⟩⟩
      cases hl : (b.C.block k).insts.getLast? with
      | none => simp [finishUp, hPm, pendingMerges, hB, hl, bind, Except.bind]
      | some J => simp [finishUp, hPm, pendingMerges, hB, hl, hcase J hl, bind, Except.bind]
  · have hB : b.Block = none := hquiet pm (by simp [pendingMerges, hPm]) hpm
    obtain ⟨k, b0, e0, I0, B0, _⟩ := currentBlock_inv I
    have ho := I0.cur k B0
    refine ⟨{ b0 with C := b0.C.insert k (.ReturnInst none) }, ?_, Or.inr ⟨k, b0, e0, ho,
      hasTerminator_of_isOpen ho, rfl⟩⟩
    have : pm.isEmpty = false := by
      cases pm with
      | nil => exact absurd rfl hpm
      | cons a l => rfl
    simp [finishUp, hPm, pendingMerges, hB, this, e0, bind, Except.bind]

/-- C19. Finalizer assertion is unreachable: for a tree of brace, empty, return, if, while,
do-while, break, continue and for-each statements over supported expressions, with every
break and continue nested in a loop, the walk from the initial builder returns with one
pending list; when that list is not empty no block is active; and `finishUp` returns, and
either leaves the graph as it is or appends one return without value to the block that
`currentBlock` gives, which holds no terminator. -/
theorem finalizer_assertion_unreachable (S : Stmt) (hS : S.supported true false = true) :
    ∃ b', visitStmt S Builder.init = .ok b' ∧ b'.PendingMergesStack.length = 1 ∧
      (∀ pm, pendingMerges b' = .ok pm → pm ≠ [] → b'.Block = none) ∧
      ∃ b'', finishUp b' = .ok b'' ∧
        (b''.C = b'.C ∨
          ∃ k b1, currentBlock b' = .ok (k, b1) ∧ IsOpen (b1.C.insts k) ∧
            hasTerminator (b1.C.block k) = false ∧
            b''.C = b1.C.insert k (.ReturnInst none)) := by
  obtain ⟨b, lg, e, I, F, _⟩ :=
    visitStmtLog_inv S true false hS [] [] Builder.init Inv.init (by simp)
  have e' : visitStmt S Builder.init = .ok b := by
    rw [← visitStmtLog_fst, e]
    rfl
  obtain ⟨h1, h2⟩ := finishUp_shape I F.pdepth (F.quiet (Or.inl rfl))
  exact ⟨b, e', F.pdepth, h1, h2⟩

/-- C19, witness: `if (c) { return } else { x }`, which leaves the else block pending. -/
theorem finalizer_assertion_unreachable_witness :
    Stmt.supported true false (.IfStmt (.DeclRefExpr 0) (.ReturnStmt none)
      (some (.BraceStmt [.expr (.DeclRefExpr 1)]))) = true ∧
    ∃ b', visitStmt (.IfStmt (.DeclRefExpr 0) (.ReturnStmt none)
        (some (.BraceStmt [.expr (.DeclRefExpr 1)]))) Builder.init = .ok b' ∧
      b'.PendingMergesStack.length = 1 ∧
      (∀ pm, pendingMerges b' = .ok pm → pm ≠ [] → b'.Block = none) ∧
      ∃ b'', finishUp b' = .ok b'' ∧
        (b''.C = b'.C ∨
          ∃ k b1, currentBlock b' = .ok (k, b1) ∧ IsOpen (b1.C.insts k) ∧
            hasTerminator (b1.C.block k) = false ∧
            b''.C = b1.C.insert k (.ReturnInst none)) :=
  ⟨by decide, finalizer_assertion_unreachable _ (by decide)⟩

/-! ## Reachability is kept by the walk -/

theorem Reach.of_edges {E E' : List (Nat × Nat)} {C C' : CFG} (h : Reach E C)
    (hs : ∀ a c, c ∈ succs (C.insts a) → c ∈ succs (C'.insts a))
    (hE : ∀ a c, (a, c) ∈ E → (a, c) ∈ E' ∨ c ∈ succs (C'.insts a)) :
    ∀ i, i < C.size → Relation.ReflTransGen (Edge C' E') 0 i := by
  intro i hi
  refine Relation.ReflTransGen.mono ?_ (h i hi)
  rintro a c (h1 | h1)
  · exact Or.inl (hs a c h1)
  · rcases hE a c h1 with h2 | h2
    · exact Or.inr h2
    · exact Or.inl h2

theorem Reach.same_size {E E' : List (Nat × Nat)} {C C' : CFG} (h : Reach E C)
    (hsz : C'.size = C.size)
    (hs : ∀ a c, c ∈ succs (C.insts a) → c ∈ succs (C'.insts a))
    (hE : ∀ a c, (a, c) ∈ E → (a, c) ∈ E' ∨ c ∈ succs (C'.insts a)) : Reach E' C' := by
  intro i hi
  exact h.of_edges hs hE i (by rw [← hsz]; exact hi)

/-- A new block is reachable when an edge to it is owed by a block of the graph. -/
theorem Reach.fresh {E : List (Nat × Nat)} {C : CFG} {k : Nat} (h : Reach E C)
    (hk : k < C.size) : Reach ((k, C.size) :: E) C.newBlock.2 := by
  intro i hi
  rw [size_newBlock] at hi
  have hold : ∀ j, j < C.size →
      Relation.ReflTransGen (Edge C.newBlock.2 ((k, C.size) :: E)) 0 j :=
    h.of_edges (fun a c hc => by rw [insts_newBlock]; exact hc)
      (fun a c hc => Or.inl (List.mem_cons_of_mem _ hc))
  by_cases hi' : i < C.size
  · exact hold i hi'
  · have : i = C.size := by omega
    subst this
    exact (hold k hk).tail (Or.inr (List.mem_cons_self _ _))

/-- Closing blocks in one of the states `flushPending` accepts only adds edges. -/
theorem succs_closeWith_mono {C C' : CFG} {L : List Nat} {t : Nat}
    (hI : ∀ i, C'.insts i = if i ∈ L then closeWith t (C.insts i) else C.insts i)
    (hF : ∀ i ∈ L, Flushable (C.insts i)) (a c : Nat) (hc : c ∈ succs (C.insts a)) :
    c ∈ succs (C'.insts a) := by
  rw [hI]
  split
  · next ha => exact ((hF a ha).mem_succs_closeWith t c).2 (Or.inl hc)
  · exact hc

/-- The block that `currentBlock` gives is reachable where the code is live. -/
theorem reach_current {H : List Nat} {Lg : List LoopRecord} {b b1 : Builder} {k : Nat}
    {E : List (Nat × Nat)} (h : Inv H Lg b) (hr : Reach E b.C) (hl : Live b)
    (hcase : (b.Block = some k ∧ b1 = b) ∨
      (b.Block = none ∧ k = b.C.size ∧ b1.C.size = b.C.size + 1 ∧
        b1.PendingMergesStack = [] :: b.PendingMergesStack.tail ∧
        ∀ i, b1.C.insts i = if i ∈ b.PendingMergesStack.head?.getD [] then
          closeWith k (b.C.insts i) else b.C.insts i)) : Reach E b1.C := by
  rcases hcase with ⟨_, rfl⟩ | ⟨hB, hk, hsz, _, hI⟩
  · exact hr
  · have hF : ∀ i ∈ b.PendingMergesStack.head?.getD [], Flushable (b.C.insts i) := by
      intro i hi
      refine h.pend i ?_
      obtain ⟨top, rest, hP⟩ := List.exists_cons_of_ne_nil h.pstack
      rw [hP] at hi ⊢
      simp only [List.head?_cons, Option.getD_some] at hi
      simp [hi]
    have hold := hr.of_edges (succs_closeWith_mono hI hF) (fun a c hc => Or.inl hc)
    intro i hi
    by_cases hi' : i < b.C.size
    · exact hold i hi'
    · have hik : i = k := by omega
      subst hik
      rcases hl with h0 | hB' | ⟨top, rest, hP, hne⟩
      · rw [hk, h0]
      · exact absurd hB hB'
      · obtain ⟨p, hp⟩ := List.exists_mem_of_ne_nil top hne
        have hp' : p ∈ b.PendingMergesStack.head?.getD [] := by rw [hP]; simpa using hp
        have hplt : p < b.C.size := h.lt_of_pos (by
          have : 0 < b.PendingMergesStack.flatten.count p := by
            rw [hP]
            exact List.count_pos_iff.2 (by simp [hp])
          simp only [ownerCount]
          omega)
        refine (hold p hplt).tail (Or.inl ?_)
        rw [hI, if_pos hp']
        exact ((hF p hp').mem_succs_closeWith i i).2 (Or.inr rfl)

/-- After `addCurrentBlockToPending` the innermost pending list is not empty where the code
is live. -/
theorem toPending_live {H : List Nat} {Lg : List LoopRecord} {b b' : Builder}
    (h : Inv H Lg b) (hl : Live b) (e : addCurrentBlockToPending b = .ok b') :
    b'.C.size = 0 ∨ ∃ top rest, b'.PendingMergesStack = top :: rest ∧ top ≠ [] := by
  obtain ⟨top, rest, hP⟩ := List.exists_cons_of_ne_nil h.pstack
  cases hB : b.Block with
  | none =>
    simp only [addCurrentBlockToPending, hB] at e
    cases e
    rcases hl with h0 | hB' | h3
    · exact Or.inl h0
    · exact absurd hB hB'
    · exact Or.inr h3
  | some k =>
    have ho := hasTerminator_of_isOpen (h.cur k hB)
    simp only [addCurrentBlockToPending, hB, ho, pendingMergesPush, hP, bind, Except.bind,
      Bool.not_false, if_true] at e
    cases e
    exact Or.inr ⟨top ++ [k], rest, rfl, by simp⟩

theorem ok_inj {α : Type} {x : Except Abort α} {a a' : α} (h : x = .ok a) (h' : x = .ok a') :
    a = a' := by
  rw [h] at h'
  cases h'
  rfl

/-- Appending the conditional branch that creates the edges owed by block `k`. -/
theorem Reach.withBranch {E : List (Nat × Nat)} {C : CFG} {k T1 : Nat} {T2 : Option Nat}
    (c : CFGValue) (hk : k < C.size)
    {E' : List (Nat × Nat)} (h : Reach E' C)
    (hE : ∀ a d, (a, d) ∈ E' → (a, d) ∈ E ∨ (a = k ∧ (d = T1 ∨ some d = T2))) :
    Reach E (C.newCondBranchInst c (some T1) T2 k) := by
  refine h.same_size (newCondBranchInst_size _ _ _ _ _) (fun a d hd => ?_) (fun a d hd => ?_)
  · rw [newCondBranchInst_insts _ _ _ _ _ hk]
    split
    · next ha =>
      subst ha
      rw [succs_append]
      exact List.mem_append_left _ hd
    · exact hd
  · rcases hE a d hd with h1 | ⟨rfl, h2⟩
    · exact Or.inl h1
    · right
      rw [newCondBranchInst_insts _ _ _ _ _ hk, if_pos rfl, succs_append, succs_singleton]
      refine List.mem_append_right _ ?_
      rcases h2 with rfl | h2
      · simp [Instruction.targets]
      · rw [← h2]
        simp [Instruction.targets]

theorem VisitReach.ifNone {Then : Stmt} {inLoop : Bool} (ih : VisitReach Then inLoop)
    (c : Expr) (base : VisitOK (.IfStmt c Then none) inLoop) :
    VisitReach (.IfStmt c Then none) inLoop := by
  intro H Lg b h hl
  obtain ⟨b', lg', e', I', F', _⟩ := base H Lg b h hl
  obtain ⟨k, b1, e1, I1, B1, K1, N1, bad1, Pl1, Pt1, sz1, hcase⟩ := currentBlock_inv h
  have I2 := (I1.hold B1).newBlock rfl
  obtain ⟨b3, lg, e3, I3, F3, _, rc3⟩ := ih (k :: H) Lg _ I2 (by
    intro hi
    have := hl hi
    exact ⟨by show b1.BreakStack ≠ []; rw [K1]; exact this.1,
      by show b1.ContinueStack ≠ []; rw [N1]; exact this.2⟩)
  obtain ⟨b4, e4, I4, B4, C4, K4, N4, bad4, Pl4, Pt4, _⟩ := addCurrentBlockToPending_inv I3
  obtain ⟨top, rest, hP4⟩ := List.exists_cons_of_ne_nil I4.pstack
  have e5 : visitStmtLog (.IfStmt c Then none) b =
      .ok ({ b4 with PendingMergesStack := (top ++ [k]) :: rest,
                     C := b4.C.newCondBranchInst none (some b1.C.size) none k }, lg) := by
    rw [visitStmtLog]
    simp only [e1, bind, Except.bind]
    rw [createFreshBlock_eq]
    simp only [e3, e4, pendingMergesPush, hP4]
  obtain ⟨rfl, rfl⟩ := Prod.mk.inj (ok_inj e5 e')
  have hk1 : k < b1.C.size := I1.block_lt B1
  have hsz3 : b1.C.size < b3.C.size := by
    refine lt_of_lt_of_le ?_ F3.size
    show b1.C.size < (b1.C.newBlock.2).size
    simp
  have hk4 : k < b4.C.size := by rw [C4]; omega
  refine ⟨_, lg, e5, I', F', fun _ _ => ?_, fun hs E hr hlive => ?_⟩
  · show 0 < (b4.C.newCondBranchInst none (some b1.C.size) none k).size
    rw [newCondBranchInst_size, C4]
    omega
  · simp only [Stmt.straight] at hs
    have r1 : Reach E b1.C := reach_current h hr hlive hcase
    have r2 : Reach ((k, b1.C.size) :: E) (b1.C.newBlock.2) := r1.fresh hk1
    obtain ⟨r3, _⟩ := rc3 hs _ r2 (Or.inr (Or.inl (by simp)))
    rw [← C4] at r3
    refine ⟨Reach.withBranch none hk4 r3 ?_, Or.inr (Or.inr ⟨top ++ [k], rest, rfl, by simp⟩)⟩
    intro a d had
    rcases List.mem_cons.1 had with had | had
    · cases had
      exact Or.inr ⟨rfl, Or.inl rfl⟩
    · exact Or.inl had

/-- The end of a loop visit only adds edges, among them the edge from the condition block
to the body block. -/
theorem closeLoop_succs {H : List Nat} {Lg : List LoopRecord} {b : Builder} {cond : Nat}
    (body : Nat)
    {top top2 ktop ntop : BlocksVector} {rest2 krest nrest : List BlocksVector}
    (h : Inv (cond :: H) Lg b) (hbody : body < b.C.size)
    (hP : b.PendingMergesStack = top :: top2 :: rest2) (hK : b.BreakStack = ktop :: krest)
    (hN : b.ContinueStack = ntop :: nrest) {b' : Builder}
    (e : closeLoop b.PendingMergesStack.length b.BreakStack.length b.ContinueStack.length
        body cond b = .ok b') :
    (∀ a c, c ∈ succs (b.C.insts a) → c ∈ succs (b'.C.insts a)) ∧
      body ∈ succs (b'.C.insts cond) := by
  have hcm : cond ∈ cond :: H := by simp
  obtain ⟨b1, e1, I1, B1, K1, N1, bad1, P1, sz1, ins1⟩ := flushPending_inv h (Or.inl hcm)
  have hF1 : ∀ i ∈ b.PendingMergesStack.head?.getD [], Flushable (b.C.insts i) := by
    intro i hi
    refine h.pend i ?_
    rw [hP] at hi ⊢
    simp only [List.head?_cons, Option.getD_some] at hi
    simp [hi]
  rw [hP] at P1
  simp only [List.tail_cons] at P1
  obtain ⟨b2, e2, I2, P2, K2, N2, B2, bad2, C2⟩ := popPending_inv I1 P1 (by simp)
  rw [K1, hK] at K2
  rw [N1, hN] at N2
  obtain ⟨b3, e3, I3, P3, K3, N3, B3, bad3, C3⟩ := popBreakStack_inv I2 K2 P2
  rw [N2] at N3
  obtain ⟨b4, e4, I4, P4, K4, N4, B4, bad4, sz4, ins4⟩ :=
    popContinueStack_inv (t := cond) I3 (Or.inl hcm) N3
  have hF4 : ∀ i ∈ ntop, Flushable (b3.C.insts i) := by
    intro i hi
    exact (I3.cont i (by rw [N3]; simp [hi])).isFlushable
  rw [P3] at P4
  have hb4 : body < b4.C.size := by rw [sz4, C3, C2, sz1]; exact hbody
  obtain ⟨b5, e5, I5, P5, K5, N5, B5, bad5, sz5, ins5⟩ := loopBranch_inv I4 hb4 P4
  have hlenK : b.BreakStack.length = b2.BreakStack.length := by rw [K2, hK]
  have hlenN : b.ContinueStack.length = b3.ContinueStack.length := by rw [N3, hN]
  have e' : closeLoop b.PendingMergesStack.length b.BreakStack.length b.ContinueStack.length
      body cond b = .ok b5 := by
    simp only [closeLoop, ne_eq, not_true_eq_false, if_false, bind, Except.bind, e1, e2]
    rw [hlenK, e3]
    simp only []
    rw [hlenN, e4]
    exact e5
  obtain rfl := ok_inj e' e
  have s5 : ∀ a c, c ∈ succs (b4.C.insts a) → c ∈ succs (b5.C.insts a) := by
    intro a c hc
    rw [ins5]
    split
    · next ha =>
      subst ha
      rw [succs_append]
      exact List.mem_append_left _ hc
    · exact hc
  refine ⟨fun a c hc => ?_, ?_⟩
  · refine s5 a c (succs_closeWith_mono ins4 hF4 a c ?_)
    rw [C3, C2]
    exact succs_closeWith_mono ins1 hF1 a c hc
  · rw [ins5, if_pos rfl, succs_append, succs_singleton]
    exact List.mem_append_right _ (by simp [Instruction.targets])

theorem VisitReach.ifSome {Then Else : Stmt} {inLoop : Bool} (ih1 : VisitReach Then inLoop)
    (ih2 : VisitReach Else inLoop) (c : Expr)
    (base : VisitOK (.IfStmt c Then (some Else)) inLoop) :
    VisitReach (.IfStmt c Then (some Else)) inLoop := by
  intro H Lg b h hl
  obtain ⟨b', lg', e', I', F', _⟩ := base H Lg b h hl
  obtain ⟨k, b1, e1, I1, B1, K1, N1, bad1, Pl1, Pt1, sz1, hcase⟩ := currentBlock_inv h
  have I2 := (I1.hold B1).newBlock rfl
  have hl2 : inLoop = true → b1.BreakStack ≠ [] ∧ b1.ContinueStack ≠ [] := by
    intro hi
    have := hl hi
    exact ⟨by rw [K1]; exact this.1, by rw [N1]; exact this.2⟩
  obtain ⟨b3, lg1, e3, I3, F3, _, rc3⟩ := ih1 (k :: H) Lg _ I2 hl2
  obtain ⟨b4, e4, I4, B4, C4, K4, N4, bad4, Pl4, Pt4, _⟩ := addCurrentBlockToPending_inv I3
  have I5 := I4.newBlock B4
  have hl5 : inLoop = true → b4.BreakStack ≠ [] ∧ b4.ContinueStack ≠ [] := by
    intro hi
    have := hl2 hi
    have h1 : b3.BreakStack.length = b1.BreakStack.length := F3.bdepth
    have h2 : b3.ContinueStack.length = b1.ContinueStack.length := F3.cdepth
    rw [K4, N4]
    constructor
    · intro e; rw [e] at h1; exact this.1 (List.length_eq_zero.1 h1.symm)
    · intro e; rw [e] at h2; exact this.2 (List.length_eq_zero.1 h2.symm)
  obtain ⟨b6, lg2, e6, I6, F6, _, rc6⟩ := ih2 (k :: H) (Lg ++ lg1) _ I5 hl5
  obtain ⟨b7, e7, I7, B7, C7, K7, N7, bad7, Pl7, Pt7, _⟩ := addCurrentBlockToPending_inv I6
  have e8 : visitStmtLog (.IfStmt c Then (some Else)) b =
      .ok ({ b7 with C := b7.C.newCondBranchInst none (some b1.C.size) (some b4.C.size) k },
        lg1 ++ lg2) := by
    rw [visitStmtLog]
    simp only [e1, bind, Except.bind]
    rw [createFreshBlock_eq]
    simp only [e3, e4]
    rw [createFreshBlock_eq]
    simp only [e6, e7]
  obtain ⟨rfl, rfl⟩ := Prod.mk.inj (ok_inj e8 e')
  have hk1 : k < b1.C.size := I1.block_lt B1
  have hsz3 : b1.C.size < b3.C.size := by
    refine lt_of_lt_of_le ?_ F3.size
    show b1.C.size < (b1.C.newBlock.2).size
    simp
  have hsz6 : b4.C.size < b6.C.size := by
    refine lt_of_lt_of_le ?_ F6.size
    show b4.C.size < (b4.C.newBlock.2).size
    simp
  have hk4 : k < b4.C.size := by rw [C4]; omega
  have hk7 : k < b7.C.size := by rw [C7]; omega
  refine ⟨_, lg1 ++ lg2, e8, I', F', fun _ _ => ?_, fun hs E hr hlive => ?_⟩
  · show 0 < (b7.C.newCondBranchInst none (some b1.C.size) (some b4.C.size) k).size
    rw [newCondBranchInst_size]
    omega
  · simp only [Stmt.straight, Bool.and_eq_true] at hs
    have r1 : Reach E b1.C := reach_current h hr hlive hcase
    have r2 : Reach ((k, b1.C.size) :: E) (b1.C.newBlock.2) := r1.fresh hk1
    obtain ⟨r3, _⟩ := rc3 hs.1 _ r2 (Or.inr (Or.inl (by simp)))
    rw [← C4] at r3
    have r5 : Reach ((k, b4.C.size) :: (k, b1.C.size) :: E) (b4.C.newBlock.2) := r3.fresh hk4
    obtain ⟨r6, live6⟩ := rc6 hs.2 _ r5 (Or.inr (Or.inl (by simp)))
    rw [← C7] at r6
    refine ⟨Reach.withBranch none hk7 r6 ?_, ?_⟩
    · intro a d had
      rcases List.mem_cons.1 had with had | had
      · cases had
        exact Or.inr ⟨rfl, Or.inr rfl⟩
      · rcases List.mem_cons.1 had with had | had
        · cases had
          exact Or.inr ⟨rfl, Or.inl rfl⟩
        · exact Or.inl had
    · rcases toPending_live I6 live6 e7 with h0 | h1
      · exact Or.inl (by
          show (b7.C.newCondBranchInst none (some b1.C.size) (some b4.C.size) k).size = 0
          rw [newCondBranchInst_size]
          exact h0)
      · exact Or.inr (Or.inr h1)

theorem VisitReach.whileLoop {Body : Stmt} (ih : VisitReach Body true) (c : Expr) (inLoop : Bool)
    (base : VisitOK (.WhileStmt c Body) inLoop) : VisitReach (.WhileStmt c Body) inLoop := by
  intro H Lg b h hl
  obtain ⟨b', lg', e', I', F', _⟩ := base H Lg b h hl
  obtain ⟨b1, e1, I1, B1, C1, K1, N1, bad1, Pl1, Pt1, _⟩ := addCurrentBlockToPending_inv h
  obtain ⟨cond, b2, e2, I2, B2, K2, N2, bad2, Pl2, Pt2, sz2, hcase⟩ := currentBlock_inv I1
  have I3 := (((I2.hold B2).pushBreak).pushContinue).pushPending
  have I4 := I3.newBlock rfl
  obtain ⟨b5, lg, e5, I5, F5, _, rc5⟩ := ih (cond :: H) Lg _ I4 (fun _ => ⟨by simp, by simp⟩)
  obtain ⟨b6, e6, I6, B6, C6, K6, N6, bad6, Pl6, Pt6, _⟩ := addCurrentBlockToPending_inv I5
  have hPl : b6.PendingMergesStack.length = b2.PendingMergesStack.length + 1 := by
    rw [Pl6, F5.pdepth]; rfl
  have hKl : b6.BreakStack.length = b2.BreakStack.length + 1 := by
    rw [K6, F5.bdepth]; rfl
  have hNl : b6.ContinueStack.length = b2.ContinueStack.length + 1 := by
    rw [N6, F5.cdepth]; rfl
  obtain ⟨top, rest, hP6⟩ := List.exists_cons_of_ne_nil I6.pstack
  obtain ⟨top2, rest2, hrest⟩ : ∃ top2 rest2, rest = top2 :: rest2 := by
    cases rest with
    | nil =>
      rw [hP6] at hPl
      have := List.length_pos.2 I2.pstack
      simp only [List.length_cons, List.length_nil] at hPl
      omega
    | cons a l => exact ⟨a, l, rfl⟩
  subst hrest
  obtain ⟨ktop, krest, hK6⟩ : ∃ ktop krest, b6.BreakStack = ktop :: krest := by
    cases hk : b6.BreakStack with
    | nil => rw [hk] at hKl; simp at hKl
    | cons a l => exact ⟨a, l, rfl⟩
  obtain ⟨ntop, nrest, hN6⟩ : ∃ ntop nrest, b6.ContinueStack = ntop :: nrest := by
    cases hk : b6.ContinueStack with
    | nil => rw [hk] at hNl; simp at hNl
    | cons a l => exact ⟨a, l, rfl⟩
  have hbody : b2.C.size < b6.C.size := by
    rw [C6]
    refine lt_of_lt_of_le ?_ F5.size
    show b2.C.size < (b2.C.newBlock.2).size
    simp
  obtain ⟨b7, e7, I7, B7, bad7, sz7, P7, K7, N7⟩ :=
    closeLoop_inv b2.C.size I6 hbody hP6 hK6 hN6
  have e8 : visitStmtLog (.WhileStmt c Body) b =
      .ok (b7, lg ++ [loopRecord b2.C.size cond b6]) := by
    rw [visitStmtLog]
    simp only [e1, e2, bind, Except.bind, createFreshBlock_eq]
    rw [e5]
    simp only [e6, List.length_cons]
    rw [← hPl, ← hKl, ← hNl, e7]
  obtain ⟨rfl, rfl⟩ := Prod.mk.inj (ok_inj e8 e')
  refine ⟨b7, _, e8, I', F', fun _ _ => by rw [sz7]; omega, fun hs E hr hlive => ?_⟩
  simp only [Stmt.straight] at hs
  have live1 : Live b1 := by
    rcases toPending_live h hlive e1 with h0 | h1
    · exact Or.inl h0
    · exact Or.inr (Or.inr h1)
  have r1 : Reach E b1.C := by rw [C1]; exact hr
  have r2 : Reach E b2.C := reach_current I1 r1 live1 hcase
  have r4 : Reach ((cond, b2.C.size) :: E) (b2.C.newBlock.2) := r2.fresh (I2.block_lt B2)
  obtain ⟨r5, _⟩ := rc5 hs _ r4 (Or.inr (Or.inl (by simp)))
  rw [← C6] at r5
  obtain ⟨s7, hb7⟩ := closeLoop_succs b2.C.size I6 hbody hP6 hK6 hN6 e7
  refine ⟨r5.same_size sz7 s7 ?_, Or.inr (Or.inr ⟨_, _, P7, by simp⟩)⟩
  intro a d had
  rcases List.mem_cons.1 had with had | had
  · cases had
    exact Or.inr hb7
  · exact Or.inl had

theorem VisitReach.doWhileLoop {Body : Stmt} (ih : VisitReach Body true) (c : Expr)
    (inLoop : Bool) (base : VisitOK (.DoWhileStmt Body c) inLoop) :
    VisitReach (.DoWhileStmt Body c) inLoop := by
  intro H Lg b h hl
  obtain ⟨b', lg', e', I', F', _⟩ := base H Lg b h hl
  have I2 := (h.pushBreak).pushContinue
  obtain ⟨b3, e3, I3, B3, C3, K3, N3, bad3, Pl3, Pt3, _⟩ := addCurrentBlockToPending_inv I2
  obtain ⟨body, b4, e4, I4, B4, K4, N4, bad4, Pl4, Pt4, sz4, hcase4⟩ := currentBlock_inv I3
  have I5 := I4.pushPending
  have hK5 : b4.BreakStack = [] :: b.BreakStack := by rw [K4, K3]
  have hN5 : b4.ContinueStack = [] :: b.ContinueStack := by rw [N4, N3]
  obtain ⟨b6, lg, e6, I6, F6, _, rc6⟩ := ih H Lg _ I5
    (fun _ => ⟨by show b4.BreakStack ≠ []; rw [hK5]; simp,
               by show b4.ContinueStack ≠ []; rw [hN5]; simp⟩)
  obtain ⟨b7, e7, I7, B7, C7, K7, N7, bad7, Pl7, Pt7, _⟩ := addCurrentBlockToPending_inv I6
  obtain ⟨cond, b8, e8, I8, B8, K8, N8, bad8, Pl8, Pt8, sz8, hcase8⟩ := currentBlock_inv I7
  have I9 := I8.hold B8
  have hPl : b8.PendingMergesStack.length = b4.PendingMergesStack.length + 1 := by
    rw [Pl8, Pl7, F6.pdepth]; rfl
  have hKl : b8.BreakStack.length = b.BreakStack.length + 1 := by
    rw [K8, K7, F6.bdepth]
    show b4.BreakStack.length = _
    rw [hK5]; rfl
  have hNl : b8.ContinueStack.length = b.ContinueStack.length + 1 := by
    rw [N8, N7, F6.cdepth]
    show b4.ContinueStack.length = _
    rw [hN5]; rfl
  obtain ⟨top, rest, hP8⟩ := List.exists_cons_of_ne_nil I8.pstack
  obtain ⟨top2, rest2, hrest⟩ : ∃ top2 rest2, rest = top2 :: rest2 := by
    cases rest with
    | nil =>
      rw [hP8] at hPl
      have := List.length_pos.2 I4.pstack
      simp only [List.length_cons, List.length_nil] at hPl
      omega
    | cons a l => exact ⟨a, l, rfl⟩
  subst hrest
  obtain ⟨ktop, krest, hK8⟩ : ∃ ktop krest, b8.BreakStack = ktop :: krest := by
    cases hk : b8.BreakStack with
    | nil => rw [hk] at hKl; simp at hKl
    | cons a l => exact ⟨a, l, rfl⟩
  obtain ⟨ntop, nrest, hN8⟩ : ∃ ntop nrest, b8.ContinueStack = ntop :: nrest := by
    cases hk : b8.ContinueStack with
    | nil => rw [hk] at hNl; simp at hNl
    | cons a l => exact ⟨a, l, rfl⟩
  have hbody : body < b8.C.size := by
    refine lt_of_lt_of_le (I4.block_lt B4) (le_trans ?_ sz8)
    rw [C7]
    exact F6.size
  obtain ⟨b10, e10, I10, B10, bad10, sz10, P10, K10, N10⟩ :=
    closeLoop_inv (b := { b8 with Block := none }) body I9 hbody hP8 hK8 hN8
  have e11 : visitStmtLog (.DoWhileStmt Body c) b =
      .ok (b10, lg ++ [loopRecord body cond { b8 with Block := none }]) := by
    rw [visitStmtLog]
    simp only [e3, e4, bind, Except.bind]
    rw [e6]
    simp only [e7, e8, List.length_cons]
    have hPl' : ({ b8 with Block := none } : Builder).PendingMergesStack.length =
      b4.PendingMergesStack.length + 1 := hPl
    have hKl' : ({ b8 with Block := none } : Builder).BreakStack.length =
      b.BreakStack.length + 1 := hKl
    have hNl' : ({ b8 with Block := none } : Builder).ContinueStack.length =
      b.ContinueStack.length + 1 := hNl
    rw [← hPl', ← hKl', ← hNl', e10]
  obtain ⟨rfl, rfl⟩ := Prod.mk.inj (ok_inj e11 e')
  refine ⟨b10, _, e11, I', F', fun _ _ => ?_, fun hs E hr hlive => ?_⟩
  · rw [sz10]
    show 0 < b8.C.size
    omega
  · simp only [Stmt.straight] at hs
    have live3 : Live b3 := by
      rcases toPending_live I2 hlive e3 with h0 | h1
      · exact Or.inl h0
      · exact Or.inr (Or.inr h1)
    have r3 : Reach E b3.C := by rw [C3]; exact hr
    have r4 : Reach E b4.C := reach_current I3 r3 live3 hcase4
    obtain ⟨r6, live6⟩ := rc6 hs E r4 (Or.inr (Or.inl (by
      show b4.Block ≠ none
      rw [B4]
      simp)))
    have live7 : Live b7 := by
      rcases toPending_live I6 live6 e7 with h0 | h1
      · exact Or.inl h0
      · exact Or.inr (Or.inr h1)
    have r7 : Reach E b7.C := by rw [C7]; exact r6
    have r8 : Reach E b8.C := reach_current I7 r7 live7 hcase8
    obtain ⟨s10, _⟩ := closeLoop_succs (b := { b8 with Block := none }) body I9 hbody hP8
      hK8 hN8 e10
    exact ⟨r8.same_size sz10 s10 (fun a d had => Or.inl had),
      Or.inr (Or.inr ⟨_, _, P10, by simp⟩)⟩

theorem visitExpr_reach {H : List Nat} {Lg : List LoopRecord} {b b' : Builder}
    (h : Inv H Lg b) {Ex : Expr} (hE : Ex.supported = true) {v : CFGValue}
    (e : visitExpr Ex b = .ok (v, b')) :
    0 < b'.C.size ∧ ∀ E, Reach E b.C → Live b → Reach E b'.C ∧ Live b' := by
  obtain ⟨k, b0, e0, I0, B0, _, _, _, _, _, _, hcase⟩ := currentBlock_inv h
  obtain ⟨v1, b1, e1, hA⟩ := visitExpr_ok Ex hE k b0 b ⟨b0, e0, Or.inl rfl⟩
  obtain ⟨rfl, rfl⟩ := Prod.mk.inj (ok_inj e1 e)
  obtain ⟨_, hB1, _, _, _, _, Is, hIs, hC⟩ := hA
  have hk : k < b0.C.size := I0.block_lt B0
  have hsz : b1.C.size = b0.C.size := by rw [hC, size_insertAll]
  refine ⟨by omega, fun E hr hl => ⟨?_, Or.inr (Or.inl (by rw [hB1]; simp))⟩⟩
  refine (reach_current h hr hl hcase).same_size hsz (fun a c hc => ?_) (fun a c hc => Or.inl hc)
  rw [hC, insts_insertAll _ _ _ _ hk]
  split
  · next ha =>
    subst ha
    rw [succs_append]
    exact List.mem_append_left _ hc
  · exact hc

theorem currentBlock_pos {H : List Nat} {Lg : List LoopRecord} {b b0 : Builder} {k : Nat}
    (h : Inv H Lg b) (e : currentBlock b = .ok (k, b0)) : k < b0.C.size := by
  obtain ⟨k', b', e', I', B', _⟩ := currentBlock_inv h
  obtain ⟨rfl, rfl⟩ := Prod.mk.inj (ok_inj e' e)
  exact I'.block_lt B'

theorem lowerReturn_pos {H : List Nat} {Lg : List LoopRecord} {b b' : Builder}
    (h : Inv H Lg b) {v : CFGValue} (e : lowerReturn v b = .ok b') : 0 < b'.C.size := by
  rw [lowerReturn] at e
  obtain ⟨⟨k, b0⟩, e0, e⟩ := bind_ok e
  have := currentBlock_pos h e0
  cases e
  show 0 < (b0.C.insert k _).size
  rw [size_insert]
  omega

theorem visitBreakStmt_pos {H : List Nat} {Lg : List LoopRecord} {b b' : Builder}
    (h : Inv H Lg b) (e : visitBreakStmt b = .ok b') : 0 < b'.C.size := by
  unfold visitBreakStmt at e
  split at e
  · cases e
  · obtain ⟨⟨k, b0⟩, e0, e⟩ := bind_ok e
    have := currentBlock_pos h e0
    dsimp only at e
    split at e
    · cases e
    · cases e
      show 0 < (b0.C.insert k _).size
      rw [size_insert]
      omega

theorem visitContinueStmt_pos {H : List Nat} {Lg : List LoopRecord} {b b' : Builder}
    (h : Inv H Lg b) (e : visitContinueStmt b = .ok b') : 0 < b'.C.size := by
  unfold visitContinueStmt at e
  split at e
  · cases e
  · obtain ⟨⟨k, b0⟩, e0, e⟩ := bind_ok e
    have := currentBlock_pos h e0
    dsimp only at e
    split at e
    · cases e
    · cases e
      show 0 < (b0.C.insert k _).size
      rw [size_insert]
      omega

theorem VisitReach.stmtCons {S : Stmt} {rest : List ExprStmtOrDecl} {inLoop : Bool}
    (ih1 : VisitReach S inLoop) (ih2 : VisitAllReach rest inLoop) :
    VisitAllReach (.stmt S :: rest) inLoop := by
  intro H Lg b h hl
  obtain ⟨b1, lg1, e1, I1, F1, p1, r1⟩ := ih1 H Lg b h hl
  have hl1 : inLoop = true → b1.BreakStack ≠ [] ∧ b1.ContinueStack ≠ [] := by
    intro hi
    have := hl hi
    have h1 := F1.bdepth
    have h2 := F1.cdepth
    constructor
    · intro e; rw [e] at h1; exact this.1 (List.length_eq_zero.1 h1.symm)
    · intro e; rw [e] at h2; exact this.2 (List.length_eq_zero.1 h2.symm)
  obtain ⟨b2, lg2, e2, I2, F2, p2, r2⟩ := ih2 H (Lg ++ lg1) b1 I1 hl1
  refine ⟨b2, lg1 ++ lg2, ?_, by rw [← List.append_assoc]; exact I2, F1.trans F2, ?_, ?_⟩
  · simp only [visitElementsLog, e1, e2, bind, Except.bind]
  · intro hf he
    simp only [Stmt.hasForEachAny, Bool.or_eq_false_iff] at hf
    simp only [Stmt.isEmptyAll, Bool.and_eq_false_iff] at he
    rcases he with he | he
    · exact lt_of_lt_of_le (p1 hf.1 he) F2.size
    · exact p2 hf.2 he
  · intro hs E hr hlive
    simp only [Stmt.straightAll, Bool.and_eq_true] at hs
    obtain ⟨hr1, hl1'⟩ := r1 hs.1 E hr hlive
    exact r2 hs.2 E hr1 hl1'

theorem VisitReach.exprCons {Ex : Expr} {rest : List ExprStmtOrDecl} {inLoop : Bool}
    (hE : Ex.supported = true) (ih2 : VisitAllReach rest inLoop) :
    VisitAllReach (.expr Ex :: rest) inLoop := by
  intro H Lg b h hl
  obtain ⟨v, b1, e1, I1, F1, bad1⟩ := visitExpr_inv h hE
  obtain ⟨p1, r1⟩ := visitExpr_reach h hE e1
  have hl1 : inLoop = true → b1.BreakStack ≠ [] ∧ b1.ContinueStack ≠ [] := by
    intro hi
    have := hl hi
    have h1 := F1.bdepth
    have h2 := F1.cdepth
    constructor
    · intro e; rw [e] at h1; exact this.1 (List.length_eq_zero.1 h1.symm)
    · intro e; rw [e] at h2; exact this.2 (List.length_eq_zero.1 h2.symm)
  obtain ⟨b2, lg2, e2, I2, F2, p2, r2⟩ := ih2 H Lg b1 I1 hl1
  refine ⟨b2, lg2, ?_, I2, F1.trans F2, fun _ _ => lt_of_lt_of_le p1 F2.size, ?_⟩
  · simp only [visitElementsLog, e1, e2, bind, Except.bind]
  · intro hs E hr hlive
    simp only [Stmt.straightAll, Bool.and_eq_true] at hs
    obtain ⟨hr1, hl1'⟩ := r1 E hr hlive
    exact r2 hs.2 E hr1 hl1'

mutual
/-- The walk of a supported tree creates a block unless the tree is empty, and keeps every
block reachable when the tree is straight. -/
theorem visitStmtLog_reach : ∀ (S : Stmt) (forEach inLoop : Bool),
    S.supported forEach inLoop = true → VisitReach S inLoop
  | .BraceStmt Elements, fe, inLoop, hS => by
    have ih := visitElementsLog_reach Elements fe inLoop (by simpa [Stmt.supported] using hS)
    intro H Lg b h hl
    obtain ⟨b', lg, e, I, F, p, r⟩ := ih H Lg b h hl
    exact ⟨b', lg, by rw [visitStmtLog]; exact e, I, F,
      by simpa only [Stmt.hasForEach, Stmt.isEmpty] using p,
      by simpa only [Stmt.straight] using r⟩
  | .SemiStmt, _, _, _ => by
    intro H Lg b h _
    exact ⟨b, [], rfl, by simpa using h, Frame.refl b, fun _ he => by simp [Stmt.isEmpty] at he,
      fun _ E hr hl => ⟨hr, hl⟩⟩
  | .AssignStmt, _, _, hS => by simp [Stmt.supported] at hS
  | .ReturnStmt none, fe, inLoop, hS => by
    intro H Lg b h hl
    obtain ⟨b', lg, e, I, F, _⟩ := visitStmtLog_inv _ fe inLoop hS H Lg b h hl
    refine ⟨b', lg, e, I, F, fun _ _ => ?_, fun hs => by simp [Stmt.straight] at hs⟩
    rw [visitStmtLog] at e
    obtain ⟨b1, e1, e⟩ := bind_ok e
    cases e
    exact lowerReturn_pos h e1
  | .ReturnStmt (some Result), fe, inLoop, hS => by
    intro H Lg b h hl
    obtain ⟨b', lg, e, I, F, _⟩ := visitStmtLog_inv _ fe inLoop hS H Lg b h hl
    refine ⟨b', lg, e, I, F, fun _ _ => ?_, fun hs => by simp [Stmt.straight] at hs⟩
    obtain ⟨v, b1, e1, I1, _⟩ := visitExpr_inv h (by simpa [Stmt.supported] using hS)
    rw [visitStmtLog] at e
    simp only [e1, bind, Except.bind] at e
    obtain ⟨b2, e2, e⟩ := bind_ok e
    cases e
    exact lowerReturn_pos I1 e2
  | .IfStmt c Then none, fe, inLoop, hS =>
    (visitStmtLog_reach Then fe inLoop (by simpa [Stmt.supported] using hS)).ifNone c
      (visitStmtLog_inv _ fe inLoop hS)
  | .IfStmt c Then (some Else), fe, inLoop, hS => by
    have hS' := hS
    simp only [Stmt.supported, Bool.and_eq_true] at hS'
    exact (visitStmtLog_reach Then fe inLoop hS'.1).ifSome
      (visitStmtLog_reach Else fe inLoop hS'.2) c (visitStmtLog_inv _ fe inLoop hS)
  | .WhileStmt c Body, fe, inLoop, hS =>
    (visitStmtLog_reach Body fe true (by simpa [Stmt.supported] using hS)).whileLoop c inLoop
      (visitStmtLog_inv _ fe inLoop hS)
  | .DoWhileStmt Body c, fe, inLoop, hS =>
    (visitStmtLog_reach Body fe true (by simpa [Stmt.supported] using hS)).doWhileLoop c inLoop
      (visitStmtLog_inv _ fe inLoop hS)
  | .ForStmt, _, _, hS => by simp [Stmt.supported] at hS
  | .ForEachStmt, _, _, _ => by
    intro H Lg b h _
    exact ⟨{ b with badCFG := true }, [], rfl, by simpa using h.forEach,
      ⟨rfl, rfl, rfl, le_refl _, id⟩, fun hf => by simp [Stmt.hasForEach] at hf,
      fun hs => by simp [Stmt.straight] at hs⟩
  | .BreakStmt, fe, inLoop, hS => by
    intro H Lg b h hl
    obtain ⟨b', lg, e, I, F, _⟩ := visitStmtLog_inv _ fe inLoop hS H Lg b h hl
    refine ⟨b', lg, e, I, F, fun _ _ => ?_, fun hs => by simp [Stmt.straight] at hs⟩
    rw [visitStmtLog] at e
    obtain ⟨b1, e1, e⟩ := bind_ok e
    cases e
    exact visitBreakStmt_pos h e1
  | .ContinueStmt, fe, inLoop, hS => by
    intro H Lg b h hl
    obtain ⟨b', lg, e, I, F, _⟩ := visitStmtLog_inv _ fe inLoop hS H Lg b h hl
    refine ⟨b', lg, e, I, F, fun _ _ => ?_, fun hs => by simp [Stmt.straight] at hs⟩
    rw [visitStmtLog] at e
    obtain ⟨b1, e1, e⟩ := bind_ok e
    cases e
    exact visitContinueStmt_pos h e1
/-- The guarantee of `visitStmtLog_reach` for the elements of a brace statement. -/
theorem visitElementsLog_reach : ∀ (Elements : List ExprStmtOrDecl) (forEach inLoop : Bool),
    Stmt.supportedAll forEach inLoop Elements = true → VisitAllReach Elements inLoop
  | [], _, inLoop, _ => by
    intro H Lg b h _
    exact ⟨b, [], rfl, by simpa using h, Frame.refl b,
      fun _ he => by simp [Stmt.isEmptyAll] at he, fun _ E hr hl => ⟨hr, hl⟩⟩
  | .decl :: _, _, _, hS => by simp [Stmt.supportedAll] at hS
  | .stmt S :: rest, fe, inLoop, hS => by
    simp only [Stmt.supportedAll, Bool.and_eq_true] at hS
    exact (visitStmtLog_reach S fe inLoop hS.1).stmtCons
      (visitElementsLog_reach rest fe inLoop hS.2)
  | .expr Ex :: rest, fe, inLoop, hS => by
    simp only [Stmt.supportedAll, Bool.and_eq_true] at hS
    exact VisitReach.exprCons hS.1 (visitElementsLog_reach rest fe inLoop hS.2)
end

/-! ## The entry block and the blocks reachable from it -/

mutual
theorem straight_supported : ∀ (S : Stmt) (inLoop : Bool), S.straight = true →
    S.supported false inLoop = true
  | .BraceStmt Elements, inLoop, h => by
    rw [Stmt.supported]
    exact straightAll_supported Elements inLoop (by simpa only [Stmt.straight] using h)
  | .SemiStmt, _, _ => by simp only [Stmt.supported]
  | .AssignStmt, _, h => by simp [Stmt.straight] at h
  | .ReturnStmt _, _, h => by simp [Stmt.straight] at h
  | .IfStmt _ Then none, inLoop, h => by
    rw [Stmt.supported]
    exact straight_supported Then inLoop (by simpa only [Stmt.straight] using h)
  | .IfStmt _ Then (some Else), inLoop, h => by
    simp only [Stmt.straight, Bool.and_eq_true] at h
    rw [Stmt.supported, straight_supported Then inLoop h.1, straight_supported Else inLoop h.2]
    rfl
  | .WhileStmt _ Body, _, h => by
    rw [Stmt.supported]
    exact straight_supported Body true (by simpa only [Stmt.straight] using h)
  | .DoWhileStmt Body _, _, h => by
    rw [Stmt.supported]
    exact straight_supported Body true (by simpa only [Stmt.straight] using h)
  | .ForStmt, _, h => by simp [Stmt.straight] at h
  | .ForEachStmt, _, h => by simp [Stmt.straight] at h
  | .BreakStmt, _, h => by simp [Stmt.straight] at h
  | .ContinueStmt, _, h => by simp [Stmt.straight] at h
theorem straightAll_supported : ∀ (Elements : List ExprStmtOrDecl) (inLoop : Bool),
    Stmt.straightAll Elements = true → Stmt.supportedAll false inLoop Elements = true
  | [], _, _ => by simp only [Stmt.supportedAll]
  | .decl :: _, _, h => by simp [Stmt.straightAll] at h
  | .stmt S :: rest, inLoop, h => by
    simp only [Stmt.straightAll, Bool.and_eq_true] at h
    rw [Stmt.supportedAll, straight_supported S inLoop h.1,
      straightAll_supported rest inLoop h.2]
    rfl
  | .expr Ex :: rest, inLoop, h => by
    simp only [Stmt.straightAll, Bool.and_eq_true] at h
    rw [Stmt.supportedAll, h.1, straightAll_supported rest inLoop h.2]
    rfl
end

mutual
/-- The walk of a tree of brace and empty statements leaves the builder as it is. -/
theorem visitStmt_isEmpty : ∀ (S : Stmt) (b : Builder), S.isEmpty = true →
    visitStmt S b = .ok b
  | .BraceStmt Elements, b, h => by
    rw [visitStmt]
    exact visitElements_isEmpty Elements b (by simpa only [Stmt.isEmpty] using h)
  | .SemiStmt, b, _ => by rw [visitStmt]
  | .AssignStmt, _, h => by simp [Stmt.isEmpty] at h
  | .ReturnStmt _, _, h => by simp [Stmt.isEmpty] at h
  | .IfStmt _ _ _, _, h => by simp [Stmt.isEmpty] at h
  | .WhileStmt _ _, _, h => by simp [Stmt.isEmpty] at h
  | .DoWhileStmt _ _, _, h => by simp [Stmt.isEmpty] at h
  | .ForStmt, _, h => by simp [Stmt.isEmpty] at h
  | .ForEachStmt, _, h => by simp [Stmt.isEmpty] at h
  | .BreakStmt, _, h => by simp [Stmt.isEmpty] at h
  | .ContinueStmt, _, h => by simp [Stmt.isEmpty] at h
theorem visitElements_isEmpty : ∀ (Elements : List ExprStmtOrDecl) (b : Builder),
    Stmt.isEmptyAll Elements = true → visitElements Elements b = .ok b
  | [], b, _ => by rw [visitElements]
  | .decl :: _, _, h => by simp [Stmt.isEmptyAll] at h
  | .expr _ :: _, _, h => by simp [Stmt.isEmptyAll] at h
  | .stmt S :: rest, b, h => by
    simp only [Stmt.isEmptyAll, Bool.and_eq_true] at h
    rw [visitElements, visitStmt_isEmpty S b h.1]
    exact visitElements_isEmpty rest b h.2
end

theorem constructCFG_of_walk {S : Stmt} {b b'' : Builder}
    (e : visitStmt S Builder.init = .ok b) (hbad : b.badCFG = false)
    (e2 : finishUp b = .ok b'') : constructCFG S = .ok (some b''.C) := by
  simp [constructCFG, e, hbad, e2, bind, Except.bind]

/-- What the walk and the finalizer give for a supported tree without for-each statement:
the graph returned, the builder the walk ends in, with the invariant, and the shape of the
finalizer step. -/
theorem constructCFG_parts (S : Stmt) (hS : S.supported false false = true) :
    ∃ b lg b'', visitStmtLog S Builder.init = .ok (b, lg) ∧
      visitStmt S Builder.init = .ok b ∧ Inv [] lg b ∧ Frame Builder.init b ∧
      finishUp b = .ok b'' ∧ constructCFG S = .ok (some b''.C) ∧
      (b''.C = b.C ∨
        ∃ k b1, currentBlock b = .ok (k, b1) ∧ IsOpen (b1.C.insts k) ∧
          hasTerminator (b1.C.block k) = false ∧
          b''.C = b1.C.insert k (.ReturnInst none)) := by
  obtain ⟨b, lg, e, I, F, bad⟩ :=
    visitStmtLog_inv S false false hS [] [] Builder.init Inv.init (by simp)
  have e' : visitStmt S Builder.init = .ok b := by
    rw [← visitStmtLog_fst, e]
    rfl
  have hbad : b.badCFG = false := by
    rw [bad, hasForEach_of_supported S false hS]
    rfl
  have I' : Inv [] lg b := by simpa using I
  obtain ⟨_, b'', e2, h2⟩ := finishUp_shape I' F.pdepth (F.quiet (Or.inl rfl))
  exact ⟨b, lg, b'', e, e', I', F, e2, constructCFG_of_walk e' hbad e2, h2⟩

/-- C12, as the code has it. For a tree of brace, empty, return, if, while, do-while, break
and continue statements over supported expressions, with every break and continue nested
in a loop, `constructCFG` returns a graph, and the graph holds no block if and only if the
tree consists of brace statements and empty statements only; in every other case it holds
at least one block, block 0 being the first block created. -/
theorem entry_block_unless_empty (S : Stmt) (hS : S.supported false false = true) :
    ∃ g, constructCFG S = .ok (some g) ∧ (g.BlockList = [] ↔ S.isEmpty = true) := by
  obtain ⟨b, lg, b'', e, e', I, F, e2, eg, h2⟩ := constructCFG_parts S hS
  refine ⟨b''.C, eg, ?_⟩
  cases hE : S.isEmpty with
  | true =>
    have hb : b = Builder.init := ok_inj e' (visitStmt_isEmpty S Builder.init hE)
    subst hb
    have : b'' = Builder.init := ok_inj e2 rfl
    subst this
    simp [Builder.init]
  | false =>
    obtain ⟨b2, lg2, e3, _, _, pos, _⟩ :=
      visitStmtLog_reach S false false hS [] [] Builder.init Inv.init (by simp)
    obtain ⟨rfl, rfl⟩ := Prod.mk.inj (ok_inj e3 e)
    have hpos : 0 < b2.C.size := pos (hasForEach_of_supported S false hS) hE
    have hpos2 : 0 < b''.C.size := by
      rcases h2 with h2 | ⟨k, b1, e1, _, _, h2⟩
      · rw [h2]; exact hpos
      · rw [h2, size_insert]
        have := currentBlock_pos I e1
        omega
    have : b''.C.BlockList ≠ [] := by
      intro h0
      rw [CFG.size, h0] at hpos2
      simp at hpos2
    simp [this]

/-- C12, witness: `{ ; return }`. -/
theorem entry_block_unless_empty_witness :
    Stmt.supported false false
      (.BraceStmt [.stmt .SemiStmt, .stmt (.ReturnStmt none)]) = true ∧
    ∃ g, constructCFG (.BraceStmt [.stmt .SemiStmt, .stmt (.ReturnStmt none)]) =
        .ok (some g) ∧
      (g.BlockList = [] ↔
        Stmt.isEmpty (.BraceStmt [.stmt .SemiStmt, .stmt (.ReturnStmt none)]) = true) :=
  ⟨by decide, entry_block_unless_empty _ (by decide)⟩

/-- C12, counterexample: for the empty brace statement, for the lone empty statement and
for `{ ; { } }` the graph that `constructCFG` returns holds no block at all. -/
theorem empty_root_has_no_block :
    constructCFG (.BraceStmt []) = .ok (some ⟨[]⟩) ∧
    constructCFG .SemiStmt = .ok (some ⟨[]⟩) ∧
    constructCFG (.BraceStmt [.stmt .SemiStmt, .stmt (.BraceStmt [])]) = .ok (some ⟨[]⟩) := by
  decide

/-- C11. Reachability after finalize: for a tree of brace, empty, if, while and do-while
statements and supported expression statements, that is, a supported tree without return,
break, continue and for-each statement, `constructCFG` returns a graph in which every
block is block 0, the first block created, or is reached from block 0 by following edge
targets. -/
theorem reachable_after_finalize (S : Stmt) (hS : S.straight = true) :
    ∃ g, constructCFG S = .ok (some g) ∧ ∀ i, i < g.size → g.Reachable i := by
  have hS' := straight_supported S false hS
  obtain ⟨b, lg, b'', e, e', I, F, e2, eg, h2⟩ := constructCFG_parts S hS'
  obtain ⟨b2, lg2, e3, _, _, _, rc⟩ :=
    visitStmtLog_reach S false false hS' [] [] Builder.init Inv.init (by simp)
  obtain ⟨rfl, rfl⟩ := Prod.mk.inj (ok_inj e3 e)
  obtain ⟨r, live⟩ := rc hS [] (fun i hi => by simp [Builder.init, CFG.size] at hi)
    (Or.inl rfl)
  have r'' : Reach [] b''.C := by
    rcases h2 with h2 | ⟨k, b1, e1, _, _, h2⟩
    · rw [h2]; exact r
    · obtain ⟨k', b1', e1', I1, B1, _, _, _, _, _, _, hcase⟩ := currentBlock_inv I
      obtain ⟨rfl, rfl⟩ := Prod.mk.inj (ok_inj e1' e1)
      have hk : k' < b1'.C.size := I1.block_lt B1
      have r1 : Reach [] b1'.C := reach_current I r live hcase
      rw [h2]
      refine r1.same_size (size_insert _ _ _) (fun a c hc => ?_) (fun a c hc => Or.inl hc)
      rw [insts_insert _ _ _ _ hk]
      split
      · next ha =>
        subst ha
        rw [succs_append]
        exact List.mem_append_left _ hc
      · exact hc
  refine ⟨b''.C, eg, fun i hi => ?_⟩
  refine Relation.ReflTransGen.mono ?_ (r'' i hi)
  rintro a c (h1 | h1)
  · exact h1
  · simp at h1

/-- C11, witness: `if (c) { x } else { while (d) { } }`. -/
theorem reachable_after_finalize_witness :
    Stmt.straight (.IfStmt (.DeclRefExpr 0) (.BraceStmt [.expr (.DeclRefExpr 1)])
      (some (.WhileStmt (.DeclRefExpr 2) (.BraceStmt [])))) = true ∧
    ∃ g, constructCFG (.IfStmt (.DeclRefExpr 0) (.BraceStmt [.expr (.DeclRefExpr 1)])
        (some (.WhileStmt (.DeclRefExpr 2) (.BraceStmt [])))) = .ok (some g) ∧
      ∀ i, i < g.size → g.Reachable i :=
  ⟨by decide, reachable_after_finalize _ (by decide)⟩
/-! ## No check of the monitor fails -/

@[simp] theorem check_true (a : Bool) : check a true = .ok () := by
  cases a <;> rfl

theorem noTerminator_iff {l : List Instruction} : noTerminator l = true ↔ IsOpen l := by
  simp [noTerminator, IsOpen]

theorem flushable_of {l : List Instruction} (h : Flushable l) : flushable l = true := by
  rcases h with h | ⟨pre, hpre, rfl⟩ | ⟨pre, c, t1, hpre, rfl⟩
  · simp [flushable, noTerminator_iff.2 h]
  · simp [flushable, noTerminator_iff.2 hpre]
  · simp [flushable, noTerminator_iff.2 hpre]

theorem targetUnset_of {l : List Instruction} (h : UbNull l) : targetUnset l = true := by
  obtain ⟨pre, _, rfl⟩ := h
  simp [targetUnset]

theorem fills_self (I : Instruction) : fills I I = true := by
  cases I with
  | UncondBranchInst t => cases t <;> simp [fills]
  | CondBranchInst c t1 t2 => cases t2 <;> simp [fills]
  | _ => simp [fills]

theorem fills_zip_self : ∀ (l : List Instruction),
    (l.zip l).all (fun p => fills p.1 p.2) = true
  | [] => rfl
  | I :: l => by
    simp only [List.zip_cons_cons, List.all_cons, fills_self, fills_zip_self l, Bool.and_self]

theorem fills_zip_concat (pre : List Instruction) {I I2 : Instruction}
    (h : fills I I2 = true) :
    ((pre ++ [I]).zip (pre ++ [I2])).all (fun p => fills p.1 p.2) = true := by
  rw [List.zip_append rfl, List.all_append, fills_zip_self]
  simp [h]

theorem keeps_self (l : List Instruction) : keeps l l = true := by
  unfold keeps
  split
  · simp [fills_zip_self]
  · simp

theorem endsInTerminator_of_isOpen {l : List Instruction} (h : IsOpen l) :
    endsInTerminator l = false := by
  unfold endsInTerminator
  cases hl : l.getLast? with
  | none => rfl
  | some I => exact h.getLast hl

theorem keeps_append {l : List Instruction} (h : IsOpen l) (l2 : List Instruction) :
    keeps l (l ++ l2) = true := by
  simp [keeps, endsInTerminator_of_isOpen h]

theorem keeps_closeWith {l : List Instruction} (h : Flushable l) (t : Nat) :
    keeps l (closeWith t l) = true := by
  rcases h with h | ⟨pre, hp, rfl⟩ | ⟨pre, c, t1, hp, rfl⟩
  · rw [closeWith_open h]
    exact keeps_append h _
  · rw [closeWith_ub]
    have : endsInTerminator (pre ++ [Instruction.UncondBranchInst none]) = true := by
      simp [endsInTerminator, Instruction.isTermInst]
    simp only [keeps, this, if_true, List.length_append, List.length_singleton, decide_True,
      Bool.true_and]
    exact fills_zip_concat pre (by simp [fills])
  · rw [closeWith_cb]
    have : endsInTerminator (pre ++ [Instruction.CondBranchInst c (some t1) none]) = true := by
      simp [endsInTerminator, Instruction.isTermInst]
    simp only [keeps, this, if_true, List.length_append, List.length_singleton, decide_True,
      Bool.true_and]
    exact fills_zip_concat pre (by simp [fills])

theorem grows_of {C C2 : CFG} (hs : C.size ≤ C2.size)
    (h : ∀ i, i < C.size → keeps (C.insts i) (C2.insts i) = true) : grows C C2 = true := by
  simp only [grows, hs, decide_True, Bool.true_and, List.all_eq_true, List.mem_range]
  exact h

theorem grows_insert {C : CFG} {k : Nat} (hk : k < C.size) (ho : IsOpen (C.insts k))
    (I : Instruction) : grows C (C.insert k I) = true := by
  refine grows_of (by simp) (fun i _ => ?_)
  rw [insts_insert _ _ _ _ hk]
  by_cases hi : i = k
  · subst hi
    simp only [if_true]
    exact keeps_append ho _
  · simp only [hi, if_false]
    exact keeps_self _

theorem grows_condBranch {C : CFG} {k : Nat} (hk : k < C.size) (ho : IsOpen (C.insts k))
    (c : CFGValue) (T1 T2 : Option Nat) : grows C (C.newCondBranchInst c T1 T2 k) = true := by
  refine grows_of (by rw [newCondBranchInst_size]) (fun i _ => ?_)
  rw [newCondBranchInst_insts _ _ _ _ _ hk]
  by_cases hi : i = k
  · subst hi
    simp only [if_true]
    exact keeps_append ho _
  · simp only [hi, if_false]
    exact keeps_self _

theorem grows_closeWith {C C1 : CFG} {p t : Nat} (hf : Flushable (C.insts p))
    (hs : C1.size = C.size)
    (hi : ∀ i, C1.insts i = if i = p then closeWith t (C.insts p) else C.insts i) :
    grows C C1 = true := by
  refine grows_of (by rw [hs]) (fun i _ => ?_)
  rw [hi]
  by_cases hip : i = p
  · subst hip
    simp only [if_true]
    exact keeps_closeWith hf t
  · simp only [hip, if_false]
    exact keeps_self _

theorem flushOneM_eq (m : Monitor) {C : CFG} {t p : Nat} (hp : p < C.size) (ht : t < C.size)
    (hf : Flushable (C.insts p)) : flushOneM m t p C = flushOne t p C := by
  obtain ⟨C1, e1, hs1, hi1, _⟩ := flushOne_ok C t p hp ht hf
  have hc : (hasTerminator (C.block p) || noTerminator (C.insts p)) = true := by
    rcases hf with h | ⟨pre, _, e⟩ | ⟨pre, c, t1, _, e⟩
    · simp [noTerminator_iff.2 h]
    · simp [hasTerminator_of_concat e, Instruction.isTermInst]
    · simp [hasTerminator_of_concat e, Instruction.isTermInst]
  simp only [flushOneM, hc, check_true, e1, grows_closeWith hf hs1 hi1, bind, Except.bind]

theorem flushLoopM_eq (m : Monitor) (t : Nat) : ∀ (L : List Nat) (C : CFG), L.Nodup →
    t < C.size → (∀ p ∈ L, p < C.size ∧ Flushable (C.insts p)) →
    flushLoopM m t L C = flushLoop t L C
  | [], _, _, _, _ => rfl
  | p :: L, C, hnd, ht, hL => by
    obtain ⟨hpL, hnd'⟩ := List.nodup_cons.1 hnd
    obtain ⟨hp, hf⟩ := hL p (by simp)
    obtain ⟨C1, e1, hs1, hi1, _⟩ := flushOne_ok C t p hp ht hf
    have hL1 : ∀ q ∈ L, q < C1.size ∧ Flushable (C1.insts q) := by
      intro q hq
      have hqp : q ≠ p := fun h => hpL (h ▸ hq)
      have := hL q (by simp [hq])
      rw [hs1, hi1, if_neg hqp]
      exact this
    simp only [flushLoopM, flushLoop, flushOneM_eq m hp ht hf, e1, bind, Except.bind]
    exact flushLoopM_eq m t L C1 hnd' (by rw [hs1]; exact ht) hL1

theorem Inv.held_lt {H : List Nat} {Lg : List LoopRecord} {b : Builder} {k : Nat}
    (h : Inv H Lg b) (hk : k ∈ H) : k < b.C.size := by
  refine h.lt_of_pos ?_
  have := List.count_pos_iff.2 hk
  simp only [ownerCount]
  omega

/-- What the invariant says of the innermost pending list when block `t` is held or
active. -/
theorem Inv.top_facts {H : List Nat} {Lg : List LoopRecord} {b : Builder} {t : Nat}
    (h : Inv H Lg b) (hown : t ∈ H ∨ b.Block = some t) {top : BlocksVector}
    {rest : List BlocksVector} (hP : b.PendingMergesStack = top :: rest) :
    top.Nodup ∧ t < b.C.size ∧ ∀ p ∈ top, p < b.C.size ∧ Flushable (b.C.insts p) := by
  have hcnt : ∀ i, ownerCount H b i = H.count i + b.Block.toList.count i +
      (top.count i + rest.flatten.count i) + b.BreakStack.flatten.count i +
      b.ContinueStack.flatten.count i := by
    intro i
    simp only [ownerCount, hP, List.flatten_cons, List.count_append]
  have htpos : 0 < H.count t + b.Block.toList.count t := by
    rcases hown with h1 | h1
    · have := List.count_pos_iff.2 h1
      omega
    · rw [h1, count_toList_some]
      simp
  refine ⟨List.nodup_iff_count_le_one.2 (fun i => ?_), h.lt_of_pos (by rw [hcnt]; omega),
    fun p hp => ⟨h.lt_of_pos ?_, h.pend p (by rw [hP]; simp [hp])⟩⟩
  · have := h.once i
    rw [hcnt] at this
    omega
  · rw [hcnt]
    have := List.count_pos_iff.2 hp
    omega

theorem flushPendingM_eq (m : Monitor) {H : List Nat} {Lg : List LoopRecord} {b : Builder}
    {t : Nat} (h : Inv H Lg b) (hown : t ∈ H ∨ b.Block = some t) :
    flushPendingM m t b = flushPending t b := by
  obtain ⟨top, rest, hP⟩ := List.exists_cons_of_ne_nil h.pstack
  obtain ⟨hnd, ht, hL⟩ := h.top_facts hown hP
  have hall : top.all (fun p => flushable (b.C.insts p)) = true :=
    List.all_eq_true.2 (fun p hp => flushable_of (hL p hp).2)
  simp only [flushPendingM, flushPending, hP, hnd, hall, decide_True, Bool.and_self,
    check_true, flushLoopM_eq m t top b.C hnd ht hL, bind, Except.bind]

theorem currentBlockM_eq (m : Monitor) {H : List Nat} {Lg : List LoopRecord} {b : Builder}
    (h : Inv H Lg b) : currentBlockM m b = currentBlock b := by
  unfold currentBlockM currentBlock
  cases hB : b.Block with
  | some k => rfl
  | none =>
    have h1 := h.newBlock hB
    have := flushPendingM_eq m (t := b.C.size) h1 (Or.inr rfl)
    simp only [fst_newBlock]
    rw [this]

theorem emitM_eq (m : Monitor) {H : List Nat} {Lg : List LoopRecord} {b : Builder}
    (h : Inv H Lg b) (Ex : Expr) (I : Instruction) : emitM m Ex I b = emit Ex I b := by
  obtain ⟨k, b0, e0, I0, B0, _⟩ := currentBlock_inv h
  have hg : grows b0.C (addInst Ex I k b0).2.C = true :=
    grows_insert (I0.block_lt B0) (I0.cur k B0) I
  simp only [emitM, emit, currentBlockM_eq m h, e0, bind, Except.bind,
    noTerminator_iff.2 (I0.cur k B0), hg, check_true]

theorem visitExprs_inv {H : List Nat} {Lg : List LoopRecord} : ∀ (es : List Expr)
    (b : Builder), Inv H Lg b → Expr.supportedAll es = true →
    ∃ vs b', visitExprs es b = .ok (vs, b') ∧ Inv H Lg b'
  | [], b, h, _ => ⟨[], b, rfl, h⟩
  | E :: rest, b, h, he => by
    simp only [Expr.supportedAll, Bool.and_eq_true] at he
    obtain ⟨v1, b1, e1, I1, _⟩ := visitExpr_inv h he.1
    obtain ⟨vs, b2, e2, I2⟩ := visitExprs_inv rest b1 I1 he.2
    exact ⟨v1 :: vs, b2, by simp only [visitExprs, e1, e2, bind, Except.bind], I2⟩

theorem visitCallArg_inv {H : List Nat} {Lg : List LoopRecord} : ∀ (e : Expr) (b : Builder),
    Inv H Lg b → e.supported = true →
    ∃ vs b', visitCallArg e b = .ok (vs, b') ∧ Inv H Lg b'
  | .ParenExpr P, b, h, he => by
    simp only [Expr.supported] at he
    obtain ⟨vs, b', e1, I1⟩ := visitCallArg_inv P b h he
    exact ⟨vs, b', by rw [visitCallArg]; exact e1, I1⟩
  | .TupleExpr Elements, b, h, he => by
    simp only [Expr.supported] at he
    obtain ⟨vs, b', e1, I1⟩ := visitExprs_inv Elements b h he
    exact ⟨vs, b', by rw [visitCallArg]; exact e1, I1⟩
  | .CallExpr Fn Arg, b, h, he => by
    obtain ⟨v, b', e1, I1, _⟩ := visitExpr_inv h he
    refine ⟨[v], b', ?_, I1⟩
    rw [visitCallArg_eq, callArgs]
    simp only [ignoreParens, e1, bind, Except.bind]
  | .DeclRefExpr d, b, h, he => by
    obtain ⟨v, b', e1, I1, _⟩ := visitExpr_inv h he
    refine ⟨[v], b', ?_, I1⟩
    rw [visitCallArg_eq, callArgs]
    simp only [ignoreParens, e1, bind, Except.bind]
  | .IntegerLiteralExpr v, b, h, he => by
    obtain ⟨v, b', e1, I1, _⟩ := visitExpr_inv h he
    refine ⟨[v], b', ?_, I1⟩
    rw [visitCallArg_eq, callArgs]
    simp only [ignoreParens, e1, bind, Except.bind]
  | .TypeOfExpr t, b, h, he => by
    obtain ⟨v, b', e1, I1, _⟩ := visitExpr_inv h he
    refine ⟨[v], b', ?_, I1⟩
    rw [visitCallArg_eq, callArgs]
    simp only [ignoreParens, e1, bind, Except.bind]
  | .LoadExpr Sub, b, h, he => by
    obtain ⟨v, b', e1, I1, _⟩ := visitExpr_inv h he
    refine ⟨[v], b', ?_, I1⟩
    rw [visitCallArg_eq, callArgs]
    simp only [ignoreParens, e1, bind, Except.bind]
  | .ThisApplyExpr Fn Arg, b, h, he => by
    obtain ⟨v, b', e1, I1, _⟩ := visitExpr_inv h he
    refine ⟨[v], b', ?_, I1⟩
    rw [visitCallArg_eq, callArgs]
    simp only [ignoreParens, e1, bind, Except.bind]
  | .OtherExpr _, _, _, he => by
    simp [Expr.supported] at he

mutual
theorem visitExprM_eq (m : Monitor) : ∀ (e : Expr), e.supported = true →
    ∀ (H : List Nat) (Lg : List LoopRecord) (b : Builder), Inv H Lg b →
    visitExprM m e b = visitExpr e b
  | .CallExpr Fn Arg, he, H, Lg, b, h => by
    simp only [Expr.supported, Bool.and_eq_true] at he
    obtain ⟨v1, b1, e1, I1, _⟩ := visitExpr_inv h he.1
    obtain ⟨v2, b2, e2, I2⟩ := visitCallArg_inv Arg b1 I1 he.2
    rw [visitExprM, visitExpr, visitExprM_eq m Fn he.1 H Lg b h]
    simp only [e1, bind, Except.bind]
    rw [visitCallArgM_eq m Arg he.2 H Lg b1 I1]
    simp only [e2]
    exact emitM_eq m I2 _ _
  | .DeclRefExpr d, _, H, Lg, b, h => by
    rw [visitExprM, visitExpr]
    exact emitM_eq m h _ _
  | .IntegerLiteralExpr d, _, H, Lg, b, h => by
    rw [visitExprM, visitExpr]
    exact emitM_eq m h _ _
  | .TypeOfExpr d, _, H, Lg, b, h => by
    rw [visitExprM, visitExpr]
    exact emitM_eq m h _ _
  | .LoadExpr Sub, he, H, Lg, b, h => by
    simp only [Expr.supported] at he
    obtain ⟨v1, b1, e1, I1, _⟩ := visitExpr_inv h he
    rw [visitExprM, visitExpr, visitExprM_eq m Sub he H Lg b h]
    simp only [e1, bind, Except.bind]
    exact emitM_eq m I1 _ _
  | .ParenExpr Sub, he, H, Lg, b, h => by
    simp only [Expr.supported] at he
    rw [visitExprM, visitExpr]
    exact visitExprM_eq m Sub he H Lg b h
  | .ThisApplyExpr Fn Arg, he, H, Lg, b, h => by
    simp only [Expr.supported, Bool.and_eq_true] at he
    obtain ⟨v1, b1, e1, I1, _⟩ := visitExpr_inv h he.1
    obtain ⟨v2, b2, e2, I2, _⟩ := visitExpr_inv I1 he.2
    rw [visitExprM, visitExpr, visitExprM_eq m Fn he.1 H Lg b h]
    simp only [e1, bind, Except.bind]
    rw [visitExprM_eq m Arg he.2 H Lg b1 I1]
    simp only [e2]
    exact emitM_eq m I2 _ _
  | .TupleExpr Elements, he, H, Lg, b, h => by
    simp only [Expr.supported] at he
    obtain ⟨vs, b1, e1, I1⟩ := visitExprs_inv Elements b h he
    rw [visitExprM, visitExpr, visitExprsM_eq m Elements he H Lg b h]
    simp only [e1, bind, Except.bind]
    exact emitM_eq m I1 _ _
  | .OtherExpr _, he, _, _, _, _ => by
    simp [Expr.supported] at he
theorem visitExprsM_eq (m : Monitor) : ∀ (es : List Expr), Expr.supportedAll es = true →
    ∀ (H : List Nat) (Lg : List LoopRecord) (b : Builder), Inv H Lg b →
    visitExprsM m es b = visitExprs es b
  | [], _, _, _, _, _ => rfl
  | E :: rest, he, H, Lg, b, h => by
    simp only [Expr.supportedAll, Bool.and_eq_true] at he
    obtain ⟨v1, b1, e1, I1, _⟩ := visitExpr_inv h he.1
    rw [visitExprsM, visitExprs, visitExprM_eq m E he.1 H Lg b h]
    simp only [e1, bind, Except.bind]
    rw [visitExprsM_eq m rest he.2 H Lg b1 I1]
theorem visitCallArgM_eq (m : Monitor) : ∀ (e : Expr), e.supported = true →
    ∀ (H : List Nat) (Lg : List LoopRecord) (b : Builder), Inv H Lg b →
    visitCallArgM m e b = visitCallArg e b
  | .CallExpr Fn Arg, he, H, Lg, b, h => by
    simp only [Expr.supported, Bool.and_eq_true] at he
    obtain ⟨v1, b1, e1, I1, _⟩ := visitExpr_inv h he.1
    obtain ⟨v2, b2, e2, I2⟩ := visitCallArg_inv Arg b1 I1 he.2
    rw [visitCallArgM, visitCallArg, visitExprM_eq m Fn he.1 H Lg b h]
    simp only [e1, bind, Except.bind]
    rw [visitCallArgM_eq m Arg he.2 H Lg b1 I1]
    simp only [e2]
    rw [emitM_eq m I2]
  | .DeclRefExpr d, _, H, Lg, b, h => by
    rw [visitCallArgM, visitCallArg, emitM_eq m h]
  | .IntegerLiteralExpr d, _, H, Lg, b, h => by
    rw [visitCallArgM, visitCallArg, emitM_eq m h]
  | .TypeOfExpr d, _, H, Lg, b, h => by
    rw [visitCallArgM, visitCallArg, emitM_eq m h]
  | .LoadExpr Sub, he, H, Lg, b, h => by
    simp only [Expr.supported] at he
    obtain ⟨v1, b1, e1, I1, _⟩ := visitExpr_inv h he
    rw [visitCallArgM, visitCallArg, visitExprM_eq m Sub he H Lg b h]
    simp only [e1, bind, Except.bind]
    rw [emitM_eq m I1]
  | .ParenExpr Sub, he, H, Lg, b, h => by
    simp only [Expr.supported] at he
    rw [visitCallArgM, visitCallArg]
    exact visitCallArgM_eq m Sub he H Lg b h
  | .ThisApplyExpr Fn Arg, he, H, Lg, b, h => by
    simp only [Expr.supported, Bool.and_eq_true] at he
    obtain ⟨v1, b1, e1, I1, _⟩ := visitExpr_inv h he.1
    obtain ⟨v2, b2, e2, I2, _⟩ := visitExpr_inv I1 he.2
    rw [visitCallArgM, visitCallArg, visitExprM_eq m Fn he.1 H Lg b h]
    simp only [e1, bind, Except.bind]
    rw [visitExprM_eq m Arg he.2 H Lg b1 I1]
    simp only [e2]
    rw [emitM_eq m I2]
  | .TupleExpr Elements, he, H, Lg, b, h => by
    simp only [Expr.supported] at he
    rw [visitCallArgM, visitCallArg]
    exact visitExprsM_eq m Elements he H Lg b h
  | .OtherExpr _, he, _, _, _, _ => by
    simp [Expr.supported] at he
end

theorem lowerReturnM_eq (m : Monitor) {H : List Nat} {Lg : List LoopRecord} {b : Builder}
    (h : Inv H Lg b) (v : CFGValue) : lowerReturnM m v b = lowerReturn v b := by
  obtain ⟨k, b0, e0, I0, B0, _⟩ := currentBlock_inv h
  simp only [lowerReturnM, lowerReturn, currentBlockM_eq m h, e0, bind, Except.bind,
    noTerminator_iff.2 (I0.cur k B0), grows_insert (I0.block_lt B0) (I0.cur k B0), check_true]

theorem visitBreakStmtM_eq (m : Monitor) {H : List Nat} {Lg : List LoopRecord} {b : Builder}
    (h : Inv H Lg b) : visitBreakStmtM m b = visitBreakStmt b := by
  obtain ⟨k, b0, e0, I0, B0, _⟩ := currentBlock_inv h
  unfold visitBreakStmtM visitBreakStmt
  cases b.BreakStack with
  | nil => rfl
  | cons top rest =>
    simp only [currentBlockM_eq m h, e0, bind, Except.bind]
    cases b0.BreakStack with
    | nil => rfl
    | cons top0 rest0 =>
      simp only [noTerminator_iff.2 (I0.cur k B0),
        grows_insert (I0.block_lt B0) (I0.cur k B0), check_true, bind, Except.bind]

theorem visitContinueStmtM_eq (m : Monitor) {H : List Nat} {Lg : List LoopRecord}
    {b : Builder} (h : Inv H Lg b) : visitContinueStmtM m b = visitContinueStmt b := by
  obtain ⟨k, b0, e0, I0, B0, _⟩ := currentBlock_inv h
  unfold visitContinueStmtM visitContinueStmt
  cases b.ContinueStack with
  | nil => rfl
  | cons top rest =>
    simp only [currentBlockM_eq m h, e0, bind, Except.bind]
    cases b0.ContinueStack with
    | nil => rfl
    | cons top0 rest0 =>
      simp only [noTerminator_iff.2 (I0.cur k B0),
        grows_insert (I0.block_lt B0) (I0.cur k B0), check_true, bind, Except.bind]

theorem rebindContinueM_eq (m : Monitor) {C : CFG} {t p : Nat} (hp : p < C.size)
    (ht : t < C.size) (hu : UbNull (C.insts p)) :
    rebindContinueM m t p C = rebindContinue t p C := by
  have hf := hu.isFlushable
  obtain ⟨C1, e1, hs1, hi1, _⟩ := flushOne_ok C t p hp ht hf
  have hu2 := hu
  obtain ⟨pre, hpre, e⟩ := hu2
  have e2 : rebindContinue t p C = .ok C1 := by
    rw [← e1]
    simp [rebindContinue, flushOne, getLast_block, e, hasTerminator_of_concat e,
      Instruction.isTermInst]
  simp only [rebindContinueM, e2, targetUnset_of hu, grows_closeWith hf hs1 hi1, check_true,
    bind, Except.bind]

theorem rebindLoopM_eq (m : Monitor) (t : Nat) : ∀ (L : List Nat) (C : CFG), L.Nodup →
    t < C.size → (∀ p ∈ L, p < C.size ∧ UbNull (C.insts p)) →
    rebindLoopM m t L C = rebindLoop t L C
  | [], _, _, _, _ => rfl
  | p :: L, C, hnd, ht, hL => by
    obtain ⟨hpL, hnd'⟩ := List.nodup_cons.1 hnd
    obtain ⟨hp, pre, hpre, e⟩ := hL p (by simp)
    obtain ⟨C1, e1, hs1, hi1, _⟩ := flushOne_ok C t p hp ht (UbNull.isFlushable ⟨pre, hpre, e⟩)
    have e2 : rebindContinue t p C = .ok C1 := by
      rw [← e1]
      simp [rebindContinue, flushOne, getLast_block, e, hasTerminator_of_concat e,
        Instruction.isTermInst]
    have hL1 : ∀ q ∈ L, q < C1.size ∧ UbNull (C1.insts q) := by
      intro q hq
      have hqp : q ≠ p := fun h => hpL (h ▸ hq)
      have := hL q (by simp [hq])
      rw [hs1, hi1, if_neg hqp]
      exact this
    simp only [rebindLoopM, rebindLoop, rebindContinueM_eq m hp ht ⟨pre, hpre, e⟩, e2, bind,
      Except.bind]
    exact rebindLoopM_eq m t L C1 hnd' (by rw [hs1]; exact ht) hL1

/-- What the invariant says of the innermost continue list when block `t` is held or
active. -/
theorem Inv.continue_facts {H : List Nat} {Lg : List LoopRecord} {b : Builder} {t : Nat}
    (h : Inv H Lg b) (hown : t ∈ H ∨ b.Block = some t) {ntop : BlocksVector}
    {nrest : List BlocksVector} (hN : b.ContinueStack = ntop :: nrest) :
    ntop.Nodup ∧ t < b.C.size ∧ ∀ p ∈ ntop, p < b.C.size ∧ UbNull (b.C.insts p) := by
  have hcnt : ∀ i, ownerCount H b i = H.count i + b.Block.toList.count i +
      b.PendingMergesStack.flatten.count i + b.BreakStack.flatten.count i +
      (ntop.count i + nrest.flatten.count i) := by
    intro i
    simp only [ownerCount, hN, List.flatten_cons, List.count_append]
  have htpos : 0 < H.count t + b.Block.toList.count t := by
    rcases hown with h1 | h1
    · have := List.count_pos_iff.2 h1
      omega
    · rw [h1, count_toList_some]
      simp
  refine ⟨List.nodup_iff_count_le_one.2 (fun i => ?_), h.lt_of_pos (by rw [hcnt]; omega),
    fun p hp => ⟨h.lt_of_pos ?_, h.cont p (by rw [hN]; simp [hp])⟩⟩
  · have := h.once i
    rw [hcnt] at this
    omega
  · rw [hcnt]
    have := List.count_pos_iff.2 hp
    omega

theorem popContinueStackM_eq (m : Monitor) {H : List Nat} {Lg : List LoopRecord}
    {b : Builder} {t : Nat} (h : Inv H Lg b) (hown : t ∈ H ∨ b.Block = some t) (d : Nat) :
    popContinueStackM m d t b = popContinueStack d t b := by
  unfold popContinueStackM popContinueStack
  cases hN : b.ContinueStack with
  | nil => rfl
  | cons ntop nrest =>
    obtain ⟨hnd, ht, hL⟩ := h.continue_facts hown hN
    simp only [rebindLoopM_eq m t ntop b.C hnd ht hL]

theorem closeLoopM_eq (m : Monitor) {H : List Nat} {Lg : List LoopRecord} {b : Builder}
    {cond : Nat} (body : Nat)
    {top top2 ktop ntop : BlocksVector} {rest2 krest nrest : List BlocksVector}
    (h : Inv (cond :: H) Lg b)
    (hP : b.PendingMergesStack = top :: top2 :: rest2) (hK : b.BreakStack = ktop :: krest)
    (hN : b.ContinueStack = ntop :: nrest) :
    closeLoopM m b.PendingMergesStack.length b.BreakStack.length b.ContinueStack.length
        body cond b =
      closeLoop b.PendingMergesStack.length b.BreakStack.length b.ContinueStack.length
        body cond b := by
  have hcm : cond ∈ cond :: H := by simp
  obtain ⟨b1, e1, I1, B1, K1, N1, bad1, P1, sz1, ins1⟩ := flushPending_inv h (Or.inl hcm)
  rw [hP] at P1
  simp only [List.tail_cons] at P1
  obtain ⟨b2, e2, I2, P2, K2, N2, B2, bad2, C2⟩ := popPending_inv I1 P1 (by simp)
  rw [K1, hK] at K2
  rw [N1, hN] at N2
  obtain ⟨b3, e3, I3, P3, K3, N3, B3, bad3, C3⟩ := popBreakStack_inv I2 K2 P2
  rw [N2] at N3
  obtain ⟨b4, e4, I4, P4, K4, N4, B4, bad4, sz4, ins4⟩ :=
    popContinueStack_inv (t := cond) I3 (Or.inl hcm) N3
  have hlenK : b.BreakStack.length = b2.BreakStack.length := by rw [K2, hK]
  have hlenN : b.ContinueStack.length = b3.ContinueStack.length := by rw [N3, hN]
  have ho : noTerminator (b4.C.insts cond) = true := noTerminator_iff.2 (I4.held cond hcm)
  have hg := grows_condBranch (I4.held_lt hcm) (I4.held cond hcm) none (some body) none
  simp only [closeLoopM, closeLoop, ne_eq, not_true_eq_false, if_false, bind, Except.bind,
    flushPendingM_eq m h (Or.inl hcm), e1, e2]
  rw [hlenK, e3]
  simp only []
  rw [popContinueStackM_eq m I3 (Or.inl hcm), hlenN, e4]
  simp only [ho, hg, check_true]

theorem log_fst {S : Stmt} {b b' : Builder} {lg : List LoopRecord}
    (e : visitStmtLog S b = .ok (b', lg)) : visitStmt S b = .ok b' := by
  rw [← visitStmtLog_fst, e]
  rfl

theorem VisitSame.ifNoneM {m : Monitor} {Then : Stmt} {inLoop : Bool}
    (ih : VisitSame m Then inLoop) (base : VisitOK Then inLoop) (c : Expr) :
    VisitSame m (.IfStmt c Then none) inLoop := by
  intro H Lg b h hl
  obtain ⟨k, b1, e1, I1, B1, K1, N1, bad1, Pl1, Pt1, sz1, hcase⟩ := currentBlock_inv h
  have I2 := (I1.hold B1).newBlock rfl
  have hl2 : inLoop = true → b1.BreakStack ≠ [] ∧ b1.ContinueStack ≠ [] := by
    intro hi
    have := hl hi
    exact ⟨by rw [K1]; exact this.1, by rw [N1]; exact this.2⟩
  obtain ⟨b3, lg, e3, I3, F3, _⟩ := base (k :: H) Lg _ I2 hl2
  have e3' := log_fst e3
  obtain ⟨b4, e4, I4, B4, C4, K4, N4, bad4, Pl4, Pt4, _⟩ := addCurrentBlockToPending_inv I3
  obtain ⟨top, rest, hP4⟩ := List.exists_cons_of_ne_nil I4.pstack
  have ho : noTerminator (b4.C.insts k) = true := noTerminator_iff.2 (I4.held k (by simp))
  have hg := grows_condBranch (I4.held_lt (List.mem_cons_self k H)) (I4.held k (by simp))
    none (some b1.C.size) none
  have ih2 := ih (k :: H) Lg _ I2 hl2
  rw [visitStmtM, visitStmt, currentBlockM_eq m h]
  simp only [e1, bind, Except.bind]
  rw [createFreshBlock_eq]
  simp only []
  rw [ih2, e3']
  simp only [e4, pendingMergesPush, hP4, ho, hg, check_true]

theorem VisitSame.ifSomeM {m : Monitor} {Then Else : Stmt} {inLoop : Bool}
    (ih1 : VisitSame m Then inLoop) (ih2 : VisitSame m Else inLoop)
    (base1 : VisitOK Then inLoop) (base2 : VisitOK Else inLoop) (c : Expr) :
    VisitSame m (.IfStmt c Then (some Else)) inLoop := by
  intro H Lg b h hl
  obtain ⟨k, b1, e1, I1, B1, K1, N1, bad1, Pl1, Pt1, sz1, hcase⟩ := currentBlock_inv h
  have I2 := (I1.hold B1).newBlock rfl
  have hl2 : inLoop = true → b1.BreakStack ≠ [] ∧ b1.ContinueStack ≠ [] := by
    intro hi
    have := hl hi
    exact ⟨by rw [K1]; exact this.1, by rw [N1]; exact this.2⟩
  obtain ⟨b3, lg1, e3, I3, F3, _⟩ := base1 (k :: H) Lg _ I2 hl2
  have e3' := log_fst e3
  obtain ⟨b4, e4, I4, B4, C4, K4, N4, bad4, Pl4, Pt4, _⟩ := addCurrentBlockToPending_inv I3
  have I5 := I4.newBlock B4
  have hl5 : inLoop = true → b4.BreakStack ≠ [] ∧ b4.ContinueStack ≠ [] := by
    intro hi
    have := hl2 hi
    have h1 : b3.BreakStack.length = b1.BreakStack.length := F3.bdepth
    have h2 : b3.ContinueStack.length = b1.ContinueStack.length := F3.cdepth
    rw [K4, N4]
    constructor
    · intro e; rw [e] at h1; exact this.1 (List.length_eq_zero.1 h1.symm)
    · intro e; rw [e] at h2; exact this.2 (List.length_eq_zero.1 h2.symm)
  obtain ⟨b6, lg2, e6, I6, F6, _⟩ := base2 (k :: H) (Lg ++ lg1) _ I5 hl5
  have e6' := log_fst e6
  obtain ⟨b7, e7, I7, B7, C7, K7, N7, bad7, Pl7, Pt7, _⟩ := addCurrentBlockToPending_inv I6
  have ho : noTerminator (b7.C.insts k) = true := noTerminator_iff.2 (I7.held k (by simp))
  have hg := grows_condBranch (I7.held_lt (List.mem_cons_self k H)) (I7.held k (by simp))
    none (some b1.C.size) (some b4.C.size)
  have s1 := ih1 (k :: H) Lg _ I2 hl2
  have s2 := ih2 (k :: H) (Lg ++ lg1) _ I5 hl5
  rw [visitStmtM, visitStmt, currentBlockM_eq m h]
  simp only [e1, bind, Except.bind]
  rw [createFreshBlock_eq]
  simp only []
  rw [s1, e3']
  simp only [e4]
  rw [createFreshBlock_eq]
  simp only []
  rw [s2, e6']
  simp only [e7, ho, hg, check_true]

theorem VisitSame.whileLoopM {m : Monitor} {Body : Stmt} (ih : VisitSame m Body true)
    (base : VisitOK Body true) (c : Expr) (inLoop : Bool) :
    VisitSame m (.WhileStmt c Body) inLoop := by
  intro H Lg b h _
  obtain ⟨b1, e1, I1, B1, C1, K1, N1, bad1, Pl1, Pt1, _⟩ := addCurrentBlockToPending_inv h
  obtain ⟨cond, b2, e2, I2, B2, K2, N2, bad2, Pl2, Pt2, sz2, hcase⟩ := currentBlock_inv I1
  have I3 := (((I2.hold B2).pushBreak).pushContinue).pushPending
  have I4 := I3.newBlock rfl
  have hl4 : true = true → (([] : BlocksVector) :: b2.BreakStack) ≠ [] ∧
      (([] : BlocksVector) :: b2.ContinueStack) ≠ [] := fun _ => ⟨by simp, by simp⟩
  obtain ⟨b5, lg, e5, I5, F5, _⟩ := base (cond :: H) Lg _ I4 hl4
  have e5' := log_fst e5
  have s5 := ih (cond :: H) Lg _ I4 hl4
  obtain ⟨b6, e6, I6, B6, C6, K6, N6, bad6, Pl6, Pt6, _⟩ := addCurrentBlockToPending_inv I5
  have hPl : b6.PendingMergesStack.length = b2.PendingMergesStack.length + 1 := by
    rw [Pl6, F5.pdepth]; rfl
  have hKl : b6.BreakStack.length = b2.BreakStack.length + 1 := by
    rw [K6, F5.bdepth]; rfl
  have hNl : b6.ContinueStack.length = b2.ContinueStack.length + 1 := by
    rw [N6, F5.cdepth]; rfl
  obtain ⟨top, rest, hP6⟩ := List.exists_cons_of_ne_nil I6.pstack
  obtain ⟨top2, rest2, hrest⟩ : ∃ top2 rest2, rest = top2 :: rest2 := by
    cases rest with
    | nil =>
      rw [hP6] at hPl
      have := List.length_pos.2 I2.pstack
      simp only [List.length_cons, List.length_nil] at hPl
      omega
    | cons a l => exact ⟨a, l, rfl⟩
  subst hrest
  obtain ⟨ktop, krest, hK6⟩ : ∃ ktop krest, b6.BreakStack = ktop :: krest := by
    cases hk : b6.BreakStack with
    | nil => rw [hk] at hKl; simp at hKl
    | cons a l => exact ⟨a, l, rfl⟩
  obtain ⟨ntop, nrest, hN6⟩ : ∃ ntop nrest, b6.ContinueStack = ntop :: nrest := by
    cases hk : b6.ContinueStack with
    | nil => rw [hk] at hNl; simp at hNl
    | cons a l => exact ⟨a, l, rfl⟩
  have s7 := closeLoopM_eq m b2.C.size I6 hP6 hK6 hN6
  rw [visitStmtM, visitStmt]
  simp only [e1, bind, Except.bind, currentBlockM_eq m I1, e2, createFreshBlock_eq]
  rw [s5, e5']
  simp only [e6, List.length_cons]
  rw [← hPl, ← hKl, ← hNl, s7]

theorem VisitSame.doWhileLoopM {m : Monitor} {Body : Stmt} (ih : VisitSame m Body true)
    (base : VisitOK Body true) (c : Expr) (inLoop : Bool) :
    VisitSame m (.DoWhileStmt Body c) inLoop := by
  intro H Lg b h _
  have I2 := (h.pushBreak).pushContinue
  obtain ⟨b3, e3, I3, B3, C3, K3, N3, bad3, Pl3, Pt3, _⟩ := addCurrentBlockToPending_inv I2
  obtain ⟨body, b4, e4, I4, B4, K4, N4, bad4, Pl4, Pt4, sz4, hcase4⟩ := currentBlock_inv I3
  have I5 := I4.pushPending
  have hK5 : b4.BreakStack = [] :: b.BreakStack := by rw [K4, K3]
  have hN5 : b4.ContinueStack = [] :: b.ContinueStack := by rw [N4, N3]
  have hl5 : true = true → b4.BreakStack ≠ [] ∧ b4.ContinueStack ≠ [] :=
    fun _ => ⟨by rw [hK5]; simp, by rw [hN5]; simp⟩
  obtain ⟨b6, lg, e6, I6, F6, _⟩ := base H Lg _ I5 hl5
  have e6' := log_fst e6
  have s6 := ih H Lg _ I5 hl5
  obtain ⟨b7, e7, I7, B7, C7, K7, N7, bad7, Pl7, Pt7, _⟩ := addCurrentBlockToPending_inv I6
  obtain ⟨cond, b8, e8, I8, B8, K8, N8, bad8, Pl8, Pt8, sz8, hcase8⟩ := currentBlock_inv I7
  have I9 := I8.hold B8
  have hPl : b8.PendingMergesStack.length = b4.PendingMergesStack.length + 1 := by
    rw [Pl8, Pl7, F6.pdepth]; rfl
  have hKl : b8.BreakStack.length = b.BreakStack.length + 1 := by
    rw [K8, K7, F6.bdepth]
    show b4.BreakStack.length = _
    rw [hK5]; rfl
  have hNl : b8.ContinueStack.length = b.ContinueStack.length + 1 := by
    rw [N8, N7, F6.cdepth]
    show b4.ContinueStack.length = _
    rw [hN5]; rfl
  obtain ⟨top, rest, hP8⟩ := List.exists_cons_of_ne_nil I8.pstack
  obtain ⟨top2, rest2, hrest⟩ : ∃ top2 rest2, rest = top2 :: rest2 := by
    cases rest with
    | nil =>
      rw [hP8] at hPl
      have := List.length_pos.2 I4.pstack
      simp only [List.length_cons, List.length_nil] at hPl
      omega
    | cons a l => exact ⟨a, l, rfl⟩
  subst hrest
  obtain ⟨ktop, krest, hK8⟩ : ∃ ktop krest, b8.BreakStack = ktop :: krest := by
    cases hk : b8.BreakStack with
    | nil => rw [hk] at hKl; simp at hKl
    | cons a l => exact ⟨a, l, rfl⟩
  obtain ⟨ntop, nrest, hN8⟩ : ∃ ntop nrest, b8.ContinueStack = ntop :: nrest := by
    cases hk : b8.ContinueStack with
    | nil => rw [hk] at hNl; simp at hNl
    | cons a l => exact ⟨a, l, rfl⟩
  have s10 := closeLoopM_eq m (b := { b8 with Block := none }) body I9 hP8 hK8 hN8
  rw [visitStmtM, visitStmt]
  simp only [e3, bind, Except.bind, currentBlockM_eq m I3, e4]
  rw [s6, e6']
  simp only [e7, currentBlockM_eq m I7, e8, List.length_cons]
  have hPl' : ({ b8 with Block := none } : Builder).PendingMergesStack.length =
    b4.PendingMergesStack.length + 1 := hPl
  have hKl' : ({ b8 with Block := none } : Builder).BreakStack.length =
    b.BreakStack.length + 1 := hKl
  have hNl' : ({ b8 with Block := none } : Builder).ContinueStack.length =
    b.ContinueStack.length + 1 := hNl
  rw [← hPl', ← hKl', ← hNl', s10]

theorem VisitSame.stmtConsM {m : Monitor} {S : Stmt} {rest : List ExprStmtOrDecl}
    {inLoop : Bool} (ih1 : VisitSame m S inLoop) (ih2 : VisitAllSame m rest inLoop)
    (base : VisitOK S inLoop) : VisitAllSame m (.stmt S :: rest) inLoop := by
  intro H Lg b h hl
  obtain ⟨b1, lg1, e1, I1, F1, _⟩ := base H Lg b h hl
  have e1' := log_fst e1
  have hl1 : inLoop = true → b1.BreakStack ≠ [] ∧ b1.ContinueStack ≠ [] := by
    intro hi
    have := hl hi
    have h1 := F1.bdepth
    have h2 := F1.cdepth
    constructor
    · intro e; rw [e] at h1; exact this.1 (List.length_eq_zero.1 h1.symm)
    · intro e; rw [e] at h2; exact this.2 (List.length_eq_zero.1 h2.symm)
  rw [visitElementsM, visitElements, ih1 H Lg b h hl]
  simp only [e1', bind, Except.bind]
  exact ih2 H (Lg ++ lg1) b1 I1 hl1

theorem VisitSame.exprConsM {m : Monitor} {Ex : Expr} {rest : List ExprStmtOrDecl}
    {inLoop : Bool} (hE : Ex.supported = true) (ih2 : VisitAllSame m rest inLoop) :
    VisitAllSame m (.expr Ex :: rest) inLoop := by
  intro H Lg b h hl
  obtain ⟨v, b1, e1, I1, F1, _⟩ := visitExpr_inv h hE
  have hl1 : inLoop = true → b1.BreakStack ≠ [] ∧ b1.ContinueStack ≠ [] := by
    intro hi
    have := hl hi
    have h1 := F1.bdepth
    have h2 := F1.cdepth
    constructor
    · intro e; rw [e] at h1; exact this.1 (List.length_eq_zero.1 h1.symm)
    · intro e; rw [e] at h2; exact this.2 (List.length_eq_zero.1 h2.symm)
  rw [visitElementsM, visitElements, visitExprM_eq m Ex hE H Lg b h]
  simp only [e1, bind, Except.bind]
  exact ih2 H Lg b1 I1 hl1

mutual
/-- The monitored visit of a supported tree is the visit: no check of the monitor fails. -/
theorem visitStmtM_eq (m : Monitor) : ∀ (S : Stmt) (forEach inLoop : Bool),
    S.supported forEach inLoop = true → VisitSame m S inLoop
  | .BraceStmt Elements, fe, inLoop, hS => by
    have ih := visitElementsM_eq m Elements fe inLoop (by simpa [Stmt.supported] using hS)
    intro H Lg b h hl
    rw [visitStmtM, visitStmt]
    exact ih H Lg b h hl
  | .SemiStmt, _, _, _ => by
    intro H Lg b _ _
    rfl
  | .AssignStmt, _, _, hS => by simp [Stmt.supported] at hS
  | .ReturnStmt none, _, _, _ => by
    intro H Lg b h _
    rw [visitStmtM, visitStmt]
    exact lowerReturnM_eq m h none
  | .ReturnStmt (some Result), _, _, hS => by
    intro H Lg b h _
    have hE : Result.supported = true := by simpa [Stmt.supported] using hS
    obtain ⟨v, b1, e1, I1, _⟩ := visitExpr_inv h hE
    rw [visitStmtM, visitStmt, visitExprM_eq m Result hE H Lg b h]
    simp only [e1, bind, Except.bind]
    exact lowerReturnM_eq m I1 v
  | .IfStmt c Then none, fe, inLoop, hS =>
    (visitStmtM_eq m Then fe inLoop (by simpa [Stmt.supported] using hS)).ifNoneM
      (visitStmtLog_inv Then fe inLoop (by simpa [Stmt.supported] using hS)) c
  | .IfStmt c Then (some Else), fe, inLoop, hS => by
    have hS' := hS
    simp only [Stmt.supported, Bool.and_eq_true] at hS'
    exact (visitStmtM_eq m Then fe inLoop hS'.1).ifSomeM (visitStmtM_eq m Else fe inLoop hS'.2)
      (visitStmtLog_inv Then fe inLoop hS'.1) (visitStmtLog_inv Else fe inLoop hS'.2) c
  | .WhileStmt c Body, fe, inLoop, hS =>
    (visitStmtM_eq m Body fe true (by simpa [Stmt.supported] using hS)).whileLoopM
      (visitStmtLog_inv Body fe true (by simpa [Stmt.supported] using hS)) c inLoop
  | .DoWhileStmt Body c, fe, inLoop, hS =>
    (visitStmtM_eq m Body fe true (by simpa [Stmt.supported] using hS)).doWhileLoopM
      (visitStmtLog_inv Body fe true (by simpa [Stmt.supported] using hS)) c inLoop
  | .ForStmt, _, _, hS => by simp [Stmt.supported] at hS
  | .ForEachStmt, _, _, _ => by
    intro H Lg b _ _
    rfl
  | .BreakStmt, _, _, _ => by
    intro H Lg b h _
    rw [visitStmtM, visitStmt]
    exact visitBreakStmtM_eq m h
  | .ContinueStmt, _, _, _ => by
    intro H Lg b h _
    rw [visitStmtM, visitStmt]
    exact visitContinueStmtM_eq m h
/-- The statement of `visitStmtM_eq` for the elements of a brace statement. -/
theorem visitElementsM_eq (m : Monitor) : ∀ (Elements : List ExprStmtOrDecl)
    (forEach inLoop : Bool), Stmt.supportedAll forEach inLoop Elements = true →
    VisitAllSame m Elements inLoop
  | [], _, _, _ => by
    intro H Lg b _ _
    rfl
  | .decl :: _, _, _, hS => by simp [Stmt.supportedAll] at hS
  | .stmt S :: rest, fe, inLoop, hS => by
    simp only [Stmt.supportedAll, Bool.and_eq_true] at hS
    exact (visitStmtM_eq m S fe inLoop hS.1).stmtConsM (visitElementsM_eq m rest fe inLoop hS.2)
      (visitStmtLog_inv S fe inLoop hS.1)
  | .expr Ex :: rest, fe, inLoop, hS => by
    simp only [Stmt.supportedAll, Bool.and_eq_true] at hS
    exact VisitSame.exprConsM hS.1 (visitElementsM_eq m rest fe inLoop hS.2)
end

/-- The monitored finalizer is the finalizer, from every builder that satisfies the
invariant with no block held. -/
theorem finishUpM_eq (m : Monitor) {Lg : List LoopRecord} {b : Builder} (h : Inv [] Lg b) :
    finishUpM m b = finishUp b := by
  unfold finishUpM finishUp
  split
  · rfl
  · cases hpm : pendingMerges b with
    | error a => rfl
    | ok pm =>
      simp only [bind, Except.bind]
      split
      · split
        · rfl
        · obtain ⟨k, b0, e0, I0, B0, _⟩ := currentBlock_inv h
          simp only [currentBlockM_eq m h, e0, noTerminator_iff.2 (I0.cur k B0),
            grows_insert (I0.block_lt B0) (I0.cur k B0), check_true]
      · cases hB : b.Block with
        | none => rfl
        | some k =>
          have hg := grows_insert (h.block_lt hB) (h.cur k hB) (.ReturnInst none)
          simp only []
          cases hl : (b.C.block k).insts.getLast? with
          | none => simp only [noTerminator_iff.2 (h.cur k hB), hg, check_true]
          | some J =>
            simp only []
            split
            · simp only [noTerminator_iff.2 (h.cur k hB), hg, check_true]
            · rfl

/-- The monitored run of `constructCFG` on a supported tree is the run: it returns the same
result, so that no check of the monitor fails. -/
theorem constructCFGM_eq (m : Monitor) (S : Stmt) (forEach : Bool)
    (hS : S.supported forEach false = true) :
    ∃ r, constructCFG S = .ok r ∧ constructCFGM m S = .ok r := by
  obtain ⟨b, lg, e, I, F, _⟩ :=
    visitStmtLog_inv S forEach false hS [] [] Builder.init Inv.init (by simp)
  have e' := log_fst e
  have eM : visitStmtM m S Builder.init = .ok b := by
    rw [visitStmtM_eq m S forEach false hS [] [] Builder.init Inv.init (by simp)]
    exact e'
  have I' : Inv [] lg b := by simpa using I
  cases hbad : b.badCFG with
  | true =>
    exact ⟨none, by simp [constructCFG, e', hbad, bind, Except.bind],
      by simp [constructCFGM, eM, hbad, bind, Except.bind]⟩
  | false =>
    obtain ⟨b2, e2, _⟩ := finishUp_ok I' F.pdepth (F.quiet (Or.inl rfl))
      (List.length_eq_zero.1 F.bdepth) (List.length_eq_zero.1 F.cdepth)
    exact ⟨some b2.C, by simp [constructCFG, e', hbad, e2, bind, Except.bind],
      by simp [constructCFGM, eM, hbad, finishUpM_eq m I', e2, bind, Except.bind]⟩

/-! ## The checks of the monitor are not implied by the assertions of the source -/

/-- A block with an instruction after a terminator passes the tests of `flushPending`, which
look at the last instruction only, and is rejected by the check of `flushPendingM`. -/
theorem flushStates_check_rejects :
    flushPendingM Monitor.flush 1
        { PendingMergesStack := [[0]], BreakStack := [], ContinueStack := [], ExprToInst := [],
          Block := some 1, C := ⟨[⟨[.ReturnInst none, .DeclRefInst 0], []⟩, ⟨[], []⟩]⟩,
          badCFG := false } = .error .assertion ∧
      ∃ b, flushPending 1
        { PendingMergesStack := [[0]], BreakStack := [], ContinueStack := [], ExprToInst := [],
          Block := some 1, C := ⟨[⟨[.ReturnInst none, .DeclRefInst 0], []⟩, ⟨[], []⟩]⟩,
          badCFG := false } = .ok b :=
  ⟨rfl, _, rfl⟩

/-- The method `popContinueStack` overwrites a target that is set, and each of the checks
`bindOnce` and `keepsClosed` rejects that; the check `appendOpen` rejects the append of a
branch to a block that holds a terminator before its last instruction. -/
theorem monotone_checks_reject :
    rebindContinue 1 0 ⟨[⟨[.UncondBranchInst (some 0)], [0]⟩, ⟨[], []⟩]⟩ =
        .ok ⟨[⟨[.UncondBranchInst (some 1)], [0]⟩, ⟨[], [0]⟩]⟩ ∧
      rebindContinueM ⟨false, false, true, false⟩ 1 0
        ⟨[⟨[.UncondBranchInst (some 0)], [0]⟩, ⟨[], []⟩]⟩ = .error .assertion ∧
      rebindContinueM ⟨false, false, false, true⟩ 1 0
        ⟨[⟨[.UncondBranchInst (some 0)], [0]⟩, ⟨[], []⟩]⟩ = .error .assertion ∧
      flushOne 1 0 ⟨[⟨[.ReturnInst none, .DeclRefInst 0], []⟩, ⟨[], []⟩]⟩ =
        .ok ⟨[⟨[.ReturnInst none, .DeclRefInst 0, .UncondBranchInst (some 1)], []⟩,
          ⟨[], [0]⟩]⟩ ∧
      flushOneM ⟨false, true, false, false⟩ 1 0
        ⟨[⟨[.ReturnInst none, .DeclRefInst 0], []⟩, ⟨[], []⟩]⟩ = .error .assertion := by
  decide

/-! ## Claims C15 and C16 -/

/-- C15. Flush never meets a fully resolved block: for a tree of brace, empty, return, if,
while, do-while, break, continue and for-each statements over supported expressions, with
every break and continue nested in a loop, `constructCFG` returns, and the run monitored
by `Monitor.flush` returns the same result.  The monitored run checks, at every call of
`flushPending`, that the list being flushed holds no block twice and that every block of
it holds no terminator, or holds one terminator, in last position, which is an
unconditional branch whose target is unset or a conditional branch whose first target is
set and whose second target is unset; a failed check, like a failed assertion or cast of
`flushPending`, would end the run without a result. -/
theorem flush_meets_permitted_states (S : Stmt) (hS : S.supported true false = true) :
    ∃ r, constructCFG S = .ok r ∧ constructCFGM Monitor.flush S = .ok r :=
  constructCFGM_eq Monitor.flush S true hS

/-- C15, witness: `{ if (c) { while (d) { if (e) break else continue } } else { return }; x }`. -/
theorem flush_meets_permitted_states_witness :
    Stmt.supported true false (.BraceStmt [.stmt (.IfStmt (.DeclRefExpr 0)
        (.BraceStmt [.stmt (.WhileStmt (.DeclRefExpr 1)
          (.BraceStmt [.stmt (.IfStmt (.DeclRefExpr 2) .BreakStmt (some .ContinueStmt))]))])
        (some (.ReturnStmt none))), .expr (.DeclRefExpr 3)]) = true ∧
    ∃ r, constructCFG (.BraceStmt [.stmt (.IfStmt (.DeclRefExpr 0)
        (.BraceStmt [.stmt (.WhileStmt (.DeclRefExpr 1)
          (.BraceStmt [.stmt (.IfStmt (.DeclRefExpr 2) .BreakStmt (some .ContinueStmt))]))])
        (some (.ReturnStmt none))), .expr (.DeclRefExpr 3)]) = .ok r ∧
      constructCFGM Monitor.flush (.BraceStmt [.stmt (.IfStmt (.DeclRefExpr 0)
        (.BraceStmt [.stmt (.WhileStmt (.DeclRefExpr 1)
          (.BraceStmt [.stmt (.IfStmt (.DeclRefExpr 2) .BreakStmt (some .ContinueStmt))]))])
        (some (.ReturnStmt none))), .expr (.DeclRefExpr 3)]) = .ok r :=
  ⟨by decide, flush_meets_permitted_states _ (by decide)⟩

/-- C16. Monotone construction, targets bound once: for a tree of brace, empty, return, if,
while, do-while, break, continue and for-each statements over supported expressions, with
every break and continue nested in a loop, `constructCFG` returns, and the run monitored
by `Monitor.monotone` returns the same result.  The monitored run checks that every
instruction is appended to a block that holds no terminator; that every `setTarget` of
`popContinueStack` acts on a branch whose target is unset, those of `flushPending` and its
write to the second slot of a conditional branch being guarded by assertions of the source,
which end the run when they fail; and that every step that appends an instruction or writes
a target slot leaves each block that ended in a terminator with the instructions it had, a
slot that was unset apart, and leaves the instructions of every other block in place. -/
theorem monotone_construction (S : Stmt) (hS : S.supported true false = true) :
    ∃ r, constructCFG S = .ok r ∧ constructCFGM Monitor.monotone S = .ok r :=
  constructCFGM_eq Monitor.monotone S true hS

/-- C16, witness: `do { if (c) continue; x; if (d) break } while (e); return 1`. -/
theorem monotone_construction_witness :
    Stmt.supported true false (.BraceStmt [.stmt (.DoWhileStmt
        (.BraceStmt [.stmt (.IfStmt (.DeclRefExpr 0) .ContinueStmt none),
          .expr (.DeclRefExpr 1), .stmt (.IfStmt (.DeclRefExpr 2) .BreakStmt none)])
        (.DeclRefExpr 3)), .stmt (.ReturnStmt (some (.IntegerLiteralExpr 1)))]) = true ∧
    ∃ r, constructCFG (.BraceStmt [.stmt (.DoWhileStmt
        (.BraceStmt [.stmt (.IfStmt (.DeclRefExpr 0) .ContinueStmt none),
          .expr (.DeclRefExpr 1), .stmt (.IfStmt (.DeclRefExpr 2) .BreakStmt none)])
        (.DeclRefExpr 3)), .stmt (.ReturnStmt (some (.IntegerLiteralExpr 1)))]) = .ok r ∧
      constructCFGM Monitor.monotone (.BraceStmt [.stmt (.DoWhileStmt
        (.BraceStmt [.stmt (.IfStmt (.DeclRefExpr 0) .ContinueStmt none),
          .expr (.DeclRefExpr 1), .stmt (.IfStmt (.DeclRefExpr 2) .BreakStmt none)])
        (.DeclRefExpr 3)), .stmt (.ReturnStmt (some (.IntegerLiteralExpr 1)))]) = .ok r :=
  ⟨by decide, monotone_construction _ (by decide)⟩

/-! ## A single return statement -/

/-- The tail of the value-instruction visitors asks for the active block first, so it does
the same from a builder and from the builder that `currentBlock` gives for it. -/
theorem emit_demand {b b1 : Builder} {k : Nat} (h : currentBlock b = .ok (k, b1)) (Ex : Expr)
    (I : Instruction) : emit Ex I b = emit Ex I b1 := by
  simp only [emit, h, currentBlock_of_block (currentBlock_block h), bind, Except.bind]

mutual
/-- The visit of an expression does the same from a builder and from the builder that
`currentBlock` gives for it: the first step that touches the builder is `currentBlock`. -/
theorem visitExpr_demand : ∀ (e : Expr) (b b1 : Builder) (k : Nat),
    currentBlock b = .ok (k, b1) → visitExpr e b = visitExpr e b1
  | .CallExpr Fn Arg, b, b1, k, h => by
    rw [visitExpr, visitExpr, visitExpr_demand Fn b b1 k h]
  | .DeclRefExpr d, b, b1, k, h => by
    rw [visitExpr, visitExpr]
    exact emit_demand h _ _
  | .IntegerLiteralExpr v, b, b1, k, h => by
    rw [visitExpr, visitExpr]
    exact emit_demand h _ _
  | .TypeOfExpr t, b, b1, k, h => by
    rw [visitExpr, visitExpr]
    exact emit_demand h _ _
  | .LoadExpr Sub, b, b1, k, h => by
    rw [visitExpr, visitExpr, visitExpr_demand Sub b b1 k h]
  | .ParenExpr Sub, b, b1, k, h => by
    rw [visitExpr, visitExpr]
    exact visitExpr_demand Sub b b1 k h
  | .ThisApplyExpr Fn Arg, b, b1, k, h => by
    rw [visitExpr, visitExpr, visitExpr_demand Fn b b1 k h]
  | .TupleExpr [], b, b1, k, h => by
    simp only [visitExpr, visitExprs, bind, Except.bind]
    exact emit_demand h _ _
  | .TupleExpr (E :: rest), b, b1, k, h => by
    rw [visitExpr, visitExpr, visitExprs_demand E rest b b1 k h]
  | .OtherExpr _, _, _, _, _ => by
    rw [visitExpr, visitExpr]
/-- The statement of `visitExpr_demand` for a list of expressions that is not empty. -/
theorem visitExprs_demand : ∀ (E : Expr) (rest : List Expr) (b b1 : Builder) (k : Nat),
    currentBlock b = .ok (k, b1) → visitExprs (E :: rest) b = visitExprs (E :: rest) b1
  | E, rest, b, b1, k, h => by
    rw [visitExprs, visitExprs, visitExpr_demand E b b1 k h]
end

/-- C6. Single return body: for a supported expression `e`, `constructCFG` on `return e`
returns the graph of exactly one block, without predecessor, whose instructions are the
reference flattening of `e` into block 0 from position 0 on, followed by one return
terminator whose operand is the handle of the last instruction of that flattening.  The
flattening is what the visit of `e` from the initial builder puts into the graph, and its
last instruction is the value the visit returns; it holds at least one instruction and no
terminator.  The walk of `return e` ends with this one block closed by the return, and
`finishUp` leaves the builder as it finds it: it adds no block and no terminator. -/
theorem single_return (e : Expr) (he : e.supported = true) :
    constructCFG (.ReturnStmt (some e)) =
        .ok (some ⟨[⟨flatten 0 e 0 ++ [.ReturnInst (lastHandle 0 0 (flatten 0 e 0))], []⟩]⟩) ∧
      flatten 0 e 0 ≠ [] ∧ IsOpen (flatten 0 e 0) ∧
      (∃ b1, visitExpr e Builder.init = .ok (lastHandle 0 0 (flatten 0 e 0), b1) ∧
        b1.C = ⟨[⟨flatten 0 e 0, []⟩]⟩) ∧
      ∃ b2, visitStmt (.ReturnStmt (some e)) Builder.init = .ok b2 ∧
        b2.C = ⟨[⟨flatten 0 e 0 ++ [.ReturnInst (lastHandle 0 0 (flatten 0 e 0))], []⟩]⟩ ∧
        finishUp b2 = .ok b2 := by
  obtain ⟨b1, e1, hL, hne⟩ := visitExpr_flatten e 0 0
    { PendingMergesStack := [[]], BreakStack := [], ContinueStack := [], ExprToInst := [],
      Block := some 0, C := ⟨[⟨[], []⟩]⟩, badCFG := false } he rfl (by decide) rfl
  rw [← visitExpr_demand e Builder.init _ 0 currentBlock_init] at e1
  obtain ⟨hC, hB, hP, _, _, hbad⟩ := hL
  have hC' : b1.C = ⟨[⟨flatten 0 e 0, []⟩]⟩ := by
    rw [hC]
    simp [CFG.insertAll, List.modify]
  have hcur := currentBlock_of_block hB
  have hbad' : b1.badCFG = false := hbad
  have hP' : b1.PendingMergesStack = [[]] := hP
  have hins : b1.C.insert 0 (.ReturnInst (lastHandle 0 0 (flatten 0 e 0))) =
      ⟨[⟨flatten 0 e 0 ++ [.ReturnInst (lastHandle 0 0 (flatten 0 e 0))], []⟩]⟩ := by
    rw [hC']
    simp [CFG.insert, List.modify]
  obtain ⟨b2, hb2⟩ : ∃ b2 : Builder, b2 =
      { b1 with C := b1.C.insert 0 (.ReturnInst (lastHandle 0 0 (flatten 0 e 0))),
                Block := none } := ⟨_, rfl⟩
  have ev : visitStmt (.ReturnStmt (some e)) Builder.init = .ok b2 := by
    rw [hb2]
    simp only [visitStmt, e1, lowerReturn, hcur, bind, Except.bind]
  have ef : finishUp b2 = .ok b2 := by
    rw [hb2]
    simp [finishUp, hP', pendingMerges, bind, Except.bind]
  have hC2 : b2.C =
      ⟨[⟨flatten 0 e 0 ++ [.ReturnInst (lastHandle 0 0 (flatten 0 e 0))], []⟩]⟩ := by
    rw [hb2]
    exact hins
  have hbad2 : b2.badCFG = false := by
    rw [hb2]
    exact hbad'
  refine ⟨?_, hne, flatten_isOpen 0 e 0, ⟨b1, e1, hC'⟩, b2, ev, hC2, ef⟩
  simp only [constructCFG, ev, ef, hbad2, hC2, bind, Except.bind]
  rfl

/-- C6, witness: `return 5` gives one block that holds one literal instruction and a return
that refers to it; `return f(x, 5)` gives one block that holds the callee, the two
arguments, the call and a return that refers to the call. -/
theorem single_return_witness :
    (Expr.supported (.IntegerLiteralExpr 5) = true ∧
      constructCFG (.ReturnStmt (some (.IntegerLiteralExpr 5))) =
        .ok (some ⟨[⟨[.IntegerLiteralInst 5, .ReturnInst (some (0, 0))], []⟩]⟩)) ∧
    (Expr.supported (.CallExpr (.DeclRefExpr 0)
        (.TupleExpr [.DeclRefExpr 1, .IntegerLiteralExpr 5])) = true ∧
      constructCFG (.ReturnStmt (some (.CallExpr (.DeclRefExpr 0)
        (.TupleExpr [.DeclRefExpr 1, .IntegerLiteralExpr 5])))) =
        .ok (some ⟨[⟨[.DeclRefInst 0, .DeclRefInst 1, .IntegerLiteralInst 5,
          .CallInst (some (0, 0)) [some (0, 1), some (0, 2)],
          .ReturnInst (some (0, 3))], []⟩]⟩)) := by
  refine ⟨⟨by decide, ?_⟩, by decide, ?_⟩
  · have h := (single_return (.IntegerLiteralExpr 5) (by decide)).1
    simpa [flatten, lastHandle] using h
  · have h := (single_return (.CallExpr (.DeclRefExpr 0)
      (.TupleExpr [.DeclRefExpr 1, .IntegerLiteralExpr 5])) (by decide)).1
    simpa [flatten, flattenAll, flattenArg, lastHandle] using h

end SwiftCFG
